import Mathlib

/-! # Talos SDK for Go: wallet, canonical JSON and the conformance harness

A shallow embedding of `pkg/talos/{errors,crypto,wallet,canonical}` and of
`cmd/talos-sdk/main.go`, followed by the properties proved about it.

Conventions of the embedding:

* a Go `[]byte` is a `List Byte`; a nil slice and an empty slice are both `[]`;
* a Go `string` is a Lean `String` (well-formed UTF-8 only); where the program
  works on the bytes of a string the embedding goes through `utf8`;
* a Go function that can panic returns in `Run`; an `error` result is an
  `Option GoError`;
* a `*Wallet` is an `Option Wallet`, `none` being the nil pointer;
* the Go standard library functions whose code is not part of the repository
  (`crypto/ed25519`, the Unicode case table) are the fields of `Stdlib`.
-/

/-- A byte. -/
abbrev Byte := Fin 256

/-- The UTF-8 bytes of a string: the conversion `[]byte(s)`. -/
def utf8 (s : String) : List Byte :=
  s.toList.flatMap (fun c => (String.utf8EncodeChar c).map (fun u => Fin.ofNat u.toNat))

/-- A run-time panic. -/
inductive Panic
  | nilDereference
  | library (what : String)
deriving DecidableEq, Repr

/-- A computation that returns a value or panics. -/
abbrev Run := Except Panic

/-- A `float64` by its bits: the sign, the 11 bits of the exponent field and
the 52 bits of the fraction. The exponent field 2047 is an infinity (fraction
zero) or a NaN; a smaller one is a finite number, subnormal when it is 0. -/
structure Float64 where
  sign : Bool
  exponent : Fin 2048
  fraction : Fin 4503599627370496
deriving DecidableEq, Repr

namespace Float64

/-- Neither an infinity nor a NaN. -/
def isFinite (f : Float64) : Bool := decide (f.exponent.val < 2047)

/-- The mantissa of a finite float64: the fraction, with the hidden bit
unless the number is subnormal. -/
def mantissa (f : Float64) : Nat :=
  if f.exponent.val = 0 then f.fraction.val else 4503599627370496 + f.fraction.val

/-- The binary exponent of the mantissa of a finite float64, counted from
`-1074`: the magnitude of the number is `mantissa * 2 ^ (shift - 1074)`. -/
def shift (f : Float64) : Nat := f.exponent.val - 1

/-- The magnitude of a finite float64 in units of `2 ^ -1074`, the smallest
positive float64. -/
def units (f : Float64) : Nat := f.mantissa * 2 ^ f.shift

end Float64

/-- Values of type `interface{}` as far as the program meets them. `map` and
`struct` list their entries, a map in an arbitrary order (Go maps are
unordered), a struct in declaration order under the JSON names of its
fields. -/
inductive GoValue
  | null
  | bool (b : Bool)
  | int (n : Int)
  | float64 (f : Float64)
  | str (s : String)
  | slice (xs : List GoValue)
  | map (kvs : List (String × GoValue))
  | struct (fields : List (String × GoValue))
deriving Repr

/-- Indexing a `map[string]interface{}`: `m[key]` with its `ok` flag. -/
def mapIndex (m : List (String × GoValue)) (key : String) : Option GoValue :=
  match m with
  | [] => none
  | (k, v) :: rest => if k = key then some v else mapIndex rest key

/-- Assignment `m[key] = v` on a map. -/
def mapAssign (m : List (String × GoValue)) (key : String) (v : GoValue) :
    List (String × GoValue) :=
  match m with
  | [] => [(key, v)]
  | (k, w) :: rest => if k = key then (k, v) :: rest else (k, w) :: mapAssign rest key v

/-- The type assertion `x.(string)` on an indexed map entry. -/
def asString : Option GoValue → Option String
  | some (.str s) => some s
  | _ => none

/-- The type assertion `x.(bool)` on an indexed map entry. -/
def asBool : Option GoValue → Option Bool
  | some (.bool b) => some b
  | _ => none

/-- The type assertion `x.(float64)` on an indexed map entry. -/
def asFloat64 : Option GoValue → Option Float64
  | some (.float64 f) => some f
  | _ => none

namespace errors

/-- The error codes of `errors.go`. -/
abbrev TalosErrorCode := String

def CodeDenied : TalosErrorCode := "TALOS_DENIED"
def CodeInvalidCapability : TalosErrorCode := "TALOS_INVALID_CAPABILITY"
def CodeProtocolMismatch : TalosErrorCode := "TALOS_PROTOCOL_MISMATCH"
def CodeFrameInvalid : TalosErrorCode := "TALOS_FRAME_INVALID"
def CodeCryptoError : TalosErrorCode := "TALOS_CRYPTO_ERROR"
def CodeInvalidInput : TalosErrorCode := "TALOS_INVALID_INPUT"
def CodeTransportTimeout : TalosErrorCode := "TALOS_TRANSPORT_TIMEOUT"
def CodeTransportError : TalosErrorCode := "TALOS_TRANSPORT_ERROR"

/-- The struct `TalosError`; `ε` is the type of Go errors, for `Cause`.
`Details` lists the entries of a map that `make` has allocated: `New` is the
only place where the program builds a `TalosError`, and the nil map is not a
value of this type. -/
structure TalosError (ε : Type) where
  Code : TalosErrorCode
  Message : String
  Details : List (String × GoValue)
  RequestID : String
  Cause : Option ε

end errors

/-- A non-nil Go `error`: a `*errors.TalosError`, or any other error, of which
only the text of `Error()` is kept. -/
inductive GoError
  | plain (text : String)
  | talos (e : errors.TalosError GoError)

/-- The method `Error()` of an error; on `*TalosError` it is
`TalosError.Error` of `errors.go`. -/
def GoError.Error : GoError → String
  | .plain text => text
  | .talos ⟨code, message, _, _, some cause⟩ =>
    "[" ++ code ++ "] " ++ message ++ ": " ++ cause.Error
  | .talos ⟨code, message, _, _, none⟩ => "[" ++ code ++ "] " ++ message

namespace errors

/-- The method `Unwrap`. -/
def TalosError.Unwrap {ε : Type} (e : TalosError ε) : Option ε := e.Cause

/-- The type `Option` of `errors.go`: a function that updates the error under
construction. -/
abbrev ErrorOption (ε : Type) := TalosError ε → TalosError ε

def WithDetails {ε : Type} (details : List (String × GoValue)) : ErrorOption ε :=
  fun e => { e with Details := details.foldl (fun m kv => mapAssign m kv.1 kv.2) e.Details }

def WithRequestID {ε : Type} (id : String) : ErrorOption ε :=
  fun e => { e with RequestID := id }

def WithCause {ε : Type} (cause : Option ε) : ErrorOption ε :=
  fun e => { e with Cause := cause }

/-- The constructor `New`. -/
def New {ε : Type} (code : TalosErrorCode) (message : String) (opts : List (ErrorOption ε)) :
    TalosError ε :=
  opts.foldl (fun err opt => opt err)
    { Code := code, Message := message, Details := [], RequestID := "", Cause := none }

end errors

/-- The standard-library functions the program calls and whose code is not in
the repository: `ed25519.NewKeyFromSeed`, `ed25519.Sign`, `ed25519.Verify`
(each may panic) and `unicode.ToLower` on the runes outside ASCII. -/
structure Stdlib where
  NewKeyFromSeed : List Byte → Run (List Byte)
  Sign : List Byte → List Byte → Run (List Byte)
  Verify : List Byte → List Byte → List Byte → Run Bool
  ToLowerRune : Char → Char

/-- The part of the contract of `ed25519.NewKeyFromSeed` that the results on
`FromSeed` rest on: a 32-byte seed yields a 64-byte private key, without a panic. -/
def Stdlib.KeyGen (L : Stdlib) : Prop :=
  ∀ seed : List Byte, seed.length = 32 →
    ∃ priv, L.NewKeyFromSeed seed = .ok priv ∧ priv.length = 64

namespace crypto

/-- `ed25519.SeedSize`. -/
def SeedSize : Nat := 32
/-- `ed25519.PublicKeySize`. -/
def PublicKeySize : Nat := 32

/-- `PrivateKey.Public`: a fresh 32-byte key filled by `copy` from `priv[32:]`. -/
def Public (priv : List Byte) : Run (List Byte) :=
  if priv.length < 32 then throw (.library "slice bounds out of range")
  else pure ((priv.drop 32 ++ List.replicate 32 0).take 32)

def Sign (L : Stdlib) (privateKey message : List Byte) : Run (List Byte) :=
  L.Sign privateKey message

def Verify (L : Stdlib) (publicKey message signature : List Byte) : Run Bool :=
  L.Verify publicKey message signature

/-- The function `crypto.FromSeed`: `(publicKey, privateKey, err)`. -/
def FromSeed (L : Stdlib) (seed : List Byte) :
    Run (List Byte × List Byte × Option GoError) :=
  if seed.length ≠ SeedSize then
    pure ([], [], some (.plain ("invalid seed length: got " ++ Nat.repr seed.length ++
      ", want " ++ Nat.repr SeedSize)))
  else do
    let privateKey ← L.NewKeyFromSeed seed
    let publicKey ← Public privateKey
    pure (publicKey, privateKey, none)

end crypto

namespace strconv

/-- The number of halvings that bring `a` below `2^53`, counted 1024 or 32 at a
time while the number is large; the fuel bounds the number of steps. -/
def shiftFor : Nat → Nat → Nat
  | 0, _ => 0
  | fuel + 1, a =>
    if a < 2 ^ 53 then 0
    else if a < 2 ^ 85 then shiftFor fuel (a / 2) + 1
    else if a < 2 ^ 1077 then shiftFor fuel (a / 2 ^ 32) + 32
    else shiftFor fuel (a / 2 ^ 1024) + 1024

/-- The float64 nearest to the ratio `p / q` of units of `2 ^ -1074`, ties
going to the even mantissa, as a number of units: below `2^53` units the
float64s are the whole numbers of units, above they are the multiples of the
power of two that leaves 53 bits. -/
def roundRatio (p q : Nat) : Nat :=
  let e := shiftFor (p / q) (p / q)
  let d := q * 2 ^ e
  let m := p / d
  let r := p % d
  if 2 * r < d ∨ (2 * r = d ∧ m % 2 = 0) then m * 2 ^ e else (m + 1) * 2 ^ e

end strconv

namespace Float64

/-- The float64 of the given sign whose magnitude is `n` units of `2 ^ -1074`,
for a magnitude that is one of a float64; an infinity from `2 ^ 2098` units on. -/
def ofUnits (sign : Bool) (n : Nat) : Float64 :=
  if n < 4503599627370496 then ⟨sign, 0, Fin.ofNat n⟩
  else if strconv.shiftFor n n + 1 < 2047 then
    ⟨sign, Fin.ofNat (strconv.shiftFor n n + 1),
      Fin.ofNat (n / 2 ^ strconv.shiftFor n n - 4503599627370496)⟩
  else ⟨sign, 2047, 0⟩

end Float64

namespace strconv

/-- The float64 that `strconv.ParseFloat` returns for the decimal
`digits * 10 ^ exp10` with the given sign: the nearest float64, an infinity
when that is out of range. -/
def decimalToFloat (negative : Bool) (digits : Nat) (exp10 : Int) : Float64 :=
  if 0 ≤ exp10 then Float64.ofUnits negative (roundRatio (digits * 10 ^ exp10.toNat * 2 ^ 1074) 1)
  else Float64.ofUnits negative (roundRatio (digits * 2 ^ 1074) (10 ^ (-exp10).toNat))

/-- The number of decimal digits of a positive number, with fuel for one step
per digit. -/
def digitCount : Nat → Nat → Nat
  | 0, _ => 0
  | fuel + 1, n => if n < 10 then 1 else digitCount fuel (n / 10) + 1

/-- The search of the shortest decimal of the float64 of `n` units whose exact
decimal is `a / 10 ^ s`: `k` more digits may still be dropped from `a`; the
candidates are `a` rounded down and up to a multiple of `10 ^ k`, and one is
taken when it reads back as the float64 (the closer one when both do, the
even one when they are equally close). -/
def shortestFrom (n s a : Nat) : Nat → Nat
  | 0 => a
  | k + 1 =>
    let p := 10 ^ (k + 1)
    let lo := a / p * p
    let hi := lo + p
    let okLo := decide (roundRatio (lo * 2 ^ (1074 - s)) (5 ^ s) = n)
    let okHi := decide (roundRatio (hi * 2 ^ (1074 - s)) (5 ^ s) = n)
    if okLo ∧ okHi then
      (if a - lo < hi - a ∨ (a - lo = hi - a ∧ (a / p) % 2 = 0) then lo else hi)
    else if okLo then lo
    else if okHi then hi
    else shortestFrom n s a k

/-- The number of decimal places of the exact decimal of a finite float64. -/
def decimalPlaces (f : Float64) : Nat := 1074 - f.shift

/-- The exact decimal of a finite float64, as a whole number of units of
`10 ^ -decimalPlaces`. -/
def exactDecimal (f : Float64) : Nat := f.mantissa * 2 ^ (f.shift - 1074) * 5 ^ (1074 - f.shift)

/-- The shortest decimal that reads back as the finite float64 `f`, in units
of `10 ^ -decimalPlaces`: the digits of `strconv.FormatFloat` with precision
`-1`. -/
def shortestDecimal (f : Float64) : Nat :=
  shortestFrom f.units (decimalPlaces f) (exactDecimal f)
    (digitCount (exactDecimal f) (exactDecimal f) - 1)

/-- A number without its trailing zeros, and the number of zeros taken off,
with fuel for one step per zero. -/
def stripZeros : Nat → Nat → Nat → Nat × Nat
  | 0, d, z => (d, z)
  | fuel + 1, d, z => if d % 10 = 0 ∧ d ≠ 0 then stripZeros fuel (d / 10) (z + 1) else (d, z)

/-- The last `count` decimal digits of `b`, zeros in front included. -/
def fracDigits : Nat → Nat → List Char
  | 0, _ => []
  | count + 1, b => fracDigits count (b / 10) ++ [Nat.digitChar (b % 10)]

/-- The parts of the text of a number: the sign, the digits before the
point, the digits behind it (none when there is no point) and the exponent
with its sign (none when there is none). -/
structure NumberText where
  negative : Bool
  intDigits : List Char
  fracDigits : List Char
  exponent : Option (Bool × List Char)
deriving DecidableEq, Repr

/-- The text of the digits behind the point, with the point. -/
def fractionText (frac : List Char) : List Char := if frac = [] then [] else '.' :: frac

/-- The text of the exponent, its sign always written. -/
def exponentText : Option (Bool × List Char) → List Char
  | none => []
  | some (neg, ds) => 'e' :: (if neg then '-' else '+') :: ds

/-- The text of the parts. -/
def NumberText.text (t : NumberText) : List Char :=
  (if t.negative then ['-'] else [])
    ++ t.intDigits ++ fractionText t.fracDigits ++ exponentText t.exponent

/-- The float64 below which `encoding/json` prints the exponent form: the
constant `1e-6`, in units of `2 ^ -1074`. -/
def smallCutoff : Nat := roundRatio (2 ^ 1074) (10 ^ 6)

/-- The float64 from which on `encoding/json` prints the exponent form: the
constant `1e21`, in units of `2 ^ -1074`. -/
def largeCutoff : Nat := 10 ^ 21 * 2 ^ 1074

/-- The parts of the text that `encoding/json` prints for a finite float64:
the shortest decimal that reads back as the number, in the form `%f`, or in
the form `%e` when the number is below `1e-6` or at least `1e21` and not zero;
the exponent has no zero in front. -/
def floatParts (f : Float64) : NumberText :=
  if f.units = 0 then
    { negative := f.sign, intDigits := ['0'], fracDigits := [], exponent := none }
  else
    let c := shortestDecimal f
    let s := decimalPlaces f
    let d := (stripZeros c c 0).1
    let z := (stripZeros c c 0).2
    if f.units < smallCutoff ∨ largeCutoff ≤ f.units then
      let places := digitCount d d - 1
      { negative := f.sign,
        intDigits := (Nat.repr (d / 10 ^ places)).toList,
        fracDigits := fracDigits places (d % 10 ^ places),
        exponent :=
          if s ≤ z + places then some (false, (Nat.repr (z + places - s)).toList)
          else some (true, (Nat.repr (s - (z + places))).toList) }
    else if s ≤ z then
      { negative := f.sign, intDigits := (Nat.repr (d * 10 ^ (z - s))).toList, fracDigits := [],
        exponent := none }
    else
      { negative := f.sign, intDigits := (Nat.repr (d / 10 ^ (s - z))).toList,
        fracDigits := fracDigits (s - z) (d % 10 ^ (s - z)), exponent := none }

/-- The text of `strconv.AppendInt(n, 10)`. -/
def intText (n : Int) : List Char :=
  if n < 0 then '-' :: (Nat.repr n.natAbs).toList else (Nat.repr n.natAbs).toList

/-- The text that `encoding/json` prints for a float64; it prints none for
a NaN or an infinity, whose text here is the one of `strconv.FormatFloat`. -/
def floatText (f : Float64) : List Char :=
  if f.isFinite then (floatParts f).text
  else if f.fraction.val ≠ 0 then ['N', 'a', 'N']
  else if f.sign then ['-', 'I', 'n', 'f'] else ['+', 'I', 'n', 'f']

/-- The value of a run of decimal digits. -/
def digitsValue (ds : List Char) : Nat := ds.foldl (fun acc c => acc * 10 + (c.toNat - 48)) 0

/-- The exponent that `strconv.ParseFloat` reads from a run of digits: digits
are taken in while the value is below 10000. -/
def exponentValue (ds : List Char) : Nat :=
  ds.foldl (fun e c => if e < 10000 then e * 10 + (c.toNat - 48) else e) 0

/-- The function `strconv.ParseFloat` on the parts of the text of a number. -/
def parseParts (t : NumberText) : Float64 :=
  let e : Int :=
    match t.exponent with
    | none => 0
    | some (neg, ds) => if neg then -(exponentValue ds : Int) else (exponentValue ds : Int)
  decimalToFloat t.negative (digitsValue (t.intDigits ++ t.fracDigits))
    (e - (t.fracDigits.length : Int))

end strconv

namespace json

/-- The errors of `json.Marshal` and `json.Unmarshal`: a NaN or an infinity to
encode (`UnsupportedValueError`), a text that is not JSON (`SyntaxError`), a
text nested deeper than the limit, and a number outside the range of
`float64` (`UnmarshalTypeError`). -/
inductive JsonError
  | unsupported
  | invalid
  | maxDepth
  | range
deriving DecidableEq, Repr

/-- The limit `maxNestingDepth` of the decoder. -/
def maxNestingDepth : Nat := 10000

/-- A lower-case hex digit. -/
def hexDigit (d : Nat) : Char := "0123456789abcdef".toList.getD d '0'

/-- The text of one character inside a string literal, as `json.Marshal`
writes it (with HTML escaping): a quote and a backslash behind a backslash;
backspace, form feed, line feed, carriage return and tab as a backslash and
the letter `b`, `f`, `n`, `r`, `t`; the other control characters and `<`, `>`,
`&` as a backslash, `u00` and two hex digits; U+2028 and U+2029 as a
backslash and `u2028`, `u2029`; any other character as it is. -/
def escapeChar (c : Char) : List Char :=
  if c = '"' then ['\\', '"']
  else if c = '\\' then ['\\', '\\']
  else if c.toNat = 8 then ['\\', 'b']
  else if c.toNat = 12 then ['\\', 'f']
  else if c.toNat = 10 then ['\\', 'n']
  else if c.toNat = 13 then ['\\', 'r']
  else if c.toNat = 9 then ['\\', 't']
  else if c.toNat < 32 ∨ c = '<' ∨ c = '>' ∨ c = '&' then
    ['\\', 'u', '0', '0', hexDigit (c.toNat / 16), hexDigit (c.toNat % 16)]
  else if c.toNat = 8232 then ['\\', 'u', '2', '0', '2', '8']
  else if c.toNat = 8233 then ['\\', 'u', '2', '0', '2', '9']
  else [c]

/-- A string literal. -/
def encodeString (s : String) : List Char :=
  '"' :: (s.toList.flatMap escapeChar ++ ['"'])

/-- The texts joined by commas. -/
def joinComma : List (List Char) → List Char
  | [] => []
  | [x] => x
  | x :: y :: rest => x ++ ',' :: joinComma (y :: rest)

/-- One member of an object: the key, a colon, the value. -/
def member (kv : String × List Char) : List Char := encodeString kv.1 ++ ':' :: kv.2

/-- The order in which `json.Marshal` writes the entries of a map: ascending by
key, the keys compared as strings. -/
def sortByKey {α : Type} (kvs : List (String × α)) : List (String × α) :=
  kvs.insertionSort (fun a b => a.1.toList ≤ b.1.toList)

mutual
/-- The text that `json.Marshal` writes for a value: no white space, the
entries of a map sorted by key, the fields of a struct in declaration order. -/
def encode : GoValue → List Char
  | .null => ['n', 'u', 'l', 'l']
  | .bool b => if b then ['t', 'r', 'u', 'e'] else ['f', 'a', 'l', 's', 'e']
  | .int n => strconv.intText n
  | .float64 f => strconv.floatText f
  | .str s => encodeString s
  | .slice xs => '[' :: (joinComma (encodeElems xs) ++ [']'])
  | .map kvs => '{' :: (joinComma ((sortByKey (encodeFields kvs)).map member) ++ ['}'])
  | .struct fields => '{' :: (joinComma ((encodeFields fields).map member) ++ ['}'])
/-- The texts of the elements of a slice. -/
def encodeElems : List GoValue → List (List Char)
  | [] => []
  | x :: xs => encode x :: encodeElems xs
/-- The keys of the entries of a map or struct with the texts of their values. -/
def encodeFields : List (String × GoValue) → List (String × List Char)
  | [] => []
  | (k, v) :: rest => (k, encode v) :: encodeFields rest
end

mutual
/-- No `float64` of the value, at any depth, is a NaN or an infinity. -/
def allFinite : GoValue → Bool
  | .float64 f => f.isFinite
  | .slice xs => allFiniteElems xs
  | .map kvs => allFiniteFields kvs
  | .struct fields => allFiniteFields fields
  | _ => true
/-- No `float64` of an element is a NaN or an infinity. -/
def allFiniteElems : List GoValue → Bool
  | [] => true
  | x :: xs => allFinite x && allFiniteElems xs
/-- No `float64` of the value of an entry is a NaN or an infinity. -/
def allFiniteFields : List (String × GoValue) → Bool
  | [] => true
  | (_, v) :: rest => allFinite v && allFiniteFields rest
end

/-- The function `json.Marshal`: the text of the value, or the error
`UnsupportedValueError` when a `float64` of the value is a NaN or an infinity. -/
def Marshal (v : GoValue) : Except JsonError String :=
  if allFinite v then .ok (String.mk (encode v)) else .error .unsupported

/-- White space between the tokens of a JSON text. -/
def isSpace (c : Char) : Bool := c = ' ' || c = '\t' || c = '\r' || c = '\n'

/-- The text after its leading white space. -/
def skipSpace : List Char → List Char
  | [] => []
  | c :: cs => if isSpace c then skipSpace cs else c :: cs

/-- The value of a hex digit, of either case. -/
def hexVal (c : Char) : Option Nat :=
  if 48 ≤ c.toNat ∧ c.toNat ≤ 57 then some (c.toNat - 48)
  else if 97 ≤ c.toNat ∧ c.toNat ≤ 102 then some (c.toNat - 87)
  else if 65 ≤ c.toNat ∧ c.toNat ≤ 70 then some (c.toNat - 55)
  else none

/-- The value of four hex digits: `getu4`. -/
def hex4 (a b c d : Char) : Option Nat :=
  match hexVal a, hexVal b, hexVal c, hexVal d with
  | some x, some y, some z, some w => some (x * 4096 + y * 256 + z * 16 + w)
  | _, _, _, _ => none

/-- The character that follows a backslash, other than `u`. -/
def simpleEscape (e : Char) : Option Char :=
  if e = '"' then some '"'
  else if e = '\\' then some '\\'
  else if e = '/' then some '/'
  else if e = 'b' then some (Char.ofNat 8)
  else if e = 'f' then some (Char.ofNat 12)
  else if e = 'n' then some (Char.ofNat 10)
  else if e = 'r' then some (Char.ofNat 13)
  else if e = 't' then some (Char.ofNat 9)
  else none

/-- A character put in front of the characters decoded behind it. -/
def pushChar (c : Char) :
    Except JsonError (List Char × List Char) → Except JsonError (List Char × List Char)
  | .ok (s, t) => .ok (c :: s, t)
  | .error err => .error err

/-- The low half of a surrogate pair, when the text goes on with a backslash,
`u` and four hex digits in the low surrogate range: its value and the text
behind it. -/
def lowSurrogate : List Char → Option (Nat × List Char)
  | bs :: u :: a :: b :: c :: d :: rest =>
    if bs = '\\' ∧ u = 'u' then
      match hex4 a b c d with
      | some n => if 56320 ≤ n ∧ n < 57344 then some (n, rest) else none
      | none => none
    else none
  | _ => none

/-- The character of an escape with `u`, from behind the `u`: four hex digits;
a high surrogate followed by a low one is the character of the pair, any
other surrogate is U+FFFD. -/
def unescapeU : List Char → Except JsonError (Char × List Char)
  | a :: b :: c :: d :: rest =>
    match hex4 a b c d with
    | none => .error .invalid
    | some n =>
      if 55296 ≤ n ∧ n < 57344 then
        match (if n < 56320 then lowSurrogate rest else none) with
        | some (n2, rest') =>
          .ok (Char.ofNat ((n - 55296) * 1024 + (n2 - 56320) + 65536), rest')
        | none => .ok (Char.ofNat 65533, rest)
      else .ok (Char.ofNat n, rest)
  | _ => .error .invalid

/-- One character of a string literal and the text behind it: an escape, or a
character that is not a control character. -/
def unquoteStep : List Char → Except JsonError (Char × List Char)
  | [] => .error .invalid
  | c :: rest =>
    if c = '\\' then
      match rest with
      | [] => .error .invalid
      | e :: r =>
        if e = 'u' then unescapeU r
        else
          match simpleEscape e with
          | none => .error .invalid
          | some ch => .ok (ch, r)
    else if c.toNat < 32 then .error .invalid
    else .ok (c, rest)

/-- The decoder of a string literal, from behind the opening quote, with
fuel for one step per character: the characters of the string and the text
behind the closing quote. -/
def unquoteFrom : Nat → List Char → Except JsonError (List Char × List Char)
  | 0, _ => .error .invalid
  | fuel + 1, s =>
    if s.head? = some '"' then .ok ([], s.tail)
    else
      match unquoteStep s with
      | .error err => .error err
      | .ok (c, rest) => pushChar c (unquoteFrom fuel rest)

/-- The decoder of a string literal; every step reads at least one character,
so the length of the text is fuel enough. -/
def unquote (s : List Char) : Except JsonError (List Char × List Char) :=
  unquoteFrom (s.length + 1) s

/-- The digits behind the point of a number, when the text goes on with a
point: at least one digit has to follow. -/
def lexFraction (s : List Char) : Except JsonError (List Char × List Char) :=
  if s.head? = some '.' then
    (if s.tail.takeWhile Char.isDigit = [] then .error .invalid
     else .ok (s.tail.takeWhile Char.isDigit, s.tail.dropWhile Char.isDigit))
  else .ok ([], s)

/-- The exponent of a number, when the text goes on with `e` or `E`: an
optional sign and at least one digit. -/
def lexExponent (s : List Char) : Except JsonError (Option (Bool × List Char) × List Char) :=
  if s.head? = some 'e' ∨ s.head? = some 'E' then
    let r := if s.tail.head? = some '+' ∨ s.tail.head? = some '-' then s.tail.tail else s.tail
    if r.takeWhile Char.isDigit = [] then .error .invalid
    else .ok (some (decide (s.tail.head? = some '-'), r.takeWhile Char.isDigit),
      r.dropWhile Char.isDigit)
  else .ok (none, s)

/-- The parts of the number at the head of the text, by the grammar of JSON,
and the text behind it: an optional minus sign, `0` or a run of digits that
does not start with `0`, an optional fraction, an optional exponent. -/
def lexNumber (s : List Char) : Except JsonError (strconv.NumberText × List Char) :=
  let body := if s.head? = some '-' then s.tail else s
  match body with
  | [] => .error .invalid
  | d :: r =>
    if d.isDigit = false then .error .invalid
    else
      match lexFraction (if d = '0' then r else r.dropWhile Char.isDigit) with
      | .error err => .error err
      | .ok (frac, s3) =>
        match lexExponent s3 with
        | .error err => .error err
        | .ok (exponent, s4) =>
          .ok ({ negative := decide (s.head? = some '-'),
                 intDigits := if d = '0' then [d] else d :: r.takeWhile Char.isDigit,
                 fracDigits := frac, exponent := exponent }, s4)

/-- The decoder of a number, from its first character: the text of the
number is read by the grammar of JSON and converted by `strconv.ParseFloat`;
a number that is out of the range of `float64` is an error. -/
def parseNumber (s : List Char) : Except JsonError (GoValue × List Char) :=
  match lexNumber s with
  | .error err => .error err
  | .ok (t, rest) =>
    if (strconv.parseParts t).isFinite then .ok (.float64 (strconv.parseParts t), rest)
    else .error .range

/-- The literal `word` at the head of the text. -/
def parseLiteral (word : List Char) (v : GoValue) (s : List Char) :
    Except JsonError (GoValue × List Char) :=
  if word.isPrefixOf s then .ok (v, s.drop word.length) else .error .invalid

/-- The map that the decoder builds from the members of an object in the order
of the text: a later member with the same key replaces the earlier one. -/
def buildMap (members : List (String × GoValue)) : List (String × GoValue) :=
  members.foldl (fun m kv => mapAssign m kv.1 kv.2) []

mutual
/-- The decoder of a value into `interface{}`: `depth` is the number of arrays
and objects around the value, `fuel` bounds the number of nested calls (see
`Unmarshal`). An object becomes a `map`, an array a `slice`, a number a
`float64`. -/
def parseValue : Nat → Nat → List Char → Except JsonError (GoValue × List Char)
  | 0, _, _ => .error .invalid
  | fuel + 1, depth, s =>
    match skipSpace s with
    | [] => .error .invalid
    | c :: rest =>
      if c = '"' then
        match unquote rest with
        | .ok (str, r) => .ok (.str (String.mk str), r)
        | .error err => .error err
      else if c = '[' then
        if maxNestingDepth < depth + 1 then .error .maxDepth
        else if (skipSpace rest).head? = some ']' then .ok (.slice [], (skipSpace rest).tail)
        else
          match parseElements fuel (depth + 1) rest with
          | .ok (xs, r) => .ok (.slice xs, r)
          | .error err => .error err
      else if c = '{' then
        if maxNestingDepth < depth + 1 then .error .maxDepth
        else if (skipSpace rest).head? = some '}' then .ok (.map [], (skipSpace rest).tail)
        else
          match parseMembers fuel (depth + 1) rest with
          | .ok (members, r) => .ok (.map (buildMap members), r)
          | .error err => .error err
      else if c = 'n' then parseLiteral ['n', 'u', 'l', 'l'] .null (c :: rest)
      else if c = 't' then parseLiteral ['t', 'r', 'u', 'e'] (.bool true) (c :: rest)
      else if c = 'f' then parseLiteral ['f', 'a', 'l', 's', 'e'] (.bool false) (c :: rest)
      else if c = '-' ∨ c.isDigit then parseNumber (c :: rest)
      else .error .invalid
/-- The elements of an array up to its closing bracket. -/
def parseElements : Nat → Nat → List Char → Except JsonError (List GoValue × List Char)
  | 0, _, _ => .error .invalid
  | fuel + 1, depth, s =>
    match parseValue fuel depth s with
    | .error err => .error err
    | .ok (v, r) =>
      match skipSpace r with
      | [] => .error .invalid
      | c :: r' =>
        if c = ',' then
          match parseElements fuel depth r' with
          | .ok (vs, r'') => .ok (v :: vs, r'')
          | .error err => .error err
        else if c = ']' then .ok ([v], r')
        else .error .invalid
/-- The members of an object up to its closing brace, in the order of the text. -/
def parseMembers : Nat → Nat → List Char →
    Except JsonError (List (String × GoValue) × List Char)
  | 0, _, _ => .error .invalid
  | fuel + 1, depth, s =>
    match skipSpace s with
    | [] => .error .invalid
    | q :: r =>
      if q = '"' then
        match unquote r with
        | .error err => .error err
        | .ok (key, r1) =>
          match skipSpace r1 with
          | [] => .error .invalid
          | colon :: r2 =>
            if colon = ':' then
              match parseValue fuel depth r2 with
              | .error err => .error err
              | .ok (v, r3) =>
                match skipSpace r3 with
                | [] => .error .invalid
                | c :: r4 =>
                  if c = ',' then
                    match parseMembers fuel depth r4 with
                    | .ok (members, r5) => .ok ((String.mk key, v) :: members, r5)
                    | .error err => .error err
                  else if c = '}' then .ok ([(String.mk key, v)], r4)
                  else .error .invalid
            else .error .invalid
      else .error .invalid
end

/-- The function `json.Unmarshal` into an `interface{}`: one value, with
nothing but white space behind it. Every nested call of the decoder reads at
least one character, so the length of the text is fuel enough. -/
def Unmarshal (data : String) : Except JsonError GoValue :=
  match parseValue (data.toList.length + 1) 0 data.toList with
  | .error err => .error err
  | .ok (v, rest) => if skipSpace rest = [] then .ok v else .error .invalid

end json

namespace json

/-- The text behind a value inside a JSON text: the end of the text, or a
comma or closing bracket or brace. -/
def Delimited (rest : List Char) : Prop :=
  rest = [] ∨ ∃ c r, rest = c :: r ∧ (c = ',' ∨ c = ']' ∨ c = '}')

/-- The float64 that `json.Unmarshal` reads from the text of the integer `n`:
the float64 nearest to `n`. -/
def float64OfInt (n : Int) : Float64 := strconv.decimalToFloat (decide (n < 0)) n.natAbs 0

mutual
/-- The value of type `interface{}` that `json.Unmarshal` builds from the text
that `json.Marshal` writes for a value: a number becomes a `float64`, a
struct a map with its fields in declaration order, a map a map with its
entries in the order of the text, which is the order of the keys. -/
def generic : GoValue → GoValue
  | .null => .null
  | .bool b => .bool b
  | .int n => .float64 (float64OfInt n)
  | .float64 f => .float64 f
  | .str s => .str s
  | .slice xs => .slice (genericElems xs)
  | .map kvs => .map (sortByKey (genericFields kvs))
  | .struct fields => .map (genericFields fields)
/-- The elements of a slice as `Unmarshal` builds them. -/
def genericElems : List GoValue → List GoValue
  | [] => []
  | x :: xs => generic x :: genericElems xs
/-- The entries of a map or struct as `Unmarshal` builds them. -/
def genericFields : List (String × GoValue) → List (String × GoValue)
  | [] => []
  | (k, v) :: rest => (k, generic v) :: genericFields rest
end

end json

namespace GoValue

mutual
/-- The nesting depth of a value: the number of slices, maps and structs
around its innermost part. -/
def depth : GoValue → Nat
  | .slice xs => depthElems xs + 1
  | .map kvs => depthFields kvs + 1
  | .struct fields => depthFields fields + 1
  | _ => 0
/-- The largest depth among the elements of a slice. -/
def depthElems : List GoValue → Nat
  | [] => 0
  | x :: xs => max (depth x) (depthElems xs)
/-- The largest depth among the values of the entries of a map or struct. -/
def depthFields : List (String × GoValue) → Nat
  | [] => 0
  | (_, v) :: rest => max (depth v) (depthFields rest)
end

mutual
/-- The terms that denote a Go value: an `int` is in the range of `int64`, the
keys of a map are distinct, and so are the JSON names of the fields of a
struct. -/
def WellFormed : GoValue → Prop
  | .int n => -9223372036854775808 ≤ n ∧ n < 9223372036854775808
  | .slice xs => WellFormedElems xs
  | .map kvs => (kvs.map Prod.fst).Nodup ∧ WellFormedFields kvs
  | .struct fields => (fields.map Prod.fst).Nodup ∧ WellFormedFields fields
  | _ => True
/-- Every element of a slice is well formed. -/
def WellFormedElems : List GoValue → Prop
  | [] => True
  | x :: xs => WellFormed x ∧ WellFormedElems xs
/-- Every value of an entry is well formed. -/
def WellFormedFields : List (String × GoValue) → Prop
  | [] => True
  | (_, v) :: rest => WellFormed v ∧ WellFormedFields rest
end

/-- The Go values that `json.Marshal` encodes: no `float64` of the value is a
NaN or an infinity. -/
def Printable (v : GoValue) : Prop := v.WellFormed ∧ json.allFinite v = true

mutual
/-- The entries of every map and struct of the value are in strictly
ascending order of their keys, the keys compared character by character
(for UTF-8 text that is the order of the bytes). -/
def KeysAscending : GoValue → Prop
  | .slice xs => KeysAscendingElems xs
  | .map kvs => (kvs.map (fun kv => kv.1.toList)).Pairwise (· < ·) ∧ KeysAscendingFields kvs
  | .struct fields =>
    (fields.map (fun kv => kv.1.toList)).Pairwise (· < ·) ∧ KeysAscendingFields fields
  | _ => True
/-- The keys are ascending in every element of a slice. -/
def KeysAscendingElems : List GoValue → Prop
  | [] => True
  | x :: xs => KeysAscending x ∧ KeysAscendingElems xs
/-- The keys are ascending in every value of an entry. -/
def KeysAscendingFields : List (String × GoValue) → Prop
  | [] => True
  | (_, v) :: rest => KeysAscending v ∧ KeysAscendingFields rest
end

mutual
/-- The values that `json.Unmarshal` builds in an `interface{}`: `nil`, a
`bool`, a finite `float64`, a `string`, a slice of such values, or a map of
such values (with distinct keys). -/
def IsGeneric : GoValue → Prop
  | .null => True
  | .bool _ => True
  | .int _ => False
  | .float64 f => f.isFinite = true
  | .str _ => True
  | .slice xs => IsGenericElems xs
  | .map kvs => (kvs.map Prod.fst).Nodup ∧ IsGenericFields kvs
  | .struct _ => False
/-- Every element of a slice is such a value. -/
def IsGenericElems : List GoValue → Prop
  | [] => True
  | x :: xs => IsGeneric x ∧ IsGenericElems xs
/-- Every value of an entry is such a value. -/
def IsGenericFields : List (String × GoValue) → Prop
  | [] => True
  | (_, v) :: rest => IsGeneric v ∧ IsGenericFields rest
end

end GoValue

namespace json

/-- The decoder reads the text of `v` back, wherever that text stands: with
fuel for the length of the text, within the depth limit, and in front of any
text that may follow a value, it returns `generic v` and that text. -/
def ReadsBack (v : GoValue) : Prop :=
  ∀ (fuel depth : Nat) (rest : List Char), (encode v).length ≤ fuel →
    depth + v.depth ≤ maxNestingDepth → Delimited rest →
    parseValue fuel depth (encode v ++ rest) = .ok (generic v, rest)

/-- The decoder gives up on a text of `v` that would go beyond the depth limit:
started within the limit, with fuel for the length of the text, it returns
the error `maxDepth`. -/
def TooDeep (v : GoValue) : Prop :=
  ∀ (fuel depth : Nat) (rest : List Char), (encode v).length ≤ fuel →
    depth ≤ maxNestingDepth → maxNestingDepth < depth + v.depth → Delimited rest →
    parseValue fuel depth (encode v ++ rest) = .error .maxDepth

end json

namespace json

/-- Where a reader of a JSON text stands: between tokens or inside a token
that is not a string, inside a string literal, or behind a backslash inside
a string literal. -/
inductive ScanState
  | outside
  | inString
  | escaped
deriving DecidableEq, Repr

/-- The characters of a JSON text that stand outside its string literals
(the quotes of a literal belong to the literal). -/
def outsideStrings : ScanState → List Char → List Char
  | _, [] => []
  | .outside, c :: rest =>
    if c = '"' then outsideStrings .inString rest else c :: outsideStrings .outside rest
  | .inString, c :: rest =>
    if c = '\\' then outsideStrings .escaped rest
    else if c = '"' then outsideStrings .outside rest
    else outsideStrings .inString rest
  | .escaped, _ :: rest => outsideStrings .inString rest

/-- The text `t` has no white space outside its string literals and closes
every string literal it opens: a reader that enters `t` between tokens leaves
it between tokens, and none of the characters it met outside a string literal
is white space. -/
def Compact (t : List Char) : Prop :=
  ∀ rest : List Char, ∃ p : List Char,
    outsideStrings .outside (t ++ rest) = p ++ outsideStrings .outside rest
      ∧ ∀ c ∈ p, isSpace c = false

end json

namespace GoValue

/-- The value `b` is the value `a` with the entries of some of its maps listed
in another order: the same key/value pairs inserted in a different order, at
the top level (`perm`) or inside another map, slice or struct. The keys of a
map are distinct. -/
inductive Reordered : GoValue → GoValue → Prop
  | refl (v : GoValue) : Reordered v v
  | trans {a b c : GoValue} : Reordered a b → Reordered b c → Reordered a c
  | perm {kvs kvs' : List (String × GoValue)} :
      (kvs.map Prod.fst).Nodup → kvs.Perm kvs' → Reordered (.map kvs) (.map kvs')
  | inMap {v v' : GoValue} (k : String) (kvs : List (String × GoValue)) :
      Reordered v v' → Reordered (.map ((k, v) :: kvs)) (.map ((k, v') :: kvs))
  | inStruct {v v' : GoValue} (pre post : List (String × GoValue)) (k : String) :
      Reordered v v' →
      Reordered (.struct (pre ++ (k, v) :: post)) (.struct (pre ++ (k, v') :: post))
  | inSlice {x x' : GoValue} (pre post : List GoValue) :
      Reordered x x' → Reordered (.slice (pre ++ x :: post)) (.slice (pre ++ x' :: post))

end GoValue

namespace canonical

mutual
/-- The canonical form of a value in the words of the specification: every
object, at every depth, has its entries sorted by ascending key; a number is
the float64 that its text denotes. -/
def canonicalForm : GoValue → GoValue
  | .null => .null
  | .bool b => .bool b
  | .int n => .float64 (json.float64OfInt n)
  | .float64 f => .float64 f
  | .str s => .str s
  | .slice xs => .slice (canonicalElems xs)
  | .map kvs => .map (json.sortByKey (canonicalFields kvs))
  | .struct fields => .map (json.sortByKey (canonicalFields fields))
/-- The canonical forms of the elements of a slice. -/
def canonicalElems : List GoValue → List GoValue
  | [] => []
  | x :: xs => canonicalForm x :: canonicalElems xs
/-- The entries of an object with their values in canonical form. -/
def canonicalFields : List (String × GoValue) → List (String × GoValue)
  | [] => []
  | (k, v) :: rest => (k, canonicalForm v) :: canonicalFields rest
end

mutual
/-- The compact text of a value in the words of the specification: the tokens
one after the other with no white space between them, the entries of an
object in the order in which the value lists them. -/
def render : GoValue → List Char
  | .null => ['n', 'u', 'l', 'l']
  | .bool b => if b then ['t', 'r', 'u', 'e'] else ['f', 'a', 'l', 's', 'e']
  | .int n => strconv.intText n
  | .float64 f => strconv.floatText f
  | .str s => json.encodeString s
  | .slice xs => '[' :: (json.joinComma (renderElems xs) ++ [']'])
  | .map kvs => '{' :: (json.joinComma (renderFields kvs) ++ ['}'])
  | .struct fields => '{' :: (json.joinComma (renderFields fields) ++ ['}'])
/-- The texts of the elements of an array. -/
def renderElems : List GoValue → List (List Char)
  | [] => []
  | x :: xs => render x :: renderElems xs
/-- The texts of the members of an object, in the order of the list. -/
def renderFields : List (String × GoValue) → List (List Char)
  | [] => []
  | (k, v) :: rest => (json.encodeString k ++ ':' :: render v) :: renderFields rest
end

/-- The function `canonical.Marshal`. -/
def Marshal (v : GoValue) : Except json.JsonError String :=
  match json.Marshal v with
  | .error err => .error err
  | .ok b =>
    match json.Unmarshal b with
    | .error err => .error err
    | .ok generic => json.Marshal generic

end canonical

namespace wallet

def base58Alphabet : String := "123456789ABCDEFGHJKLMNPQRSTUVWXYZabcdefghijkmnopqrstuvwxyz"

/-- The indexing `base58Alphabet[d]`; the program only indexes with `d < 58`. -/
def alphabetAt (d : Nat) : Char := base58Alphabet.toList.getD d '1'

/-- The conversion `new(big.Int).SetBytes(input)`: the bytes read as a
big-endian unsigned integer. -/
def SetBytes (input : List Byte) : Nat :=
  input.foldl (fun acc b => acc * 256 + b.val) 0

/-- The loop `for x.Cmp(zero) > 0` of `EncodeBase58`: `x.DivMod(x, base, mod)`
and one character appended per round. -/
def divLoop (x : Nat) (result : List Char) : List Char :=
  if 0 < x then
    divLoop (x / 58) (result ++ [alphabetAt (x % 58)])
  else result
termination_by x
decreasing_by exact Nat.div_lt_self (by assumption) (by decide)

/-- The loop `for _, b := range input` of `EncodeBase58`: one `base58Alphabet[0]`
appended per zero byte, until the first byte that is not zero. -/
def leadingZeros : List Byte → List Char → List Char
  | [], result => result
  | b :: rest, result =>
    if b ≠ 0 then result else leadingZeros rest (result ++ [alphabetAt 0])

/-- The loop `for i, j := 0, len(result)-1; i < j; i, j = i+1, j-1` of
`EncodeBase58`, swapping `result[i]` and `result[j]`. (On an empty `result`
Go starts with `j = -1`, here `j = 0`; the loop body does not run in either.) -/
def reverseLoop (result : List Char) (i j : Nat) : List Char :=
  if i < j then
    reverseLoop ((result.set i (result.getD j '1')).set j (result.getD i '1')) (i + 1) (j - 1)
  else result
termination_by j - i

/-- The function `EncodeBase58`. -/
def EncodeBase58 (input : List Byte) : String :=
  let result := divLoop (SetBytes input) []
  let result := leadingZeros input result
  String.mk (reverseLoop result 0 (result.length - 1))

/-- The value of a character of the alphabet. -/
def alphabetIndex (c : Char) : Option Nat :=
  let i := base58Alphabet.toList.indexOf c
  if i < 58 then some i else none

/-- The digits of a base58 text, when all its characters are in the alphabet. -/
def alphabetIndices : List Char → Option (List Nat)
  | [] => some []
  | c :: cs =>
    match alphabetIndex c, alphabetIndices cs with
    | some d, some ds => some (d :: ds)
    | _, _ => none

/-- Base58 decoding, the inverse of `EncodeBase58` that the specification
speaks of (the repository has no decoder): one zero byte per leading `'1'`,
followed by the big-endian bytes of the number whose base-58 digits the
text spells. -/
def DecodeBase58 (s : String) : Option (List Byte) :=
  match alphabetIndices s.toList with
  | none => none
  | some ds =>
    let zeros := (ds.takeWhile (· = 0)).length
    let value := ds.foldl (fun acc d => acc * 58 + d) 0
    some (List.replicate zeros 0 ++ (Nat.digits 256 value).reverse.map Fin.ofNat)

/-- The struct `Wallet`. -/
structure Wallet where
  privateKey : List Byte
  publicKey : List Byte
  name : String

/-- The function `wallet.FromSeed`: `(*Wallet, error)`. -/
def FromSeed (L : Stdlib) (seed : List Byte) (name : String) :
    Run (Option Wallet × Option GoError) :=
  if seed.length ≠ crypto.SeedSize then
    pure (none, some (.talos (errors.New errors.CodeInvalidInput
      ("seed must be " ++ Nat.repr crypto.SeedSize ++ " bytes") [])))
  else do
    let (pub, priv, err) ← crypto.FromSeed L seed
    match err with
    | some e =>
      pure (none, some (.talos (errors.New errors.CodeCryptoError
        "failed to derive key from seed" [errors.WithCause (some e)])))
    | none => pure (some { privateKey := priv, publicKey := pub, name := name }, none)

/-- The method `PublicKey`; reading the field of a nil `*Wallet` panics. -/
def PublicKey : Option Wallet → Run (List Byte)
  | none => throw .nilDereference
  | some w => pure w.publicKey

/-- The method `DID`. -/
def DID (w : Option Wallet) : Run String := do
  let pk ← PublicKey w
  let input := [0xed, 0x01] ++ pk
  pure ("did:key:z" ++ EncodeBase58 input)

/-- The method `Sign`. -/
def Sign (L : Stdlib) : Option Wallet → List Byte → Run (List Byte)
  | none, _ => throw .nilDereference
  | some w, message => crypto.Sign L w.privateKey message

/-- The function `wallet.Verify`. -/
def Verify (L : Stdlib) (publicKey message signature : List Byte) : Run Bool :=
  if publicKey.length ≠ crypto.PublicKeySize then pure false
  else crypto.Verify L publicKey message signature

/-- The method `Name`. -/
def Name : Option Wallet → Run String
  | none => throw .nilDereference
  | some w => pure w.name

end wallet

namespace hex

/-- The table `reverseHexTable` of `encoding/hex`: the value of a hex digit. -/
def fromHexChar (c : Byte) : Option Nat :=
  if 48 ≤ c.val ∧ c.val ≤ 57 then some (c.val - 48)
  else if 97 ≤ c.val ∧ c.val ≤ 102 then some (c.val - 97 + 10)
  else if 65 ≤ c.val ∧ c.val ≤ 70 then some (c.val - 65 + 10)
  else none

/-- An upper-case hex digit, as the verb `%X` prints it. -/
def upperHexDigit (d : Nat) : Char := "0123456789ABCDEF".toList.getD d '0'

/-- The verb `%#U` on a byte taken as a rune: `U+00XX`, followed by the quoted
character when `strconv.IsPrint` holds of it. -/
def sharpU (b : Byte) : String :=
  let code := "U+00" ++ String.mk [upperHexDigit (b.val / 16), upperHexDigit (b.val % 16)]
  if (0x20 ≤ b.val ∧ b.val < 0x7F) ∨ (0xA1 ≤ b.val ∧ b.val ≠ 0xAD) then
    code ++ " '" ++ String.mk [Char.ofNat b.val] ++ "'"
  else code

/-- The error `hex.InvalidByteError(b)`. -/
def InvalidByteError (b : Byte) : GoError :=
  .plain ("encoding/hex: invalid byte: " ++ sharpU b)

/-- The error `hex.ErrLength`. -/
def ErrLength : GoError := .plain "encoding/hex: odd length hex string"

/-- The loop of `hex.Decode`: two digits per byte; the result is the bytes
decoded before the first error, and that error. -/
def decode : List Byte → List Byte → List Byte × Option GoError
  | p :: q :: rest, dst =>
    match fromHexChar p with
    | none => (dst, some (InvalidByteError p))
    | some a =>
      match fromHexChar q with
      | none => (dst, some (InvalidByteError q))
      | some b => decode rest (dst ++ [Fin.ofNat (a * 16 + b)])
  | [p], dst =>
    match fromHexChar p with
    | none => (dst, some (InvalidByteError p))
    | some _ => (dst, some ErrLength)
  | [], dst => (dst, none)

/-- The function `hex.DecodeString`. -/
def DecodeString (s : String) : List Byte × Option GoError := decode (utf8 s) []

end hex

namespace base64

/-- The alphabet of `base64.RawURLEncoding`. -/
def encodeURL : String := "ABCDEFGHIJKLMNOPQRSTUVWXYZabcdefghijklmnopqrstuvwxyz0123456789-_"

/-- The table `decodeMap` of the encoding: the value of a character of the alphabet. -/
def decodeMap (c : Byte) : Option Nat :=
  let i := (utf8 encodeURL).indexOf c
  if i < 64 then some i else none

/-- The error `base64.CorruptInputError(offset)`. -/
def CorruptInputError (offset : Nat) : GoError :=
  .plain ("illegal base64 data at input byte " ++ Nat.repr offset)

/-- The bytes of a quantum, `val>>16`, `val>>8`, `val` of the 24-bit value of
the six-bit groups collected, as many as the groups determine. -/
def quantumBytes (dbuf : List Nat) : List Byte :=
  let val := dbuf.getD 0 0 * 262144 + dbuf.getD 1 0 * 4096 + dbuf.getD 2 0 * 64 + dbuf.getD 3 0
  ([Fin.ofNat (val / 65536), Fin.ofNat (val / 256), Fin.ofNat val] : List Byte).take
    (dbuf.length - 1)

/-- The decoder `Encoding.Decode` for an encoding without padding and not
strict: `si` is the index of the next input byte, `dbuf` the six-bit groups
of the quantum under way, `dst` the output so far. A line feed or carriage
return is skipped, any other byte outside the alphabet is an error at its
index; at the end of the input a single left-over group is an error at
`si - 1`, two or three give one or two more bytes. -/
def decode : List Byte → Nat → List Nat → List Byte → List Byte × Option GoError
  | [], si, dbuf, dst =>
    match dbuf with
    | [] => (dst, none)
    | [_] => (dst, some (CorruptInputError (si - 1)))
    | _ => (dst ++ quantumBytes dbuf, none)
  | c :: rest, si, dbuf, dst =>
    match decodeMap c with
    | some out =>
      if dbuf.length = 3 then decode rest (si + 1) [] (dst ++ quantumBytes (dbuf ++ [out]))
      else decode rest (si + 1) (dbuf ++ [out]) dst
    | none =>
      if c = 10 ∨ c = 13 then decode rest (si + 1) dbuf dst
      else (dst, some (CorruptInputError si))

/-- The method `RawURLEncoding.DecodeString`. -/
def DecodeString (s : String) : List Byte × Option GoError := decode (utf8 s) 0 [] []

/-- The character of a six-bit group. -/
def encodeAt (d : Nat) : Char := encodeURL.toList.getD d 'A'

/-- The method `RawURLEncoding.EncodeToString`: four characters per three
bytes, two or three for a last group of one or two bytes, no padding. -/
def EncodeToString : List Byte → String
  | a :: b :: c :: rest =>
    let val := a.val * 65536 + b.val * 256 + c.val
    String.mk [encodeAt (val / 262144 % 64), encodeAt (val / 4096 % 64),
      encodeAt (val / 64 % 64), encodeAt (val % 64)] ++ EncodeToString rest
  | [a, b] =>
    let val := a.val * 65536 + b.val * 256
    String.mk [encodeAt (val / 262144 % 64), encodeAt (val / 4096 % 64), encodeAt (val / 64 % 64)]
  | [a] =>
    let val := a.val * 65536
    String.mk [encodeAt (val / 262144 % 64), encodeAt (val / 4096 % 64)]
  | [] => ""

end base64

namespace strings

/-- The function `strings.HasPrefix`. -/
def HasPrefix (s pre : String) : Bool := pre.toList.isPrefixOf s.toList

/-- The function `strings.Contains`. -/
def Contains (s substr : String) : Bool := decide (substr.toList <:+: s.toList)

/-- The function `strings.ToLower`: ASCII upper-case letters are shifted to
lower case, other ASCII characters are kept, and a rune outside ASCII goes
through `unicode.ToLower`. -/
def ToLower (L : Stdlib) (s : String) : String :=
  String.mk (s.toList.map (fun c =>
    if c.toNat < 128 then (if 65 ≤ c.toNat ∧ c.toNat ≤ 90 then Char.ofNat (c.toNat + 32) else c)
    else L.ToLowerRune c))

end strings

namespace main

/-- The struct `ExpectedError`. -/
structure ExpectedError where
  Code : String
  MessageContains : String

/-- The struct `TestVector`. -/
structure TestVector where
  TestID : String
  Inputs : List (String × GoValue)
  Expected : List (String × GoValue)
  ExpectedError : Option ExpectedError

/-- The verb `%v` on a `bool`. -/
def fmtBool (b : Bool) : String := if b then "true" else "false"

/-- The conversion `int(f)` of a `float64`: the number without its fraction;
for a NaN, an infinity and a number outside the range of `int` the result is
the one of amd64, the least `int`. -/
def float64ToInt (f : Float64) : Int :=
  if f.isFinite = true ∧ f.units / 2 ^ 1074 < 9223372036854775808 then
    (if f.sign = true then -((f.units / 2 ^ 1074 : Nat) : Int)
     else ((f.units / 2 ^ 1074 : Nat) : Int))
  else -9223372036854775808

/-- The checks of `testSign` after the wallet is built (lines 229 to 257). -/
def signChecks (L : Stdlib) (w : Option wallet.Wallet) (msgStr : String)
    (expected : List (String × GoValue)) : Run (Option GoError) := do
  let checkDID : Option GoError ←
    match asString (mapIndex expected "did") with
    | some did => do
      let got ← wallet.DID w
      if got ≠ did then pure (some (.plain ("DID mismatch: want " ++ did ++ ", got " ++ got)))
      else pure none
    | none => pure none
  match checkDID with
  | some e => pure (some e)
  | none =>
    let sig ← wallet.Sign L w (utf8 msgStr)
    let checkSig : Option GoError :=
      match asString (mapIndex expected "signature_base64url") with
      | some expectedSigB64 =>
        let encoded := base64.EncodeToString sig
        if encoded ≠ expectedSigB64 then
          some (.plain ("signature mismatch: want " ++ expectedSigB64 ++ ", got " ++ encoded))
        else none
      | none => none
    match checkSig with
    | some e => pure (some e)
    | none =>
      let checkLen : Option GoError :=
        match asFloat64 (mapIndex expected "signature_length") with
        | some expectedLen =>
          if (sig.length : Int) ≠ float64ToInt expectedLen then some (.plain "len mismatch")
          else none
        | none => none
      match checkLen with
      | some e => pure (some e)
      | none =>
        match asBool (mapIndex expected "verify") with
        | some true => do
          let pk ← wallet.PublicKey w
          let ok ← wallet.Verify L pk (utf8 msgStr) sig
          if !ok then pure (some (.plain "self verification failed")) else pure none
        | _ => pure none

/-- The function `testSign`. -/
def testSign (L : Stdlib) (vec : TestVector) : Run (Option GoError) := do
  let inputs := vec.Inputs
  let expected := vec.Expected
  let seedHex := (asString (mapIndex inputs "seed_hex")).getD ""
  let msgStr := (asString (mapIndex inputs "message_utf8")).getD ""
  if seedHex ≠ "" then
    match hex.DecodeString seedHex with
    | (_, some err) => pure (some err)
    | (seedBytes, none) =>
      match ← wallet.FromSeed L seedBytes "" with
      | (_, some err) => pure (some err)
      | (w, none) => signChecks L w msgStr expected
  else pure none

/-- The function `testVerify`. -/
def testVerify (L : Stdlib) (vec : TestVector) : Run (Option GoError) := do
  let inputs := vec.Inputs
  let expected := vec.Expected
  let msgStr := (asString (mapIndex inputs "message_utf8")).getD ""
  let msgStr :=
    match asString (mapIndex inputs "tampered_message") with
    | some val => val
    | none => msgStr
  let pubKeyBytes : List Byte ←
    match asString (mapIndex inputs "public_key_hex") with
    | some val => pure (hex.DecodeString val).1
    | none =>
      match asString (mapIndex inputs "wrong_public_key_hex") with
      | some val => pure (hex.DecodeString val).1
      | none =>
        match asString (mapIndex inputs "seed_hex") with
        | some val => do
          let s := (hex.DecodeString val).1
          let (w, _) ← wallet.FromSeed L s ""
          wallet.PublicKey w
        | none => pure []
  let decoded : List Byte × Option GoError :=
    match asString (mapIndex inputs "signature_base64url") with
    | some val => base64.DecodeString val
    | none => ([], none)
  match decoded with
  | (_, some err) => pure (some err)
  | (sigBytes, none) =>
    let success ← wallet.Verify L pubKeyBytes (utf8 msgStr) sigBytes
    match asBool (mapIndex expected "verify") with
    | some val =>
      if success ≠ val then
        pure (some (.plain ("verification result mismatch: want " ++ fmtBool val ++
          ", got " ++ fmtBool success)))
      else pure none
    | none => pure none

/-- The second half of `runVector` (lines 166 to 204): the result of the
vector from the error `err` of its evaluation. -/
def classify (L : Stdlib) (vec : TestVector) (isNegative : Bool) (err : Option GoError) :
    Option GoError :=
  if isNegative then
    match err with
    | none =>
      match mapIndex vec.Expected "verify" with
      | some (.bool false) => none
      | _ => some (.plain "expected error but operation succeeded")
    | some e =>
      match vec.ExpectedError with
      | some expectedError =>
        if expectedError.MessageContains ≠ "" ∧
            !strings.Contains (strings.ToLower L e.Error)
              (strings.ToLower L expectedError.MessageContains) then
          some (.plain ("error message mismatch: want '" ++ expectedError.MessageContains ++
            "', got '" ++ e.Error ++ "'"))
        else if expectedError.Code ≠ "" then
          match e with
          | .talos te =>
            if te.Code ≠ expectedError.Code then
              some (.plain ("error code mismatch: want " ++ expectedError.Code ++
                ", got " ++ te.Code))
            else none
          | .plain _ => none
        else none
      | none => none
  else err

/-- The function `runVector`: `none` is a pass, `some e` a failure. -/
def runVector (L : Stdlib) (vec : TestVector) (isNegative : Bool) : Run (Option GoError) :=
  if strings.HasPrefix vec.TestID "sign_" || strings.HasPrefix vec.TestID "invalid_seed" then do
    let err ← testSign L vec
    pure (classify L vec isNegative err)
  else if strings.HasPrefix vec.TestID "verify_" then do
    let err ← testVerify L vec
    pure (classify L vec isNegative err)
  else pure none

/-- The vector is routed to signing or to verification evaluation and that
evaluation returns no error. -/
def evaluatesWithoutError (L : Stdlib) (vec : TestVector) : Prop :=
  ((strings.HasPrefix vec.TestID "sign_" = true ∨
      strings.HasPrefix vec.TestID "invalid_seed" = true) ∧ testSign L vec = .ok none)
  ∨ (strings.HasPrefix vec.TestID "verify_" = true ∧ testVerify L vec = .ok none)

end main

/-- A small stand-in for the library, to run the definitions on concrete
inputs: the public key of a seed is the seed, a signature is the public key
followed by the first 32 bytes of the message (padded with zeros). -/
def demoStdlib : Stdlib where
  NewKeyFromSeed := fun seed =>
    if seed.length ≠ 32 then throw (.library "ed25519: bad seed length") else pure (seed ++ seed)
  Sign := fun priv message =>
    if priv.length ≠ 64 then throw (.library "ed25519: bad private key length")
    else pure (priv.drop 32 ++ (message ++ List.replicate 32 0).take 32)
  Verify := fun pub message sig =>
    if pub.length ≠ 32 then throw (.library "ed25519: bad public key length")
    else pure (decide (sig = pub ++ (message ++ List.replicate 32 0).take 32))
  ToLowerRune := fun c => c

/-- A library in which every call panics: a result computed with it was
computed without calling the library. -/
def panickingStdlib : Stdlib where
  NewKeyFromSeed := fun _ => throw (.library "NewKeyFromSeed called")
  Sign := fun _ _ => throw (.library "Sign called")
  Verify := fun _ _ _ => throw (.library "Verify called")
  ToLowerRune := fun c => c

/-- A verification vector with `tampered_message` set, on which `Verify`
returns false. -/
def tamperedVector : main.TestVector where
  TestID := "verify_tampered"
  Inputs :=
    [("public_key_hex", .str "0000000000000000000000000000000000000000000000000000000000000000"),
     ("message_utf8", .str "hi"),
     ("tampered_message", .str "ho"),
     ("signature_base64url", .str
        "AAAAAAAAAAAAAAAAAAAAAAAAAAAAAAAAAAAAAAAAAABoaQAAAAAAAAAAAAAAAAAAAAAAAAAAAAAAAAAAAAAAAA")]
  Expected := [("verify", .bool false)]
  ExpectedError := none

/-- The wallet that `FromSeed` builds from 32 zero bytes with `demoStdlib`. -/
def demoWallet : wallet.Wallet where
  privateKey := List.replicate 64 0
  publicKey := List.replicate 32 0
  name := "Test"

/-- A negative verification vector whose signature is valid: `Verify` returns
true on it. -/
def validSignatureVector : main.TestVector where
  TestID := "verify_valid_but_negative"
  Inputs :=
    [("public_key_hex", .str "0000000000000000000000000000000000000000000000000000000000000000"),
     ("message_utf8", .str "hi"),
     ("signature_base64url", .str
        "AAAAAAAAAAAAAAAAAAAAAAAAAAAAAAAAAAAAAAAAAABoaQAAAAAAAAAAAAAAAAAAAAAAAAAAAAAAAAAAAAAAAA")]
  Expected := [("verify", .bool false)]
  ExpectedError := none

namespace main

/-- The struct `VectorFile`. -/
structure VectorFile where
  Vectors : List TestVector
  NegativeCases : List TestVector

/-- The struct `Failure`. -/
structure Failure where
  Message : String
  Content : String
deriving DecidableEq, Repr

/-- The struct `Error` of the report. -/
structure Error where
  Message : String
  Content : String
deriving DecidableEq, Repr

/-- The struct `TestCase`. -/
structure TestCase where
  XMLName : String
  Name : String
  ClassName : String
  Time : String
  Failure : Option Failure
  Error : Option Error
deriving DecidableEq, Repr

/-- The struct `TestSuite`; the counters are of type `int` and stay far below
its range, so they are natural numbers here. -/
structure TestSuite where
  XMLName : String
  Name : String
  Tests : Nat
  Failures : Nat
  Errors : Nat
  Time : String
  TestCases : List TestCase
deriving DecidableEq, Repr

/-- The local variable `suiteName` of `main`. -/
def suiteName : String := "Conformance"

/-- The local variables `total`, `failures`, `errs` and `suite` of `main`
while its loops run. -/
structure RunState where
  total : Nat
  failures : Nat
  errs : Nat
  suite : TestSuite

/-- The body of the two loops of `main` (lines 103 to 114 and 119 to 130) for
the vector `vec`. The clock is outside the program: `clock n` is the text
`fmt.Sprintf("%.4f", duration)` of the `n`-th call. What the loop prints is
left out. A panic of `runVector` ends the run. -/
def runOne (L : Stdlib) (clock : Nat → String) (isNegative : Bool) (st : RunState)
    (vec : TestVector) : Run RunState := do
  let total := st.total + 1
  let err ← runVector L vec isNegative
  let tc : TestCase :=
    { XMLName := "", Name := vec.TestID, ClassName := suiteName, Time := clock total,
      Failure := none, Error := none }
  match err with
  | some e =>
    let tc := { tc with Failure := some { Message := e.Error, Content := e.Error } }
    pure { st with total := total, failures := st.failures + 1,
                   suite := { st.suite with TestCases := st.suite.TestCases ++ [tc] } }
  | none =>
    pure { st with total := total,
                   suite := { st.suite with TestCases := st.suite.TestCases ++ [tc] } }

/-- Lines 93 to 136 of `main`: the suite that `main` builds from a parsed
vector file, the positive vectors first; `totalTime` is the text of the time
the whole run took. -/
def runSuite (L : Stdlib) (clock : Nat → String) (totalTime : String) (vf : VectorFile) :
    Run TestSuite := do
  let suite : TestSuite :=
    { XMLName := "", Name := suiteName, Tests := 0, Failures := 0, Errors := 0, Time := "",
      TestCases := [] }
  let st : RunState := { total := 0, failures := 0, errs := 0, suite := suite }
  let st ← vf.Vectors.foldlM (runOne L clock false) st
  let st ← vf.NegativeCases.foldlM (runOne L clock true) st
  pure { st.suite with Tests := st.total, Failures := st.failures, Errors := st.errs,
                       Time := totalTime }

/-- The exit status of `main` after the report (lines 147 to 152). -/
def exitStatus (suite : TestSuite) : Nat :=
  if suite.Failures > 0 ∨ suite.Errors > 0 then 1 else 0

end main

namespace main

/-- The test case `tc` reports the vector `vec` run with the polarity
`isNegative`, in the words of the specification: it is named by the
`test_id`, its classname is the suite name, and it carries a failure, with
the text of the error as message and as content, exactly when `runVector`
returned an error. -/
def Reports (L : Stdlib) (isNegative : Bool) (vec : TestVector) (tc : TestCase) : Prop :=
  tc.Name = vec.TestID ∧ tc.ClassName = suiteName ∧ tc.Error = none ∧
    ∃ r, runVector L vec isNegative = .ok r ∧
      tc.Failure = r.map (fun e => { Message := e.Error, Content := e.Error })

/-- The run of the vector returned an error. -/
def fails (L : Stdlib) (isNegative : Bool) (vec : TestVector) : Bool :=
  match runVector L vec isNegative with
  | .ok (some _) => true
  | _ => false

end main

/-- A vector file with one positive vector and two negative vectors, the
second of which fails. -/
def demoVectorFile : main.VectorFile where
  Vectors :=
    [{ TestID := "canonical_1", Inputs := [], Expected := [], ExpectedError := none }]
  NegativeCases :=
    [{ TestID := "invalid_seed_short", Inputs := [("seed_hex", .str "00ff")], Expected := [],
       ExpectedError := some { Code := "TALOS_INVALID_INPUT", MessageContains := "32" } },
     { TestID := "sign_nothing", Inputs := [], Expected := [], ExpectedError := none }]

/-- The suite of `demoVectorFile`. -/
def demoSuite : main.TestSuite where
  XMLName := ""
  Name := "Conformance"
  Tests := 3
  Failures := 1
  Errors := 0
  Time := "0.0002"
  TestCases :=
    [{ XMLName := "", Name := "canonical_1", ClassName := "Conformance", Time := "0.0001",
       Failure := none, Error := none },
     { XMLName := "", Name := "invalid_seed_short", ClassName := "Conformance", Time := "0.0001",
       Failure := none, Error := none },
     { XMLName := "", Name := "sign_nothing", ClassName := "Conformance", Time := "0.0001",
       Failure := some { Message := "expected error but operation succeeded",
                         Content := "expected error but operation succeeded" },
       Error := none }]

namespace main

/-- The result of a sequence of checks in the words of the specification: the
first failing check aborts the remaining checks and becomes the error. -/
def firstFailure : List (Option GoError) → Option GoError
  | [] => none
  | some e :: _ => some e
  | none :: rest => firstFailure rest

/-- The check of `expected.did` against the DID of the wallet: it runs when the
field is a string. -/
def didCheck (expected : List (String × GoValue)) (did : String) : Option GoError :=
  match asString (mapIndex expected "did") with
  | some want =>
    if did ≠ want then some (.plain ("DID mismatch: want " ++ want ++ ", got " ++ did)) else none
  | none => none

/-- The check of `expected.signature_base64url` against the signature: it runs
when the field is a string. -/
def signatureCheck (expected : List (String × GoValue)) (sig : List Byte) : Option GoError :=
  match asString (mapIndex expected "signature_base64url") with
  | some want =>
    if base64.EncodeToString sig ≠ want then
      some (.plain ("signature mismatch: want " ++ want ++ ", got " ++ base64.EncodeToString sig))
    else none
  | none => none

/-- The check of `expected.signature_length` against the length of the
signature: it runs when the field is a number. -/
def lengthCheck (expected : List (String × GoValue)) (sig : List Byte) : Option GoError :=
  match asFloat64 (mapIndex expected "signature_length") with
  | some want =>
    if (sig.length : Int) ≠ float64ToInt want then some (.plain "len mismatch") else none
  | none => none

/-- The check of `expected.verify`: it runs when the field is the boolean
`true`, and fails when the signature did not verify. -/
def verifyCheck (expected : List (String × GoValue)) (verified : Bool) : Option GoError :=
  match asBool (mapIndex expected "verify") with
  | some true => if verified then none else some (.plain "self verification failed")
  | _ => none

/-- The public key of verification evaluation in the words of the
specification: the first field present (as a string) wins, `public_key_hex`,
then `wrong_public_key_hex`, each decoded from hex, then the public key of
the wallet derived from `seed_hex`; with none of the three the key is empty. -/
def ResolvesKey (L : Stdlib) (inputs : List (String × GoValue)) (pk : List Byte) : Prop :=
  match asString (mapIndex inputs "public_key_hex") with
  | some val => pk = (hex.DecodeString val).1
  | none =>
    match asString (mapIndex inputs "wrong_public_key_hex") with
    | some val => pk = (hex.DecodeString val).1
    | none =>
      match asString (mapIndex inputs "seed_hex") with
      | some val =>
        ∃ w, wallet.FromSeed L (hex.DecodeString val).1 "" = .ok (some w, none) ∧ pk = w.publicKey
      | none => pk = []

/-- The message of verification evaluation in the words of the specification:
`message_utf8`, overridden by `tampered_message` if present. -/
def messageOf (inputs : List (String × GoValue)) : String :=
  match asString (mapIndex inputs "tampered_message") with
  | some val => val
  | none => (asString (mapIndex inputs "message_utf8")).getD ""

/-- The signature of verification evaluation: `signature_base64url` decoded as
unpadded base64url, with the error of the decoding; empty when the field is
absent. -/
def signatureOf (inputs : List (String × GoValue)) : List Byte × Option GoError :=
  match asString (mapIndex inputs "signature_base64url") with
  | some val => base64.DecodeString val
  | none => ([], none)

/-- The check of `expected.verify` in verification evaluation: it runs when the
field is a boolean, and fails when the boolean differs from `success`. -/
def verdict (expected : List (String × GoValue)) (success : Bool) : Option GoError :=
  match asBool (mapIndex expected "verify") with
  | some val =>
    if success ≠ val then
      some (.plain ("verification result mismatch: want " ++ fmtBool val ++
        ", got " ++ fmtBool success))
    else none
  | none => none

end main

namespace main

/-- The vector is routed to signing or to verification evaluation and that
evaluation returns the error `e`. -/
def evaluatesWithError (L : Stdlib) (vec : TestVector) (e : GoError) : Prop :=
  ((strings.HasPrefix vec.TestID "sign_" = true ∨
      strings.HasPrefix vec.TestID "invalid_seed" = true) ∧ testSign L vec = .ok (some e))
  ∨ (strings.HasPrefix vec.TestID "verify_" = true ∧ testVerify L vec = .ok (some e))

end main

/-- The part of the contract of `ed25519.Sign` that the results on the harness
rest on: with a 64-byte private key it returns a signature, without a panic. -/
def Stdlib.Signs (L : Stdlib) : Prop :=
  ∀ priv message : List Byte, priv.length = 64 → ∃ sig, L.Sign priv message = .ok sig

/-- The part of the contract of `ed25519.Verify` that the results on the
harness rest on: with a 32-byte public key it returns, without a panic. -/
def Stdlib.Verifies (L : Stdlib) : Prop :=
  ∀ pub message sig : List Byte, pub.length = 32 → ∃ b, L.Verify pub message sig = .ok b

namespace main

/-- The inputs with which `testVerify` calls `PublicKey` on a nil wallet:
neither `public_key_hex` nor `wrong_public_key_hex` is a string, and
`seed_hex` is a string that does not decode to 32 bytes. -/
def DerefsNilWallet (inputs : List (String × GoValue)) : Prop :=
  asString (mapIndex inputs "public_key_hex") = none
  ∧ asString (mapIndex inputs "wrong_public_key_hex") = none
  ∧ ∃ val, asString (mapIndex inputs "seed_hex") = some val
      ∧ (hex.DecodeString val).1.length ≠ 32

end main

/-- The part of the contract of `ed25519` that a round trip of signing and
verification rests on: under a private key that `NewKeyFromSeed` returned,
`Sign` returns a signature of 64 bytes, and `Verify` accepts it for the same
message under the public half of the key, its last 32 bytes. -/
def Stdlib.RoundTrip (L : Stdlib) : Prop :=
  ∀ seed priv message : List Byte, L.NewKeyFromSeed seed = .ok priv → priv.length = 64 →
    ∃ sig, L.Sign priv message = .ok sig ∧ sig.length = 64
      ∧ L.Verify (priv.drop 32) message sig = .ok true

namespace canonical

mutual
/-- The value that `canonical.Marshal` writes, integer by integer: the entries
of every object, at every depth, sorted by ascending key; an `int` of absolute
value at most `2^53` left as it is; a larger `int` replaced by the float64
nearest to it, which is what the decoder reads from its text. -/
def integerForm : GoValue → GoValue
  | .null => .null
  | .bool b => .bool b
  | .int n => if n.natAbs ≤ 9007199254740992 then .int n else .float64 (json.float64OfInt n)
  | .float64 f => .float64 f
  | .str s => .str s
  | .slice xs => .slice (integerElems xs)
  | .map kvs => .map (json.sortByKey (integerFields kvs))
  | .struct fields => .map (json.sortByKey (integerFields fields))
/-- The elements of a slice, integer by integer. -/
def integerElems : List GoValue → List GoValue
  | [] => []
  | x :: xs => integerForm x :: integerElems xs
/-- The entries of an object with their values, integer by integer. -/
def integerFields : List (String × GoValue) → List (String × GoValue)
  | [] => []
  | (k, v) :: rest => (k, integerForm v) :: integerFields rest
end

end canonical

namespace utf8

/-- The function `utf8.DecodeRune` on the bytes `b0 :: rest`: the rune and
the number of bytes it takes; an invalid or cut encoding is U+FFFD of width 1. -/
def DecodeRune (b0 : Byte) (rest : List Byte) : Char × Nat :=
  let cont (b : Byte) : Bool := 0x80 ≤ b.val ∧ b.val ≤ 0xBF
  let bad : Char × Nat := (Char.ofNat 0xFFFD, 1)
  if b0.val < 0x80 then (Char.ofNat b0.val, 1)
  else if b0.val < 0xC2 then bad
  else if b0.val < 0xE0 then
    match rest with
    | b1 :: _ =>
      if cont b1 then (Char.ofNat ((b0.val % 32) * 64 + b1.val % 64), 2) else bad
    | _ => bad
  else if b0.val < 0xF0 then
    match rest with
    | b1 :: b2 :: _ =>
      let lo := if b0.val = 0xE0 then 0xA0 else 0x80
      let hi := if b0.val = 0xED then 0x9F else 0xBF
      if lo ≤ b1.val ∧ b1.val ≤ hi ∧ cont b2 then
        (Char.ofNat ((b0.val % 16) * 4096 + (b1.val % 64) * 64 + b2.val % 64), 3)
      else bad
    | _ => bad
  else if b0.val < 0xF5 then
    match rest with
    | b1 :: b2 :: b3 :: _ =>
      let lo := if b0.val = 0xF0 then 0x90 else 0x80
      let hi := if b0.val = 0xF4 then 0x8F else 0xBF
      if lo ≤ b1.val ∧ b1.val ≤ hi ∧ cont b2 ∧ cont b3 then
        (Char.ofNat ((b0.val % 8) * 262144 + (b1.val % 64) * 4096 + (b2.val % 64) * 64
          + b3.val % 64), 4)
      else bad
    | _ => bad
  else bad

/-- The runes of a byte string, read with `DecodeRune` one after the other,
with fuel for one rune per byte: every byte that starts no valid encoding
becomes U+FFFD, as in the string literals that `encoding/json` decodes. -/
def decodeFrom : Nat → List Byte → List Char
  | 0, _ => []
  | _, [] => []
  | fuel + 1, b0 :: rest =>
    let (c, size) := DecodeRune b0 rest
    c :: decodeFrom fuel (rest.drop (size - 1))

/-- The runes of a byte string. -/
def decode (bytes : List Byte) : List Char := decodeFrom bytes.length bytes

end utf8

namespace json

/-- A JSON text as the scanner of the decoder reads it: the members of an
object in the order of the text, duplicates included, and a number by its
text. -/
inductive Syntax
  | null
  | bool (b : Bool)
  | number (text : List Char)
  | str (s : String)
  | array (xs : List Syntax)
  | object (members : List (String × Syntax))
deriving Repr

/-- The text of a number at the head of `s`, by the grammar of JSON, and the
text behind it: an optional minus sign, `0` or a run of digits that does not
start with `0`, an optional fraction of a point and digits, an optional
exponent of `e` or `E`, an optional sign and digits. -/
def scanNumber (s : List Char) : Except JsonError (List Char × List Char) :=
  let sign := if s.head? = some '-' then ['-'] else []
  let s1 := if s.head? = some '-' then s.tail else s
  match s1 with
  | [] => .error .invalid
  | d :: r =>
    if ¬ d.isDigit then .error .invalid
    else
      let intPart := if d = '0' then [d] else d :: r.takeWhile Char.isDigit
      let s2 := if d = '0' then r else r.dropWhile Char.isDigit
      let frac : Except JsonError (List Char × List Char) :=
        match s2 with
        | '.' :: r2 =>
          if r2.takeWhile Char.isDigit = [] then .error .invalid
          else .ok ('.' :: r2.takeWhile Char.isDigit, r2.dropWhile Char.isDigit)
        | _ => .ok ([], s2)
      match frac with
      | .error err => .error err
      | .ok (fracPart, s3) =>
        match s3 with
        | e :: r3 =>
          if e = 'e' ∨ e = 'E' then
            let expSign := if r3.head? = some '+' ∨ r3.head? = some '-' then r3.take 1 else []
            let r4 := if r3.head? = some '+' ∨ r3.head? = some '-' then r3.tail else r3
            if r4.takeWhile Char.isDigit = [] then .error .invalid
            else
              .ok (sign ++ intPart ++ fracPart ++ e :: expSign ++ r4.takeWhile Char.isDigit,
                r4.dropWhile Char.isDigit)
          else .ok (sign ++ intPart ++ fracPart, s3)
        | [] => .ok (sign ++ intPart ++ fracPart, [])

/-- The literal `word` at the head of the text, for the scanner. -/
def scanLiteral (word : List Char) (v : Syntax) (s : List Char) :
    Except JsonError (Syntax × List Char) :=
  if word.isPrefixOf s then .ok (v, s.drop word.length) else .error .invalid

mutual
/-- The scanner of a value: `depth` is the number of arrays and objects around
the value, `fuel` bounds the number of nested calls. -/
def scanValue : Nat → Nat → List Char → Except JsonError (Syntax × List Char)
  | 0, _, _ => .error .invalid
  | fuel + 1, depth, s =>
    match skipSpace s with
    | [] => .error .invalid
    | c :: rest =>
      if c = '"' then
        match unquote rest with
        | .ok (str, r) => .ok (.str (String.mk str), r)
        | .error err => .error err
      else if c = '[' then
        if maxNestingDepth < depth + 1 then .error .maxDepth
        else if (skipSpace rest).head? = some ']' then .ok (.array [], (skipSpace rest).tail)
        else
          match scanElements fuel (depth + 1) rest with
          | .ok (xs, r) => .ok (.array xs, r)
          | .error err => .error err
      else if c = '{' then
        if maxNestingDepth < depth + 1 then .error .maxDepth
        else if (skipSpace rest).head? = some '}' then .ok (.object [], (skipSpace rest).tail)
        else
          match scanMembers fuel (depth + 1) rest with
          | .ok (members, r) => .ok (.object members, r)
          | .error err => .error err
      else if c = 'n' then scanLiteral ['n', 'u', 'l', 'l'] .null (c :: rest)
      else if c = 't' then scanLiteral ['t', 'r', 'u', 'e'] (.bool true) (c :: rest)
      else if c = 'f' then scanLiteral ['f', 'a', 'l', 's', 'e'] (.bool false) (c :: rest)
      else if c = '-' ∨ c.isDigit then
        match scanNumber (c :: rest) with
        | .ok (text, r) => .ok (.number text, r)
        | .error err => .error err
      else .error .invalid
/-- The elements of an array up to its closing bracket. -/
def scanElements : Nat → Nat → List Char → Except JsonError (List Syntax × List Char)
  | 0, _, _ => .error .invalid
  | fuel + 1, depth, s =>
    match scanValue fuel depth s with
    | .error err => .error err
    | .ok (v, r) =>
      match skipSpace r with
      | [] => .error .invalid
      | c :: r' =>
        if c = ',' then
          match scanElements fuel depth r' with
          | .ok (vs, r'') => .ok (v :: vs, r'')
          | .error err => .error err
        else if c = ']' then .ok ([v], r')
        else .error .invalid
/-- The members of an object up to its closing brace, in the order of the text. -/
def scanMembers : Nat → Nat → List Char →
    Except JsonError (List (String × Syntax) × List Char)
  | 0, _, _ => .error .invalid
  | fuel + 1, depth, s =>
    match skipSpace s with
    | [] => .error .invalid
    | q :: r =>
      if q = '"' then
        match unquote r with
        | .error err => .error err
        | .ok (key, r1) =>
          match skipSpace r1 with
          | [] => .error .invalid
          | colon :: r2 =>
            if colon = ':' then
              match scanValue fuel depth r2 with
              | .error err => .error err
              | .ok (v, r3) =>
                match skipSpace r3 with
                | [] => .error .invalid
                | c :: r4 =>
                  if c = ',' then
                    match scanMembers fuel depth r4 with
                    | .ok (members, r5) => .ok ((String.mk key, v) :: members, r5)
                    | .error err => .error err
                  else if c = '}' then .ok ([(String.mk key, v)], r4)
                  else .error .invalid
            else .error .invalid
      else .error .invalid
end

/-- The check `checkValid` of `json.Unmarshal` together with the reading of the
text: one value, with nothing but white space behind it. -/
def scan (text : List Char) : Except JsonError Syntax :=
  match scanValue (text.length + 1) 0 text with
  | .error err => .error err
  | .ok (v, rest) => if skipSpace rest = [] then .ok v else .error .invalid

end json

namespace mcp

/-- The constant `MaxErrorSnippetBytes`. -/
def MaxErrorSnippetBytes : Nat := 16 * 1024

/-- The struct `APIError`. `BodySnippet` is the bytes of a Go string, which
may end in a cut character. -/
structure APIError where
  Status : Int
  Code : String
  Message : String
  RequestID : String
  BodySnippet : List Byte
deriving DecidableEq, Repr

/-- What `handleError` reads of a `*http.Response`: the status code, the
header under its canonical keys, and the bytes that reading the body delivers. -/
structure Response where
  StatusCode : Int
  Header : List (String × List String)
  Body : List Byte

/-- The method `Header.Get` for a key in canonical form: the first value
under the key, or the empty string. -/
def headerGet (h : List (String × List String)) (key : String) : String :=
  match h with
  | [] => ""
  | (k, vs) :: rest => if k = key then vs.headD "" else headerGet rest key

/-- The function `foldName` of `encoding/json`, under which a key of the text
and the JSON name of a field are compared: an ASCII lower-case letter becomes
upper case, other ASCII characters stay, and a rune outside ASCII becomes
`foldRune` of it, the least rune of its orbit under `unicode.SimpleFold`. -/
def foldName (foldRune : Char → Char) (name : String) : List Char :=
  name.toList.map (fun c =>
    if c.toNat < 128 then (if 97 ≤ c.toNat ∧ c.toNat ≤ 122 then Char.ofNat (c.toNat - 32) else c)
    else foldRune c)

/-- The decoding of a value into a field of type `string`: a string is stored,
`null` leaves the field as it is, anything else leaves it and is a type
error (the flag). -/
def decodeString (field : String) : json.Syntax → String × Bool
  | .str s => (s, false)
  | .null => (field, false)
  | _ => (field, true)

/-- The decoding of one member of an object into an `APIError`: the fields
with a JSON name are `code`, `message` and `request_id` (`Status` and
`BodySnippet` have the tag `-`); a member of another name is skipped. -/
def decodeField (foldRune : Char → Char) (e : APIError) (key : String) (v : json.Syntax) :
    APIError × Bool :=
  if foldName foldRune key = foldName foldRune "code" then
    ({ e with Code := (decodeString e.Code v).1 }, (decodeString e.Code v).2)
  else if foldName foldRune key = foldName foldRune "message" then
    ({ e with Message := (decodeString e.Message v).1 }, (decodeString e.Message v).2)
  else if foldName foldRune key = foldName foldRune "request_id" then
    ({ e with RequestID := (decodeString e.RequestID v).1 }, (decodeString e.RequestID v).2)
  else (e, false)

/-- The decoding of the members of an object into an `APIError`, in the order
of the text; the flag tells whether a type error occurred. -/
def decodeAPIError (foldRune : Char → Char) (e : APIError)
    (members : List (String × json.Syntax)) : APIError × Bool :=
  members.foldl
    (fun acc kv => ((decodeField foldRune acc.1 kv.1 kv.2).1,
      acc.2 || (decodeField foldRune acc.1 kv.1 kv.2).2))
    (e, false)

/-- The zero value of `APIError`, which the decoder allocates behind a nil
pointer. -/
def zeroAPIError : APIError :=
  { Status := 0, Code := "", Message := "", RequestID := "", BodySnippet := [] }

/-- The decoding of a value into the field `Error *APIError`: `null` sets the
pointer to nil; an object is decoded into the `APIError` behind the pointer,
allocated when the pointer is nil; any other value allocates the pointer
and is a type error. -/
def decodeErrorPointer (foldRune : Char → Char) (ptr : Option APIError) :
    json.Syntax → Option APIError × Bool
  | .null => (none, false)
  | .object members =>
    (some (decodeAPIError foldRune (ptr.getD zeroAPIError) members).1,
      (decodeAPIError foldRune (ptr.getD zeroAPIError) members).2)
  | _ => (some (ptr.getD zeroAPIError), true)

/-- The decoding of the members of the top-level object into the variable
`errWrap`, whose only field has the JSON name `error`. -/
def decodeErrWrap (foldRune : Char → Char) (members : List (String × json.Syntax)) :
    Option APIError × Bool :=
  members.foldl
    (fun acc kv =>
      if foldName foldRune kv.1 = foldName foldRune "error" then
        ((decodeErrorPointer foldRune acc.1 kv.2).1,
          acc.2 || (decodeErrorPointer foldRune acc.1 kv.2).2)
      else acc)
    (none, false)

/-- The call `json.Unmarshal(body, &errWrap)` of `handleError`: `none` when it
returns an error (the text is not valid JSON, or a value has the wrong type
for its field), and otherwise the field `errWrap.Error`, `some none` being the
nil pointer. At the top level `null` leaves `errWrap` as it is, and a value
that is neither `null` nor an object is a type error. -/
def UnmarshalErrWrap (foldRune : Char → Char) (body : List Byte) : Option (Option APIError) :=
  match json.scan (utf8.decode body) with
  | .error _ => none
  | .ok .null => some none
  | .ok (.object members) =>
    if (decodeErrWrap foldRune members).2 then none else some (decodeErrWrap foldRune members).1
  | .ok _ => none

/-- The method `handleError`. -/
def handleError (foldRune : Char → Char) (resp : Response) : APIError :=
  let apiErr : APIError :=
    { Status := resp.StatusCode, Code := "", Message := "",
      RequestID := headerGet resp.Header "X-Request-Id", BodySnippet := [] }
  let body := resp.Body.take MaxErrorSnippetBytes
  match UnmarshalErrWrap foldRune body with
  | some (some errWrapError) =>
    let apiErr := { apiErr with Code := errWrapError.Code, Message := errWrapError.Message }
    if errWrapError.RequestID ≠ "" then { apiErr with RequestID := errWrapError.RequestID }
    else apiErr
  | _ =>
    let apiErr := { apiErr with BodySnippet := body }
    if apiErr.Code = "" then
      { apiErr with Code := "http_" ++ String.mk (strconv.intText resp.StatusCode) }
    else apiErr

end mcp

/-! ## Base58 -/

open wallet in
theorem divLoop_eq (x : Nat) :
    ∀ acc, divLoop x acc = acc ++ (Nat.digits 58 x).map alphabetAt := by
  induction x using Nat.strong_induction_on with
  | _ x ih =>
    intro acc
    rw [divLoop]
    by_cases hx : 0 < x
    · rw [if_pos hx, ih _ (Nat.div_lt_self hx (by decide)), Nat.digits_def' (by decide) hx]
      simp
    · have : x = 0 := by omega
      subst this
      simp

open wallet in
theorem leadingZeros_eq (input : List Byte) : ∀ acc,
    leadingZeros input acc = acc ++ List.replicate (input.takeWhile (· = 0)).length '1' := by
  induction input with
  | nil => intro acc; simp [leadingZeros]
  | cons b rest ih =>
    intro acc
    by_cases hb : b = 0
    · simp [leadingZeros, hb, ih, List.replicate_succ, alphabetAt, base58Alphabet]
    · simp [leadingZeros, hb]

open wallet in
theorem reverseLoop_mid (n : Nat) : ∀ (mid : List Char), mid.length = n →
    ∀ (pre post : List Char),
    reverseLoop (pre ++ mid ++ post) pre.length (pre.length + mid.length - 1)
      = pre ++ mid.reverse ++ post := by
  induction n using Nat.strong_induction_on with
  | _ n ih =>
    intro mid h pre post
    rw [reverseLoop]
    match mid, h with
    | [], _ => simp
    | [a], _ => simp
    | a :: b :: rest, h =>
      obtain ⟨mid', z, hz⟩ : ∃ mid' z, b :: rest = mid' ++ [z] :=
        ⟨(b :: rest).dropLast, (b :: rest).getLast (by simp),
          (List.dropLast_append_getLast _).symm⟩
      rw [hz] at h ⊢
      have hlt : pre.length < pre.length + (a :: (mid' ++ [z])).length - 1 := by
        simp
      rw [if_pos hlt]
      have e1 : (pre ++ a :: (mid' ++ [z]) ++ post).getD
          (pre.length + (a :: (mid' ++ [z])).length - 1) '1' = z := by
        have h1 : pre.length + (a :: (mid' ++ [z])).length - 1 = (pre ++ a :: mid').length := by
          simp
        have h2 : pre ++ a :: (mid' ++ [z]) ++ post = (pre ++ a :: mid') ++ (z :: post) := by
          simp
        rw [h1, h2, List.getD_eq_getElem?_getD, List.getElem?_append_right (le_refl _)]
        simp
      have e2 : (pre ++ a :: (mid' ++ [z]) ++ post).getD pre.length '1' = a := by
        have h2 : pre ++ a :: (mid' ++ [z]) ++ post = pre ++ (a :: (mid' ++ [z] ++ post)) := by
          simp
        rw [h2, List.getD_eq_getElem?_getD, List.getElem?_append_right (le_refl _)]
        simp
      rw [e1, e2]
      have e3 : ((pre ++ a :: (mid' ++ [z]) ++ post).set pre.length z).set
          (pre.length + (a :: (mid' ++ [z])).length - 1) a
          = (pre ++ [z]) ++ mid' ++ ([a] ++ post) := by
        have h1 : pre ++ a :: (mid' ++ [z]) ++ post = pre ++ (a :: (mid' ++ [z] ++ post)) := by
          simp
        rw [h1, List.set_append_right _ _ (le_refl _)]
        simp only [Nat.sub_self, List.set_cons_zero]
        have h2 : pre ++ z :: (mid' ++ [z] ++ post) = (pre ++ z :: mid') ++ (z :: post) := by
          simp
        have h3 : pre.length + (a :: (mid' ++ [z])).length - 1 = (pre ++ z :: mid').length := by
          simp
        rw [h2, h3, List.set_append_right _ _ (le_refl _)]
        simp
      rw [e3]
      have h4 : pre.length + 1 = (pre ++ [z]).length := by simp
      have h5 : pre.length + (a :: (mid' ++ [z])).length - 1 - 1
          = (pre ++ [z]).length + mid'.length - 1 := by simp
      rw [h4, h5, ih mid'.length (by rw [← h]; simp; omega) mid' rfl]
      simp

theorem reverseLoop_eq (l : List Char) :
    wallet.reverseLoop l 0 (l.length - 1) = l.reverse := by
  have := reverseLoop_mid l.length l rfl [] []
  simpa using this

theorem SetBytes_foldl (input : List Byte) : ∀ acc : Nat,
    input.foldl (fun acc b => acc * 256 + b.val) acc
      = acc * 256 ^ input.length + Nat.ofDigits 256 (input.reverse.map Fin.val) := by
  induction input with
  | nil => intro acc; simp
  | cons b rest ih =>
    intro acc
    simp only [List.foldl_cons, ih, List.reverse_cons, List.map_append, List.map_cons,
      List.map_nil, Nat.ofDigits_append, Nat.ofDigits_singleton, List.length_map,
      List.length_reverse, List.length_cons]
    ring

theorem SetBytes_eq (input : List Byte) :
    wallet.SetBytes input = Nat.ofDigits 256 (input.reverse.map Fin.val) := by
  simp [wallet.SetBytes, SetBytes_foldl]

/-- The closed form of `EncodeBase58`, shared by the results below. -/
theorem EncodeBase58_eq (input : List Byte) :
    wallet.EncodeBase58 input =
      String.mk (List.replicate (input.takeWhile (· = 0)).length '1' ++
        (Nat.digits 58 (Nat.ofDigits 256 (input.reverse.map Fin.val))).reverse.map
          wallet.alphabetAt) := by
  simp only [wallet.EncodeBase58, reverseLoop_eq, leadingZeros_eq, divLoop_eq, SetBytes_eq]
  simp

/-- The base-58 digits of a number are below 58 and the most significant one is
not zero. -/
theorem digits58_facts (v : Nat) :
    (∀ d ∈ Nat.digits 58 v, d < 58) ∧ (Nat.digits 58 v).reverse.head? ≠ some 0 := by
  refine ⟨fun d hd => Nat.digits_lt_base (by decide) hd, ?_⟩
  intro h
  have hne : Nat.digits 58 v ≠ [] := by
    intro h0
    rw [h0] at h
    simp at h
  have hlast := Nat.getLast_digit_ne_zero 58 (m := v) (by
    intro h0
    apply hne
    rw [h0]
    simp)
  rw [List.head?_reverse, List.getLast?_eq_getLast _ hne] at h
  simp only [Option.some.injEq] at h
  exact hlast (by simpa using h)

/-- C1. `EncodeBase58 input` is one `'1'` per zero byte in front of the first
non-zero byte of `input`, followed by the base-58 digits of the big-endian
value of `input`, most significant first, each digit `d` written as the
`d`-th character of the alphabet; every digit is below 58, the first one is
not zero, and all the markers stand before the digits. -/
theorem EncodeBase58_markers_then_digits (input : List Byte) :
    wallet.EncodeBase58 input =
      String.mk (List.replicate (input.takeWhile (· = 0)).length '1' ++
        (Nat.digits 58 (Nat.ofDigits 256 (input.reverse.map Fin.val))).reverse.map
          (fun d => "123456789ABCDEFGHJKLMNPQRSTUVWXYZabcdefghijkmnopqrstuvwxyz".toList.getD d
            '1'))
    ∧ (∀ d ∈ Nat.digits 58 (Nat.ofDigits 256 (input.reverse.map Fin.val)), d < 58)
    ∧ (Nat.digits 58 (Nat.ofDigits 256 (input.reverse.map Fin.val))).reverse.head? ≠ some 0 := by
  exact ⟨EncodeBase58_eq input, digits58_facts _⟩

/-! ## Decoding base58, and the DID -/

theorem foldl_base (b : Nat) (l : List Nat) : ∀ acc : Nat,
    l.foldl (fun acc d => acc * b + d) acc = acc * b ^ l.length + Nat.ofDigits b l.reverse := by
  induction l with
  | nil => intro acc; simp
  | cons d rest ih =>
    intro acc
    simp only [List.foldl_cons, ih, List.reverse_cons, Nat.ofDigits_append,
      Nat.ofDigits_singleton, List.length_reverse, List.length_cons]
    ring

theorem alphabetIndex_alphabetAt (d : Nat) (h : d < 58) :
    wallet.alphabetIndex (wallet.alphabetAt d) = some d := by
  interval_cases d <;> rfl

theorem alphabetIndices_map (ds : List Nat) (h : ∀ d ∈ ds, d < 58) :
    wallet.alphabetIndices (ds.map wallet.alphabetAt) = some ds := by
  induction ds with
  | nil => rfl
  | cons d rest ih =>
    have h1 := alphabetIndex_alphabetAt d (h d (by simp))
    have h2 := ih (fun x hx => h x (by simp [hx]))
    simp [wallet.alphabetIndices, h1, h2]

theorem ofDigits_replicate_zero (b n : Nat) : Nat.ofDigits b (List.replicate n 0) = 0 := by
  induction n with
  | zero => simp
  | succ n ih => simp [List.replicate_succ, Nat.ofDigits_cons, ih]

theorem takeWhile_zero_append (z : Nat) (l : List Nat) (h : l.head? ≠ some 0) :
    ((List.replicate z 0 ++ l).takeWhile (· = 0)).length = z := by
  induction z with
  | zero =>
    cases l with
    | nil => simp
    | cons a t =>
      have : a ≠ 0 := by simpa using h
      simp [List.takeWhile, this]
  | succ z ih =>
    simp only [List.replicate_succ, List.cons_append, List.takeWhile, decide_True,
      List.length_cons]
    exact congrArg _ ih

theorem bytes_split (input : List Byte) :
    input = List.replicate (input.takeWhile (· = 0)).length 0 ++ input.dropWhile (· = 0) := by
  induction input with
  | nil => simp
  | cons b rest ih =>
    by_cases hb : b = 0
    · subst hb
      simp only [List.takeWhile, List.dropWhile, decide_True, List.length_cons,
        List.replicate_succ, List.cons_append]
      exact congrArg _ ih
    · simp [List.takeWhile, List.dropWhile, hb]

theorem dropWhile_head_ne_zero (input : List Byte) :
    ∀ h : input.dropWhile (· = 0) ≠ [], (input.dropWhile (· = 0)).head h ≠ 0 := by
  intro h
  have := List.head_dropWhile_not (fun b : Byte => decide (b = 0)) input h
  simpa using this

/-- The value of a byte string does not change when its leading zeros are dropped,
and its base-256 digits are the remaining bytes. -/
theorem digits_value (input : List Byte) :
    Nat.digits 256 (Nat.ofDigits 256 (input.reverse.map Fin.val))
      = ((input.dropWhile (· = 0)).reverse.map Fin.val) := by
  have hsplit := bytes_split input
  have hv : Nat.ofDigits 256 (input.reverse.map Fin.val)
      = Nat.ofDigits 256 ((input.dropWhile (· = 0)).reverse.map Fin.val) := by
    conv_lhs => rw [hsplit]
    simp only [List.reverse_append, List.map_append, List.reverse_replicate, List.map_replicate,
      Nat.ofDigits_append, Fin.val_zero, ofDigits_replicate_zero, mul_zero, add_zero]
  rw [hv]
  apply Nat.digits_ofDigits 256 (by decide)
  · intro l hl
    simp only [List.mem_map, List.mem_reverse] at hl
    obtain ⟨b, _, rfl⟩ := hl
    exact b.isLt
  · intro hne
    have hne' : input.dropWhile (· = 0) ≠ [] := by
      intro h0
      apply hne
      simp [h0]
    have hh := dropWhile_head_ne_zero input hne'
    rw [List.getLast_map, List.getLast_reverse]
    · intro h0
      apply hh
      exact Fin.ext h0

theorem Fin_ofNat_val (b : Byte) : (Fin.ofNat b.val : Byte) = b := by
  apply Fin.ext
  simp [Fin.ofNat, Nat.mod_eq_of_lt b.isLt]

/-- Decoding inverts `EncodeBase58` on every byte string. -/
theorem DecodeBase58_EncodeBase58 (input : List Byte) :
    wallet.DecodeBase58 (wallet.EncodeBase58 input) = some input := by
  obtain ⟨hlt, hhead⟩ := digits58_facts (Nat.ofDigits 256 (input.reverse.map Fin.val))
  set v := Nat.ofDigits 256 (input.reverse.map Fin.val) with hv
  set z := (input.takeWhile (· = 0)).length with hz
  have hidx : wallet.alphabetIndices (wallet.EncodeBase58 input).toList
      = some (List.replicate z 0 ++ (Nat.digits 58 v).reverse) := by
    rw [EncodeBase58_eq]
    have h1 : List.replicate z '1' = (List.replicate z 0).map wallet.alphabetAt := by
      simp only [List.map_replicate]
      rfl
    show wallet.alphabetIndices (List.replicate z '1' ++ _) = _
    rw [h1, ← List.map_append]
    apply alphabetIndices_map
    intro d hd
    simp only [List.mem_append, List.mem_replicate, List.mem_reverse] at hd
    rcases hd with ⟨_, rfl⟩ | hd
    · decide
    · exact hlt d hd
  have hval : (List.replicate z 0 ++ (Nat.digits 58 v).reverse).foldl
      (fun acc d => acc * 58 + d) 0 = v := by
    rw [foldl_base]
    simp [Nat.ofDigits_append, ofDigits_replicate_zero, Nat.ofDigits_digits]
  have hzeros : ((List.replicate z 0 ++ (Nat.digits 58 v).reverse).takeWhile (· = 0)).length
      = z := takeWhile_zero_append z _ hhead
  simp only [wallet.DecodeBase58, hidx, hval, hzeros]
  rw [hv, digits_value input]
  simp only [← List.map_reverse, List.reverse_reverse, List.map_map]
  have : (Fin.ofNat ∘ Fin.val : Byte → Byte) = id := by
    funext b
    exact Fin_ofNat_val b
  rw [this, List.map_id, hz, ← bytes_split]

/-! ## Wallet construction and verification -/

theorem demoStdlib_KeyGen : demoStdlib.KeyGen := by
  intro seed h
  refine ⟨seed ++ seed, ?_, ?_⟩
  · simp [demoStdlib, h]
    rfl
  · simp [h]

theorem crypto_FromSeed_ok (L : Stdlib) (seed priv : List Byte) (h : seed.length = 32)
    (hp : L.NewKeyFromSeed seed = .ok priv) (hlen : priv.length = 64) :
    crypto.FromSeed L seed = .ok ((priv.drop 32 ++ List.replicate 32 0).take 32, priv, none) := by
  have h32 : ¬ priv.length < 32 := by omega
  simp [crypto.FromSeed, crypto.SeedSize, h, hp, crypto.Public, h32, bind, Except.bind, pure,
    Except.pure]

theorem wallet_FromSeed_ok (L : Stdlib) (seed priv : List Byte) (name : String)
    (h : seed.length = 32) (hp : L.NewKeyFromSeed seed = .ok priv) (hlen : priv.length = 64) :
    wallet.FromSeed L seed name = .ok (some
      { privateKey := priv, publicKey := (priv.drop 32 ++ List.replicate 32 0).take 32,
        name := name }, none) := by
  simp [wallet.FromSeed, crypto.SeedSize, h, crypto_FromSeed_ok L seed priv h hp hlen, bind,
    Except.bind, pure, Except.pure]

theorem wallet_FromSeed_bad_length (L : Stdlib) (seed : List Byte) (name : String)
    (h : seed.length ≠ 32) :
    wallet.FromSeed L seed name = .ok (none, some (.talos (errors.New errors.CodeInvalidInput
      "seed must be 32 bytes" []))) := by
  simp only [wallet.FromSeed, crypto.SeedSize, ne_eq, h, not_false_eq_true, ↓reduceIte]
  rfl

/-- C6. `wallet.FromSeed seed name` returns an error exactly when `seed` is not
32 bytes long; then it returns no wallet and the text of the error contains
`32`; on a 32-byte seed it returns a wallet whose `Name()` is `name`. -/
theorem FromSeed_error_iff_length (L : Stdlib) (hL : L.KeyGen) (seed : List Byte)
    (name : String) :
    ((∃ w e, wallet.FromSeed L seed name = .ok (w, some e)) ↔ seed.length ≠ 32)
    ∧ (seed.length ≠ 32 → ∃ e, wallet.FromSeed L seed name = .ok (none, some e)
        ∧ strings.Contains e.Error "32" = true)
    ∧ (seed.length = 32 → ∃ w, wallet.FromSeed L seed name = .ok (some w, none)
        ∧ wallet.Name (some w) = .ok name) := by
  have hbad : seed.length ≠ 32 → ∃ e, wallet.FromSeed L seed name = .ok (none, some e)
      ∧ strings.Contains e.Error "32" = true := by
    intro h
    refine ⟨_, wallet_FromSeed_bad_length L seed name h, ?_⟩
    decide
  have hgood : seed.length = 32 → ∃ w, wallet.FromSeed L seed name = .ok (some w, none)
      ∧ wallet.Name (some w) = .ok name := by
    intro h
    obtain ⟨priv, hp, hlen⟩ := hL seed h
    exact ⟨_, wallet_FromSeed_ok L seed priv name h hp hlen, rfl⟩
  refine ⟨⟨?_, ?_⟩, hbad, hgood⟩
  · rintro ⟨w, e, hwe⟩ h
    obtain ⟨w', hw', _⟩ := hgood h
    rw [hw'] at hwe
    cases hwe
  · intro h
    obtain ⟨e, he, _⟩ := hbad h
    exact ⟨none, e, he⟩

theorem FromSeed_error_iff_length_witness :
    demoStdlib.KeyGen ∧
    (((∃ w e, wallet.FromSeed demoStdlib (List.replicate 31 0) "Bob" = .ok (w, some e))
        ↔ (List.replicate 31 (0 : Byte)).length ≠ 32)
    ∧ ((List.replicate 31 (0 : Byte)).length ≠ 32 →
        ∃ e, wallet.FromSeed demoStdlib (List.replicate 31 0) "Bob" = .ok (none, some e)
        ∧ strings.Contains e.Error "32" = true)
    ∧ ((List.replicate 31 (0 : Byte)).length = 32 →
        ∃ w, wallet.FromSeed demoStdlib (List.replicate 31 0) "Bob" = .ok (some w, none)
        ∧ wallet.Name (some w) = .ok "Bob")) :=
  ⟨demoStdlib_KeyGen,
    FromSeed_error_iff_length demoStdlib demoStdlib_KeyGen (List.replicate 31 0) "Bob"⟩

/-- C7. With a public key that is not 32 bytes long `wallet.Verify` returns
`false`, whatever the message and the signature; it does so for every
library, so also for one in which every call panics: the Ed25519
verification is not called and nothing panics. -/
theorem Verify_false_on_bad_key_length (L : Stdlib) (publicKey message signature : List Byte)
    (h : publicKey.length ≠ 32) :
    wallet.Verify L publicKey message signature = .ok false := by
  simp [wallet.Verify, crypto.PublicKeySize, h]
  rfl

theorem Verify_false_on_bad_key_length_witness :
    (utf8 "short key").length ≠ 32 ∧
    wallet.Verify panickingStdlib (utf8 "short key") (utf8 "data") (List.replicate 64 7)
      = .ok false :=
  ⟨by decide, Verify_false_on_bad_key_length panickingStdlib (utf8 "short key") (utf8 "data")
    (List.replicate 64 7) (by decide)⟩

/-! ## The conformance harness -/

theorem HasPrefix_verify_not_sign (s : String) (h : strings.HasPrefix s "verify_" = true) :
    (strings.HasPrefix s "sign_" || strings.HasPrefix s "invalid_seed") = false := by
  unfold strings.HasPrefix at *
  cases hs : s.toList with
  | nil => rw [hs] at h; simp [String.toList] at h
  | cons c cs =>
    rw [hs] at h
    have hc : c = 'v' := by
      simp [String.toList, List.isPrefixOf] at h
      exact h.1.symm
    subst hc
    simp [String.toList, List.isPrefixOf]

theorem runVector_of_evaluatesWithoutError (L : Stdlib) (vec : main.TestVector)
    (isNegative : Bool) (h : main.evaluatesWithoutError L vec) :
    main.runVector L vec isNegative = .ok (main.classify L vec isNegative none) := by
  rcases h with ⟨hp, he⟩ | ⟨hp, he⟩
  · have : (strings.HasPrefix vec.TestID "sign_" ||
        strings.HasPrefix vec.TestID "invalid_seed") = true := by
      rcases hp with hp | hp <;> simp [hp]
    simp only [main.runVector, this, ↓reduceIte, he]
    rfl
  · simp only [main.runVector, HasPrefix_verify_not_sign _ hp, hp, ↓reduceIte, he]
    rfl

/-- C8. A negative vector routed to signing or verification evaluation whose
evaluation returns no error, and whose `expected` map does not hold the
boolean `verify = false`, fails with the message
`expected error but operation succeeded`. -/
theorem runVector_negative_unexpected_success (L : Stdlib) (vec : main.TestVector)
    (hEval : main.evaluatesWithoutError L vec)
    (hExpected : mapIndex vec.Expected "verify" ≠ some (.bool false)) :
    ∃ e, main.runVector L vec true = .ok (some e)
      ∧ e.Error = "expected error but operation succeeded" := by
  refine ⟨.plain "expected error but operation succeeded", ?_, rfl⟩
  rw [runVector_of_evaluatesWithoutError L vec true hEval]
  simp only [main.classify, ↓reduceIte]

theorem runVector_negative_unexpected_success_witness :
    main.evaluatesWithoutError demoStdlib
      { TestID := "sign_no_seed", Inputs := [("message_utf8", .str "hi")],
        Expected := [("verify", .bool true)], ExpectedError := none }
    ∧ mapIndex [("verify", GoValue.bool true)] "verify" ≠ some (.bool false)
    ∧ ∃ e, main.runVector demoStdlib
        { TestID := "sign_no_seed", Inputs := [("message_utf8", .str "hi")],
          Expected := [("verify", .bool true)], ExpectedError := none } true = .ok (some e)
      ∧ e.Error = "expected error but operation succeeded" :=
  ⟨Or.inl ⟨Or.inl rfl, rfl⟩, by simp [mapIndex],
    runVector_negative_unexpected_success demoStdlib _ (Or.inl ⟨Or.inl rfl, rfl⟩)
      (by simp [mapIndex])⟩

/-- C9. A negative vector routed to signing or verification evaluation whose
evaluation returns no error, and whose `expected.verify` is the boolean
`false`, passes. -/
theorem runVector_negative_verify_false_passes (L : Stdlib) (vec : main.TestVector)
    (hEval : main.evaluatesWithoutError L vec)
    (hExpected : mapIndex vec.Expected "verify" = some (.bool false)) :
    main.runVector L vec true = .ok none := by
  rw [runVector_of_evaluatesWithoutError L vec true hEval]
  simp only [main.classify, ↓reduceIte, hExpected]

theorem runVector_negative_verify_false_passes_witness :
    main.evaluatesWithoutError demoStdlib tamperedVector
    ∧ mapIndex tamperedVector.Expected "verify" = some (.bool false)
    ∧ main.runVector demoStdlib tamperedVector true = .ok none :=
  ⟨Or.inr ⟨rfl, rfl⟩, rfl,
    runVector_negative_verify_false_passes demoStdlib tamperedVector (Or.inr ⟨rfl, rfl⟩) rfl⟩

/-- C10. A vector whose `test_id` starts with none of `sign_`, `invalid_seed`
and `verify_` passes at once, run as positive or as negative, whatever its
inputs, `expected` and `expected_error` are, and with a library in which
every call panics: nothing is evaluated. -/
theorem runVector_other_prefix_passes (L : Stdlib) (vec : main.TestVector) (isNegative : Bool)
    (h1 : strings.HasPrefix vec.TestID "sign_" = false)
    (h2 : strings.HasPrefix vec.TestID "invalid_seed" = false)
    (h3 : strings.HasPrefix vec.TestID "verify_" = false) :
    main.runVector L vec isNegative = .ok none := by
  simp [main.runVector, h1, h2, h3]
  rfl

theorem runVector_other_prefix_passes_witness :
    strings.HasPrefix "canonical_json_1" "sign_" = false
    ∧ strings.HasPrefix "canonical_json_1" "invalid_seed" = false
    ∧ strings.HasPrefix "canonical_json_1" "verify_" = false
    ∧ main.runVector panickingStdlib
        { TestID := "canonical_json_1", Inputs := [("seed_hex", .str "zz")],
          Expected := [("did", .str "did:key:z0")],
          ExpectedError := some { Code := "TALOS_DENIED", MessageContains := "no" } } true
      = .ok none :=
  ⟨rfl, rfl, rfl, runVector_other_prefix_passes panickingStdlib _ true rfl rfl rfl⟩


theorem wallet_FromSeed_some (L : Stdlib) (seed : List Byte) (name : String) (w : wallet.Wallet)
    (h : wallet.FromSeed L seed name = .ok (some w, none)) :
    seed.length = 32 ∧ w.publicKey.length = 32 ∧ w.name = name := by
  by_cases hlen : seed.length = 32
  · refine ⟨hlen, ?_⟩
    cases hp : L.NewKeyFromSeed seed with
    | error e =>
      simp [wallet.FromSeed, crypto.FromSeed, crypto.SeedSize, hlen, hp, bind, Except.bind] at h
    | ok priv =>
      by_cases h32 : priv.length < 32
      · simp [wallet.FromSeed, crypto.FromSeed, crypto.SeedSize, hlen, hp, crypto.Public, h32,
          bind, Except.bind, throw, throwThe, MonadExceptOf.throw] at h
      · simp only [wallet.FromSeed, crypto.FromSeed, crypto.SeedSize, hlen, hp, crypto.Public,
          h32, bind, Except.bind, pure, Except.pure, ne_eq, not_true_eq_false, ↓reduceIte,
          Except.ok.injEq, Prod.mk.injEq, Option.some.injEq, and_true] at h
        subst h
        simp
  · rw [wallet_FromSeed_bad_length L seed name hlen] at h
    simp at h

/-- C2. For a wallet `w` returned by `wallet.FromSeed`, `w.DID()` is
`did:key:z` followed by `EncodeBase58` of the 34 bytes `0xED, 0x01,
w.PublicKey()`: it starts with the nine characters `did:key:z`, and
base58-decoding what follows them gives back exactly those 34 bytes. -/
theorem DID_prefix_and_payload (L : Stdlib) (seed : List Byte) (name : String)
    (w : wallet.Wallet) (h : wallet.FromSeed L seed name = .ok (some w, none)) :
    seed.length = 32
    ∧ wallet.PublicKey (some w) = .ok w.publicKey
    ∧ wallet.DID (some w)
        = .ok ("did:key:z" ++ wallet.EncodeBase58 (0xED :: 0x01 :: w.publicKey))
    ∧ (0xED :: 0x01 :: w.publicKey).length = 34
    ∧ ∃ did, wallet.DID (some w) = .ok did
        ∧ did.toList.take 9 = "did:key:z".toList
        ∧ wallet.DecodeBase58 (String.mk (did.toList.drop 9))
            = some (0xED :: 0x01 :: w.publicKey) := by
  obtain ⟨hseed, hpk, _⟩ := wallet_FromSeed_some L seed name w h
  have hdid : wallet.DID (some w)
      = .ok ("did:key:z" ++ wallet.EncodeBase58 (0xED :: 0x01 :: w.publicKey)) := rfl
  refine ⟨hseed, rfl, hdid, by simp [hpk], _, hdid, ?_, ?_⟩
  · simp only [String.toList, String.data_append]
    rfl
  · have : String.mk (("did:key:z" ++ wallet.EncodeBase58 (0xED :: 0x01 :: w.publicKey)).toList.drop
        9) = wallet.EncodeBase58 (0xED :: 0x01 :: w.publicKey) := by
      simp only [String.toList, String.data_append]
      rfl
    rw [this, DecodeBase58_EncodeBase58]

theorem DID_prefix_and_payload_witness :
    wallet.FromSeed demoStdlib (List.replicate 32 0) "Test" = .ok (some demoWallet, none)
    ∧ wallet.DID (some demoWallet)
        = .ok ("did:key:z" ++ wallet.EncodeBase58 (0xED :: 0x01 :: demoWallet.publicKey))
    ∧ ∃ did, wallet.DID (some demoWallet) = .ok did
        ∧ did.toList.take 9 = "did:key:z".toList
        ∧ wallet.DecodeBase58 (String.mk (did.toList.drop 9))
            = some (0xED :: 0x01 :: demoWallet.publicKey) :=
  ⟨rfl, (DID_prefix_and_payload demoStdlib (List.replicate 32 0) "Test" demoWallet rfl).2.2.1,
    (DID_prefix_and_payload demoStdlib (List.replicate 32 0) "Test" demoWallet rfl).2.2.2.2⟩

/-! ## Canonical JSON: the order of the entries -/

theorem encodeElems_eq_map (xs : List GoValue) : json.encodeElems xs = xs.map json.encode := by
  induction xs with
  | nil => simp [json.encodeElems]
  | cons x xs ih => simp [json.encodeElems, ih]

theorem encodeFields_eq_map (kvs : List (String × GoValue)) :
    json.encodeFields kvs = kvs.map (fun kv => (kv.1, json.encode kv.2)) := by
  induction kvs with
  | nil => simp [json.encodeFields]
  | cons kv kvs ih =>
    obtain ⟨k, v⟩ := kv
    simp [json.encodeFields, ih]

instance keyLE_total {α : Type} :
    IsTotal (String × α) (fun a b => a.1.toList ≤ b.1.toList) :=
  ⟨fun a b => le_total a.1.toList b.1.toList⟩

instance keyLE_trans {α : Type} :
    IsTrans (String × α) (fun a b => a.1.toList ≤ b.1.toList) :=
  ⟨fun _ _ _ h1 h2 => le_trans h1 h2⟩

instance keyLT_antisymm {α : Type} :
    IsAntisymm (String × α) (fun a b => a.1.toList < b.1.toList) :=
  ⟨fun _ _ h1 h2 => absurd h1 (lt_asymm h2)⟩

theorem sortByKey_perm {α : Type} (l : List (String × α)) : (json.sortByKey l).Perm l :=
  List.perm_insertionSort _ l

theorem sortByKey_sorted {α : Type} (l : List (String × α)) :
    (json.sortByKey l).Sorted (fun a b => a.1.toList ≤ b.1.toList) :=
  List.sorted_insertionSort _ l

theorem toList_injective : Function.Injective String.toList :=
  fun _ _ h => String.toList_inj.mp h

/-- A list sorted by key whose keys are distinct is strictly sorted. -/
theorem strictly_sorted_of_nodup {α : Type} (l : List (String × α))
    (hs : l.Sorted (fun a b => a.1.toList ≤ b.1.toList)) (hn : (l.map Prod.fst).Nodup) :
    l.Sorted (fun a b => a.1.toList < b.1.toList) := by
  induction l with
  | nil => exact List.sorted_nil
  | cons a l ih =>
    rw [List.sorted_cons] at hs ⊢
    rw [List.map_cons, List.nodup_cons] at hn
    refine ⟨fun b hb => ?_, ih hs.2 hn.2⟩
    refine lt_of_le_of_ne (hs.1 b hb) ?_
    intro heq
    apply hn.1
    have : a.1 = b.1 := toList_injective heq
    rw [this]
    exact List.mem_map_of_mem _ hb

theorem sortByKey_strict {α : Type} (l : List (String × α)) (hn : (l.map Prod.fst).Nodup) :
    (json.sortByKey l).Sorted (fun a b => a.1.toList < b.1.toList) := by
  apply strictly_sorted_of_nodup _ (sortByKey_sorted l)
  exact ((sortByKey_perm l).map Prod.fst).nodup_iff.mpr hn

/-- Sorting by key does not depend on the order of the entries when the keys are distinct. -/
theorem sortByKey_eq_of_perm {α : Type} (l₁ l₂ : List (String × α)) (hp : l₁.Perm l₂)
    (hn : (l₁.map Prod.fst).Nodup) : json.sortByKey l₁ = json.sortByKey l₂ := by
  have hn₂ : (l₂.map Prod.fst).Nodup := (hp.map Prod.fst).nodup_iff.mp hn
  apply List.eq_of_perm_of_sorted (r := fun a b => a.1.toList < b.1.toList)
  · exact (sortByKey_perm l₁).trans (hp.trans (sortByKey_perm l₂).symm)
  · exact sortByKey_strict l₁ hn
  · exact sortByKey_strict l₂ hn₂

theorem allFiniteElems_iff (xs : List GoValue) :
    json.allFiniteElems xs = true ↔ ∀ x ∈ xs, json.allFinite x = true := by
  induction xs with
  | nil => simp [json.allFiniteElems]
  | cons x xs ih => simp [json.allFiniteElems, ih]

theorem allFiniteFields_iff (kvs : List (String × GoValue)) :
    json.allFiniteFields kvs = true ↔ ∀ kv ∈ kvs, json.allFinite kv.2 = true := by
  induction kvs with
  | nil => simp [json.allFiniteFields]
  | cons kv kvs ih =>
    obtain ⟨_, v⟩ := kv
    simp [json.allFiniteFields, ih]

theorem allFinite_eq_of_reordered (a b : GoValue) (h : GoValue.Reordered a b) :
    json.allFinite a = json.allFinite b := by
  induction h with
  | refl v => rfl
  | trans _ _ ih₁ ih₂ => exact ih₁.trans ih₂
  | perm hn hp =>
    rw [Bool.eq_iff_iff]
    simp only [json.allFinite, allFiniteFields_iff]
    exact ⟨fun h kv hkv => h kv (hp.mem_iff.mpr hkv), fun h kv hkv => h kv (hp.mem_iff.mp hkv)⟩
  | inMap k kvs _ ih => simp only [json.allFinite, json.allFiniteFields, ih]
  | inStruct pre post k _ ih =>
    rw [Bool.eq_iff_iff]
    simp only [json.allFinite, allFiniteFields_iff, List.mem_append, List.mem_cons]
    constructor
    · rintro h kv (hkv | rfl | hkv)
      · exact h kv (Or.inl hkv)
      · exact ih ▸ h _ (Or.inr (Or.inl rfl))
      · exact h kv (Or.inr (Or.inr hkv))
    · rintro h kv (hkv | rfl | hkv)
      · exact h kv (Or.inl hkv)
      · exact ih ▸ h _ (Or.inr (Or.inl rfl))
      · exact h kv (Or.inr (Or.inr hkv))
  | inSlice pre post _ ih =>
    rw [Bool.eq_iff_iff]
    simp only [json.allFinite, allFiniteElems_iff, List.mem_append, List.mem_cons]
    constructor
    · rintro h x (hx | rfl | hx)
      · exact h x (Or.inl hx)
      · exact ih ▸ h _ (Or.inr (Or.inl rfl))
      · exact h x (Or.inr (Or.inr hx))
    · rintro h x (hx | rfl | hx)
      · exact h x (Or.inl hx)
      · exact ih ▸ h _ (Or.inr (Or.inl rfl))
      · exact h x (Or.inr (Or.inr hx))

theorem encode_eq_of_reordered (a b : GoValue) (h : GoValue.Reordered a b) :
    json.encode a = json.encode b := by
  induction h with
  | refl v => rfl
  | trans _ _ ih₁ ih₂ => exact ih₁.trans ih₂
  | perm hn hp =>
    rename_i kvs kvs'
    simp only [json.encode, encodeFields_eq_map]
    rw [sortByKey_eq_of_perm _ _ (hp.map _) (by simpa [List.map_map] using hn)]
  | inMap k kvs _ ih => simp only [json.encode, json.encodeFields, ih]
  | inStruct pre post k _ ih =>
    simp only [json.encode, encodeFields_eq_map, List.map_append, List.map_cons, ih]
  | inSlice pre post _ ih =>
    simp only [json.encode, encodeElems_eq_map, List.map_append, List.map_cons, ih]

/-- C3. Permutation invariance: two values that differ only in the order in
which the entries of their maps are listed, at the top level or nested, have
the same `canonical.Marshal` result, byte for byte. -/
theorem Marshal_permutation_invariant (a b : GoValue) (h : GoValue.Reordered a b) :
    canonical.Marshal a = canonical.Marshal b := by
  simp only [canonical.Marshal, json.Marshal, encode_eq_of_reordered a b h,
    allFinite_eq_of_reordered a b h]

set_option exponentiation.threshold 100000 in
set_option maxRecDepth 100000 in
theorem Marshal_permutation_invariant_witness :
    GoValue.Reordered
      (.map [("n", .map [("z", .int 3), ("y", .int 2)]), ("b", .int 2), ("a", .int 1)])
      (.map [("a", .int 1), ("b", .int 2), ("n", .map [("y", .int 2), ("z", .int 3)])])
    ∧ canonical.Marshal
        (.map [("n", .map [("z", .int 3), ("y", .int 2)]), ("b", .int 2), ("a", .int 1)])
      = canonical.Marshal
        (.map [("a", .int 1), ("b", .int 2), ("n", .map [("y", .int 2), ("z", .int 3)])])
    ∧ canonical.Marshal (.map [("b", .int 2), ("a", .int 1)]) = .ok "\x7b\"a\":1,\"b\":2\x7d"
    ∧ canonical.Marshal (.map [("a", .int 1), ("b", .int 2)]) = .ok "\x7b\"a\":1,\"b\":2\x7d" :=
  have hr : GoValue.Reordered
      (.map [("n", .map [("z", .int 3), ("y", .int 2)]), ("b", .int 2), ("a", .int 1)])
      (.map [("a", .int 1), ("b", .int 2), ("n", .map [("y", .int 2), ("z", .int 3)])]) :=
    .trans
      (.inMap "n" [("b", .int 2), ("a", .int 1)]
        (.perm (by decide) (List.Perm.swap _ _ [])))
      (.perm (by decide) (List.reverse_perm (α := String × GoValue) [("a", GoValue.int 1),
        ("b", GoValue.int 2), ("n", GoValue.map [("y", GoValue.int 2), ("z", GoValue.int 3)])]))
  ⟨hr, Marshal_permutation_invariant _ _ hr, rfl, rfl⟩

/-! ## Numbers: decimal text and float64 rounding -/

theorem digitChar_spec (m : Nat) (h : m < 10) :
    (Nat.digitChar m).isDigit = true ∧ (Nat.digitChar m).toNat - 48 = m
      ∧ ((Nat.digitChar m) = '0' → m = 0) := by
  interval_cases m <;> decide

theorem digitsValue_append (ds : List Char) (c : Char) :
    strconv.digitsValue (ds ++ [c]) = strconv.digitsValue ds * 10 + (c.toNat - 48) := by
  simp [strconv.digitsValue, List.foldl_append]

/-- The digits that `Nat.toDigitsCore` puts in front of the accumulator. -/
theorem toDigitsCore_spec (fuel : Nat) : ∀ (n : Nat) (acc : List Char), n < fuel →
    ∃ pre : List Char, Nat.toDigitsCore 10 fuel n acc = pre ++ acc ∧ pre ≠ []
      ∧ (∀ c ∈ pre, c.isDigit = true) ∧ strconv.digitsValue pre = n
      ∧ (pre.head? = some '0' → pre = ['0']) := by
  induction fuel with
  | zero => intro n acc h; omega
  | succ fuel ih =>
    intro n acc hn
    obtain ⟨hd, hv, hz⟩ := digitChar_spec (n % 10) (Nat.mod_lt _ (by decide))
    by_cases h0 : n / 10 = 0
    · refine ⟨[Nat.digitChar (n % 10)], by simp [Nat.toDigitsCore, h0], by simp, ?_, ?_, ?_⟩
      · simpa using hd
      · simp only [strconv.digitsValue, List.foldl_cons, List.foldl_nil, zero_mul, zero_add, hv]
        omega
      · intro h
        simp only [List.head?_cons, Option.some.injEq] at h
        rw [h]
    · obtain ⟨pre, hpre, hne, hdig, hval, hzero⟩ :=
        ih (n / 10) (Nat.digitChar (n % 10) :: acc) (by omega)
      refine ⟨pre ++ [Nat.digitChar (n % 10)], by simp [Nat.toDigitsCore, h0, hpre], by simp,
        ?_, ?_, ?_⟩
      · intro c hc
        simp only [List.mem_append, List.mem_singleton] at hc
        rcases hc with hc | rfl
        · exact hdig c hc
        · exact hd
      · rw [digitsValue_append, hval, hv]
        omega
      · intro h
        exfalso
        have hhead : pre.head? = some '0' := by
          cases pre with
          | nil => exact absurd rfl hne
          | cons a t => simpa using h
        have := hzero hhead
        rw [this] at hval
        simp [strconv.digitsValue] at hval
        omega

/-- The decimal text of a natural number: a non-empty run of digits whose
value is the number, with a leading zero only for zero itself. -/
theorem repr_spec (n : Nat) :
    ∃ (d : Char) (ds : List Char), (Nat.repr n).toList = d :: ds
      ∧ (∀ c ∈ d :: ds, c.isDigit = true) ∧ strconv.digitsValue (d :: ds) = n
      ∧ (d = '0' → ds = []) := by
  obtain ⟨pre, hpre, hne, hdig, hval, hzero⟩ := toDigitsCore_spec (n + 1) n [] (by omega)
  cases pre with
  | nil => exact absurd rfl hne
  | cons d ds =>
    refine ⟨d, ds, ?_, hdig, hval, ?_⟩
    · simp only [List.append_nil] at hpre
      simp [Nat.repr, Nat.toDigits, hpre, String.toList, List.asString]
    · intro h0
      have := hzero (by simp [h0])
      simp only [List.cons.injEq] at this
      exact this.2

open strconv in
theorem shiftFor_lt (fuel a : Nat) (h : a < 2 ^ 53) : shiftFor fuel a = 0 := by
  cases fuel with
  | zero => rfl
  | succ fuel => rw [shiftFor]; exact if_pos h

theorem div_pow_add_eq (a j k : Nat) : a / 2 ^ (j + k) = a / 2 ^ k / 2 ^ j := by
  rw [pow_add, Nat.mul_comm, Nat.div_div_eq_div_mul]

set_option exponentiation.threshold 4096 in
open strconv in
/-- The halvings bring the number into `[2^52, 2^53)`, or leave a number below
`2^53` as it is. -/
theorem shiftFor_spec (fuel : Nat) : ∀ a : Nat, a ≤ fuel →
    a / 2 ^ shiftFor fuel a < 2 ^ 53 ∧ (2 ^ 53 ≤ a → 2 ^ 52 ≤ a / 2 ^ shiftFor fuel a) := by
  induction fuel with
  | zero =>
    intro a h
    have : a = 0 := by omega
    subst this
    simp [shiftFor]
  | succ fuel ih =>
    intro a h
    by_cases ha : a < 2 ^ 53
    · rw [shiftFor_lt _ _ ha]
      simp only [pow_zero, Nat.div_one]
      exact ⟨ha, fun h' => absurd ha (not_lt.mpr h')⟩
    · have hge : 2 ^ 53 ≤ a := not_lt.mp ha
      have hstep : ∀ K : Nat, 1 ≤ K → 2 ^ 52 * 2 ^ K ≤ a →
          a / 2 ^ (shiftFor fuel (a / 2 ^ K) + K) < 2 ^ 53
            ∧ (2 ^ 53 ≤ a → 2 ^ 52 ≤ a / 2 ^ (shiftFor fuel (a / 2 ^ K) + K)) := by
        intro K hK hbig
        have hpos : 0 < 2 ^ K := Nat.two_pow_pos K
        have h2 : (2 : Nat) ≤ 2 ^ K := by
          calc 2 = 2 ^ 1 := by norm_num
            _ ≤ 2 ^ K := Nat.pow_le_pow_right (by decide) hK
        have hlt : a / 2 ^ K < a := Nat.div_lt_self (by omega) (by omega)
        have hq : 2 ^ 52 ≤ a / 2 ^ K := (Nat.le_div_iff_mul_le hpos).mpr hbig
        obtain ⟨h1, h3⟩ := ih (a / 2 ^ K) (by omega)
        rw [div_pow_add_eq]
        refine ⟨h1, fun _ => ?_⟩
        by_cases hh : 2 ^ 53 ≤ a / 2 ^ K
        · exact h3 hh
        · rw [shiftFor_lt _ _ (not_le.mp hh)]
          simpa using hq
      rw [shiftFor, if_neg ha]
      by_cases h85 : a < 2 ^ 85
      · rw [if_pos h85]
        exact hstep 1 (le_refl 1) (by norm_num; omega)
      · rw [if_neg h85]
        by_cases h1077 : a < 2 ^ 1077
        · rw [if_pos h1077]
          refine hstep 32 (by decide) ?_
          have : (2 : Nat) ^ 52 * 2 ^ 32 ≤ 2 ^ 85 := by norm_num
          omega
        · rw [if_neg h1077]
          refine hstep 1024 (by decide) ?_
          have h1 : (2 : Nat) ^ 52 * 2 ^ 1024 = 2 ^ (52 + 1024) := (pow_add 2 52 1024).symm
          have h2 : (2 : Nat) ^ (52 + 1024) ≤ 2 ^ 1077 :=
            Nat.pow_le_pow_right (by decide) (by decide)
          omega

theorem div_pow_add (a e j : Nat) : a / 2 ^ (e + (j + 1)) ≤ a / 2 ^ e / 2 := by
  have : a / 2 ^ (e + (j + 1)) = a / 2 ^ e / 2 ^ (j + 1) := by
    rw [pow_add, Nat.div_div_eq_div_mul]
  rw [this]
  apply Nat.div_le_div_left _ (by decide)
  calc 2 = 2 ^ 1 := by norm_num
    _ ≤ 2 ^ (j + 1) := Nat.pow_le_pow_right (by decide) (by omega)

open strconv in
/-- The binary exponent is the only one that brings the number into `[2^52, 2^53)`. -/
theorem shiftFor_unique (a k : Nat) (h1 : 2 ^ 52 ≤ a / 2 ^ k) (h2 : a / 2 ^ k < 2 ^ 53)
    (ha : 2 ^ 53 ≤ a) : shiftFor a a = k := by
  obtain ⟨hlt, hge⟩ := shiftFor_spec a a (le_refl a)
  have hge := hge ha
  generalize shiftFor a a = e at hlt hge ⊢
  rcases Nat.lt_trichotomy e k with h | h | h
  · exfalso
    obtain ⟨j, rfl⟩ : ∃ j, k = e + (j + 1) := ⟨k - e - 1, by omega⟩
    have h3 := div_pow_add a e j
    omega
  · exact h
  · exfalso
    obtain ⟨j, rfl⟩ : ∃ j, e = k + (j + 1) := ⟨e - k - 1, by omega⟩
    have h3 := div_pow_add a k j
    omega

open strconv in
theorem shiftFor_le (a k : Nat) (h : a < 2 ^ (53 + k)) : shiftFor a a ≤ k := by
  by_cases ha : a < 2 ^ 53
  · rw [shiftFor_lt _ _ ha]
    exact Nat.zero_le _
  · obtain ⟨_, hge⟩ := shiftFor_spec a a (le_refl a)
    have hge := hge (not_lt.mp ha)
    by_contra hcon
    obtain ⟨j, hj⟩ : ∃ j, shiftFor a a = k + (j + 1) := ⟨shiftFor a a - k - 1, by omega⟩
    rw [hj] at hge
    have h3 := div_pow_add a k j
    have h4 : a / 2 ^ k < 2 ^ 53 := by
      rw [Nat.div_lt_iff_lt_mul (Nat.two_pow_pos k), ← pow_add]
      exact h
    omega

open strconv in
/-- The binary exponent of a number with a 53-bit mantissa. -/
theorem shiftFor_mantissa (m j : Nat) (h1 : 2 ^ 52 ≤ m) (h2 : m < 2 ^ 53) :
    shiftFor (m * 2 ^ j) (m * 2 ^ j) = j := by
  have hpos : 0 < 2 ^ j := Nat.two_pow_pos j
  have hdiv : m * 2 ^ j / 2 ^ j = m := Nat.mul_div_cancel _ hpos
  cases j with
  | zero => simpa using shiftFor_lt m m h2
  | succ j =>
    have hbig : 2 ^ 53 ≤ m * 2 ^ (j + 1) := by
      have : 2 ^ 1 ≤ 2 ^ (j + 1) := Nat.pow_le_pow_right (by decide) (by omega)
      calc 2 ^ 53 = 2 ^ 52 * 2 ^ 1 := by norm_num
        _ ≤ m * 2 ^ (j + 1) := Nat.mul_le_mul h1 this
    exact shiftFor_unique _ (j + 1) (by rw [hdiv]; exact h1) (by rw [hdiv]; exact h2) hbig

/-! ## Rounding a ratio to the nearest float64 -/

open strconv in
theorem roundRatio_def (p q : Nat) :
    roundRatio p q =
      if 2 * (p % (q * 2 ^ shiftFor (p / q) (p / q))) < q * 2 ^ shiftFor (p / q) (p / q)
          ∨ (2 * (p % (q * 2 ^ shiftFor (p / q) (p / q))) = q * 2 ^ shiftFor (p / q) (p / q)
            ∧ p / (q * 2 ^ shiftFor (p / q) (p / q)) % 2 = 0) then
        p / (q * 2 ^ shiftFor (p / q) (p / q)) * 2 ^ shiftFor (p / q) (p / q)
      else (p / (q * 2 ^ shiftFor (p / q) (p / q)) + 1) * 2 ^ shiftFor (p / q) (p / q) := rfl

open strconv in
/-- The rounding depends on the ratio only. -/
theorem roundRatio_scale (p q k : Nat) (hk : 0 < k) : roundRatio (p * k) (q * k) = roundRatio p q := by
  have hdiv : p * k / (q * k) = p / q := Nat.mul_div_mul_right p q hk
  rw [roundRatio_def, roundRatio_def, hdiv]
  generalize shiftFor (p / q) (p / q) = e
  have hd : q * k * 2 ^ e = q * 2 ^ e * k := by ring
  have hm : p * k / (q * 2 ^ e * k) = p / (q * 2 ^ e) := Nat.mul_div_mul_right p _ hk
  have hr : p * k % (q * 2 ^ e * k) = p % (q * 2 ^ e) * k := Nat.mul_mod_mul_right k p _
  rw [hd, hm, hr]
  have h1 : 2 * (p % (q * 2 ^ e) * k) < q * 2 ^ e * k ↔ 2 * (p % (q * 2 ^ e)) < q * 2 ^ e := by
    rw [← Nat.mul_assoc]
    exact Nat.mul_lt_mul_right hk
  have h2 : 2 * (p % (q * 2 ^ e) * k) = q * 2 ^ e * k ↔ 2 * (p % (q * 2 ^ e)) = q * 2 ^ e := by
    rw [← Nat.mul_assoc]
    exact Nat.mul_left_inj (Nat.pos_iff_ne_zero.mp hk)
  simp only [h1, h2]

open strconv in
/-- Two ratios of the same value round to the same float64. -/
theorem roundRatio_congr (p q p' q' : Nat) (hq : 0 < q) (hq' : 0 < q') (h : p * q' = p' * q) :
    roundRatio p q = roundRatio p' q' := by
  rw [← roundRatio_scale p q q' hq', ← roundRatio_scale p' q' q hq, h, Nat.mul_comm q q']

open strconv in
/-- A number with at most 53 significant bits is a float64. -/
theorem roundRatio_exact (m j : Nat) (hm : m < 2 ^ 53) : roundRatio (m * 2 ^ j) 1 = m * 2 ^ j := by
  have hdvd : 2 ^ shiftFor (m * 2 ^ j) (m * 2 ^ j) ∣ m * 2 ^ j := by
    by_cases ha : m * 2 ^ j < 2 ^ 53
    · rw [shiftFor_lt _ _ ha]
      simp
    · obtain ⟨_, hge⟩ := shiftFor_spec (m * 2 ^ j) (m * 2 ^ j) (le_refl _)
      have hge := hge (not_lt.mp ha)
      have hle : shiftFor (m * 2 ^ j) (m * 2 ^ j) ≤ j := by
        by_contra hcon
        obtain ⟨i, hi⟩ : ∃ i, shiftFor (m * 2 ^ j) (m * 2 ^ j) = j + (i + 1) :=
          ⟨shiftFor (m * 2 ^ j) (m * 2 ^ j) - j - 1, by omega⟩
        rw [hi] at hge
        have h3 := div_pow_add (m * 2 ^ j) j i
        rw [Nat.mul_div_cancel _ (Nat.two_pow_pos j)] at h3
        omega
      exact Dvd.dvd.mul_left (pow_dvd_pow 2 hle) m
  rw [roundRatio_def]
  simp only [Nat.div_one, Nat.one_mul]
  rw [Nat.mod_eq_zero_of_dvd hdvd, if_pos (Or.inl (by simp))]
  exact Nat.div_mul_cancel hdvd

open strconv in
theorem roundRatio_exact_le (m j : Nat) (hm : m ≤ 2 ^ 53) :
    roundRatio (m * 2 ^ j) 1 = m * 2 ^ j := by
  rcases Nat.lt_or_eq_of_le hm with h | h
  · exact roundRatio_exact m j h
  · have : m * 2 ^ j = 2 ^ 52 * 2 ^ (j + 1) := by rw [h, pow_succ]; ring
    rw [this]
    exact roundRatio_exact _ _ (by norm_num)

open strconv in
/-- The shape of a rounded ratio: a multiple of the power of two of its binary
exponent, with a mantissa of at most 53 bits. -/
theorem roundRatio_shape (p q : Nat) :
    ∃ m e, roundRatio p q = m * 2 ^ e ∧ m ≤ 2 ^ 53 ∧ e = shiftFor (p / q) (p / q)
      ∧ (p / (q * 2 ^ e) ≤ m) := by
  obtain ⟨hlt, _⟩ := shiftFor_spec (p / q) (p / q) (le_refl _)
  rw [Nat.div_div_eq_div_mul] at hlt
  rw [roundRatio_def]
  split_ifs
  · exact ⟨_, _, rfl, le_of_lt hlt, rfl, le_refl _⟩
  · exact ⟨_, _, rfl, hlt, rfl, Nat.le_succ _⟩

open strconv in
/-- Rounding twice is rounding once. -/
theorem roundRatio_idem (p q : Nat) : roundRatio (roundRatio p q) 1 = roundRatio p q := by
  obtain ⟨m, e, hm, hle, _, _⟩ := roundRatio_shape p q
  rw [hm]
  exact roundRatio_exact_le m e hle

open strconv in
/-- A ratio of at least `2 ^ j` does not round below `2 ^ j`. -/
theorem roundRatio_ge_pow (p q j : Nat) (hq : 0 < q) (h : 2 ^ j * q ≤ p) :
    2 ^ j ≤ roundRatio p q := by
  have ha : 2 ^ j ≤ p / q := (Nat.le_div_iff_mul_le hq).mpr h
  obtain ⟨m, e, hm, _, he, hfloor⟩ := roundRatio_shape p q
  rw [hm]
  have hfl : p / q / 2 ^ e ≤ m := by rwa [Nat.div_div_eq_div_mul]
  by_cases hs : p / q < 2 ^ 53
  · have : e = 0 := by rw [he]; exact shiftFor_lt _ _ hs
    subst this
    simp only [pow_zero, Nat.div_one, Nat.mul_one] at hfl ⊢
    omega
  · obtain ⟨hlt, hge⟩ := shiftFor_spec (p / q) (p / q) (le_refl _)
    have hge := hge (not_lt.mp hs)
    rw [← he] at hlt hge
    by_cases hj : j ≤ 52 + e
    · calc 2 ^ j ≤ 2 ^ (52 + e) := Nat.pow_le_pow_right (by decide) hj
        _ = 2 ^ 52 * 2 ^ e := pow_add 2 52 e
        _ ≤ m * 2 ^ e := Nat.mul_le_mul_right _ (le_trans hge hfl)
    · exfalso
      have h53 : 2 ^ (53 + e) ≤ p / q :=
        le_trans (Nat.pow_le_pow_right (by decide) (by omega)) ha
      have : 2 ^ 53 ≤ p / q / 2 ^ e := by
        rw [Nat.le_div_iff_mul_le (Nat.two_pow_pos e), ← pow_add]
        exact h53
      omega

open strconv in
/-- A ratio below `2 ^ (53 + k)` does not round above `2 ^ (53 + k)`. -/
theorem roundRatio_le_pow (p q k : Nat) (h : p / q < 2 ^ (53 + k)) :
    roundRatio p q ≤ 2 ^ (53 + k) := by
  obtain ⟨m, e, hm, hle, he, _⟩ := roundRatio_shape p q
  rw [hm]
  have hek : e ≤ k := by rw [he]; exact shiftFor_le _ k h
  calc m * 2 ^ e ≤ 2 ^ 53 * 2 ^ k :=
        Nat.mul_le_mul hle (Nat.pow_le_pow_right (by decide) hek)
    _ = 2 ^ (53 + k) := (pow_add 2 53 k).symm

/-! ## The bits of a float64 -/

theorem Float64.mantissa_lt (f : Float64) : f.mantissa < 2 ^ 53 := by
  have h := f.fraction.isLt
  unfold Float64.mantissa
  split_ifs <;> norm_num <;> omega

theorem Float64.ofNat_fraction (a : Nat) (h : a < 4503599627370496) :
    ((Fin.ofNat a : Fin 4503599627370496)).val = a := by
  show a % 4503599627370496 = a
  exact Nat.mod_eq_of_lt h

theorem Float64.ofNat_exponent (a : Nat) (h : a < 2048) : ((Fin.ofNat a : Fin 2048)).val = a := by
  show a % 2048 = a
  exact Nat.mod_eq_of_lt h

/-- A finite float64 is rounded to itself. -/
theorem roundRatio_units (f : Float64) : strconv.roundRatio f.units 1 = f.units :=
  roundRatio_exact _ _ f.mantissa_lt

/-- A finite float64 is the float64 of its sign and magnitude. -/
theorem Float64.ofUnits_units (f : Float64) (hf : f.isFinite = true) :
    Float64.ofUnits f.sign f.units = f := by
  obtain ⟨sign, exponent, fraction⟩ := f
  have hE : exponent.val < 2047 := by simpa [Float64.isFinite] using hf
  have hfr := fraction.isLt
  by_cases h0 : exponent.val = 0
  · have hu : Float64.units ⟨sign, exponent, fraction⟩ = fraction.val := by
      simp [Float64.units, Float64.mantissa, Float64.shift, h0]
    rw [hu, Float64.ofUnits, if_pos hfr]
    congr 1
    · exact Fin.ext h0.symm
    · exact Fin.ext (Float64.ofNat_fraction _ hfr)
  · have hu : Float64.units ⟨sign, exponent, fraction⟩
        = (4503599627370496 + fraction.val) * 2 ^ (exponent.val - 1) := by
      simp [Float64.units, Float64.mantissa, Float64.shift, h0]
    have hs := shiftFor_mantissa (4503599627370496 + fraction.val) (exponent.val - 1)
      (by norm_num) (by norm_num; omega)
    have hge : ¬ (4503599627370496 + fraction.val) * 2 ^ (exponent.val - 1) < 4503599627370496 := by
      have := Nat.two_pow_pos (exponent.val - 1)
      have : 4503599627370496 + fraction.val
          ≤ (4503599627370496 + fraction.val) * 2 ^ (exponent.val - 1) :=
        Nat.le_mul_of_pos_right _ this
      omega
    have hE1 : exponent.val - 1 + 1 = exponent.val := by omega
    rw [hu]
    unfold Float64.ofUnits
    rw [if_neg hge, hs, hE1, if_pos hE, Nat.mul_div_cancel _ (Nat.two_pow_pos _),
      Nat.add_sub_cancel_left]
    have h1 : (Fin.ofNat exponent.val : Fin 2048) = exponent :=
      Fin.ext (Float64.ofNat_exponent _ exponent.isLt)
    have h2 : (Fin.ofNat fraction.val : Fin 4503599627370496) = fraction :=
      Fin.ext (Float64.ofNat_fraction _ hfr)
    rw [h1, h2]

set_option exponentiation.threshold 4096 in
/-- The magnitude of the float64 built from a magnitude that is one of a
float64 and in range. -/
theorem Float64.units_ofUnits (sign : Bool) (n : Nat) (hr : strconv.roundRatio n 1 = n)
    (hlt : n < 2 ^ 2098) :
    (Float64.ofUnits sign n).units = n ∧ (Float64.ofUnits sign n).isFinite = true
      ∧ (Float64.ofUnits sign n).sign = sign := by
  by_cases h52 : n < 4503599627370496
  · rw [Float64.ofUnits, if_pos h52]
    refine ⟨?_, by simp [Float64.isFinite], rfl⟩
    simp [Float64.units, Float64.mantissa, Float64.shift, Float64.ofNat_fraction _ h52]
  · have hle : strconv.shiftFor n n ≤ 2045 := shiftFor_le n 2045 (by simpa using hlt)
    have hdvd : 2 ^ strconv.shiftFor n n ∣ n := by
      obtain ⟨m, e, hm, _, he, _⟩ := roundRatio_shape n 1
      rw [Nat.div_one] at he
      rw [hr] at hm
      rw [← he]
      exact Dvd.intro_left m hm.symm
    have hq : 4503599627370496 ≤ n / 2 ^ strconv.shiftFor n n
        ∧ n / 2 ^ strconv.shiftFor n n < 2 ^ 53 := by
      obtain ⟨hlt', hge⟩ := shiftFor_spec n n (le_refl n)
      refine ⟨?_, hlt'⟩
      by_cases h53 : n < 2 ^ 53
      · rw [shiftFor_lt _ _ h53]
        simp only [pow_zero, Nat.div_one]
        omega
      · have := hge (not_lt.mp h53)
        norm_num at this ⊢
        exact this
    rw [Float64.ofUnits, if_neg h52, if_pos (by omega)]
    refine ⟨?_, by simp [Float64.isFinite, Float64.ofNat_exponent _ (show strconv.shiftFor n n + 1 < 2048 by omega)]; omega, rfl⟩
    have hfr : n / 2 ^ strconv.shiftFor n n - 4503599627370496 < 4503599627370496 := by
      have := hq.2
      norm_num at this
      omega
    simp only [Float64.units, Float64.mantissa, Float64.shift,
      Float64.ofNat_exponent _ (show strconv.shiftFor n n + 1 < 2048 by omega),
      Float64.ofNat_fraction _ hfr, Nat.succ_ne_zero, ↓reduceIte, Nat.add_sub_cancel]
    rw [Nat.add_sub_cancel' hq.1]
    exact Nat.div_mul_cancel hdvd

/-! ## The shortest decimal -/

open strconv in
/-- The exact decimal of a finite float64 denotes the float64. -/
theorem exactDecimal_spec (f : Float64) :
    exactDecimal f * 2 ^ (1074 - decimalPlaces f) = f.units * 5 ^ decimalPlaces f := by
  unfold exactDecimal decimalPlaces Float64.units
  by_cases h : f.shift ≤ 1074
  · have h1 : f.shift - 1074 = 0 := by omega
    have h2 : 1074 - (1074 - f.shift) = f.shift := by omega
    rw [h1, h2, pow_zero]
    ring
  · have h1 : 1074 - f.shift = 0 := by omega
    have h2 : (2 : Nat) ^ f.shift = 2 ^ (f.shift - 1074) * 2 ^ 1074 := by
      rw [← pow_add]
      congr 1
      omega
    rw [h1, pow_zero, Nat.sub_zero, h2]
    ring

open strconv in
theorem exactDecimal_reads_back (f : Float64) :
    roundRatio (exactDecimal f * 2 ^ (1074 - decimalPlaces f)) (5 ^ decimalPlaces f) = f.units := by
  rw [exactDecimal_spec]
  have := roundRatio_scale f.units 1 (5 ^ decimalPlaces f) (by positivity)
  rw [Nat.one_mul] at this
  rw [this, roundRatio_units]

open strconv in
theorem shortestFrom_reads_back (n s a : Nat)
    (h : roundRatio (a * 2 ^ (1074 - s)) (5 ^ s) = n) :
    ∀ k, roundRatio (shortestFrom n s a k * 2 ^ (1074 - s)) (5 ^ s) = n := by
  intro k
  induction k with
  | zero => simpa [shortestFrom] using h
  | succ k ih =>
    simp only [shortestFrom, decide_eq_true_eq]
    split_ifs with h1 h2 h3 h4
    · exact h1.1
    · exact h1.2
    · exact h3
    · exact h4
    · exact ih

open strconv in
/-- The shortest decimal of a finite float64 reads back as that float64. -/
theorem shortestDecimal_reads_back (f : Float64) :
    roundRatio (shortestDecimal f * 2 ^ (1074 - decimalPlaces f)) (5 ^ decimalPlaces f)
      = f.units :=
  shortestFrom_reads_back _ _ _ (exactDecimal_reads_back f) _

/-! ## String literals -/

theorem char_eq_ofNat (c : Char) (n : Nat) (h : c.toNat = n) : c = Char.ofNat n := by
  rw [← h, Char.ofNat_toNat]

theorem hexVal_hexDigit (d : Nat) (h : d < 16) : json.hexVal (json.hexDigit d) = some d := by
  interval_cases d <;> rfl

theorem hex4_byte (n : Nat) (h : n < 256) :
    json.hex4 '0' '0' (json.hexDigit (n / 16)) (json.hexDigit (n % 16)) = some n := by
  have h1 := hexVal_hexDigit (n / 16) (by omega)
  have h2 := hexVal_hexDigit (n % 16) (by omega)
  have h0 : json.hexVal '0' = some 0 := rfl
  simp only [json.hex4, h0, h1, h2, Option.some.injEq]
  omega

theorem unescapeU_low (a b c d : Char) (t : List Char) (n : Nat)
    (h : json.hex4 a b c d = some n) (hn : n < 55296) :
    json.unescapeU (a :: b :: c :: d :: t) = .ok (Char.ofNat n, t) := by
  have h1 : ¬ (55296 ≤ n ∧ n < 57344) := by omega
  simp only [json.unescapeU, h, h1, ↓reduceIte]

theorem unquoteStep_u (a b c d : Char) (t : List Char) (n : Nat)
    (h : json.hex4 a b c d = some n) (hn : n < 55296) :
    json.unquoteStep ('\\' :: 'u' :: a :: b :: c :: d :: t) = .ok (Char.ofNat n, t) := by
  simp only [json.unquoteStep, ↓reduceIte, unescapeU_low a b c d t n h hn]

theorem unquoteStep_simple (e ch : Char) (t : List Char) (h : json.simpleEscape e = some ch)
    (he : e ≠ 'u') : json.unquoteStep ('\\' :: e :: t) = .ok (ch, t) := by
  simp only [json.unquoteStep, ↓reduceIte, he, h]

theorem unquoteStep_plain (c : Char) (t : List Char) (h2 : c ≠ '\\') (h3 : ¬ c.toNat < 32) :
    json.unquoteStep (c :: t) = .ok (c, t) := by
  simp only [json.unquoteStep, h2, h3, ↓reduceIte]

/-- The cases of `escapeChar`. -/
theorem escapeChar_cases (c : Char) (P : List Char → Prop)
    (hq : c = '"' → P ['\\', '"'])
    (hb : c = '\\' → P ['\\', '\\'])
    (h8 : c.toNat = 8 → P ['\\', 'b'])
    (h12 : c.toNat = 12 → P ['\\', 'f'])
    (h10 : c.toNat = 10 → P ['\\', 'n'])
    (h13 : c.toNat = 13 → P ['\\', 'r'])
    (h9 : c.toNat = 9 → P ['\\', 't'])
    (hu : c.toNat < 32 ∨ c = '<' ∨ c = '>' ∨ c = '&' →
      P ['\\', 'u', '0', '0', json.hexDigit (c.toNat / 16), json.hexDigit (c.toNat % 16)])
    (hl : c.toNat = 8232 → P ['\\', 'u', '2', '0', '2', '8'])
    (hp : c.toNat = 8233 → P ['\\', 'u', '2', '0', '2', '9'])
    (hplain : c ≠ '"' → c ≠ '\\' → ¬ c.toNat < 32 → P [c]) :
    P (json.escapeChar c) := by
  unfold json.escapeChar
  by_cases c1 : c = '"'
  · rw [if_pos c1]; exact hq c1
  rw [if_neg c1]
  by_cases c2 : c = '\\'
  · rw [if_pos c2]; exact hb c2
  rw [if_neg c2]
  by_cases c3 : c.toNat = 8
  · rw [if_pos c3]; exact h8 c3
  rw [if_neg c3]
  by_cases c4 : c.toNat = 12
  · rw [if_pos c4]; exact h12 c4
  rw [if_neg c4]
  by_cases c5 : c.toNat = 10
  · rw [if_pos c5]; exact h10 c5
  rw [if_neg c5]
  by_cases c6 : c.toNat = 13
  · rw [if_pos c6]; exact h13 c6
  rw [if_neg c6]
  by_cases c7 : c.toNat = 9
  · rw [if_pos c7]; exact h9 c7
  rw [if_neg c7]
  by_cases c8 : c.toNat < 32 ∨ c = '<' ∨ c = '>' ∨ c = '&'
  · rw [if_pos c8]; exact hu c8
  rw [if_neg c8]
  by_cases c9 : c.toNat = 8232
  · rw [if_pos c9]; exact hl c9
  rw [if_neg c9]
  by_cases c10 : c.toNat = 8233
  · rw [if_pos c10]; exact hp c10
  rw [if_neg c10]
  exact hplain c1 c2 (fun h => c8 (Or.inl h))

theorem head_backslash (l t : List Char) : (('\\' :: l) ++ t).head? ≠ some '"' := by
  simp

/-- One step of the decoder reads the text of a character back as that
character, and that text does not start with a quote. -/
theorem unquoteStep_escapeChar (c : Char) (t : List Char) :
    json.unquoteStep (json.escapeChar c ++ t) = .ok (c, t)
      ∧ (json.escapeChar c ++ t).head? ≠ some '"' := by
  apply escapeChar_cases c
    (fun e => json.unquoteStep (e ++ t) = .ok (c, t) ∧ (e ++ t).head? ≠ some '"')
  · intro h; subst h; exact ⟨unquoteStep_simple _ _ _ rfl (by decide), head_backslash _ t⟩
  · intro h; subst h; exact ⟨unquoteStep_simple _ _ _ rfl (by decide), head_backslash _ t⟩
  · intro h; rw [char_eq_ofNat c 8 h]
    exact ⟨unquoteStep_simple _ _ _ rfl (by decide), head_backslash _ t⟩
  · intro h; rw [char_eq_ofNat c 12 h]
    exact ⟨unquoteStep_simple _ _ _ rfl (by decide), head_backslash _ t⟩
  · intro h; rw [char_eq_ofNat c 10 h]
    exact ⟨unquoteStep_simple _ _ _ rfl (by decide), head_backslash _ t⟩
  · intro h; rw [char_eq_ofNat c 13 h]
    exact ⟨unquoteStep_simple _ _ _ rfl (by decide), head_backslash _ t⟩
  · intro h; rw [char_eq_ofNat c 9 h]
    exact ⟨unquoteStep_simple _ _ _ rfl (by decide), head_backslash _ t⟩
  · intro h8
    have hlt : c.toNat < 256 := by
      rcases h8 with h | h | h | h
      · omega
      · subst h; decide
      · subst h; decide
      · subst h; decide
    have := unquoteStep_u '0' '0' (json.hexDigit (c.toNat / 16)) (json.hexDigit (c.toNat % 16)) t
      c.toNat (hex4_byte _ hlt) (by omega)
    rw [Char.ofNat_toNat] at this
    exact ⟨this, head_backslash _ t⟩
  · intro h
    have := unquoteStep_u '2' '0' '2' '8' t 8232 rfl (by decide)
    rw [char_eq_ofNat c 8232 h]
    exact ⟨this, head_backslash _ t⟩
  · intro h
    have := unquoteStep_u '2' '0' '2' '9' t 8233 rfl (by decide)
    rw [char_eq_ofNat c 8233 h]
    exact ⟨this, head_backslash _ t⟩
  · intro h1 h2 h3
    refine ⟨unquoteStep_plain c t h2 h3, ?_⟩
    simpa using fun h => h1 h

theorem escapeChar_length (c : Char) : 1 ≤ (json.escapeChar c).length := by
  apply escapeChar_cases c (fun e => 1 ≤ e.length) <;> intros <;> exact Nat.le_add_left _ _

/-- The decoder reads the text of a string back as the string. -/
theorem unquoteFrom_string (s : List Char) : ∀ (fuel : Nat) (rest : List Char),
    s.length < fuel →
    json.unquoteFrom fuel (s.flatMap json.escapeChar ++ '"' :: rest) = .ok (s, rest) := by
  induction s with
  | nil =>
    intro fuel rest h
    obtain ⟨f, rfl⟩ : ∃ f, fuel = f + 1 := ⟨fuel - 1, by simp at h; omega⟩
    simp [json.unquoteFrom]
  | cons c s ih =>
    intro fuel rest h
    obtain ⟨f, rfl⟩ : ∃ f, fuel = f + 1 := ⟨fuel - 1, by simp at h; omega⟩
    obtain ⟨h1, h2⟩ := unquoteStep_escapeChar c (s.flatMap json.escapeChar ++ '"' :: rest)
    simp only [List.flatMap_cons, List.append_assoc, json.unquoteFrom, h2, ↓reduceIte, h1]
    rw [ih f rest (by simp at h; omega)]
    rfl

theorem flatMap_escapeChar_length (s : List Char) :
    s.length ≤ (s.flatMap json.escapeChar).length := by
  induction s with
  | nil => simp
  | cons c s ih =>
    have := escapeChar_length c
    simp only [List.flatMap_cons, List.length_append, List.length_cons]
    omega

/-- The decoder reads a string literal back as the string. -/
theorem unquote_string (s : List Char) (rest : List Char) :
    json.unquote (s.flatMap json.escapeChar ++ '"' :: rest) = .ok (s, rest) := by
  unfold json.unquote
  apply unquoteFrom_string
  have := flatMap_escapeChar_length s
  simp only [List.length_append, List.length_cons]
  omega

theorem encodeString_append (s : String) (rest : List Char) :
    json.encodeString s ++ rest = '"' :: (s.toList.flatMap json.escapeChar ++ '"' :: rest) := by
  simp [json.encodeString]

/-! ## Reading back what `json.Marshal` writes -/

theorem takeWhile_append_all {α : Type} (p : α → Bool) (l r : List α) (hl : ∀ x ∈ l, p x = true)
    (hr : ∀ c, r.head? = some c → p c = false) :
    (l ++ r).takeWhile p = l ∧ (l ++ r).dropWhile p = r := by
  induction l with
  | nil =>
    cases r with
    | nil => simp
    | cons c r =>
      have := hr c rfl
      simp [List.takeWhile, List.dropWhile, this]
  | cons a l ih =>
    have ha := hl a (by simp)
    obtain ⟨h1, h2⟩ := ih (fun x hx => hl x (by simp [hx]))
    simp [List.takeWhile, List.dropWhile, ha, h1, h2]

/-- What may follow a number: no digit, and no start of a fraction or exponent. -/
theorem delimited_head (rest : List Char) (h : json.Delimited rest) :
    (∀ c, rest.head? = some c → c.isDigit = false)
      ∧ rest.head? ≠ some '.' ∧ rest.head? ≠ some 'e' ∧ rest.head? ≠ some 'E'
      ∧ rest.head? ≠ some '-' := by
  rcases h with rfl | ⟨c, r, rfl, hc⟩
  · simp
  · rcases hc with rfl | rfl | rfl <;> simp

theorem isDigit_ne (c : Char) (h : c.isDigit = true) :
    c ≠ '-' ∧ c ≠ '"' ∧ c ≠ '[' ∧ c ≠ '{' ∧ c ≠ 'n' ∧ c ≠ 't' ∧ c ≠ 'f'
      ∧ json.isSpace c = false := by
  refine ⟨?_, ?_, ?_, ?_, ?_, ?_, ?_, ?_⟩ <;>
    first
    | (intro hc; subst hc; exact absurd h (by decide))
    | (simp only [json.isSpace, Bool.or_eq_false_iff, decide_eq_false_iff_not]
       refine ⟨⟨⟨?_, ?_⟩, ?_⟩, ?_⟩ <;> (intro hc; subst hc; exact absurd h (by decide)))

/-! ### The digits of a number -/

theorem digitsValue_foldl (ys : List Char) : ∀ acc : Nat,
    ys.foldl (fun acc c => acc * 10 + (c.toNat - 48)) acc
      = acc * 10 ^ ys.length + strconv.digitsValue ys := by
  induction ys with
  | nil => intro acc; simp [strconv.digitsValue]
  | cons y ys ih =>
    intro acc
    simp only [List.foldl_cons, strconv.digitsValue, List.length_cons]
    rw [ih, ih (0 * 10 + (y.toNat - 48))]
    ring

theorem digitsValue_append_list (xs ys : List Char) :
    strconv.digitsValue (xs ++ ys)
      = strconv.digitsValue xs * 10 ^ ys.length + strconv.digitsValue ys := by
  rw [strconv.digitsValue, List.foldl_append, digitsValue_foldl]
  rfl

theorem digitsValue_repr (a : Nat) : strconv.digitsValue (Nat.repr a).toList = a := by
  obtain ⟨d, ds, hrepr, _, hval, _⟩ := repr_spec a
  rw [hrepr, hval]

/-- The digits behind the point: as many as asked for, all of them digits,
with the value of the number below the power of ten. -/
theorem fracDigits_spec (count : Nat) : ∀ b : Nat,
    (strconv.fracDigits count b).length = count
      ∧ (∀ c ∈ strconv.fracDigits count b, c.isDigit = true)
      ∧ strconv.digitsValue (strconv.fracDigits count b) = b % 10 ^ count := by
  induction count with
  | zero => intro b; simp [strconv.fracDigits, strconv.digitsValue, Nat.mod_one]
  | succ count ih =>
    intro b
    obtain ⟨h1, h2, h3⟩ := ih (b / 10)
    obtain ⟨hd, hv, _⟩ := digitChar_spec (b % 10) (Nat.mod_lt _ (by decide))
    refine ⟨by simp [strconv.fracDigits, h1], ?_, ?_⟩
    · intro c hc
      simp only [strconv.fracDigits, List.mem_append, List.mem_singleton] at hc
      rcases hc with hc | rfl
      · exact h2 c hc
      · exact hd
    · rw [strconv.fracDigits, digitsValue_append, h3, hv, pow_succ', Nat.mod_mul]
      omega

/-- The digits before and behind the point of a number have the value of the number. -/
theorem digitsValue_split (d places : Nat) :
    strconv.digitsValue ((Nat.repr (d / 10 ^ places)).toList
        ++ strconv.fracDigits places (d % 10 ^ places)) = d := by
  obtain ⟨h1, _, h3⟩ := fracDigits_spec places (d % 10 ^ places)
  rw [digitsValue_append_list, digitsValue_repr, h1, h3, Nat.mod_mod]
  exact Nat.div_add_mod' d (10 ^ places)

/-- An exponent of at most five digits is read as it is. -/
theorem exponentValue_eq (ds : List Char) (h : strconv.digitsValue ds < 100000) :
    strconv.exponentValue ds = strconv.digitsValue ds := by
  induction ds using List.reverseRecOn with
  | nil => rfl
  | append_singleton init c ih =>
    rw [digitsValue_append] at h
    have hinit : strconv.digitsValue init < 10000 := by omega
    have := ih (by omega)
    rw [strconv.exponentValue, List.foldl_append, List.foldl_cons, List.foldl_nil] at *
    rw [digitsValue_append]
    rw [show List.foldl (fun e c => if e < 10000 then e * 10 + (c.toNat - 48) else e) 0 init
      = strconv.digitsValue init from this, if_pos hinit]

/-! ### The parts of the text of a number -/

theorem lexFraction_some (frac tail : List Char) (hne : frac ≠ [])
    (hdig : ∀ c ∈ frac, c.isDigit = true)
    (htail : ∀ c, tail.head? = some c → c.isDigit = false) :
    json.lexFraction ('.' :: (frac ++ tail)) = .ok (frac, tail) := by
  obtain ⟨h1, h2⟩ := takeWhile_append_all Char.isDigit frac tail hdig htail
  simp only [json.lexFraction, List.head?_cons, List.tail_cons, ↓reduceIte, h1, h2, hne]

theorem lexFraction_none (tail : List Char) (h : tail.head? ≠ some '.') :
    json.lexFraction tail = .ok ([], tail) := by
  simp only [json.lexFraction, h, ↓reduceIte]

theorem lexExponent_some (neg : Bool) (ds rest : List Char) (hne : ds ≠ [])
    (hdig : ∀ c ∈ ds, c.isDigit = true)
    (hrest : ∀ c, rest.head? = some c → c.isDigit = false) :
    json.lexExponent ('e' :: (if neg then '-' else '+') :: (ds ++ rest))
      = .ok (some (neg, ds), rest) := by
  obtain ⟨h1, h2⟩ := takeWhile_append_all Char.isDigit ds rest hdig hrest
  cases neg <;>
    simp [json.lexExponent, h1, h2, hne]

theorem lexExponent_none (rest : List Char) (h1 : rest.head? ≠ some 'e')
    (h2 : rest.head? ≠ some 'E') : json.lexExponent rest = .ok (none, rest) := by
  simp only [json.lexExponent, h1, h2, or_self, ↓reduceIte]

/-- The text of the exponent of a number, in front of what may follow a value. -/
theorem exponentText_head (exponent : Option (Bool × List Char)) (rest : List Char)
    (hrest : json.Delimited rest) :
    (∀ c, (strconv.exponentText exponent ++ rest).head? = some c → c.isDigit = false)
    ∧ (strconv.exponentText exponent ++ rest).head? ≠ some '.' := by
  obtain ⟨hd1, hd2, _, _, _⟩ := delimited_head rest hrest
  cases exponent with
  | none => exact ⟨by simpa [strconv.exponentText] using hd1,
      by simpa [strconv.exponentText] using hd2⟩
  | some e =>
    obtain ⟨neg, ds⟩ := e
    refine ⟨?_, by simp [strconv.exponentText]⟩
    intro c hc
    simp only [strconv.exponentText, List.cons_append, List.head?_cons,
      Option.some.injEq] at hc
    subst hc
    decide

/-- The grammar of JSON reads the text of the parts of a number back as these
parts, in front of any text that may follow a value: the digits before the
point are the decimal text of a number, the ones behind it are digits, and the
exponent is the decimal text of a number. -/
theorem lexNumber_text (t : strconv.NumberText) (rest : List Char) (a : Nat)
    (hint : t.intDigits = (Nat.repr a).toList)
    (hfrac : ∀ c ∈ t.fracDigits, c.isDigit = true)
    (hexp : t.exponent = none ∨ ∃ neg b, t.exponent = some (neg, (Nat.repr b).toList))
    (hrest : json.Delimited rest) :
    json.lexNumber (t.text ++ rest) = .ok (t, rest) := by
  obtain ⟨negative, intDigits, fracDigits, exponent⟩ := t
  simp only at hint hfrac hexp
  subst hint
  obtain ⟨d, ds, hrepr, hdig, _, hzero⟩ := repr_spec a
  obtain ⟨hd1, hd2, hd3, hd4, _⟩ := delimited_head rest hrest
  obtain ⟨he1, he2⟩ := exponentText_head exponent rest hrest
  have hexpLex : json.lexExponent (strconv.exponentText exponent ++ rest)
      = .ok (exponent, rest) := by
    rcases hexp with rfl | ⟨neg, b, rfl⟩
    · simpa [strconv.exponentText] using lexExponent_none rest hd3 hd4
    · obtain ⟨d', ds', hrepr', hdig', _, _⟩ := repr_spec b
      have := lexExponent_some neg (Nat.repr b).toList rest (by rw [hrepr']; simp)
        (by rw [hrepr']; exact hdig') hd1
      simpa [strconv.exponentText] using this
  have htext : strconv.NumberText.text
        { negative := negative, intDigits := (Nat.repr a).toList, fracDigits := fracDigits,
          exponent := exponent } ++ rest
      = (if negative then ['-'] else []) ++ (d :: ds)
          ++ (strconv.fractionText fracDigits ++ (strconv.exponentText exponent ++ rest)) := by
    rw [strconv.NumberText.text, hrepr]
    simp only [List.append_assoc]
  generalize strconv.exponentText exponent ++ rest = tail2 at he1 he2 hexpLex htext
  have hfracLex : json.lexFraction (strconv.fractionText fracDigits ++ tail2)
      = .ok (fracDigits, tail2) := by
    by_cases hf : fracDigits = []
    · subst hf
      simpa [strconv.fractionText] using lexFraction_none tail2 he2
    · rw [strconv.fractionText, if_neg hf]
      exact lexFraction_some fracDigits tail2 hf hfrac he1
  have htail1 : ∀ c, (strconv.fractionText fracDigits ++ tail2).head? = some c →
      c.isDigit = false := by
    by_cases hf : fracDigits = []
    · subst hf
      simpa [strconv.fractionText] using he1
    · rw [strconv.fractionText, if_neg hf]
      intro c hc
      simp only [List.cons_append, List.head?_cons, Option.some.injEq] at hc
      subst hc
      decide
  generalize strconv.fractionText fracDigits ++ tail2 = tail1 at htext hfracLex htail1
  obtain ⟨htake, hdrop⟩ := takeWhile_append_all Char.isDigit ds tail1
    (fun c hc => hdig c (List.mem_cons_of_mem _ hc)) htail1
  have hd : d.isDigit = true := hdig d (List.mem_cons_self _ _)
  have hdne : d ≠ '-' := (isDigit_ne d hd).1
  have hs2 : (if d = '0' then ds ++ tail1 else (ds ++ tail1).dropWhile Char.isDigit) = tail1 := by
    by_cases h0 : d = '0'
    · rw [if_pos h0, hzero h0, List.nil_append]
    · rw [if_neg h0, hdrop]
  have hi : (if d = '0' then [d] else d :: (ds ++ tail1).takeWhile Char.isDigit) = d :: ds := by
    by_cases h0 : d = '0'
    · rw [if_pos h0, hzero h0]
    · rw [if_neg h0, htake]
  rw [htext, hrepr]
  cases negative with
  | true =>
    simp only [↓reduceIte, List.cons_append, List.nil_append, List.singleton_append,
      List.append_assoc, json.lexNumber, List.head?_cons, List.tail_cons, hd, Bool.true_eq_false,
      hs2, hfracLex, hexpLex, hi, decide_True]
  | false =>
    simp only [Bool.false_eq_true, ↓reduceIte, List.nil_append, List.cons_append,
      List.append_assoc, json.lexNumber, List.head?_cons, Option.some.injEq, hdne, hd,
      hs2, hfracLex, hexpLex, hi, decide_False, Bool.true_eq_false]

/-! ### The text of a float64 is read back -/

/-- What is left of a number without its trailing zeros. -/
theorem stripZeros_spec (fuel : Nat) : ∀ d z : Nat,
    (strconv.stripZeros fuel d z).1 * 10 ^ ((strconv.stripZeros fuel d z).2 - z) = d
      ∧ z ≤ (strconv.stripZeros fuel d z).2
      ∧ (d ≠ 0 → (strconv.stripZeros fuel d z).1 ≠ 0)
      ∧ (d ≠ 0 → d ≤ fuel → (strconv.stripZeros fuel d z).1 % 10 ≠ 0) := by
  induction fuel with
  | zero =>
    intro d z
    refine ⟨by simp [strconv.stripZeros], by simp [strconv.stripZeros],
      by simp [strconv.stripZeros], ?_⟩
    intro h0 hle
    omega
  | succ fuel ih =>
    intro d z
    by_cases h : d % 10 = 0 ∧ d ≠ 0
    · obtain ⟨h1, h2, h3, h4⟩ := ih (d / 10) (z + 1)
      have hd10 : d / 10 ≠ 0 := by omega
      rw [strconv.stripZeros, if_pos h]
      refine ⟨?_, by omega, fun _ => h3 hd10, fun _ hle => h4 hd10 (by omega)⟩
      have he : (strconv.stripZeros fuel (d / 10) (z + 1)).2 - z
          = ((strconv.stripZeros fuel (d / 10) (z + 1)).2 - (z + 1)) + 1 := by omega
      rw [he, pow_succ, ← Nat.mul_assoc, h1]
      omega
    · rw [strconv.stripZeros, if_neg h]
      refine ⟨by simp, le_refl _, fun h0 => h0, fun h0 _ => ?_⟩
      intro h10
      exact h ⟨h10, h0⟩

/-- The number of digits of a positive number. -/
theorem digitCount_spec (fuel : Nat) : ∀ n : Nat, 1 ≤ n → n ≤ fuel →
    10 ^ (strconv.digitCount fuel n - 1) ≤ n ∧ 1 ≤ strconv.digitCount fuel n := by
  induction fuel with
  | zero => intro n h1 h2; omega
  | succ fuel ih =>
    intro n h1 h2
    by_cases h : n < 10
    · rw [strconv.digitCount, if_pos h]
      exact ⟨by simpa using h1, le_refl 1⟩
    · obtain ⟨h3, h4⟩ := ih (n / 10) (by omega) (by omega)
      rw [strconv.digitCount, if_neg h]
      refine ⟨?_, by omega⟩
      have he : strconv.digitCount fuel (n / 10) + 1 - 1
          = (strconv.digitCount fuel (n / 10) - 1) + 1 := by omega
      rw [he, pow_succ]
      omega

open strconv in
theorem shortestFrom_le (n s a : Nat) : ∀ k, shortestFrom n s a k ≤ a + 10 ^ k := by
  intro k
  induction k with
  | zero => simp [shortestFrom]
  | succ k ih =>
    have hlo : a / 10 ^ (k + 1) * 10 ^ (k + 1) ≤ a := Nat.div_mul_le_self a _
    have hk : 10 ^ k ≤ 10 ^ (k + 1) := Nat.pow_le_pow_right (by decide) (Nat.le_succ k)
    simp only [shortestFrom]
    split_ifs <;> omega

open strconv in
theorem shortestFrom_ne_zero (n s a : Nat) (hn : n ≠ 0)
    (h : roundRatio (a * 2 ^ (1074 - s)) (5 ^ s) = n) : ∀ k, shortestFrom n s a k ≠ 0 := by
  intro k h0
  have := shortestFrom_reads_back n s a h k
  rw [h0, Nat.zero_mul] at this
  have hz : roundRatio 0 (5 ^ s) = 0 := by
    rw [roundRatio_def]
    simp
  rw [hz] at this
  exact hn this.symm

set_option exponentiation.threshold 4096 in
open strconv in
/-- The exact decimal of a finite float64 has at most 800 digits. -/
theorem exactDecimal_lt (f : Float64) (hf : f.isFinite = true) : exactDecimal f < 10 ^ 800 := by
  have hm := f.mantissa_lt
  have hE : f.exponent.val < 2047 := by simpa [Float64.isFinite] using hf
  unfold exactDecimal
  by_cases h : f.shift ≤ 1074
  · have h1 : f.shift - 1074 = 0 := by omega
    have h5 : 5 ^ (1074 - f.shift) ≤ 5 ^ 1074 := Nat.pow_le_pow_right (by decide) (by omega)
    rw [h1, pow_zero, Nat.mul_one]
    calc f.mantissa * 5 ^ (1074 - f.shift) ≤ f.mantissa * 5 ^ 1074 := Nat.mul_le_mul_left _ h5
      _ < 2 ^ 53 * 5 ^ 1074 := Nat.mul_lt_mul_of_pos_right hm (by positivity)
      _ < 10 ^ 800 := by decide
  · have h1 : 1074 - f.shift = 0 := by omega
    have hs : f.shift - 1074 ≤ 972 := by
      unfold Float64.shift
      omega
    have h2 : 2 ^ (f.shift - 1074) ≤ 2 ^ 972 := Nat.pow_le_pow_right (by decide) hs
    rw [h1, pow_zero, Nat.mul_one]
    calc f.mantissa * 2 ^ (f.shift - 1074) ≤ f.mantissa * 2 ^ 972 := Nat.mul_le_mul_left _ h2
      _ < 2 ^ 53 * 2 ^ 972 := Nat.mul_lt_mul_of_pos_right hm (by positivity)
      _ < 10 ^ 800 := by decide

open strconv in
theorem exactDecimal_pos (f : Float64) (h : f.units ≠ 0) : 1 ≤ exactDecimal f := by
  have hm : f.mantissa ≠ 0 := by
    intro h0
    apply h
    rw [Float64.units, h0, Nat.zero_mul]
  unfold exactDecimal
  have h1 : 0 < 2 ^ (f.shift - 1074) := Nat.two_pow_pos _
  have h2 : 0 < 5 ^ (1074 - f.shift) := by positivity
  exact Nat.mul_pos (Nat.mul_pos (Nat.pos_of_ne_zero hm) h1) h2

set_option exponentiation.threshold 4096 in
open strconv in
/-- The shortest decimal of a finite float64 that is not zero: it is not zero
and has at most 801 digits. -/
theorem shortestDecimal_bounds (f : Float64) (hf : f.isFinite = true) (h : f.units ≠ 0) :
    shortestDecimal f ≠ 0 ∧ shortestDecimal f < 10 ^ 801 := by
  refine ⟨shortestFrom_ne_zero _ _ _ h (exactDecimal_reads_back f) _, ?_⟩
  have h1 := shortestFrom_le f.units (decimalPlaces f) (exactDecimal f)
    (digitCount (exactDecimal f) (exactDecimal f) - 1)
  have h2 := (digitCount_spec (exactDecimal f) (exactDecimal f) (exactDecimal_pos f h)
    (le_refl _)).1
  have h3 := exactDecimal_lt f hf
  have h4 : (10 : Nat) ^ 801 = 10 * 10 ^ 800 := by rw [pow_succ']
  unfold shortestDecimal
  omega

theorem decimalPlaces_le (f : Float64) : strconv.decimalPlaces f ≤ 1074 := by
  unfold strconv.decimalPlaces
  omega

open strconv in
/-- The float64 that `ParseFloat` returns for the decimal `d * 10 ^ (z - s)`. -/
theorem decimalToFloat_shortest (neg : Bool) (d z s : Nat) (x : Int) (hx : x = (z : Int) - s)
    (hs : s ≤ 1074) :
    decimalToFloat neg d x
      = Float64.ofUnits neg (roundRatio (d * 10 ^ z * 2 ^ (1074 - s)) (5 ^ s)) := by
  have h5 : 0 < 5 ^ s := by positivity
  have h2s : (2 : Nat) ^ 1074 = 2 ^ s * 2 ^ (1074 - s) := by
    rw [← pow_add, Nat.add_sub_cancel' hs]
  have h10s : (10 : Nat) ^ s = 2 ^ s * 5 ^ s := by
    rw [← Nat.mul_pow]
  by_cases hzs : s ≤ z
  · have hx' : x = ((z - s : Nat) : Int) := by omega
    have h10z : (10 : Nat) ^ z = 10 ^ (z - s) * 10 ^ s := by
      rw [← pow_add, Nat.sub_add_cancel hzs]
    have hr : roundRatio (d * 10 ^ (z - s) * 2 ^ 1074) 1
        = roundRatio (d * 10 ^ z * 2 ^ (1074 - s)) (5 ^ s) := by
      apply roundRatio_congr _ _ _ _ Nat.one_pos h5
      rw [h10z, h10s, h2s]
      ring
    rw [decimalToFloat, if_pos (by omega), hx', Int.toNat_ofNat, hr]
  · have hx' : -x = ((s - z : Nat) : Int) := by omega
    have h10 : (10 : Nat) ^ s = 10 ^ z * 10 ^ (s - z) := by
      rw [← pow_add, Nat.add_sub_cancel' (by omega : z ≤ s)]
    have hr : roundRatio (d * 2 ^ 1074) (10 ^ (s - z))
        = roundRatio (d * 10 ^ z * 2 ^ (1074 - s)) (5 ^ s) := by
      apply roundRatio_congr _ _ _ _ (by positivity) h5
      have : d * 2 ^ 1074 * 5 ^ s = d * (2 ^ s * 5 ^ s) * 2 ^ (1074 - s) := by
        rw [h2s]
        ring
      rw [this, ← h10s, h10]
      ring
    rw [decimalToFloat, if_neg (by omega), hx', Int.toNat_ofNat, hr]

open strconv in
/-- The parts without an exponent are read as the decimal of their digits. -/
theorem parseParts_plain (neg : Bool) (d places : Nat) :
    parseParts
        { negative := neg, intDigits := (Nat.repr (d / 10 ^ places)).toList,
          fracDigits := fracDigits places (d % 10 ^ places), exponent := none }
      = decimalToFloat neg d (-(places : Int)) := by
  simp only [parseParts, digitsValue_split, (fracDigits_spec places _).1]
  congr 1
  omega

open strconv in
/-- The parts with an exponent are read as the decimal of their digits. -/
theorem parseParts_exponent (neg eneg : Bool) (d places b : Nat) (hb : b < 100000) :
    parseParts
        { negative := neg, intDigits := (Nat.repr (d / 10 ^ places)).toList,
          fracDigits := fracDigits places (d % 10 ^ places),
          exponent := some (eneg, (Nat.repr b).toList) }
      = decimalToFloat neg d ((if eneg then -(b : Int) else (b : Int)) - (places : Int)) := by
  have he : exponentValue (Nat.repr b).toList = b := by
    rw [exponentValue_eq _ (by rw [digitsValue_repr]; exact hb), digitsValue_repr]
  simp only [parseParts, digitsValue_split, (fracDigits_spec places _).1, he]

open strconv in
theorem parseParts_integer (neg : Bool) (a : Nat) :
    parseParts
        { negative := neg, intDigits := (Nat.repr a).toList, fracDigits := [],
          exponent := none }
      = decimalToFloat neg a 0 := by
  simp only [parseParts, List.append_nil, digitsValue_repr, List.length_nil]
  rfl

set_option exponentiation.threshold 4096 in
open strconv in
/-- `ParseFloat` reads the parts of the text of a finite float64 as that float64. -/
theorem parseParts_floatParts (f : Float64) (hf : f.isFinite = true) :
    parseParts (floatParts f) = f := by
  by_cases h0 : f.units = 0
  · have hp : floatParts f
        = { negative := f.sign, intDigits := (Nat.repr 0).toList, fracDigits := [],
            exponent := none } := by
      rw [floatParts, if_pos h0]
      rfl
    rw [hp, parseParts_integer, decimalToFloat_shortest f.sign 0 0 0 0 (by simp) (by decide)]
    have hz : roundRatio (0 * 10 ^ 0 * 2 ^ (1074 - 0)) (5 ^ 0) = 0 := by
      rw [roundRatio_def]
      simp
    rw [hz, ← h0]
    exact Float64.ofUnits_units f hf
  · obtain ⟨hc0, hclt⟩ := shortestDecimal_bounds f hf h0
    have hback := shortestDecimal_reads_back f
    obtain ⟨hstrip, _, hd0, _⟩ := stripZeros_spec (shortestDecimal f) (shortestDecimal f) 0
    have hd0 := hd0 hc0
    rw [Nat.sub_zero] at hstrip
    have hs := decimalPlaces_le f
    have hgoal : ∀ x : Int,
        x = ((stripZeros (shortestDecimal f) (shortestDecimal f) 0).2 : Int) - decimalPlaces f →
        decimalToFloat f.sign (stripZeros (shortestDecimal f) (shortestDecimal f) 0).1 x = f := by
      intro x hx
      rw [decimalToFloat_shortest f.sign _ _ _ x hx hs, hstrip, hback]
      exact Float64.ofUnits_units f hf
    generalize hD : (stripZeros (shortestDecimal f) (shortestDecimal f) 0).1 = d
      at hstrip hd0 hgoal
    generalize hZ : (stripZeros (shortestDecimal f) (shortestDecimal f) 0).2 = z
      at hstrip hgoal
    have hfp : floatParts f =
        (if f.units < smallCutoff ∨ largeCutoff ≤ f.units then
          { negative := f.sign,
            intDigits := (Nat.repr (d / 10 ^ (digitCount d d - 1))).toList,
            fracDigits := fracDigits (digitCount d d - 1) (d % 10 ^ (digitCount d d - 1)),
            exponent :=
              if decimalPlaces f ≤ z + (digitCount d d - 1) then
                some (false, (Nat.repr (z + (digitCount d d - 1) - decimalPlaces f)).toList)
              else some (true, (Nat.repr (decimalPlaces f - (z + (digitCount d d - 1)))).toList) }
        else if decimalPlaces f ≤ z then
          { negative := f.sign,
            intDigits := (Nat.repr (d * 10 ^ (z - decimalPlaces f))).toList, fracDigits := [],
            exponent := none }
        else
          { negative := f.sign,
            intDigits := (Nat.repr (d / 10 ^ (decimalPlaces f - z))).toList,
            fracDigits := fracDigits (decimalPlaces f - z) (d % 10 ^ (decimalPlaces f - z)),
            exponent := none }) := by
      rw [floatParts, if_neg h0]
      simp only [hD, hZ]
    rw [hfp]
    split_ifs with hfmt hexp hplain
    · -- the exponent form, the exponent not negative
      have hplaces : 10 ^ (digitCount d d - 1) ≤ d :=
        (digitCount_spec d d (Nat.pos_of_ne_zero hd0) (le_refl _)).1
      have hb : z + (digitCount d d - 1) < 100000 := by
        have h1 : 10 ^ (z + (digitCount d d - 1)) ≤ shortestDecimal f := by
          rw [← hstrip, pow_add, Nat.mul_comm]
          exact Nat.mul_le_mul_right _ hplaces
        have h2 : 10 ^ (z + (digitCount d d - 1)) < 10 ^ 801 := lt_of_le_of_lt h1 hclt
        have := (Nat.pow_lt_pow_iff_right (by decide : 1 < 10)).mp h2
        omega
      rw [parseParts_exponent _ _ _ _ _ (by omega)]
      exact hgoal _ (by simp only [Bool.false_eq_true, ↓reduceIte]; omega)
    · rw [parseParts_exponent _ _ _ _ _ (by omega)]
      exact hgoal _ (by simp only [↓reduceIte]; omega)
    · rw [parseParts_integer, decimalToFloat_shortest f.sign (d * 10 ^ (z - decimalPlaces f))
        (decimalPlaces f) (decimalPlaces f) 0 (by simp) hs]
      have : d * 10 ^ (z - decimalPlaces f) * 10 ^ decimalPlaces f = d * 10 ^ z := by
        rw [Nat.mul_assoc, ← pow_add]
        congr 2
        omega
      rw [this, hstrip, hback]
      exact Float64.ofUnits_units f hf
    · rw [parseParts_plain]
      exact hgoal _ (by omega)

open strconv in
/-- The parts of the text of a finite float64 are written as the grammar of
JSON reads them. -/
theorem floatParts_shape (f : Float64) :
    (∃ a, (floatParts f).intDigits = (Nat.repr a).toList)
      ∧ (∀ c ∈ (floatParts f).fracDigits, c.isDigit = true)
      ∧ ((floatParts f).exponent = none
          ∨ ∃ neg b, (floatParts f).exponent = some (neg, (Nat.repr b).toList))
      ∧ (floatParts f).negative = f.sign := by
  unfold floatParts
  simp only
  split_ifs
  · exact ⟨⟨0, rfl⟩, by simp, Or.inl rfl, rfl⟩
  · exact ⟨⟨_, rfl⟩, (fracDigits_spec _ _).2.1, Or.inr ⟨_, _, rfl⟩, rfl⟩
  · exact ⟨⟨_, rfl⟩, (fracDigits_spec _ _).2.1, Or.inr ⟨_, _, rfl⟩, rfl⟩
  · exact ⟨⟨_, rfl⟩, by simp, Or.inl rfl, rfl⟩
  · exact ⟨⟨_, rfl⟩, (fracDigits_spec _ _).2.1, Or.inl rfl, rfl⟩

/-- The decoder reads the text of a finite `float64` as that float64. -/
theorem parseNumber_floatText (f : Float64) (rest : List Char) (hf : f.isFinite = true)
    (hrest : json.Delimited rest) :
    json.parseNumber (strconv.floatText f ++ rest) = .ok (.float64 f, rest) := by
  obtain ⟨⟨a, hint⟩, hfrac, hexp, _⟩ := floatParts_shape f
  rw [strconv.floatText, if_pos hf, json.parseNumber,
    lexNumber_text (strconv.floatParts f) rest a hint hfrac hexp hrest]
  simp only [parseParts_floatParts f hf, hf, ↓reduceIte]

theorem intText_eq_text (n : Int) :
    strconv.intText n
      = strconv.NumberText.text
          { negative := decide (n < 0), intDigits := (Nat.repr n.natAbs).toList,
            fracDigits := [], exponent := none } := by
  by_cases h : n < 0 <;>
    simp [strconv.intText, strconv.NumberText.text, strconv.fractionText, strconv.exponentText, h]

set_option exponentiation.threshold 4096 in
/-- The float64 nearest to an integer of 64 bits is finite. -/
theorem float64OfInt_finite (n : Int) (h : n.natAbs < 2 ^ 64) :
    (json.float64OfInt n).isFinite = true := by
  have hr : strconv.roundRatio (n.natAbs * 2 ^ 1074) 1 ≤ 2 ^ (53 + 1085) := by
    apply roundRatio_le_pow
    rw [Nat.div_one]
    calc n.natAbs * 2 ^ 1074 < 2 ^ 64 * 2 ^ 1074 :=
          Nat.mul_lt_mul_of_pos_right h (Nat.two_pow_pos _)
      _ = 2 ^ (53 + 1085) := by rw [← pow_add]
  have hlt : strconv.roundRatio (n.natAbs * 2 ^ 1074) 1 < 2 ^ 2098 :=
    lt_of_le_of_lt hr (Nat.pow_lt_pow_right (by decide) (by decide))
  unfold json.float64OfInt strconv.decimalToFloat
  simp only [le_refl, ↓reduceIte, Int.toNat_zero, pow_zero, Nat.mul_one]
  exact (Float64.units_ofUnits _ _ (roundRatio_idem _ _) hlt).2.1

/-- The decoder reads the text of an `int` as the nearest float64. -/
theorem parseNumber_intText (n : Int) (rest : List Char)
    (hn : (json.float64OfInt n).isFinite = true) (hrest : json.Delimited rest) :
    json.parseNumber (strconv.intText n ++ rest)
      = .ok (.float64 (json.float64OfInt n), rest) := by
  rw [intText_eq_text, json.parseNumber,
    lexNumber_text _ rest n.natAbs rfl (by simp) (Or.inl rfl) hrest]
  simp only [parseParts_integer]
  have : strconv.decimalToFloat (decide (n < 0)) n.natAbs 0 = json.float64OfInt n := rfl
  rw [this, hn]
  rfl

/-- The text of a number starts with a minus sign or a digit. -/
theorem repr_head (a : Nat) : ∃ d ds, (Nat.repr a).toList = d :: ds ∧ d.isDigit = true := by
  obtain ⟨d, ds, hrepr, hdig, _, _⟩ := repr_spec a
  exact ⟨d, ds, hrepr, hdig d (by simp)⟩

theorem intText_head (n : Int) :
    ∃ c t, strconv.intText n = c :: t ∧ (c = '-' ∨ c.isDigit = true) := by
  obtain ⟨d, ds, hrepr, hd⟩ := repr_head n.natAbs
  by_cases h : n < 0
  · exact ⟨'-', _, by rw [strconv.intText, if_pos h], Or.inl rfl⟩
  · exact ⟨d, ds, by rw [strconv.intText, if_neg h, hrepr], Or.inr hd⟩

/-- The text of a finite float64 starts with a minus sign or a digit. -/
theorem floatText_head_finite (f : Float64) (hf : f.isFinite = true) :
    ∃ c t, strconv.floatText f = c :: t ∧ (c = '-' ∨ c.isDigit = true) := by
  rw [strconv.floatText, if_pos hf]
  obtain ⟨⟨a, hint⟩, _, _, _⟩ := floatParts_shape f
  obtain ⟨d, ds, hrepr, hd⟩ := repr_head a
  by_cases hneg : (strconv.floatParts f).negative = true
  · exact ⟨'-', _, by rw [strconv.NumberText.text, if_pos hneg]; rfl, Or.inl rfl⟩
  · refine ⟨d, ds ++ strconv.fractionText (strconv.floatParts f).fracDigits
      ++ strconv.exponentText (strconv.floatParts f).exponent, ?_, Or.inr hd⟩
    rw [strconv.NumberText.text, if_neg hneg, hint, hrepr]
    simp

theorem floatText_head (f : Float64) :
    ∃ c t, strconv.floatText f = c :: t
      ∧ (c = '-' ∨ c.isDigit = true ∨ c = '+' ∨ c = 'N') := by
  unfold strconv.floatText
  split_ifs with hf hnan hsign
  · obtain ⟨⟨a, hint⟩, _, _, _⟩ := floatParts_shape f
    obtain ⟨d, ds, hrepr, hd⟩ := repr_head a
    by_cases hneg : (strconv.floatParts f).negative = true
    · exact ⟨'-', _, by rw [strconv.NumberText.text, if_pos hneg]; rfl, Or.inl rfl⟩
    · refine ⟨d, ds ++ strconv.fractionText (strconv.floatParts f).fracDigits
        ++ strconv.exponentText (strconv.floatParts f).exponent, ?_, Or.inr (Or.inl hd)⟩
      rw [strconv.NumberText.text, if_neg hneg, hint, hrepr]
      simp
  · exact ⟨'N', _, rfl, Or.inr (Or.inr (Or.inr rfl))⟩
  · exact ⟨'-', _, rfl, Or.inl rfl⟩
  · exact ⟨'+', _, rfl, Or.inr (Or.inr (Or.inl rfl))⟩

/-- The decoder on a text that starts with a minus sign or a digit. -/
theorem parseValue_number (fuel depth : Nat) (c : Char) (t : List Char)
    (hc : c = '-' ∨ c.isDigit = true) :
    json.parseValue (fuel + 1) depth (c :: t) = json.parseNumber (c :: t) := by
  have hfacts : c ≠ '"' ∧ c ≠ '[' ∧ c ≠ '{' ∧ c ≠ 'n' ∧ c ≠ 't' ∧ c ≠ 'f'
      ∧ json.isSpace c = false := by
    rcases hc with rfl | hd
    · decide
    · have := isDigit_ne c hd
      exact ⟨this.2.1, this.2.2.1, this.2.2.2.1, this.2.2.2.2.1, this.2.2.2.2.2.1,
        this.2.2.2.2.2.2.1, this.2.2.2.2.2.2.2⟩
  obtain ⟨h1, h2, h3, h4, h5, h6, h7⟩ := hfacts
  have hc' : c = '-' ∨ c.isDigit = true := hc
  simp only [json.parseValue, json.skipSpace, h7, Bool.false_eq_true, ↓reduceIte, h1, h2, h3, h4,
    h5, h6, hc']

/-! ## Induction on values -/

mutual
theorem GoValue.induct_value {P : GoValue → Prop} (hnull : P .null) (hbool : ∀ b, P (.bool b))
    (hint : ∀ n, P (.int n)) (hfloat : ∀ m, P (.float64 m)) (hstr : ∀ s, P (.str s))
    (hslice : ∀ xs, (∀ x ∈ xs, P x) → P (.slice xs))
    (hmap : ∀ kvs, (∀ kv ∈ kvs, P kv.2) → P (.map kvs))
    (hstruct : ∀ fields, (∀ kv ∈ fields, P kv.2) → P (.struct fields)) :
    (v : GoValue) → P v
  | .null => hnull
  | .bool b => hbool b
  | .int n => hint n
  | .float64 m => hfloat m
  | .str s => hstr s
  | .slice xs =>
    hslice xs (GoValue.induct_elems hnull hbool hint hfloat hstr hslice hmap hstruct xs)
  | .map kvs =>
    hmap kvs (GoValue.induct_fields hnull hbool hint hfloat hstr hslice hmap hstruct kvs)
  | .struct fields =>
    hstruct fields
      (GoValue.induct_fields hnull hbool hint hfloat hstr hslice hmap hstruct fields)
theorem GoValue.induct_elems {P : GoValue → Prop} (hnull : P .null) (hbool : ∀ b, P (.bool b))
    (hint : ∀ n, P (.int n)) (hfloat : ∀ m, P (.float64 m)) (hstr : ∀ s, P (.str s))
    (hslice : ∀ xs, (∀ x ∈ xs, P x) → P (.slice xs))
    (hmap : ∀ kvs, (∀ kv ∈ kvs, P kv.2) → P (.map kvs))
    (hstruct : ∀ fields, (∀ kv ∈ fields, P kv.2) → P (.struct fields)) :
    (xs : List GoValue) → ∀ x ∈ xs, P x
  | [] => fun _ h => absurd h (List.not_mem_nil _)
  | y :: ys => fun x h =>
    (List.mem_cons.mp h).elim
      (fun e => e ▸ GoValue.induct_value hnull hbool hint hfloat hstr hslice hmap hstruct y)
      (fun h' => GoValue.induct_elems hnull hbool hint hfloat hstr hslice hmap hstruct ys x h')
theorem GoValue.induct_fields {P : GoValue → Prop} (hnull : P .null) (hbool : ∀ b, P (.bool b))
    (hint : ∀ n, P (.int n)) (hfloat : ∀ m, P (.float64 m)) (hstr : ∀ s, P (.str s))
    (hslice : ∀ xs, (∀ x ∈ xs, P x) → P (.slice xs))
    (hmap : ∀ kvs, (∀ kv ∈ kvs, P kv.2) → P (.map kvs))
    (hstruct : ∀ fields, (∀ kv ∈ fields, P kv.2) → P (.struct fields)) :
    (kvs : List (String × GoValue)) → ∀ kv ∈ kvs, P kv.2
  | [] => fun _ h => absurd h (List.not_mem_nil _)
  | (_, v) :: rest => fun kv h =>
    (List.mem_cons.mp h).elim
      (fun e => e ▸ GoValue.induct_value hnull hbool hint hfloat hstr hslice hmap hstruct v)
      (fun h' =>
        GoValue.induct_fields hnull hbool hint hfloat hstr hslice hmap hstruct rest kv h')
end

/-! ## The lists of a value, element by element -/

theorem genericElems_eq_map (xs : List GoValue) : json.genericElems xs = xs.map json.generic := by
  induction xs with
  | nil => simp [json.genericElems]
  | cons x xs ih => simp [json.genericElems, ih]

theorem genericFields_eq_map (kvs : List (String × GoValue)) :
    json.genericFields kvs = kvs.map (fun kv => (kv.1, json.generic kv.2)) := by
  induction kvs with
  | nil => simp [json.genericFields]
  | cons kv kvs ih =>
    obtain ⟨k, v⟩ := kv
    simp [json.genericFields, ih]

theorem wellFormedElems_iff (xs : List GoValue) :
    GoValue.WellFormedElems xs ↔ ∀ x ∈ xs, x.WellFormed := by
  induction xs with
  | nil => simp [GoValue.WellFormedElems]
  | cons x xs ih => simp [GoValue.WellFormedElems, ih]

theorem wellFormedFields_iff (kvs : List (String × GoValue)) :
    GoValue.WellFormedFields kvs ↔ ∀ kv ∈ kvs, kv.2.WellFormed := by
  induction kvs with
  | nil => simp [GoValue.WellFormedFields]
  | cons kv kvs ih =>
    obtain ⟨_, v⟩ := kv
    simp [GoValue.WellFormedFields, ih]

theorem printable_slice (xs : List GoValue) :
    (GoValue.slice xs).Printable ↔ ∀ x ∈ xs, x.Printable := by
  simp only [GoValue.Printable, GoValue.WellFormed, json.allFinite, wellFormedElems_iff,
    allFiniteElems_iff]
  exact ⟨fun h x hx => ⟨h.1 x hx, h.2 x hx⟩, fun h => ⟨fun x hx => (h x hx).1,
    fun x hx => (h x hx).2⟩⟩

theorem printable_map (kvs : List (String × GoValue)) :
    (GoValue.map kvs).Printable ↔ (kvs.map Prod.fst).Nodup ∧ ∀ kv ∈ kvs, kv.2.Printable := by
  simp only [GoValue.Printable, GoValue.WellFormed, json.allFinite, wellFormedFields_iff,
    allFiniteFields_iff]
  exact ⟨fun h => ⟨h.1.1, fun x hx => ⟨h.1.2 x hx, h.2 x hx⟩⟩,
    fun h => ⟨⟨h.1, fun x hx => (h.2 x hx).1⟩, fun x hx => (h.2 x hx).2⟩⟩

theorem printable_struct (fields : List (String × GoValue)) :
    (GoValue.struct fields).Printable
      ↔ (fields.map Prod.fst).Nodup ∧ ∀ kv ∈ fields, kv.2.Printable := by
  simp only [GoValue.Printable, GoValue.WellFormed, json.allFinite, wellFormedFields_iff,
    allFiniteFields_iff]
  exact ⟨fun h => ⟨h.1.1, fun x hx => ⟨h.1.2 x hx, h.2 x hx⟩⟩,
    fun h => ⟨⟨h.1, fun x hx => (h.2 x hx).1⟩, fun x hx => (h.2 x hx).2⟩⟩

/-- The float64 nearest to an `int` is finite. -/
theorem printable_int (n : Int) (h : (GoValue.int n).Printable) :
    (json.float64OfInt n).isFinite = true := by
  have h1 := h.1
  rw [GoValue.WellFormed] at h1
  exact float64OfInt_finite n (by omega)

theorem printable_float64 (f : Float64) (h : (GoValue.float64 f).Printable) :
    f.isFinite = true := by
  have h2 := h.2
  rw [json.allFinite] at h2
  exact h2

theorem depth_le_depthElems (xs : List GoValue) : ∀ x ∈ xs, x.depth ≤ GoValue.depthElems xs := by
  induction xs with
  | nil => simp
  | cons y ys ih =>
    intro x hx
    simp only [GoValue.depthElems]
    rcases List.mem_cons.mp hx with rfl | h
    · exact le_max_left _ _
    · exact le_trans (ih x h) (le_max_right _ _)

theorem depth_le_depthFields (kvs : List (String × GoValue)) :
    ∀ kv ∈ kvs, kv.2.depth ≤ GoValue.depthFields kvs := by
  induction kvs with
  | nil => simp
  | cons y ys ih =>
    obtain ⟨_, v⟩ := y
    intro x hx
    simp only [GoValue.depthFields]
    rcases List.mem_cons.mp hx with rfl | h
    · exact le_max_left _ _
    · exact le_trans (ih x h) (le_max_right _ _)

theorem depthElems_le_iff (xs : List GoValue) (n : Nat) :
    GoValue.depthElems xs ≤ n ↔ ∀ x ∈ xs, x.depth ≤ n := by
  induction xs with
  | nil => simp [GoValue.depthElems]
  | cons x xs ih => simp [GoValue.depthElems, ih]

theorem depthFields_le_iff (kvs : List (String × GoValue)) (n : Nat) :
    GoValue.depthFields kvs ≤ n ↔ ∀ kv ∈ kvs, kv.2.depth ≤ n := by
  induction kvs with
  | nil => simp [GoValue.depthFields]
  | cons kv kvs ih =>
    obtain ⟨_, v⟩ := kv
    simp [GoValue.depthFields, ih]

/-! ## Sorting and the map of the decoder -/

theorem orderedInsert_map_snd {α β : Type} (f : α → β) (a : String × α) (l : List (String × α)) :
    List.orderedInsert (fun a b : String × β => a.1.toList ≤ b.1.toList) (a.1, f a.2)
        (l.map (fun kv => (kv.1, f kv.2)))
      = (List.orderedInsert (fun a b : String × α => a.1.toList ≤ b.1.toList) a l).map
          (fun kv => (kv.1, f kv.2)) := by
  induction l with
  | nil => simp
  | cons b l ih =>
    simp only [List.map_cons, List.orderedInsert]
    by_cases h : a.1.toList ≤ b.1.toList
    · rw [if_pos h, if_pos h]
      rfl
    · rw [if_neg h, if_neg h, List.map_cons, ← ih]

/-- Sorting by key and a change of the values commute. -/
theorem sortByKey_map_snd {α β : Type} (f : α → β) (l : List (String × α)) :
    json.sortByKey (l.map (fun kv => (kv.1, f kv.2)))
      = (json.sortByKey l).map (fun kv => (kv.1, f kv.2)) := by
  induction l with
  | nil => simp [json.sortByKey]
  | cons a l ih =>
    simp only [json.sortByKey, List.map_cons, List.insertionSort] at ih ⊢
    rw [ih, orderedInsert_map_snd]

theorem mapAssign_new (m : List (String × GoValue)) (k : String) (v : GoValue)
    (h : k ∉ m.map Prod.fst) : mapAssign m k v = m ++ [(k, v)] := by
  induction m with
  | nil => rfl
  | cons a m ih =>
    obtain ⟨k', w⟩ := a
    simp only [List.map_cons, List.mem_cons, not_or] at h
    have hne : ¬ k' = k := fun e => h.1 e.symm
    simp [mapAssign, hne, ih h.2]

theorem foldl_mapAssign (l : List (String × GoValue)) : ∀ acc : List (String × GoValue),
    ((acc ++ l).map Prod.fst).Nodup →
    l.foldl (fun m kv => mapAssign m kv.1 kv.2) acc = acc ++ l := by
  induction l with
  | nil => intro acc _; simp
  | cons a l ih =>
    intro acc h
    have hnew : a.1 ∉ acc.map Prod.fst := by
      simp only [List.map_append, List.map_cons] at h
      have := (List.nodup_append.mp h).2.2
      intro hmem
      exact this hmem (by simp)
    simp only [List.foldl_cons]
    rw [mapAssign_new acc a.1 a.2 hnew, ih _ (by simpa using h)]
    simp

/-- The decoder keeps the members of an object whose keys are distinct as they are. -/
theorem buildMap_nodup (l : List (String × GoValue)) (h : (l.map Prod.fst).Nodup) :
    json.buildMap l = l := by
  have := foldl_mapAssign l [] (by simpa using h)
  simpa [json.buildMap] using this

/-! ## The first character of a text -/

theorem encode_head (v : GoValue) :
    ∃ c t, json.encode v = c :: t ∧ json.isSpace c = false ∧ c ≠ ']' ∧ c ≠ '}' := by
  cases v with
  | null => exact ⟨'n', _, rfl, by decide, by decide, by decide⟩
  | bool b =>
    cases b
    · exact ⟨'f', _, rfl, by decide, by decide, by decide⟩
    · exact ⟨'t', _, rfl, by decide, by decide, by decide⟩
  | int n =>
    obtain ⟨c, t, h, hc⟩ := intText_head n
    refine ⟨c, t, by simpa [json.encode] using h, ?_⟩
    rcases hc with rfl | hd
    · decide
    · refine ⟨(isDigit_ne c hd).2.2.2.2.2.2.2, ?_, ?_⟩ <;>
        (intro e; subst e; exact absurd hd (by decide))
  | float64 m =>
    obtain ⟨c, t, h, hc⟩ := floatText_head m
    refine ⟨c, t, by simpa [json.encode] using h, ?_⟩
    rcases hc with rfl | hd | rfl | rfl
    · decide
    · refine ⟨(isDigit_ne c hd).2.2.2.2.2.2.2, ?_, ?_⟩ <;>
        (intro e; subst e; exact absurd hd (by decide))
    · decide
    · decide
  | str s => exact ⟨'"', _, rfl, by decide, by decide, by decide⟩
  | slice xs => exact ⟨'[', _, by rw [json.encode], by decide, by decide, by decide⟩
  | map kvs => exact ⟨'{', _, by rw [json.encode], by decide, by decide, by decide⟩
  | struct fields => exact ⟨'{', _, by rw [json.encode], by decide, by decide, by decide⟩

theorem skipSpace_cons (c : Char) (t : List Char) (h : json.isSpace c = false) :
    json.skipSpace (c :: t) = c :: t := by
  simp [json.skipSpace, h]

theorem joinComma_cons (x : List Char) (l : List (List Char)) (h : l ≠ []) :
    json.joinComma (x :: l) = x ++ ',' :: json.joinComma l := by
  cases l with
  | nil => exact absurd rfl h
  | cons y l => rfl

theorem joinComma_head (c : Char) (t : List Char) (l : List (List Char)) :
    ∃ t', json.joinComma ((c :: t) :: l) = c :: t' := by
  cases l with
  | nil => exact ⟨t, rfl⟩
  | cons y l => exact ⟨t ++ ',' :: json.joinComma (y :: l), rfl⟩

theorem delimited_comma (r : List Char) : json.Delimited (',' :: r) :=
  Or.inr ⟨',', r, rfl, Or.inl rfl⟩

theorem delimited_bracket (r : List Char) : json.Delimited (']' :: r) :=
  Or.inr ⟨']', r, rfl, Or.inr (Or.inl rfl)⟩

theorem delimited_brace (r : List Char) : json.Delimited ('}' :: r) :=
  Or.inr ⟨'}', r, rfl, Or.inr (Or.inr rfl)⟩

/-! ## Arrays and objects -/

/-- The decoder reads the elements of an array back when it reads each of them back. -/
theorem parseElements_reads (xs : List GoValue) (hne : xs ≠ [])
    (hall : ∀ x ∈ xs, json.ReadsBack x) :
    ∀ (fuel depth : Nat) (rest : List Char),
      (json.joinComma (xs.map json.encode)).length + 1 ≤ fuel →
      (∀ x ∈ xs, depth + x.depth ≤ json.maxNestingDepth) →
      json.parseElements fuel depth (json.joinComma (xs.map json.encode) ++ ']' :: rest)
        = .ok (xs.map json.generic, rest) := by
  induction xs with
  | nil => exact absurd rfl hne
  | cons x l ih =>
    intro fuel depth rest hfuel hdepth
    obtain ⟨f, rfl⟩ : ∃ f, fuel = f + 1 := ⟨fuel - 1, by omega⟩
    have hx := hall x (by simp)
    by_cases hl : l = []
    · subst hl
      simp only [List.map_cons, List.map_nil, json.joinComma] at hfuel ⊢
      have := hx f depth (']' :: rest) (by omega) (hdepth x (by simp)) (delimited_bracket rest)
      simp only [json.parseElements, this, skipSpace_cons ']' rest (by decide)]
      simp
    · have hne' : l.map json.encode ≠ [] := by simpa using hl
      simp only [List.map_cons, joinComma_cons _ _ hne', List.append_assoc, List.cons_append,
        List.length_append, List.length_cons] at hfuel ⊢
      have h1 := hx f depth (',' :: (json.joinComma (l.map json.encode) ++ ']' :: rest))
        (by omega) (hdepth x (by simp)) (delimited_comma _)
      have h2 := ih hl (fun y hy => hall y (by simp [hy])) f depth rest (by omega)
        (fun y hy => hdepth y (by simp [hy]))
      simp only [json.parseElements, h1, skipSpace_cons ',' _ (by decide), h2]
      simp

theorem member_append (k : String) (text tail : List Char) :
    json.member (k, text) ++ tail
      = '"' :: (k.toList.flatMap json.escapeChar ++ '"' :: (':' :: (text ++ tail))) := by
  simp [json.member, json.encodeString]

theorem member_length (k : String) (text : List Char) :
    text.length + 3 ≤ (json.member (k, text)).length := by
  simp [json.member, json.encodeString]

/-- The decoder reads the members of an object back when it reads each value back. -/
theorem parseMembers_reads (fs : List (String × GoValue)) (hne : fs ≠ [])
    (hall : ∀ kv ∈ fs, json.ReadsBack kv.2) :
    ∀ (fuel depth : Nat) (rest : List Char),
      (json.joinComma (fs.map (fun kv => json.member (kv.1, json.encode kv.2)))).length + 1
        ≤ fuel →
      (∀ kv ∈ fs, depth + kv.2.depth ≤ json.maxNestingDepth) →
      json.parseMembers fuel depth
          (json.joinComma (fs.map (fun kv => json.member (kv.1, json.encode kv.2)))
            ++ '}' :: rest)
        = .ok (fs.map (fun kv => (kv.1, json.generic kv.2)), rest) := by
  induction fs with
  | nil => exact absurd rfl hne
  | cons kv l ih =>
    intro fuel depth rest hfuel hdepth
    obtain ⟨f, rfl⟩ : ∃ f, fuel = f + 1 := ⟨fuel - 1, by omega⟩
    obtain ⟨k, v⟩ := kv
    have hv : json.ReadsBack v := hall (k, v) (by simp)
    have hmk : String.mk k.toList = k := rfl
    have hlen := member_length k (json.encode v)
    by_cases hl : l = []
    · subst hl
      simp only [List.map_cons, List.map_nil, json.joinComma] at hfuel ⊢
      have h1 := hv f depth ('}' :: rest) (by omega) (hdepth (k, v) (by simp))
        (delimited_brace rest)
      rw [member_append]
      simp only [json.parseMembers, skipSpace_cons '"' _ (by decide), ↓reduceIte,
        unquote_string, skipSpace_cons ':' _ (by decide), h1,
        skipSpace_cons '}' rest (by decide), hmk]
      simp
    · have hne' : l.map (fun kv => json.member (kv.1, json.encode kv.2)) ≠ [] := by
        simpa using hl
      simp only [List.map_cons, joinComma_cons _ _ hne', List.append_assoc, List.cons_append,
        List.length_append, List.length_cons] at hfuel ⊢
      have h1 := hv f depth
        (',' :: (json.joinComma (l.map (fun kv => json.member (kv.1, json.encode kv.2)))
          ++ '}' :: rest))
        (by omega) (hdepth (k, v) (by simp)) (delimited_comma _)
      have h2 := ih hl (fun y hy => hall y (by simp [hy])) f depth rest (by omega)
        (fun y hy => hdepth y (by simp [hy]))
      rw [member_append]
      simp only [json.parseMembers, skipSpace_cons '"' _ (by decide), ↓reduceIte,
        unquote_string, skipSpace_cons ':' _ (by decide), h1,
        skipSpace_cons ',' _ (by decide), h2, hmk]

/-! ## Every value is read back -/

theorem readsBack_null : json.ReadsBack .null := by
  intro fuel depth rest hfuel _ _
  obtain ⟨f, rfl⟩ : ∃ f, fuel = f + 1 := ⟨fuel - 1, by simp [json.encode] at hfuel; omega⟩
  simp [json.encode, json.parseValue, json.skipSpace, json.isSpace, json.parseLiteral,
    json.generic, List.isPrefixOf]

theorem readsBack_bool (b : Bool) : json.ReadsBack (.bool b) := by
  intro fuel depth rest hfuel _ _
  cases b
  · obtain ⟨f, rfl⟩ : ∃ f, fuel = f + 1 := ⟨fuel - 1, by simp [json.encode] at hfuel; omega⟩
    simp [json.encode, json.parseValue, json.skipSpace, json.isSpace, json.parseLiteral,
      json.generic, List.isPrefixOf]
  · obtain ⟨f, rfl⟩ : ∃ f, fuel = f + 1 := ⟨fuel - 1, by simp [json.encode] at hfuel; omega⟩
    simp [json.encode, json.parseValue, json.skipSpace, json.isSpace, json.parseLiteral,
      json.generic, List.isPrefixOf]

theorem readsBack_int (n : Int) (h : (GoValue.int n).Printable) : json.ReadsBack (.int n) := by
  intro fuel depth rest hfuel _ hrest
  obtain ⟨c, t, hct, hc⟩ := intText_head n
  have henc : json.encode (.int n) = strconv.intText n := by rw [json.encode]
  obtain ⟨f, rfl⟩ : ∃ f, fuel = f + 1 :=
    ⟨fuel - 1, by rw [henc, hct] at hfuel; simp at hfuel; omega⟩
  have hgen : json.generic (.int n) = .float64 (json.float64OfInt n) := by rw [json.generic]
  rw [henc, hgen, ← parseNumber_intText n rest (printable_int n h) hrest, hct, List.cons_append]
  exact parseValue_number f depth c (t ++ rest) hc

theorem readsBack_float64 (m : Float64) (h : (GoValue.float64 m).Printable) :
    json.ReadsBack (.float64 m) := by
  intro fuel depth rest hfuel _ hrest
  obtain ⟨c, t, hct, hc⟩ := floatText_head_finite m (printable_float64 m h)
  have henc : json.encode (.float64 m) = strconv.floatText m := by rw [json.encode]
  obtain ⟨f, rfl⟩ : ∃ f, fuel = f + 1 :=
    ⟨fuel - 1, by rw [henc, hct] at hfuel; simp at hfuel; omega⟩
  have hgen : json.generic (.float64 m) = .float64 m := by rw [json.generic]
  rw [henc, hgen, ← parseNumber_floatText m rest (printable_float64 m h) hrest, hct,
    List.cons_append]
  exact parseValue_number f depth c (t ++ rest) hc

theorem readsBack_str (s : String) : json.ReadsBack (.str s) := by
  intro fuel depth rest hfuel _ _
  have henc : json.encode (.str s) = json.encodeString s := by rw [json.encode]
  obtain ⟨f, rfl⟩ : ∃ f, fuel = f + 1 :=
    ⟨fuel - 1, by rw [henc] at hfuel; simp [json.encodeString] at hfuel; omega⟩
  have hgen : json.generic (.str s) = .str s := by rw [json.generic]
  have hmk : String.mk s.toList = s := rfl
  rw [henc, hgen, encodeString_append]
  simp only [json.parseValue, skipSpace_cons '"' _ (by decide), ↓reduceIte, unquote_string, hmk]

theorem readsBack_slice (xs : List GoValue) (ih : ∀ x ∈ xs, x.Printable → json.ReadsBack x)
    (h : (GoValue.slice xs).Printable) : json.ReadsBack (.slice xs) := by
  intro fuel depth rest hfuel hdepth _
  have hwf : ∀ x ∈ xs, x.Printable := (printable_slice xs).mp h
  have henc : json.encode (.slice xs) = '[' :: (json.joinComma (xs.map json.encode) ++ [']']) := by
    rw [json.encode, encodeElems_eq_map]
  have hgen : json.generic (.slice xs) = .slice (xs.map json.generic) := by
    rw [json.generic, genericElems_eq_map]
  have hd : GoValue.depth (.slice xs) = GoValue.depthElems xs + 1 := by rw [GoValue.depth]
  rw [hd] at hdepth
  rw [henc] at hfuel
  obtain ⟨f, rfl⟩ : ∃ f, fuel = f + 1 := ⟨fuel - 1, by simp at hfuel; omega⟩
  have hmax : ¬ json.maxNestingDepth < depth + 1 := by omega
  rw [henc, hgen]
  by_cases hxs : xs = []
  · subst hxs
    simp [json.parseValue, json.skipSpace, json.isSpace, hmax, json.joinComma]
  · obtain ⟨x, l, rfl⟩ : ∃ x l, xs = x :: l := List.exists_cons_of_ne_nil hxs
    obtain ⟨c, t, hct, hsp, hc1, _⟩ := encode_head x
    have hhead : ¬ (json.skipSpace (json.joinComma ((x :: l).map json.encode)
        ++ ']' :: rest)).head? = some ']' := by
      obtain ⟨t', ht'⟩ := joinComma_head c t (l.map json.encode)
      rw [List.map_cons, hct, ht', List.cons_append, skipSpace_cons c _ hsp]
      simpa using hc1
    have hread := parseElements_reads (x :: l) hxs (fun y hy => ih y hy (hwf y hy)) f (depth + 1)
      rest (by simp at hfuel ⊢; omega)
      (fun y hy => by
        have := depth_le_depthElems (x :: l) y hy
        omega)
    generalize json.joinComma ((x :: l).map json.encode) = J at hhead hread
    generalize (x :: l).map json.generic = G at hread
    simp only [List.cons_append, List.append_assoc, List.singleton_append, List.nil_append]
    simp only [json.parseValue, skipSpace_cons '[' _ (by decide), ↓reduceIte, hmax]
    rw [if_neg hhead, hread, if_neg (by decide)]

/-- The decoder reads an object back whose members are written in the order
of `fs`, when the keys are distinct and it reads each value back. -/
theorem parseValue_object (fs : List (String × GoValue)) (hnodup : (fs.map Prod.fst).Nodup)
    (hall : ∀ kv ∈ fs, json.ReadsBack kv.2) (f depth : Nat) (rest : List Char)
    (hfuel : (json.joinComma (fs.map (fun kv => json.member (kv.1, json.encode kv.2)))).length + 1
      ≤ f)
    (hdepth : ∀ kv ∈ fs, depth + 1 + kv.2.depth ≤ json.maxNestingDepth)
    (hmax : depth + 1 ≤ json.maxNestingDepth) :
    json.parseValue (f + 1) depth
        ('{' :: (json.joinComma (fs.map (fun kv => json.member (kv.1, json.encode kv.2)))
          ++ '}' :: rest))
      = .ok (.map (fs.map (fun kv => (kv.1, json.generic kv.2))), rest) := by
  have hmax' : ¬ json.maxNestingDepth < depth + 1 := by omega
  by_cases hfs : fs = []
  · subst hfs
    simp [json.parseValue, json.skipSpace, json.isSpace, hmax', json.joinComma]
  · have hhead : ¬ (json.skipSpace
        (json.joinComma (fs.map (fun kv => json.member (kv.1, json.encode kv.2)))
          ++ '}' :: rest)).head? = some '}' := by
      obtain ⟨kv, l, rfl⟩ : ∃ kv l, fs = kv :: l := List.exists_cons_of_ne_nil hfs
      obtain ⟨t', ht'⟩ := joinComma_head '"'
        (kv.1.toList.flatMap json.escapeChar ++ '"' :: ':' :: json.encode kv.2)
        (l.map (fun kv => json.member (kv.1, json.encode kv.2)))
      have hm : json.member (kv.1, json.encode kv.2)
          = '"' :: (kv.1.toList.flatMap json.escapeChar ++ '"' :: ':' :: json.encode kv.2) := by
        simp [json.member, json.encodeString]
      rw [List.map_cons, hm, ht', List.cons_append, skipSpace_cons '"' _ (by decide)]
      simp
    have hread := parseMembers_reads fs hfs hall f (depth + 1) rest hfuel hdepth
    have hkeys : ((fs.map (fun kv => (kv.1, json.generic kv.2))).map Prod.fst).Nodup := by
      simpa [List.map_map, Function.comp] using hnodup
    have hbuild := buildMap_nodup _ hkeys
    generalize json.joinComma (fs.map (fun kv => json.member (kv.1, json.encode kv.2))) = J
      at hhead hread
    generalize fs.map (fun kv => (kv.1, json.generic kv.2)) = G at hread hbuild
    simp only [json.parseValue, skipSpace_cons '{' _ (by decide), ↓reduceIte, hmax']
    rw [if_neg hhead, hread, if_neg (by decide), if_neg (by decide)]
    simp only [hbuild]

theorem readsBack_struct (fields : List (String × GoValue))
    (ih : ∀ kv ∈ fields, kv.2.Printable → json.ReadsBack kv.2)
    (h : (GoValue.struct fields).Printable) : json.ReadsBack (.struct fields) := by
  intro fuel depth rest hfuel hdepth _
  rw [printable_struct] at h
  have hwf := h.2
  have henc : json.encode (.struct fields)
      = '{' :: (json.joinComma (fields.map (fun kv => json.member (kv.1, json.encode kv.2)))
          ++ ['}']) := by
    rw [json.encode, encodeFields_eq_map, List.map_map]
    rfl
  have hgen : json.generic (.struct fields)
      = .map (fields.map (fun kv => (kv.1, json.generic kv.2))) := by
    rw [json.generic, genericFields_eq_map]
  have hd : GoValue.depth (.struct fields) = GoValue.depthFields fields + 1 := by
    rw [GoValue.depth]
  rw [hd] at hdepth
  rw [henc] at hfuel
  obtain ⟨f, rfl⟩ : ∃ f, fuel = f + 1 := ⟨fuel - 1, by simp at hfuel; omega⟩
  rw [henc, hgen]
  simp only [List.cons_append, List.append_assoc, List.singleton_append, List.nil_append]
  exact parseValue_object fields h.1 (fun kv hkv => ih kv hkv (hwf kv hkv)) f depth rest
    (by simp at hfuel ⊢; omega)
    (fun kv hkv => by
      have := depth_le_depthFields fields kv hkv
      omega)
    (by omega)

theorem readsBack_map (kvs : List (String × GoValue))
    (ih : ∀ kv ∈ kvs, kv.2.Printable → json.ReadsBack kv.2)
    (h : (GoValue.map kvs).Printable) : json.ReadsBack (.map kvs) := by
  intro fuel depth rest hfuel hdepth _
  rw [printable_map] at h
  have hwf := h.2
  have hperm := sortByKey_perm kvs
  have henc : json.encode (.map kvs)
      = '{' :: (json.joinComma
          ((json.sortByKey kvs).map (fun kv => json.member (kv.1, json.encode kv.2)))
          ++ ['}']) := by
    rw [json.encode, encodeFields_eq_map, sortByKey_map_snd, List.map_map]
    rfl
  have hgen : json.generic (.map kvs)
      = .map ((json.sortByKey kvs).map (fun kv => (kv.1, json.generic kv.2))) := by
    rw [json.generic, genericFields_eq_map, sortByKey_map_snd]
  have hd : GoValue.depth (.map kvs) = GoValue.depthFields kvs + 1 := by rw [GoValue.depth]
  rw [hd] at hdepth
  rw [henc] at hfuel
  obtain ⟨f, rfl⟩ : ∃ f, fuel = f + 1 := ⟨fuel - 1, by simp at hfuel; omega⟩
  rw [henc, hgen]
  simp only [List.cons_append, List.append_assoc, List.singleton_append, List.nil_append]
  exact parseValue_object (json.sortByKey kvs)
    ((hperm.map Prod.fst).nodup_iff.mpr h.1)
    (fun kv hkv => ih kv (hperm.mem_iff.mp hkv) (hwf kv (hperm.mem_iff.mp hkv))) f depth rest
    (by simp at hfuel ⊢; omega)
    (fun kv hkv => by
      have := depth_le_depthFields kvs kv (hperm.mem_iff.mp hkv)
      omega)
    (by omega)

/-- The decoder reads back the text of every value that `json.Marshal` encodes. -/
theorem readsBack_of_printable (v : GoValue) : v.Printable → json.ReadsBack v :=
  GoValue.induct_value (P := fun v => v.Printable → json.ReadsBack v)
    (fun _ => readsBack_null) (fun b _ => readsBack_bool b) readsBack_int readsBack_float64
    (fun s _ => readsBack_str s) readsBack_slice readsBack_map readsBack_struct v

/-- `json.Unmarshal` of the text that `json.Marshal` writes for a value within
the depth limit is `generic` of that value. -/
theorem Unmarshal_encode (v : GoValue) (hwf : v.Printable)
    (hdepth : v.depth ≤ json.maxNestingDepth) :
    json.Unmarshal (String.mk (json.encode v)) = .ok (json.generic v) := by
  have h := readsBack_of_printable v hwf ((json.encode v).length + 1) 0 [] (by omega)
    (by omega) (Or.inl rfl)
  rw [List.append_nil] at h
  simp only [json.Unmarshal, String.toList, h, json.skipSpace, ↓reduceIte]

/-! ## Beyond the depth limit -/

/-- The decoder gives up on the elements of an array when one of them goes
beyond the depth limit. -/
theorem parseElements_tooDeep (xs : List GoValue) (hwf : ∀ x ∈ xs, x.Printable)
    (hall : ∀ x ∈ xs, json.TooDeep x) :
    ∀ (fuel depth : Nat) (rest : List Char),
      (json.joinComma (xs.map json.encode)).length + 1 ≤ fuel →
      depth ≤ json.maxNestingDepth →
      (∃ x ∈ xs, json.maxNestingDepth < depth + x.depth) →
      json.parseElements fuel depth (json.joinComma (xs.map json.encode) ++ ']' :: rest)
        = .error .maxDepth := by
  induction xs with
  | nil => intro _ _ _ _ _ h; obtain ⟨x, hx, _⟩ := h; exact absurd hx (List.not_mem_nil _)
  | cons x l ih =>
    intro fuel depth rest hfuel hdepth hex
    obtain ⟨f, rfl⟩ : ∃ f, fuel = f + 1 := ⟨fuel - 1, by omega⟩
    by_cases hx : json.maxNestingDepth < depth + x.depth
    · by_cases hl : l = []
      · subst hl
        simp only [List.map_cons, List.map_nil, json.joinComma] at hfuel ⊢
        have := hall x (by simp) f depth (']' :: rest) (by omega) hdepth hx
          (delimited_bracket rest)
        simp only [json.parseElements, this]
      · have hne' : l.map json.encode ≠ [] := by simpa using hl
        simp only [List.map_cons, joinComma_cons _ _ hne', List.append_assoc, List.cons_append,
          List.length_append, List.length_cons] at hfuel ⊢
        have := hall x (by simp) f depth
          (',' :: (json.joinComma (l.map json.encode) ++ ']' :: rest)) (by omega) hdepth hx
          (delimited_comma _)
        simp only [json.parseElements, this]
    · have hl : l ≠ [] := by
        rintro rfl
        obtain ⟨y, hy, hdeep⟩ := hex
        simp only [List.mem_singleton] at hy
        subst hy
        exact hx hdeep
      have hex' : ∃ y ∈ l, json.maxNestingDepth < depth + y.depth := by
        obtain ⟨y, hy, hdeep⟩ := hex
        rcases List.mem_cons.mp hy with rfl | hy'
        · exact absurd hdeep hx
        · exact ⟨y, hy', hdeep⟩
      have hne' : l.map json.encode ≠ [] := by simpa using hl
      simp only [List.map_cons, joinComma_cons _ _ hne', List.append_assoc, List.cons_append,
        List.length_append, List.length_cons] at hfuel ⊢
      have h1 := readsBack_of_printable x (hwf x (by simp)) f depth
        (',' :: (json.joinComma (l.map json.encode) ++ ']' :: rest)) (by omega)
        (by omega) (delimited_comma _)
      have h2 := ih (fun y hy => hwf y (by simp [hy])) (fun y hy => hall y (by simp [hy])) f
        depth rest (by omega) hdepth hex'
      simp only [json.parseElements, h1, skipSpace_cons ',' _ (by decide), h2]
      simp

/-- The decoder gives up on the members of an object when the value of one
of them goes beyond the depth limit. -/
theorem parseMembers_tooDeep (fs : List (String × GoValue)) (hwf : ∀ kv ∈ fs, kv.2.Printable)
    (hall : ∀ kv ∈ fs, json.TooDeep kv.2) :
    ∀ (fuel depth : Nat) (rest : List Char),
      (json.joinComma (fs.map (fun kv => json.member (kv.1, json.encode kv.2)))).length + 1
        ≤ fuel →
      depth ≤ json.maxNestingDepth →
      (∃ kv ∈ fs, json.maxNestingDepth < depth + kv.2.depth) →
      json.parseMembers fuel depth
          (json.joinComma (fs.map (fun kv => json.member (kv.1, json.encode kv.2)))
            ++ '}' :: rest)
        = .error .maxDepth := by
  induction fs with
  | nil => intro _ _ _ _ _ h; obtain ⟨x, hx, _⟩ := h; exact absurd hx (List.not_mem_nil _)
  | cons kv l ih =>
    intro fuel depth rest hfuel hdepth hex
    obtain ⟨f, rfl⟩ : ∃ f, fuel = f + 1 := ⟨fuel - 1, by omega⟩
    obtain ⟨k, v⟩ := kv
    have hlen := member_length k (json.encode v)
    have hv : json.TooDeep v := hall (k, v) (by simp)
    by_cases hx : json.maxNestingDepth < depth + v.depth
    · by_cases hl : l = []
      · subst hl
        simp only [List.map_cons, List.map_nil, json.joinComma] at hfuel ⊢
        have := hv f depth ('}' :: rest) (by omega) hdepth hx
          (delimited_brace rest)
        rw [member_append]
        simp only [json.parseMembers, skipSpace_cons '"' _ (by decide), ↓reduceIte,
          unquote_string, skipSpace_cons ':' _ (by decide), this]
      · have hne' : l.map (fun kv => json.member (kv.1, json.encode kv.2)) ≠ [] := by
          simpa using hl
        simp only [List.map_cons, joinComma_cons _ _ hne', List.append_assoc, List.cons_append,
          List.length_append, List.length_cons] at hfuel ⊢
        have := hv f depth
          (',' :: (json.joinComma (l.map (fun kv => json.member (kv.1, json.encode kv.2)))
            ++ '}' :: rest)) (by omega) hdepth hx (delimited_comma _)
        rw [member_append]
        simp only [json.parseMembers, skipSpace_cons '"' _ (by decide), ↓reduceIte,
          unquote_string, skipSpace_cons ':' _ (by decide), this]
    · have hl : l ≠ [] := by
        rintro rfl
        obtain ⟨y, hy, hdeep⟩ := hex
        simp only [List.mem_singleton] at hy
        subst hy
        exact hx hdeep
      have hex' : ∃ y ∈ l, json.maxNestingDepth < depth + y.2.depth := by
        obtain ⟨y, hy, hdeep⟩ := hex
        rcases List.mem_cons.mp hy with rfl | hy'
        · exact absurd hdeep hx
        · exact ⟨y, hy', hdeep⟩
      have hne' : l.map (fun kv => json.member (kv.1, json.encode kv.2)) ≠ [] := by
        simpa using hl
      simp only [List.map_cons, joinComma_cons _ _ hne', List.append_assoc, List.cons_append,
        List.length_append, List.length_cons] at hfuel ⊢
      have h1 := readsBack_of_printable v (hwf (k, v) (by simp)) f depth
        (',' :: (json.joinComma (l.map (fun kv => json.member (kv.1, json.encode kv.2)))
          ++ '}' :: rest)) (by omega) (by omega) (delimited_comma _)
      have h2 := ih (fun y hy => hwf y (by simp [hy])) (fun y hy => hall y (by simp [hy])) f
        depth rest (by omega) hdepth hex'
      rw [member_append]
      simp only [json.parseMembers, skipSpace_cons '"' _ (by decide), ↓reduceIte,
        unquote_string, skipSpace_cons ':' _ (by decide), h1,
        skipSpace_cons ',' _ (by decide), h2]

theorem exists_deep_elem (xs : List GoValue) (n : Nat) (h : n < GoValue.depthElems xs) :
    ∃ x ∈ xs, n < x.depth := by
  by_contra hcon
  push_neg at hcon
  have := (depthElems_le_iff xs n).mpr hcon
  omega

theorem exists_deep_field (kvs : List (String × GoValue)) (n : Nat)
    (h : n < GoValue.depthFields kvs) : ∃ kv ∈ kvs, n < kv.2.depth := by
  by_contra hcon
  push_neg at hcon
  have := (depthFields_le_iff kvs n).mpr hcon
  omega

theorem tooDeep_atom (v : GoValue) (h : v.depth = 0) : json.TooDeep v := by
  intro fuel depth rest _ hd hdeep _
  omega

theorem tooDeep_slice (xs : List GoValue) (ih : ∀ x ∈ xs, x.Printable → json.TooDeep x)
    (h : (GoValue.slice xs).Printable) : json.TooDeep (.slice xs) := by
  intro fuel depth rest hfuel hd hdeep _
  have hwf : ∀ x ∈ xs, x.Printable := (printable_slice xs).mp h
  have henc : json.encode (.slice xs) = '[' :: (json.joinComma (xs.map json.encode) ++ [']']) := by
    rw [json.encode, encodeElems_eq_map]
  have hdp : GoValue.depth (.slice xs) = GoValue.depthElems xs + 1 := by rw [GoValue.depth]
  rw [hdp] at hdeep
  rw [henc] at hfuel
  obtain ⟨f, rfl⟩ : ∃ f, fuel = f + 1 := ⟨fuel - 1, by simp at hfuel; omega⟩
  rw [henc]
  simp only [List.cons_append, List.append_assoc, List.singleton_append, List.nil_append]
  by_cases hmax : json.maxNestingDepth < depth + 1
  · simp only [json.parseValue, skipSpace_cons '[' _ (by decide), ↓reduceIte, hmax]
    rw [if_neg (by decide)]
  · obtain ⟨x0, hx0, hx0d⟩ := exists_deep_elem xs (json.maxNestingDepth - (depth + 1)) (by omega)
    have hxs : xs ≠ [] := List.ne_nil_of_mem hx0
    obtain ⟨x, l, rfl⟩ : ∃ x l, xs = x :: l := List.exists_cons_of_ne_nil hxs
    obtain ⟨c, t, hct, hsp, hc1, _⟩ := encode_head x
    have hhead : ¬ (json.skipSpace (json.joinComma ((x :: l).map json.encode)
        ++ ']' :: rest)).head? = some ']' := by
      obtain ⟨t', ht'⟩ := joinComma_head c t (l.map json.encode)
      rw [List.map_cons, hct, ht', List.cons_append, skipSpace_cons c _ hsp]
      simpa using hc1
    have hfail := parseElements_tooDeep (x :: l) hwf (fun y hy => ih y hy (hwf y hy)) f
      (depth + 1) rest (by simp at hfuel ⊢; omega) (by omega) ⟨x0, hx0, by omega⟩
    generalize json.joinComma ((x :: l).map json.encode) = J at hhead hfail
    simp only [json.parseValue, skipSpace_cons '[' _ (by decide), ↓reduceIte, hmax]
    rw [if_neg hhead, hfail, if_neg (by decide)]

/-- The decoder gives up on an object whose members are written in the order
of `fs` when it goes beyond the depth limit. -/
theorem parseValue_object_tooDeep (fs : List (String × GoValue))
    (hwf : ∀ kv ∈ fs, kv.2.Printable) (hall : ∀ kv ∈ fs, json.TooDeep kv.2)
    (f depth : Nat) (rest : List Char)
    (hfuel : (json.joinComma (fs.map (fun kv => json.member (kv.1, json.encode kv.2)))).length + 1
      ≤ f)
    (_hd : depth ≤ json.maxNestingDepth)
    (hdeep : json.maxNestingDepth < depth + 1 ∨
      ∃ kv ∈ fs, json.maxNestingDepth < depth + 1 + kv.2.depth) :
    json.parseValue (f + 1) depth
        ('{' :: (json.joinComma (fs.map (fun kv => json.member (kv.1, json.encode kv.2)))
          ++ '}' :: rest))
      = .error .maxDepth := by
  by_cases hmax : json.maxNestingDepth < depth + 1
  · simp only [json.parseValue, skipSpace_cons '{' _ (by decide), ↓reduceIte, hmax]
    rw [if_neg (by decide), if_neg (by decide)]
  · have hex : ∃ kv ∈ fs, json.maxNestingDepth < depth + 1 + kv.2.depth := by
      rcases hdeep with h | h
      · exact absurd h hmax
      · exact h
    have hfs0 := hex
    obtain ⟨kv0, hkv0, _⟩ := hfs0
    have hfs : fs ≠ [] := List.ne_nil_of_mem hkv0
    have hhead : ¬ (json.skipSpace
        (json.joinComma (fs.map (fun kv => json.member (kv.1, json.encode kv.2)))
          ++ '}' :: rest)).head? = some '}' := by
      obtain ⟨kv, l, rfl⟩ : ∃ kv l, fs = kv :: l := List.exists_cons_of_ne_nil hfs
      obtain ⟨t', ht'⟩ := joinComma_head '"'
        (kv.1.toList.flatMap json.escapeChar ++ '"' :: ':' :: json.encode kv.2)
        (l.map (fun kv => json.member (kv.1, json.encode kv.2)))
      have hm : json.member (kv.1, json.encode kv.2)
          = '"' :: (kv.1.toList.flatMap json.escapeChar ++ '"' :: ':' :: json.encode kv.2) := by
        simp [json.member, json.encodeString]
      rw [List.map_cons, hm, ht', List.cons_append, skipSpace_cons '"' _ (by decide)]
      simp
    have hfail := parseMembers_tooDeep fs hwf hall f (depth + 1) rest hfuel (by omega) hex
    generalize json.joinComma (fs.map (fun kv => json.member (kv.1, json.encode kv.2))) = J
      at hhead hfail
    simp only [json.parseValue, skipSpace_cons '{' _ (by decide), ↓reduceIte, hmax]
    rw [if_neg hhead, hfail, if_neg (by decide), if_neg (by decide)]

theorem tooDeep_struct (fields : List (String × GoValue))
    (ih : ∀ kv ∈ fields, kv.2.Printable → json.TooDeep kv.2)
    (h : (GoValue.struct fields).Printable) : json.TooDeep (.struct fields) := by
  intro fuel depth rest hfuel hd hdeep _
  rw [printable_struct] at h
  have hwf := h.2
  have henc : json.encode (.struct fields)
      = '{' :: (json.joinComma (fields.map (fun kv => json.member (kv.1, json.encode kv.2)))
          ++ ['}']) := by
    rw [json.encode, encodeFields_eq_map, List.map_map]
    rfl
  have hdp : GoValue.depth (.struct fields) = GoValue.depthFields fields + 1 := by
    rw [GoValue.depth]
  rw [hdp] at hdeep
  rw [henc] at hfuel
  obtain ⟨f, rfl⟩ : ∃ f, fuel = f + 1 := ⟨fuel - 1, by simp at hfuel; omega⟩
  rw [henc]
  simp only [List.cons_append, List.append_assoc, List.singleton_append, List.nil_append]
  apply parseValue_object_tooDeep fields hwf (fun kv hkv => ih kv hkv (hwf kv hkv)) f depth rest
    (by simp at hfuel ⊢; omega) hd
  by_cases hmax : json.maxNestingDepth < depth + 1
  · exact Or.inl hmax
  · obtain ⟨kv, hkv, hkvd⟩ :=
      exists_deep_field fields (json.maxNestingDepth - (depth + 1)) (by omega)
    exact Or.inr ⟨kv, hkv, by omega⟩

theorem tooDeep_map (kvs : List (String × GoValue))
    (ih : ∀ kv ∈ kvs, kv.2.Printable → json.TooDeep kv.2)
    (h : (GoValue.map kvs).Printable) : json.TooDeep (.map kvs) := by
  intro fuel depth rest hfuel hd hdeep _
  rw [printable_map] at h
  have hwf := h.2
  have hperm := sortByKey_perm kvs
  have henc : json.encode (.map kvs)
      = '{' :: (json.joinComma
          ((json.sortByKey kvs).map (fun kv => json.member (kv.1, json.encode kv.2)))
          ++ ['}']) := by
    rw [json.encode, encodeFields_eq_map, sortByKey_map_snd, List.map_map]
    rfl
  have hdp : GoValue.depth (.map kvs) = GoValue.depthFields kvs + 1 := by rw [GoValue.depth]
  rw [hdp] at hdeep
  rw [henc] at hfuel
  obtain ⟨f, rfl⟩ : ∃ f, fuel = f + 1 := ⟨fuel - 1, by simp at hfuel; omega⟩
  rw [henc]
  simp only [List.cons_append, List.append_assoc, List.singleton_append, List.nil_append]
  apply parseValue_object_tooDeep (json.sortByKey kvs)
    (fun kv hkv => hwf kv (hperm.mem_iff.mp hkv))
    (fun kv hkv => ih kv (hperm.mem_iff.mp hkv) (hwf kv (hperm.mem_iff.mp hkv))) f depth rest
    (by simp at hfuel ⊢; omega) hd
  by_cases hmax : json.maxNestingDepth < depth + 1
  · exact Or.inl hmax
  · obtain ⟨kv, hkv, hkvd⟩ :=
      exists_deep_field kvs (json.maxNestingDepth - (depth + 1)) (by omega)
    exact Or.inr ⟨kv, hperm.mem_iff.mpr hkv, by omega⟩

/-- The decoder gives up on the text of every value it could read that goes
beyond the depth limit. -/
theorem tooDeep_of_printable (v : GoValue) : v.Printable → json.TooDeep v :=
  GoValue.induct_value (P := fun v => v.Printable → json.TooDeep v)
    (fun _ => tooDeep_atom _ rfl) (fun _ _ => tooDeep_atom _ rfl)
    (fun _ _ => tooDeep_atom _ rfl) (fun _ _ => tooDeep_atom _ rfl)
    (fun _ _ => tooDeep_atom _ rfl) tooDeep_slice tooDeep_map tooDeep_struct v

/-- `canonical.Marshal` returns an error on a value without a NaN or infinity
that is nested deeper than the limit of the decoder. -/
theorem Marshal_tooDeep (v : GoValue) (hwf : v.Printable)
    (hdepth : json.maxNestingDepth < v.depth) :
    canonical.Marshal v = .error .maxDepth := by
  have h := tooDeep_of_printable v hwf ((json.encode v).length + 1) 0 [] (by omega)
    (Nat.zero_le _) (by omega) (Or.inl rfl)
  rw [List.append_nil] at h
  simp only [canonical.Marshal, json.Marshal, hwf.2, ↓reduceIte, json.Unmarshal, String.toList, h]

/-- `canonical.Marshal` succeeds on a value only within the depth limit. -/
theorem depth_le_of_Marshal_ok (v : GoValue) (hwf : v.Printable) (out : String)
    (h : canonical.Marshal v = .ok out) : v.depth ≤ json.maxNestingDepth := by
  by_contra hcon
  rw [Marshal_tooDeep v hwf (by omega)] at h
  cases h

/-! ## What the decoder builds -/

theorem isGenericElems_iff (xs : List GoValue) :
    GoValue.IsGenericElems xs ↔ ∀ x ∈ xs, x.IsGeneric := by
  induction xs with
  | nil => simp [GoValue.IsGenericElems]
  | cons x xs ih => simp [GoValue.IsGenericElems, ih]

theorem isGenericFields_iff (kvs : List (String × GoValue)) :
    GoValue.IsGenericFields kvs ↔ ∀ kv ∈ kvs, kv.2.IsGeneric := by
  induction kvs with
  | nil => simp [GoValue.IsGenericFields]
  | cons kv kvs ih =>
    obtain ⟨_, v⟩ := kv
    simp [GoValue.IsGenericFields, ih]

/-- A value that the decoder builds is a Go value that `json.Marshal` encodes. -/
theorem printable_of_isGeneric (v : GoValue) : v.IsGeneric → v.Printable := by
  induction v using GoValue.induct_value with
  | hnull => intro _; exact ⟨by simp [GoValue.WellFormed], rfl⟩
  | hbool b => intro _; exact ⟨by simp [GoValue.WellFormed], rfl⟩
  | hint n => intro h; simp [GoValue.IsGeneric] at h
  | hfloat m =>
    intro h
    rw [GoValue.IsGeneric] at h
    exact ⟨by simp [GoValue.WellFormed], by rw [json.allFinite]; exact h⟩
  | hstr s => intro _; exact ⟨by simp [GoValue.WellFormed], rfl⟩
  | hslice xs ih =>
    intro h
    rw [GoValue.IsGeneric, isGenericElems_iff] at h
    exact (printable_slice xs).mpr (fun x hx => ih x hx (h x hx))
  | hmap kvs ih =>
    intro h
    rw [GoValue.IsGeneric, isGenericFields_iff] at h
    exact (printable_map kvs).mpr ⟨h.1, fun kv hkv => ih kv hkv (h.2 kv hkv)⟩
  | hstruct fields ih => intro h; simp [GoValue.IsGeneric] at h

theorem mapAssign_mem (m : List (String × GoValue)) (k : String) (v : GoValue) :
    ∀ kv ∈ mapAssign m k v, kv ∈ m ∨ kv = (k, v) := by
  induction m with
  | nil => intro kv h; simpa [mapAssign] using h
  | cons a m ih =>
    obtain ⟨k', w⟩ := a
    intro kv h
    by_cases hk : k' = k
    · subst hk
      simp only [mapAssign, ↓reduceIte, List.mem_cons] at h
      rcases h with h | h
      · exact Or.inr h
      · exact Or.inl (List.mem_cons_of_mem _ h)
    · simp only [mapAssign, hk, ↓reduceIte, List.mem_cons] at h
      rcases h with h | h
      · exact Or.inl (h ▸ List.mem_cons_self _ _)
      · rcases ih kv h with h' | h'
        · exact Or.inl (List.mem_cons_of_mem _ h')
        · exact Or.inr h'

theorem mapAssign_keys (m : List (String × GoValue)) (k : String) (v : GoValue) :
    (mapAssign m k v).map Prod.fst
      = if k ∈ m.map Prod.fst then m.map Prod.fst else m.map Prod.fst ++ [k] := by
  induction m with
  | nil => simp [mapAssign]
  | cons a m ih =>
    obtain ⟨k', w⟩ := a
    by_cases hk : k' = k
    · subst hk
      simp [mapAssign]
    · have hk' : ¬ k = k' := fun e => hk e.symm
      simp only [mapAssign, hk, ↓reduceIte, List.map_cons, ih, List.mem_cons, hk', false_or]
      split_ifs <;> simp

theorem mapAssign_nodup (m : List (String × GoValue)) (k : String) (v : GoValue)
    (h : (m.map Prod.fst).Nodup) : ((mapAssign m k v).map Prod.fst).Nodup := by
  rw [mapAssign_keys]
  split_ifs with hk
  · exact h
  · exact List.Nodup.append h (List.nodup_singleton k) (by simpa using hk)

/-- The map that the decoder builds has distinct keys, and each of its entries
is a member of the object. -/
theorem buildMap_spec (l : List (String × GoValue)) :
    ((json.buildMap l).map Prod.fst).Nodup ∧ ∀ kv ∈ json.buildMap l, kv ∈ l := by
  have h : ∀ (l acc : List (String × GoValue)), (acc.map Prod.fst).Nodup →
      ((l.foldl (fun m kv => mapAssign m kv.1 kv.2) acc).map Prod.fst).Nodup
        ∧ ∀ kv ∈ l.foldl (fun m kv => mapAssign m kv.1 kv.2) acc, kv ∈ acc ∨ kv ∈ l := by
    intro l
    induction l with
    | nil => intro acc hacc; exact ⟨hacc, fun kv h => Or.inl h⟩
    | cons a l ih =>
      intro acc hacc
      obtain ⟨h1, h2⟩ := ih (mapAssign acc a.1 a.2) (mapAssign_nodup acc a.1 a.2 hacc)
      refine ⟨h1, fun kv hkv => ?_⟩
      rcases h2 kv hkv with h | h
      · rcases mapAssign_mem acc a.1 a.2 kv h with h' | h'
        · exact Or.inl h'
        · exact Or.inr (h' ▸ List.mem_cons_self _ _)
      · exact Or.inr (List.mem_cons_of_mem _ h)
  obtain ⟨h1, h2⟩ := h l [] (by simp)
  exact ⟨h1, fun kv hkv => (h2 kv hkv).resolve_left (by simp)⟩

theorem parseLiteral_ok (word : List Char) (v w : GoValue) (s r : List Char)
    (h : json.parseLiteral word v s = .ok (w, r)) : w = v := by
  unfold json.parseLiteral at h
  split at h
  · simp only [Except.ok.injEq, Prod.mk.injEq] at h
    exact h.1.symm
  · cases h

theorem parseNumber_ok (s r : List Char) (w : GoValue) (h : json.parseNumber s = .ok (w, r)) :
    ∃ f : Float64, w = .float64 f ∧ f.isFinite = true := by
  unfold json.parseNumber at h
  split at h
  · cases h
  · split at h
    · rename_i hf
      simp only [Except.ok.injEq, Prod.mk.injEq] at h
      exact ⟨_, h.1.symm, hf⟩
    · cases h

/-- What the decoder returns, with any fuel and from any text, is a value of
the kind it builds, within the depth limit. -/
theorem parse_isGeneric (fuel : Nat) :
    (∀ depth s v r, json.parseValue fuel depth s = .ok (v, r) →
      v.IsGeneric ∧ (depth ≤ json.maxNestingDepth → depth + v.depth ≤ json.maxNestingDepth))
    ∧ (∀ depth s vs r, json.parseElements fuel depth s = .ok (vs, r) →
      ∀ x ∈ vs, x.IsGeneric
        ∧ (depth ≤ json.maxNestingDepth → depth + x.depth ≤ json.maxNestingDepth))
    ∧ (∀ depth s ms r, json.parseMembers fuel depth s = .ok (ms, r) →
      ∀ kv ∈ ms, kv.2.IsGeneric
        ∧ (depth ≤ json.maxNestingDepth → depth + kv.2.depth ≤ json.maxNestingDepth)) := by
  induction fuel with
  | zero =>
    refine ⟨?_, ?_, ?_⟩
    · intro depth s v r h
      simp [json.parseValue] at h
    · intro depth s v r h
      simp [json.parseElements] at h
    · intro depth s v r h
      simp [json.parseMembers] at h
  | succ fuel ih =>
    obtain ⟨ihv, ihe, ihm⟩ := ih
    refine ⟨?_, ?_, ?_⟩
    · intro depth s v r h
      rw [json.parseValue] at h
      split at h
      · cases h
      · rename_i c rest _
        by_cases h1 : c = '"'
        · rw [if_pos h1] at h
          split at h
          · simp only [Except.ok.injEq, Prod.mk.injEq] at h
            obtain ⟨rfl, _⟩ := h
            exact ⟨by simp [GoValue.IsGeneric], fun hd => by simpa [GoValue.depth] using hd⟩
          · cases h
        rw [if_neg h1] at h
        by_cases h2 : c = '['
        · rw [if_pos h2] at h
          by_cases h3 : json.maxNestingDepth < depth + 1
          · rw [if_pos h3] at h
            cases h
          rw [if_neg h3] at h
          by_cases h4 : (json.skipSpace rest).head? = some ']'
          · rw [if_pos h4] at h
            simp only [Except.ok.injEq, Prod.mk.injEq] at h
            obtain ⟨rfl, _⟩ := h
            refine ⟨by simp [GoValue.IsGeneric, GoValue.IsGenericElems], fun _ => ?_⟩
            simp only [GoValue.depth, GoValue.depthElems]
            omega
          rw [if_neg h4] at h
          split at h
          · rename_i xs r' hp
            simp only [Except.ok.injEq, Prod.mk.injEq] at h
            obtain ⟨rfl, _⟩ := h
            have hall := ihe (depth + 1) rest xs r' hp
            refine ⟨?_, fun _ => ?_⟩
            · rw [GoValue.IsGeneric, isGenericElems_iff]
              exact fun x hx => (hall x hx).1
            · have : GoValue.depthElems xs ≤ json.maxNestingDepth - (depth + 1) := by
                rw [depthElems_le_iff]
                intro x hx
                have := (hall x hx).2 (by omega)
                omega
              rw [GoValue.depth]
              omega
          · cases h
        rw [if_neg h2] at h
        by_cases h5 : c = '{'
        · rw [if_pos h5] at h
          by_cases h3 : json.maxNestingDepth < depth + 1
          · rw [if_pos h3] at h
            cases h
          rw [if_neg h3] at h
          by_cases h4 : (json.skipSpace rest).head? = some '}'
          · rw [if_pos h4] at h
            simp only [Except.ok.injEq, Prod.mk.injEq] at h
            obtain ⟨rfl, _⟩ := h
            refine ⟨by simp [GoValue.IsGeneric, GoValue.IsGenericFields], fun _ => ?_⟩
            simp only [GoValue.depth, GoValue.depthFields]
            omega
          rw [if_neg h4] at h
          split at h
          · rename_i ms r' hp
            simp only [Except.ok.injEq, Prod.mk.injEq] at h
            obtain ⟨rfl, _⟩ := h
            have hall := ihm (depth + 1) rest ms r' hp
            obtain ⟨hn, hmem⟩ := buildMap_spec ms
            refine ⟨?_, fun _ => ?_⟩
            · rw [GoValue.IsGeneric, isGenericFields_iff]
              exact ⟨hn, fun kv hkv => (hall kv (hmem kv hkv)).1⟩
            · have : GoValue.depthFields (json.buildMap ms)
                  ≤ json.maxNestingDepth - (depth + 1) := by
                rw [depthFields_le_iff]
                intro kv hkv
                have := (hall kv (hmem kv hkv)).2 (by omega)
                omega
              rw [GoValue.depth]
              omega
          · cases h
        rw [if_neg h5] at h
        by_cases h6 : c = 'n'
        · rw [if_pos h6] at h
          rw [parseLiteral_ok _ _ _ _ _ h]
          exact ⟨by simp [GoValue.IsGeneric], fun hd => by simpa [GoValue.depth] using hd⟩
        rw [if_neg h6] at h
        by_cases h7 : c = 't'
        · rw [if_pos h7] at h
          rw [parseLiteral_ok _ _ _ _ _ h]
          exact ⟨by simp [GoValue.IsGeneric], fun hd => by simpa [GoValue.depth] using hd⟩
        rw [if_neg h7] at h
        by_cases h8 : c = 'f'
        · rw [if_pos h8] at h
          rw [parseLiteral_ok _ _ _ _ _ h]
          exact ⟨by simp [GoValue.IsGeneric], fun hd => by simpa [GoValue.depth] using hd⟩
        rw [if_neg h8] at h
        by_cases h9 : c = '-' ∨ c.isDigit = true
        · rw [if_pos h9] at h
          obtain ⟨f, rfl, hf⟩ := parseNumber_ok _ _ _ h
          exact ⟨by rw [GoValue.IsGeneric]; exact hf, fun hd => by simpa [GoValue.depth] using hd⟩
        rw [if_neg h9] at h
        cases h
    · intro depth s vs r h
      rw [json.parseElements] at h
      split at h
      · cases h
      · rename_i v r1 hv
        have hv' := ihv depth s v r1 hv
        split at h
        · cases h
        · rename_i c r2 _
          by_cases h1 : c = ','
          · rw [if_pos h1] at h
            split at h
            · rename_i vs' r'' hp
              simp only [Except.ok.injEq, Prod.mk.injEq] at h
              obtain ⟨rfl, _⟩ := h
              intro x hx
              rcases List.mem_cons.mp hx with rfl | hx
              · exact hv'
              · exact ihe depth _ vs' r'' hp x hx
            · cases h
          rw [if_neg h1] at h
          by_cases h2 : c = ']'
          · rw [if_pos h2] at h
            simp only [Except.ok.injEq, Prod.mk.injEq] at h
            obtain ⟨rfl, _⟩ := h
            intro x hx
            rw [List.mem_singleton] at hx
            exact hx ▸ hv'
          rw [if_neg h2] at h
          cases h
    · intro depth s ms r h
      rw [json.parseMembers] at h
      split at h
      · cases h
      · rename_i q r0 _
        by_cases hq : q = '"'
        swap
        · rw [if_neg hq] at h
          cases h
        rw [if_pos hq] at h
        split at h
        · cases h
        · rename_i key r1 _
          split at h
          · cases h
          · rename_i colon r2 _
            by_cases hcolon : colon = ':'
            swap
            · rw [if_neg hcolon] at h
              cases h
            rw [if_pos hcolon] at h
            split at h
            · cases h
            · rename_i v r3 hv
              have hv' := ihv depth r2 v r3 hv
              split at h
              · cases h
              · rename_i c r4 _
                by_cases h1 : c = ','
                · rw [if_pos h1] at h
                  split at h
                  · rename_i ms' r5 hp
                    simp only [Except.ok.injEq, Prod.mk.injEq] at h
                    obtain ⟨rfl, _⟩ := h
                    intro kv hkv
                    rcases List.mem_cons.mp hkv with rfl | hkv
                    · exact hv'
                    · exact ihm depth _ ms' r5 hp kv hkv
                  · cases h
                rw [if_neg h1] at h
                by_cases h2 : c = '}'
                · rw [if_pos h2] at h
                  simp only [Except.ok.injEq, Prod.mk.injEq] at h
                  obtain ⟨rfl, _⟩ := h
                  intro kv hkv
                  rw [List.mem_singleton] at hkv
                  exact hkv ▸ hv'
                rw [if_neg h2] at h
                cases h

/-- What `json.Unmarshal` returns is a value of the kind the decoder builds,
within the depth limit. -/
theorem Unmarshal_isGeneric (data : String) (v : GoValue) (h : json.Unmarshal data = .ok v) :
    v.IsGeneric ∧ v.depth ≤ json.maxNestingDepth := by
  unfold json.Unmarshal at h
  split at h
  · cases h
  · rename_i w rest hp
    split at h
    · simp only [Except.ok.injEq] at h
      subst h
      obtain ⟨h1, h2⟩ := (parse_isGeneric _).1 0 _ w rest hp
      exact ⟨h1, by simpa using h2 (Nat.zero_le _)⟩
    · cases h

/-! ## The canonical form -/

theorem canonicalElems_eq_map (xs : List GoValue) :
    canonical.canonicalElems xs = xs.map canonical.canonicalForm := by
  induction xs with
  | nil => simp [canonical.canonicalElems]
  | cons x xs ih => simp [canonical.canonicalElems, ih]

theorem canonicalFields_eq_map (kvs : List (String × GoValue)) :
    canonical.canonicalFields kvs = kvs.map (fun kv => (kv.1, canonical.canonicalForm kv.2)) := by
  induction kvs with
  | nil => simp [canonical.canonicalFields]
  | cons kv kvs ih =>
    obtain ⟨k, v⟩ := kv
    simp [canonical.canonicalFields, ih]

theorem renderElems_eq_map (xs : List GoValue) :
    canonical.renderElems xs = xs.map canonical.render := by
  induction xs with
  | nil => simp [canonical.renderElems]
  | cons x xs ih => simp [canonical.renderElems, ih]

theorem renderFields_eq_map (kvs : List (String × GoValue)) :
    canonical.renderFields kvs
      = kvs.map (fun kv => json.member (kv.1, canonical.render kv.2)) := by
  induction kvs with
  | nil => simp [canonical.renderFields]
  | cons kv kvs ih =>
    obtain ⟨k, v⟩ := kv
    simp [canonical.renderFields, ih, json.member]

theorem keysAscendingElems_iff (xs : List GoValue) :
    GoValue.KeysAscendingElems xs ↔ ∀ x ∈ xs, x.KeysAscending := by
  induction xs with
  | nil => simp [GoValue.KeysAscendingElems]
  | cons x xs ih => simp [GoValue.KeysAscendingElems, ih]

theorem keysAscendingFields_iff (kvs : List (String × GoValue)) :
    GoValue.KeysAscendingFields kvs ↔ ∀ kv ∈ kvs, kv.2.KeysAscending := by
  induction kvs with
  | nil => simp [GoValue.KeysAscendingFields]
  | cons kv kvs ih =>
    obtain ⟨_, v⟩ := kv
    simp [GoValue.KeysAscendingFields, ih]

/-- Sorting a list by key twice is sorting it once. -/
theorem sortByKey_idem {α : Type} (l : List (String × α)) :
    json.sortByKey (json.sortByKey l) = json.sortByKey l :=
  List.Sorted.insertionSort_eq (sortByKey_sorted l)

theorem map_congr_mem {α β : Type} (f g : α → β) (l : List α) (h : ∀ x ∈ l, f x = g x) :
    l.map f = l.map g :=
  List.map_congr_left h

/-- The text that `json.Marshal` writes for the value that `Unmarshal` built is
the compact text of the canonical form. -/
theorem encode_generic (v : GoValue) :
    json.encode (json.generic v) = canonical.render (canonical.canonicalForm v) := by
  induction v using GoValue.induct_value with
  | hnull => rfl
  | hbool b => cases b <;> rfl
  | hint n => simp only [json.generic, canonical.canonicalForm, json.encode, canonical.render]
  | hfloat m => simp only [json.generic, canonical.canonicalForm, json.encode, canonical.render]
  | hstr s => simp only [json.generic, canonical.canonicalForm, json.encode, canonical.render]
  | hslice xs ih =>
    simp only [json.generic, canonical.canonicalForm, json.encode, canonical.render,
      genericElems_eq_map, canonicalElems_eq_map, encodeElems_eq_map, renderElems_eq_map,
      List.map_map]
    rw [map_congr_mem (json.encode ∘ json.generic) (canonical.render ∘ canonical.canonicalForm)
      xs (fun x hx => ih x hx)]
  | hmap kvs ih =>
    have h1 : json.encodeFields (json.sortByKey (json.genericFields kvs))
        = json.sortByKey (kvs.map (fun kv => (kv.1, json.encode (json.generic kv.2)))) := by
      rw [encodeFields_eq_map, ← sortByKey_map_snd, genericFields_eq_map, List.map_map]
      rfl
    have h2 : canonical.renderFields (json.sortByKey (canonical.canonicalFields kvs))
        = (json.sortByKey (kvs.map (fun kv =>
            (kv.1, canonical.render (canonical.canonicalForm kv.2))))).map json.member := by
      rw [renderFields_eq_map, canonicalFields_eq_map]
      have := sortByKey_map_snd canonical.render
        (kvs.map (fun kv => (kv.1, canonical.canonicalForm kv.2)))
      rw [List.map_map] at this
      rw [show (fun kv : String × GoValue => json.member (kv.1, canonical.render kv.2))
        = json.member ∘ (fun kv : String × GoValue => (kv.1, canonical.render kv.2)) from rfl,
        ← List.map_map, ← this]
      rfl
    simp only [json.generic, canonical.canonicalForm, json.encode, canonical.render, h1, h2,
      sortByKey_idem]
    rw [map_congr_mem _ _ kvs (fun kv hkv => by rw [ih kv hkv])]
  | hstruct fields ih =>
    have h1 : json.encodeFields (json.genericFields fields)
        = fields.map (fun kv => (kv.1, json.encode (json.generic kv.2))) := by
      rw [encodeFields_eq_map, genericFields_eq_map, List.map_map]
      rfl
    have h2 : canonical.renderFields (json.sortByKey (canonical.canonicalFields fields))
        = (json.sortByKey (fields.map (fun kv =>
            (kv.1, canonical.render (canonical.canonicalForm kv.2))))).map json.member := by
      rw [renderFields_eq_map, canonicalFields_eq_map]
      have := sortByKey_map_snd canonical.render
        (fields.map (fun kv => (kv.1, canonical.canonicalForm kv.2)))
      rw [List.map_map] at this
      rw [show (fun kv : String × GoValue => json.member (kv.1, canonical.render kv.2))
        = json.member ∘ (fun kv : String × GoValue => (kv.1, canonical.render kv.2)) from rfl,
        ← List.map_map, ← this]
      rfl
    simp only [json.generic, canonical.canonicalForm, json.encode, canonical.render, h1, h2]
    rw [map_congr_mem _ _ fields (fun kv hkv => by rw [ih kv hkv])]

/-- In the canonical form of a well-formed value the keys of every object are
strictly ascending. -/
theorem keysAscending_canonicalForm (v : GoValue) :
    v.WellFormed → (canonical.canonicalForm v).KeysAscending := by
  have hobj : ∀ kvs : List (String × GoValue), (kvs.map Prod.fst).Nodup →
      (∀ kv ∈ kvs, (canonical.canonicalForm kv.2).KeysAscending) →
      (GoValue.map (json.sortByKey (canonical.canonicalFields kvs))).KeysAscending := by
    intro kvs hn hall
    rw [GoValue.KeysAscending, canonicalFields_eq_map]
    constructor
    · rw [List.pairwise_map]
      apply sortByKey_strict
      simpa [List.map_map, Function.comp] using hn
    · rw [keysAscendingFields_iff]
      intro kv hkv
      have hmem := (sortByKey_perm _).mem_iff.mp hkv
      obtain ⟨kv', hkv', rfl⟩ := List.mem_map.mp hmem
      exact hall kv' hkv'
  induction v using GoValue.induct_value with
  | hnull => intro _; simp [canonical.canonicalForm, GoValue.KeysAscending]
  | hbool b => intro _; simp [canonical.canonicalForm, GoValue.KeysAscending]
  | hint n => intro _; simp [canonical.canonicalForm, GoValue.KeysAscending]
  | hfloat m => intro _; simp [canonical.canonicalForm, GoValue.KeysAscending]
  | hstr s => intro _; simp [canonical.canonicalForm, GoValue.KeysAscending]
  | hslice xs ih =>
    intro h
    rw [GoValue.WellFormed, wellFormedElems_iff] at h
    rw [canonical.canonicalForm, GoValue.KeysAscending, canonicalElems_eq_map,
      keysAscendingElems_iff]
    intro y hy
    obtain ⟨x, hx, rfl⟩ := List.mem_map.mp hy
    exact ih x hx (h x hx)
  | hmap kvs ih =>
    intro h
    rw [GoValue.WellFormed, wellFormedFields_iff] at h
    rw [canonical.canonicalForm]
    exact hobj kvs h.1 (fun kv hkv => ih kv hkv (h.2 kv hkv))
  | hstruct fields ih =>
    intro h
    rw [GoValue.WellFormed, wellFormedFields_iff] at h
    rw [canonical.canonicalForm]
    exact hobj fields h.1 (fun kv hkv => ih kv hkv (h.2 kv hkv))

/-- The value that `Unmarshal` builds from the text of a value is again a
value that `json.Marshal` encodes, and no deeper than the value it came from. -/
theorem generic_printable (v : GoValue) :
    v.Printable → (json.generic v).Printable ∧ (json.generic v).depth ≤ v.depth := by
  have hobj : ∀ (kvs l : List (String × GoValue)), (kvs.map Prod.fst).Nodup →
      l.Perm (json.genericFields kvs) →
      (∀ kv ∈ kvs, (json.generic kv.2).Printable ∧ (json.generic kv.2).depth ≤ kv.2.depth) →
      (GoValue.map l).Printable ∧ (GoValue.map l).depth ≤ GoValue.depthFields kvs + 1 := by
    intro kvs l hn hperm hall
    rw [genericFields_eq_map] at hperm
    have hmem : ∀ kv ∈ l, ∃ kv' ∈ kvs, kv = (kv'.1, json.generic kv'.2) := by
      intro kv hkv
      obtain ⟨kv', hkv', rfl⟩ := List.mem_map.mp (hperm.mem_iff.mp hkv)
      exact ⟨kv', hkv', rfl⟩
    constructor
    · rw [printable_map]
      constructor
      · rw [(hperm.map Prod.fst).nodup_iff]
        simpa [List.map_map, Function.comp] using hn
      · intro kv hkv
        obtain ⟨kv', hkv', rfl⟩ := hmem kv hkv
        exact (hall kv' hkv').1
    · rw [GoValue.depth]
      apply Nat.succ_le_succ
      rw [depthFields_le_iff]
      intro kv hkv
      obtain ⟨kv', hkv', rfl⟩ := hmem kv hkv
      exact le_trans (hall kv' hkv').2 (depth_le_depthFields kvs kv' hkv')
  induction v using GoValue.induct_value with
  | hnull => intro h; exact ⟨h, le_refl _⟩
  | hbool b => intro h; exact ⟨h, le_refl _⟩
  | hint n =>
    intro h
    rw [json.generic]
    exact ⟨⟨by simp [GoValue.WellFormed], by rw [json.allFinite]; exact printable_int n h⟩,
      by simp [GoValue.depth]⟩
  | hfloat m => intro h; rw [json.generic]; exact ⟨h, le_refl _⟩
  | hstr s => intro h; exact ⟨h, le_refl _⟩
  | hslice xs ih =>
    intro h
    rw [printable_slice] at h
    rw [json.generic, genericElems_eq_map]
    constructor
    · rw [printable_slice]
      intro y hy
      obtain ⟨x, hx, rfl⟩ := List.mem_map.mp hy
      exact (ih x hx (h x hx)).1
    · rw [GoValue.depth, GoValue.depth]
      apply Nat.succ_le_succ
      rw [depthElems_le_iff]
      intro y hy
      obtain ⟨x, hx, rfl⟩ := List.mem_map.mp hy
      exact le_trans (ih x hx (h x hx)).2 (depth_le_depthElems xs x hx)
  | hmap kvs ih =>
    intro h
    rw [printable_map] at h
    rw [json.generic, GoValue.depth]
    exact hobj kvs _ h.1 (sortByKey_perm _) (fun kv hkv => ih kv hkv (h.2 kv hkv))
  | hstruct fields ih =>
    intro h
    rw [printable_struct] at h
    rw [json.generic, GoValue.depth]
    exact hobj fields _ h.1 (List.Perm.refl _) (fun kv hkv => ih kv hkv (h.2 kv hkv))

/-- The canonical form of the value that `Unmarshal` builds is the canonical
form of the value it came from. -/
theorem canonicalForm_generic (v : GoValue) :
    canonical.canonicalForm (json.generic v) = canonical.canonicalForm v := by
  induction v using GoValue.induct_value with
  | hnull => rfl
  | hbool b => rfl
  | hint n => simp only [json.generic, canonical.canonicalForm]
  | hfloat m => rfl
  | hstr s => rfl
  | hslice xs ih =>
    simp only [json.generic, canonical.canonicalForm, genericElems_eq_map,
      canonicalElems_eq_map, List.map_map]
    rw [map_congr_mem (canonical.canonicalForm ∘ json.generic) canonical.canonicalForm xs
      (fun x hx => ih x hx)]
  | hmap kvs ih =>
    have h1 : canonical.canonicalFields (json.sortByKey (json.genericFields kvs))
        = json.sortByKey (kvs.map (fun kv =>
            (kv.1, canonical.canonicalForm (json.generic kv.2)))) := by
      rw [canonicalFields_eq_map, ← sortByKey_map_snd, genericFields_eq_map, List.map_map]
      rfl
    simp only [json.generic, canonical.canonicalForm, h1, sortByKey_idem,
      canonicalFields_eq_map]
    rw [map_congr_mem _ _ kvs (fun kv hkv => by rw [ih kv hkv])]
  | hstruct fields ih =>
    have h1 : canonical.canonicalFields (json.genericFields fields)
        = fields.map (fun kv => (kv.1, canonical.canonicalForm (json.generic kv.2))) := by
      rw [canonicalFields_eq_map, genericFields_eq_map, List.map_map]
      rfl
    simp only [json.generic, canonical.canonicalForm, h1, canonicalFields_eq_map]
    rw [map_congr_mem _ _ fields (fun kv hkv => by rw [ih kv hkv])]

/-- The result of `canonical.Marshal` on a value without a NaN or infinity,
within the depth limit of the decoder: the compact text of its canonical form. -/
theorem Marshal_eq_render (v : GoValue) (hwf : v.Printable)
    (hdepth : v.depth ≤ json.maxNestingDepth) :
    canonical.Marshal v = .ok (String.mk (canonical.render (canonical.canonicalForm v))) := by
  simp only [canonical.Marshal, json.Marshal, hwf.2, ↓reduceIte, Unmarshal_encode v hwf hdepth,
    (generic_printable v hwf).1.2, encode_generic]

/-- On a value of the kind the decoder builds, the value that `Unmarshal`
builds from its text is its canonical form. -/
theorem generic_eq_canonicalForm (v : GoValue) :
    v.IsGeneric → json.generic v = canonical.canonicalForm v := by
  induction v using GoValue.induct_value with
  | hnull => intro _; rfl
  | hbool b => intro _; rfl
  | hint n => intro h; simp [GoValue.IsGeneric] at h
  | hfloat m => intro _; rfl
  | hstr s => intro _; rfl
  | hslice xs ih =>
    intro h
    rw [GoValue.IsGeneric, isGenericElems_iff] at h
    simp only [json.generic, canonical.canonicalForm, genericElems_eq_map, canonicalElems_eq_map]
    rw [map_congr_mem json.generic canonical.canonicalForm xs (fun x hx => ih x hx (h x hx))]
  | hmap kvs ih =>
    intro h
    rw [GoValue.IsGeneric, isGenericFields_iff] at h
    simp only [json.generic, canonical.canonicalForm, genericFields_eq_map,
      canonicalFields_eq_map]
    rw [map_congr_mem _ _ kvs (fun kv hkv => by rw [ih kv hkv (h.2 kv hkv)])]
  | hstruct fields ih => intro h; simp [GoValue.IsGeneric] at h

/-- The text that `json.Marshal` writes for a value of the kind the decoder
builds is the compact text of its canonical form. -/
theorem encode_isGeneric (v : GoValue) :
    v.IsGeneric → json.encode v = canonical.render (canonical.canonicalForm v) := by
  induction v using GoValue.induct_value with
  | hnull => intro _; rfl
  | hbool b => intro _; cases b <;> rfl
  | hint n => intro h; simp [GoValue.IsGeneric] at h
  | hfloat m => intro _; simp only [canonical.canonicalForm, json.encode, canonical.render]
  | hstr s => intro _; simp only [canonical.canonicalForm, json.encode, canonical.render]
  | hslice xs ih =>
    intro h
    rw [GoValue.IsGeneric, isGenericElems_iff] at h
    simp only [canonical.canonicalForm, json.encode, canonical.render, canonicalElems_eq_map,
      encodeElems_eq_map, renderElems_eq_map, List.map_map]
    rw [map_congr_mem json.encode (canonical.render ∘ canonical.canonicalForm) xs
      (fun x hx => ih x hx (h x hx))]
  | hmap kvs ih =>
    intro h
    rw [GoValue.IsGeneric, isGenericFields_iff] at h
    have h2 : canonical.renderFields (json.sortByKey (canonical.canonicalFields kvs))
        = (json.sortByKey (kvs.map (fun kv =>
            (kv.1, canonical.render (canonical.canonicalForm kv.2))))).map json.member := by
      rw [renderFields_eq_map, canonicalFields_eq_map]
      have := sortByKey_map_snd canonical.render
        (kvs.map (fun kv => (kv.1, canonical.canonicalForm kv.2)))
      rw [List.map_map] at this
      rw [show (fun kv : String × GoValue => json.member (kv.1, canonical.render kv.2))
        = json.member ∘ (fun kv : String × GoValue => (kv.1, canonical.render kv.2)) from rfl,
        ← List.map_map, ← this]
      rfl
    simp only [canonical.canonicalForm, json.encode, canonical.render, h2, encodeFields_eq_map]
    rw [map_congr_mem _ _ kvs (fun kv hkv => by rw [ih kv hkv (h.2 kv hkv)])]
  | hstruct fields ih => intro h; simp [GoValue.IsGeneric] at h

/-- A successful `canonical.Marshal` went through a value `g` that the decoder
built: the output is the text of `g`, and `g` is what `Unmarshal` builds from
the text of `v` when `v` is a Go value. -/
theorem Marshal_ok_decoded (v : GoValue) (out : String) (h : canonical.Marshal v = .ok out) :
    json.allFinite v = true
      ∧ ∃ g, json.Unmarshal (String.mk (json.encode v)) = .ok g ∧ g.IsGeneric
          ∧ g.depth ≤ json.maxNestingDepth ∧ out = String.mk (json.encode g) := by
  unfold canonical.Marshal json.Marshal at h
  by_cases hfin : json.allFinite v = true
  · refine ⟨hfin, ?_⟩
    simp only [hfin, ↓reduceIte] at h
    split at h
    · cases h
    · rename_i g hg
      obtain ⟨hgen, hdepth⟩ := Unmarshal_isGeneric _ g hg
      have hg2 := (printable_of_isGeneric g hgen).2
      simp only [hg2, ↓reduceIte, Except.ok.injEq] at h
      exact ⟨g, hg, hgen, hdepth, h.symm⟩
  · simp only [hfin] at h
    cases h

/-! ## No white space between the tokens -/

theorem outsideStrings_plain (t rest : List Char) (h : ∀ c ∈ t, c ≠ '"') :
    json.outsideStrings .outside (t ++ rest) = t ++ json.outsideStrings .outside rest := by
  induction t with
  | nil => simp
  | cons c t ih =>
    have hc : c ≠ '"' := h c (by simp)
    rw [List.cons_append, json.outsideStrings, if_neg hc, ih (fun d hd => h d (by simp [hd])),
      List.cons_append]

theorem hexDigit_plain (d : Nat) : json.hexDigit d ≠ '\\' ∧ json.hexDigit d ≠ '"' := by
  by_cases h : d < 16
  · interval_cases d <;> exact ⟨by decide, by decide⟩
  · have : json.hexDigit d = '0' := by
      rw [json.hexDigit, List.getD_eq_default]
      simp only [not_lt] at h
      exact h
    rw [this]
    exact ⟨by decide, by decide⟩

theorem outsideStrings_escaped2 (e : Char) (t : List Char) :
    json.outsideStrings .inString ('\\' :: e :: t) = json.outsideStrings .inString t := by
  rw [json.outsideStrings, if_pos rfl, json.outsideStrings]

theorem outsideStrings_inString_plain (c : Char) (t : List Char) (h1 : c ≠ '\\') (h2 : c ≠ '"') :
    json.outsideStrings .inString (c :: t) = json.outsideStrings .inString t := by
  rw [json.outsideStrings, if_neg h1, if_neg h2]

theorem outsideStrings_escapeChar (c : Char) (t : List Char) :
    json.outsideStrings .inString (json.escapeChar c ++ t) = json.outsideStrings .inString t := by
  refine escapeChar_cases c
    (fun l => json.outsideStrings .inString (l ++ t) = json.outsideStrings .inString t)
    ?_ ?_ ?_ ?_ ?_ ?_ ?_ ?_ ?_ ?_ ?_
  · intro _; exact outsideStrings_escaped2 _ _
  · intro _; exact outsideStrings_escaped2 _ _
  · intro _; exact outsideStrings_escaped2 _ _
  · intro _; exact outsideStrings_escaped2 _ _
  · intro _; exact outsideStrings_escaped2 _ _
  · intro _; exact outsideStrings_escaped2 _ _
  · intro _; exact outsideStrings_escaped2 _ _
  · intro _
    show json.outsideStrings .inString ('\\' :: 'u' :: '0' :: '0' :: _ :: _ :: t) = _
    rw [outsideStrings_escaped2, outsideStrings_inString_plain _ _ (by decide) (by decide),
      outsideStrings_inString_plain _ _ (by decide) (by decide),
      outsideStrings_inString_plain _ _ (hexDigit_plain _).1 (hexDigit_plain _).2,
      outsideStrings_inString_plain _ _ (hexDigit_plain _).1 (hexDigit_plain _).2]
  · intro _
    show json.outsideStrings .inString ('\\' :: 'u' :: '2' :: '0' :: '2' :: '8' :: t) = _
    rw [outsideStrings_escaped2, outsideStrings_inString_plain _ _ (by decide) (by decide),
      outsideStrings_inString_plain _ _ (by decide) (by decide),
      outsideStrings_inString_plain _ _ (by decide) (by decide),
      outsideStrings_inString_plain _ _ (by decide) (by decide)]
  · intro _
    show json.outsideStrings .inString ('\\' :: 'u' :: '2' :: '0' :: '2' :: '9' :: t) = _
    rw [outsideStrings_escaped2, outsideStrings_inString_plain _ _ (by decide) (by decide),
      outsideStrings_inString_plain _ _ (by decide) (by decide),
      outsideStrings_inString_plain _ _ (by decide) (by decide),
      outsideStrings_inString_plain _ _ (by decide) (by decide)]
  · intro h1 h2 _
    exact outsideStrings_inString_plain c t h2 h1

theorem outsideStrings_body (s t : List Char) :
    json.outsideStrings .inString (s.flatMap json.escapeChar ++ '"' :: t)
      = json.outsideStrings .outside t := by
  induction s with
  | nil =>
    rw [List.flatMap_nil, List.nil_append, json.outsideStrings, if_neg (by decide), if_pos rfl]
  | cons c s ih => rw [List.flatMap_cons, List.append_assoc, outsideStrings_escapeChar, ih]

theorem outsideStrings_encodeString (s : String) (t : List Char) :
    json.outsideStrings .outside (json.encodeString s ++ t) = json.outsideStrings .outside t := by
  rw [json.encodeString, List.cons_append, List.append_assoc, List.singleton_append,
    json.outsideStrings, if_pos rfl, outsideStrings_body]

theorem compact_nil : json.Compact [] := fun rest => ⟨[], by simp, by simp⟩

theorem compact_append (a b : List Char) (ha : json.Compact a) (hb : json.Compact b) :
    json.Compact (a ++ b) := by
  intro rest
  obtain ⟨p, hp, hps⟩ := ha (b ++ rest)
  obtain ⟨q, hq, hqs⟩ := hb rest
  refine ⟨p ++ q, by rw [List.append_assoc, hp, hq, List.append_assoc], ?_⟩
  intro c hc
  rcases List.mem_append.mp hc with h | h
  · exact hps c h
  · exact hqs c h

theorem compact_plain (t : List Char) (h : ∀ c ∈ t, c ≠ '"' ∧ json.isSpace c = false) :
    json.Compact t :=
  fun rest => ⟨t, outsideStrings_plain t rest (fun c hc => (h c hc).1), fun c hc => (h c hc).2⟩

theorem compact_encodeString (s : String) : json.Compact (json.encodeString s) :=
  fun rest => ⟨[], by rw [outsideStrings_encodeString, List.nil_append], by simp⟩

theorem compact_cons (c : Char) (t : List Char) (h1 : c ≠ '"') (h2 : json.isSpace c = false)
    (ht : json.Compact t) : json.Compact (c :: t) :=
  compact_append [c] t (compact_plain [c] (by simpa using ⟨h1, h2⟩)) ht

theorem compact_joinComma (xs : List (List Char)) (h : ∀ x ∈ xs, json.Compact x) :
    json.Compact (json.joinComma xs) := by
  induction xs with
  | nil => exact compact_nil
  | cons x xs ih =>
    cases xs with
    | nil => exact h x (by simp)
    | cons y ys =>
      rw [json.joinComma]
      exact compact_append _ _ (h x (by simp))
        (compact_cons ',' _ (by decide) (by decide) (ih (fun z hz => h z (by simp [hz]))))

theorem compact_repr (n : Nat) : json.Compact (Nat.repr n).toList := by
  obtain ⟨d, ds, hrepr, hdig, _, _⟩ := repr_spec n
  rw [hrepr]
  exact compact_plain _ (fun c hc =>
    ⟨(isDigit_ne c (hdig c hc)).2.1, (isDigit_ne c (hdig c hc)).2.2.2.2.2.2.2⟩)

theorem compact_intText (n : Int) : json.Compact (strconv.intText n) := by
  by_cases h : n < 0
  · rw [strconv.intText, if_pos h]
    exact compact_cons '-' _ (by decide) (by decide) (compact_repr _)
  · rw [strconv.intText, if_neg h]
    exact compact_repr _

theorem compact_digits (ds : List Char) (h : ∀ c ∈ ds, c.isDigit = true) : json.Compact ds :=
  compact_plain _ (fun c hc =>
    ⟨(isDigit_ne c (h c hc)).2.1, (isDigit_ne c (h c hc)).2.2.2.2.2.2.2⟩)

theorem compact_floatText (f : Float64) : json.Compact (strconv.floatText f) := by
  unfold strconv.floatText
  split_ifs with hf hnan hsign
  · obtain ⟨⟨a, hint⟩, hfrac, hexp, _⟩ := floatParts_shape f
    rw [strconv.NumberText.text, hint]
    refine compact_append _ _ (compact_append _ _ (compact_append _ _ ?_ (compact_repr a)) ?_) ?_
    · split_ifs
      · exact compact_plain _ (by decide)
      · exact compact_nil
    · unfold strconv.fractionText
      split_ifs
      · exact compact_nil
      · exact compact_cons '.' _ (by decide) (by decide) (compact_digits _ hfrac)
    · rcases hexp with hexp | ⟨neg, b, hexp⟩
      · rw [hexp]
        exact compact_nil
      · rw [hexp, strconv.exponentText]
        refine compact_cons 'e' _ (by decide) (by decide) ?_
        cases neg
        · exact compact_cons '+' _ (by decide) (by decide) (compact_repr b)
        · exact compact_cons '-' _ (by decide) (by decide) (compact_repr b)
  · exact compact_plain _ (by decide)
  · exact compact_plain _ (by decide)
  · exact compact_plain _ (by decide)

theorem compact_object (fs : List (String × GoValue))
    (h : ∀ kv ∈ fs, json.Compact (json.encode kv.2)) :
    json.Compact ('{' :: (json.joinComma (fs.map (fun kv => json.member (kv.1, json.encode kv.2)))
      ++ ['}'])) := by
  refine compact_cons '{' _ (by decide) (by decide) (compact_append _ _ (compact_joinComma _ ?_)
    (compact_plain _ (by simp; decide)))
  intro x hx
  obtain ⟨kv, hkv, rfl⟩ := List.mem_map.mp hx
  rw [json.member]
  exact compact_append _ _ (compact_encodeString _)
    (compact_cons ':' _ (by decide) (by decide) (h kv hkv))

theorem compact_null : json.Compact (json.encode .null) :=
  compact_plain _ (by rw [json.encode]; decide)

theorem compact_bool (b : Bool) : json.Compact (json.encode (.bool b)) := by
  cases b
  · exact compact_plain _ (by rw [json.encode]; decide)
  · exact compact_plain _ (by rw [json.encode]; decide)

theorem compact_int (n : Int) : json.Compact (json.encode (.int n)) := by
  rw [json.encode]
  exact compact_intText n

theorem compact_float64 (m : Float64) : json.Compact (json.encode (.float64 m)) := by
  rw [json.encode]
  exact compact_floatText m

theorem compact_str (s : String) : json.Compact (json.encode (.str s)) := by
  rw [json.encode]
  exact compact_encodeString s

theorem compact_slice (xs : List GoValue) (ih : ∀ x ∈ xs, json.Compact (json.encode x)) :
    json.Compact (json.encode (.slice xs)) := by
  rw [json.encode, encodeElems_eq_map]
  refine compact_cons '[' _ (by decide) (by decide) (compact_append _ _
    (compact_joinComma _ ?_) (compact_plain _ (by simp; decide)))
  intro x hx
  obtain ⟨y, hy, rfl⟩ := List.mem_map.mp hx
  exact ih y hy

theorem compact_map (kvs : List (String × GoValue))
    (ih : ∀ kv ∈ kvs, json.Compact (json.encode kv.2)) :
    json.Compact (json.encode (.map kvs)) := by
  have henc : json.encode (.map kvs)
      = '{' :: (json.joinComma
          ((json.sortByKey kvs).map (fun kv => json.member (kv.1, json.encode kv.2)))
          ++ ['}']) := by
    rw [json.encode, encodeFields_eq_map, sortByKey_map_snd, List.map_map]
    rfl
  rw [henc]
  exact compact_object _ (fun kv hkv => ih kv ((sortByKey_perm kvs).mem_iff.mp hkv))

theorem compact_struct (fields : List (String × GoValue))
    (ih : ∀ kv ∈ fields, json.Compact (json.encode kv.2)) :
    json.Compact (json.encode (.struct fields)) := by
  have henc : json.encode (.struct fields)
      = '{' :: (json.joinComma (fields.map (fun kv => json.member (kv.1, json.encode kv.2)))
          ++ ['}']) := by
    rw [json.encode, encodeFields_eq_map, List.map_map]
    rfl
  rw [henc]
  exact compact_object _ ih

/-- The text that `json.Marshal` writes has no white space outside its string
literals. -/
theorem compact_encode (v : GoValue) : json.Compact (json.encode v) :=
  GoValue.induct_value (P := fun v => json.Compact (json.encode v))
    compact_null compact_bool compact_int compact_float64 compact_str
    compact_slice compact_map compact_struct v

/-- The output of `canonical.Marshal` has no white space outside its string literals. -/
theorem Marshal_no_space (v : GoValue) (out : String) (h : canonical.Marshal v = .ok out) :
    ∀ c ∈ json.outsideStrings .outside out.toList, json.isSpace c = false := by
  obtain ⟨_, g, _, _, _, rfl⟩ := Marshal_ok_decoded v out h
  obtain ⟨p, hp, hps⟩ := compact_encode g []
  rw [List.append_nil, json.outsideStrings, List.append_nil] at hp
  intro c hc
  exact hps c (by rw [← hp]; exact hc)

/-! ## Canonical JSON: the claims -/

/-- C4. Idempotence: for every value `v` on which `canonical.Marshal` succeeds,
with output `out`, the output parses as JSON and marshalling the parsed value
again returns the same bytes `out`. The numbers of `v` are any `int` and any
`float64`: whole numbers, fractions, numbers printed with an exponent, the
negative zero (a NaN or an infinity makes `canonical.Marshal` fail). -/
theorem Marshal_idempotent (v : GoValue) (out : String) (h : canonical.Marshal v = .ok out) :
    ∃ parsed, json.Unmarshal out = .ok parsed ∧ canonical.Marshal parsed = .ok out := by
  obtain ⟨_, g, _, hgen, hdepth, rfl⟩ := Marshal_ok_decoded v out h
  have hp := printable_of_isGeneric g hgen
  obtain ⟨hp', hd'⟩ := generic_printable g hp
  refine ⟨json.generic g, Unmarshal_encode g hp hdepth, ?_⟩
  rw [Marshal_eq_render _ hp' (le_trans hd' hdepth), canonicalForm_generic,
    encode_isGeneric g hgen]

set_option exponentiation.threshold 100000 in
set_option maxRecDepth 100000 in
theorem Marshal_idempotent_witness :
    canonical.Marshal (.struct [("x", .map [("z", .float64 ⟨false, 1023, 2251799813685248⟩),
        ("y", .float64 ⟨false, 1092, 3125794903879504⟩), ("w", .int 9007199254740993)]),
        ("a", .float64 ⟨true, 0, 0⟩)])
      = .ok "\x7b\"a\":-0,\"x\":\x7b\"w\":9007199254740992,\"y\":1e+21,\"z\":1.5\x7d\x7d"
    ∧ ∃ parsed,
        json.Unmarshal "\x7b\"a\":-0,\"x\":\x7b\"w\":9007199254740992,\"y\":1e+21,\"z\":1.5\x7d\x7d"
          = .ok parsed
        ∧ canonical.Marshal parsed
          = .ok "\x7b\"a\":-0,\"x\":\x7b\"w\":9007199254740992,\"y\":1e+21,\"z\":1.5\x7d\x7d" :=
  ⟨rfl,
    Marshal_idempotent (.struct [("x", .map [("z", .float64 ⟨false, 1023, 2251799813685248⟩),
        ("y", .float64 ⟨false, 1092, 3125794903879504⟩), ("w", .int 9007199254740993)]),
        ("a", .float64 ⟨true, 0, 0⟩)]) _ rfl⟩

set_option exponentiation.threshold 100000 in
set_option maxRecDepth 100000 in
/-- C5. For every value `v` on which `canonical.Marshal` succeeds, the output
is a JSON text: it parses, to a value `form`, and it is the text of `form`
written with no white space between the tokens and the entries of each object
in the order in which `form` lists them; in `form` the entries of every
object, at every depth, are in strictly ascending key order; no character of
the output outside a string literal is white space; and when `v` is a Go value
(the keys of each of its maps distinct, its `int`s in the range of `int64`),
`form` is the canonical form of `v`. The value `{"x":{"z":3,"y":2},"a":1}`
gives `{"a":1,"x":{"y":2,"z":3}}` and the empty object gives `{}`. -/
theorem Marshal_sorted_compact (v : GoValue) (out : String)
    (h : canonical.Marshal v = .ok out) :
    (∃ form, json.Unmarshal out = .ok form
      ∧ out = String.mk (canonical.render form)
      ∧ form.KeysAscending
      ∧ (v.WellFormed → form = canonical.canonicalForm v))
    ∧ (∀ c ∈ json.outsideStrings .outside out.toList, json.isSpace c = false)
    ∧ canonical.Marshal (.map [("x", .map [("z", .int 3), ("y", .int 2)]), ("a", .int 1)])
        = .ok "\x7b\"a\":1,\"x\":\x7b\"y\":2,\"z\":3\x7d\x7d"
    ∧ canonical.Marshal (.map []) = .ok "\x7b\x7d" := by
  refine ⟨?_, Marshal_no_space v out h, rfl, rfl⟩
  obtain ⟨hfin, g, hg, hgen, hdepth, rfl⟩ := Marshal_ok_decoded v out h
  have hp := printable_of_isGeneric g hgen
  refine ⟨json.generic g, Unmarshal_encode g hp hdepth, ?_, ?_, ?_⟩
  · rw [generic_eq_canonicalForm g hgen, encode_isGeneric g hgen]
  · rw [generic_eq_canonicalForm g hgen]
    exact keysAscending_canonicalForm g hp.1
  · intro hwf
    have hv : v.Printable := ⟨hwf, hfin⟩
    have hdv := depth_le_of_Marshal_ok v hv _ h
    rw [Unmarshal_encode v hv hdv] at hg
    simp only [Except.ok.injEq] at hg
    rw [generic_eq_canonicalForm g hgen, ← hg, canonicalForm_generic]

set_option exponentiation.threshold 100000 in
set_option maxRecDepth 100000 in
theorem Marshal_sorted_compact_witness :
    canonical.Marshal (.map [("b c", .slice [.float64 ⟨false, 999, 3052186745220936⟩, .null]),
        ("a", .str "p q"), ("B", .float64 ⟨false, 1019, 2702159776422298⟩)])
      = .ok "\x7b\"B\":0.1,\"a\":\"p q\",\"b c\":[1e-7,null]\x7d"
    ∧ (∃ form, json.Unmarshal "\x7b\"B\":0.1,\"a\":\"p q\",\"b c\":[1e-7,null]\x7d" = .ok form
        ∧ "\x7b\"B\":0.1,\"a\":\"p q\",\"b c\":[1e-7,null]\x7d"
            = String.mk (canonical.render form)
        ∧ form.KeysAscending)
    ∧ json.outsideStrings .outside "\x7b\"B\":0.1,\"a\":\"p q\",\"b c\":[1e-7,null]\x7d".toList
        = "\x7b:0.1,:,:[1e-7,null]\x7d".toList :=
  ⟨rfl,
    (Marshal_sorted_compact (.map [("b c", .slice [.float64 ⟨false, 999, 3052186745220936⟩,
        .null]), ("a", .str "p q"), ("B", .float64 ⟨false, 1019, 2702159776422298⟩)])
      _ rfl).1.elim (fun form hform => ⟨form, hform.1, hform.2.1, hform.2.2.1⟩),
    by rfl⟩

/-! ## The conformance harness: skipped and negative vectors -/

theorem runVector_sign_routed (L : Stdlib) (vec : main.TestVector) (isNegative : Bool)
    (h : strings.HasPrefix vec.TestID "sign_" = true ∨
      strings.HasPrefix vec.TestID "invalid_seed" = true) :
    main.runVector L vec isNegative
      = (main.testSign L vec).map (main.classify L vec isNegative) := by
  have : (strings.HasPrefix vec.TestID "sign_" ||
      strings.HasPrefix vec.TestID "invalid_seed") = true := by
    rcases h with h | h <;> simp [h]
  simp only [main.runVector, this, ↓reduceIte]
  cases main.testSign L vec <;> rfl

theorem runVector_verify_routed (L : Stdlib) (vec : main.TestVector) (isNegative : Bool)
    (h : strings.HasPrefix vec.TestID "verify_" = true) :
    main.runVector L vec isNegative
      = (main.testVerify L vec).map (main.classify L vec isNegative) := by
  simp only [main.runVector, HasPrefix_verify_not_sign _ h, h, ↓reduceIte]
  cases main.testVerify L vec <;> rfl

theorem runVector_of_evaluatesWithError (L : Stdlib) (vec : main.TestVector)
    (isNegative : Bool) (e : GoError) (h : main.evaluatesWithError L vec e) :
    main.runVector L vec isNegative = .ok (main.classify L vec isNegative (some e)) := by
  rcases h with ⟨hp, he⟩ | ⟨hp, he⟩
  · rw [runVector_sign_routed L vec isNegative hp, he]
    rfl
  · rw [runVector_verify_routed L vec isNegative hp, he]
    rfl

theorem testSign_without_seed (L : Stdlib) (vec : main.TestVector)
    (h : asString (mapIndex vec.Inputs "seed_hex") = none) : main.testSign L vec = .ok none := by
  simp only [main.testSign, h, Option.getD_none, ne_eq, not_true_eq_false, ↓reduceIte]
  rfl

/-- C11, as the code has it. A vector routed to signing evaluation whose inputs
have no `seed_hex` is skipped: `testSign` returns no error, with every
library, also one in which every call panics, so none of the checks of
`expected` is performed. Run as positive the vector passes. Run as negative
the skipped evaluation counts as an operation that succeeded: the vector
passes when `expected.verify` is the boolean `false` and fails with
`expected error but operation succeeded` otherwise. -/
theorem runVector_skip_without_seed (L : Stdlib) (vec : main.TestVector)
    (hroute : strings.HasPrefix vec.TestID "sign_" = true ∨
      strings.HasPrefix vec.TestID "invalid_seed" = true)
    (hseed : mapIndex vec.Inputs "seed_hex" = none) :
    main.testSign L vec = .ok none
    ∧ main.runVector L vec false = .ok none
    ∧ (mapIndex vec.Expected "verify" = some (.bool false) →
        main.runVector L vec true = .ok none)
    ∧ (mapIndex vec.Expected "verify" ≠ some (.bool false) →
        main.runVector L vec true
          = .ok (some (.plain "expected error but operation succeeded"))) := by
  have hs : asString (mapIndex vec.Inputs "seed_hex") = none := by rw [hseed]; rfl
  have ht := testSign_without_seed L vec hs
  refine ⟨ht, ?_, ?_, ?_⟩
  · rw [runVector_sign_routed L vec false hroute, ht]
    rfl
  · intro hv
    rw [runVector_sign_routed L vec true hroute, ht]
    simp only [Except.map, main.classify, ↓reduceIte, hv]
  · intro hv
    rw [runVector_sign_routed L vec true hroute, ht]
    simp only [Except.map, main.classify, ↓reduceIte]

theorem runVector_skip_without_seed_witness :
    (strings.HasPrefix "sign_later" "sign_" = true ∨
      strings.HasPrefix "sign_later" "invalid_seed" = true)
    ∧ mapIndex [("message_utf8", GoValue.str "hi")] "seed_hex" = none
    ∧ main.testSign panickingStdlib
        { TestID := "sign_later", Inputs := [("message_utf8", .str "hi")],
          Expected := [("did", .str "did:key:zWrong"), ("verify", .bool true)],
          ExpectedError := none } = .ok none
    ∧ main.runVector panickingStdlib
        { TestID := "sign_later", Inputs := [("message_utf8", .str "hi")],
          Expected := [("did", .str "did:key:zWrong"), ("verify", .bool true)],
          ExpectedError := none } false = .ok none :=
  ⟨Or.inl rfl, rfl,
    (runVector_skip_without_seed panickingStdlib
      { TestID := "sign_later", Inputs := [("message_utf8", .str "hi")],
        Expected := [("did", .str "did:key:zWrong"), ("verify", .bool true)],
        ExpectedError := none } (Or.inl rfl) rfl).1,
    (runVector_skip_without_seed panickingStdlib
      { TestID := "sign_later", Inputs := [("message_utf8", .str "hi")],
        Expected := [("did", .str "did:key:zWrong"), ("verify", .bool true)],
        ExpectedError := none } (Or.inl rfl) rfl).2.1⟩

/-- C11, as stated, fails: the vector `sign_absent` is routed to signing
evaluation and has no `seed_hex`, and run as negative it does not pass. -/
theorem runVector_skip_negative_fails :
    strings.HasPrefix "sign_absent" "sign_" = true
    ∧ mapIndex [("message_utf8", GoValue.str "hi")] "seed_hex" = none
    ∧ main.runVector demoStdlib
        { TestID := "sign_absent", Inputs := [("message_utf8", .str "hi")], Expected := [],
          ExpectedError := some { Code := "", MessageContains := "" } } true
      = .ok (some (.plain "expected error but operation succeeded")) :=
  ⟨rfl, rfl, rfl⟩

/-- C12. A negative vector whose evaluation raises the error `e` and whose
`expected_error` has a non-empty `message_contains`: when the lower-cased
`message_contains` is not a substring of the lower-cased text of `e` the
vector fails with an `error message mismatch` error that quotes both texts
as they were; when it is a substring and `expected_error.code` is empty the
vector passes. Both texts go through `strings.ToLower`, so the match
ignores case on either side. -/
theorem runVector_negative_message_check (L : Stdlib) (vec : main.TestVector) (e : GoError)
    (expectedError : main.ExpectedError) (hEval : main.evaluatesWithError L vec e)
    (hExpected : vec.ExpectedError = some expectedError)
    (hSet : expectedError.MessageContains ≠ "") :
    (strings.Contains (strings.ToLower L e.Error)
        (strings.ToLower L expectedError.MessageContains) = false →
      main.runVector L vec true = .ok (some (.plain ("error message mismatch: want '" ++
        expectedError.MessageContains ++ "', got '" ++ e.Error ++ "'"))))
    ∧ (strings.Contains (strings.ToLower L e.Error)
        (strings.ToLower L expectedError.MessageContains) = true →
      expectedError.Code = "" → main.runVector L vec true = .ok none) := by
  rw [runVector_of_evaluatesWithError L vec true e hEval]
  constructor
  · intro h
    simp only [main.classify, ↓reduceIte, hExpected, h, ne_eq, hSet, not_false_eq_true,
      Bool.not_false, and_self]
  · intro h hcode
    simp only [main.classify, ↓reduceIte, hExpected, h, Bool.not_true, Bool.false_eq_true,
      and_false, hcode, ne_eq, not_true_eq_false]

theorem runVector_negative_message_check_witness :
    main.evaluatesWithError panickingStdlib
      { TestID := "invalid_seed_short", Inputs := [("seed_hex", .str "00ff")], Expected := [],
        ExpectedError := some { Code := "", MessageContains := "SEED Must" } }
      (.talos (errors.New errors.CodeInvalidInput "seed must be 32 bytes" []))
    ∧ ("SEED Must" : String) ≠ ""
    ∧ strings.Contains (strings.ToLower panickingStdlib
          (GoError.talos (errors.New errors.CodeInvalidInput "seed must be 32 bytes" [])).Error)
        (strings.ToLower panickingStdlib "SEED Must") = true
    ∧ main.runVector panickingStdlib
        { TestID := "invalid_seed_short", Inputs := [("seed_hex", .str "00ff")], Expected := [],
          ExpectedError := some { Code := "", MessageContains := "SEED Must" } } true
      = .ok none :=
  ⟨Or.inl ⟨Or.inr rfl, rfl⟩, by decide, by decide,
    (runVector_negative_message_check panickingStdlib
      { TestID := "invalid_seed_short", Inputs := [("seed_hex", .str "00ff")], Expected := [],
        ExpectedError := some { Code := "", MessageContains := "SEED Must" } }
      (.talos (errors.New errors.CodeInvalidInput "seed must be 32 bytes" []))
      { Code := "", MessageContains := "SEED Must" } (Or.inl ⟨Or.inr rfl, rfl⟩) rfl
      (by decide)).2 (by decide) rfl⟩

/-- C13. A negative vector whose evaluation raises the error `e`, whose
`expected_error.code` is not empty and whose message check, if there is one,
succeeds: when `e` is a `*TalosError` the vector passes exactly when the code
of `e` is the expected code, and fails with an `error code mismatch` error
otherwise; when `e` is any other error the code is not looked at and the
vector passes. -/
theorem runVector_negative_code_check (L : Stdlib) (vec : main.TestVector) (e : GoError)
    (expectedError : main.ExpectedError) (hEval : main.evaluatesWithError L vec e)
    (hExpected : vec.ExpectedError = some expectedError)
    (hCode : expectedError.Code ≠ "")
    (hMessage : expectedError.MessageContains = "" ∨
      strings.Contains (strings.ToLower L e.Error)
        (strings.ToLower L expectedError.MessageContains) = true) :
    (∀ te : errors.TalosError GoError, e = .talos te →
      (main.runVector L vec true = .ok none ↔ te.Code = expectedError.Code)
      ∧ (te.Code ≠ expectedError.Code →
          main.runVector L vec true = .ok (some (.plain ("error code mismatch: want " ++
            expectedError.Code ++ ", got " ++ te.Code)))))
    ∧ (∀ text : String, e = .plain text → main.runVector L vec true = .ok none) := by
  rw [runVector_of_evaluatesWithError L vec true e hEval]
  have hskip : ¬ (expectedError.MessageContains ≠ "" ∧
      (!strings.Contains (strings.ToLower L e.Error)
        (strings.ToLower L expectedError.MessageContains)) = true) := by
    rcases hMessage with h | h
    · simp [h]
    · simp [h]
  constructor
  · intro te hte
    subst hte
    by_cases hc : te.Code = expectedError.Code
    · simp only [main.classify, ↓reduceIte, hExpected, if_neg hskip, if_pos hCode, hc, ne_eq,
        not_true_eq_false, true_iff, not_false_eq_true, implies_true, and_self, iff_true,
        false_implies]
    · simp only [main.classify, ↓reduceIte, hExpected, if_neg hskip, if_pos hCode, ne_eq, hc,
        not_false_eq_true, Except.ok.injEq, reduceCtorEq, false_iff, imp_self, and_self, iff_false]
  · intro text hte
    subst hte
    simp only [main.classify, ↓reduceIte, hExpected, if_neg hskip, if_pos hCode]

theorem runVector_negative_code_check_witness :
    main.evaluatesWithError panickingStdlib
      { TestID := "sign_odd_hex", Inputs := [("seed_hex", .str "abc")], Expected := [],
        ExpectedError := some { Code := "TALOS_DENIED", MessageContains := "" } }
      hex.ErrLength
    ∧ ("TALOS_DENIED" : String) ≠ ""
    ∧ main.runVector panickingStdlib
        { TestID := "sign_odd_hex", Inputs := [("seed_hex", .str "abc")], Expected := [],
          ExpectedError := some { Code := "TALOS_DENIED", MessageContains := "" } } true
      = .ok none :=
  ⟨Or.inl ⟨Or.inl rfl, rfl⟩, by decide,
    (runVector_negative_code_check panickingStdlib
      { TestID := "sign_odd_hex", Inputs := [("seed_hex", .str "abc")], Expected := [],
        ExpectedError := some { Code := "TALOS_DENIED", MessageContains := "" } }
      hex.ErrLength { Code := "TALOS_DENIED", MessageContains := "" }
      (Or.inl ⟨Or.inl rfl, rfl⟩) rfl (by decide) (Or.inl rfl)).2
      "encoding/hex: odd length hex string" rfl⟩

theorem testSign_bad_seed_length (L : Stdlib) (vec : main.TestVector) (s : String)
    (seed : List Byte) (hseed : asString (mapIndex vec.Inputs "seed_hex") = some s)
    (hne : s ≠ "") (hhex : hex.DecodeString s = (seed, none)) (hlen : seed.length ≠ 32) :
    main.testSign L vec = .ok (some (.talos (errors.New errors.CodeInvalidInput
      "seed must be 32 bytes" []))) := by
  simp only [main.testSign, hseed, Option.getD_some, ne_eq, hne, not_false_eq_true, ↓reduceIte,
    hhex, wallet_FromSeed_bad_length L seed "" hlen]
  rfl

theorem ToLower_seed_error (L : Stdlib) :
    strings.ToLower L
        (GoError.talos (errors.New errors.CodeInvalidInput "seed must be 32 bytes" [])).Error
      = "[talos_invalid_input] seed must be 32 bytes" ∧ strings.ToLower L "32" = "32" :=
  ⟨rfl, rfl⟩

/-- C14. End to end: a negative vector whose `test_id` starts with
`invalid_seed` or `sign_`, whose `seed_hex` is a non-empty valid hex string
that decodes to a number of bytes other than 32, and whose `expected_error`
has `message_contains = "32"` and a code that is empty or
`TALOS_INVALID_INPUT`, passes: `runVector vec true` returns no error, whatever
`expected` holds and with every library, also one in which every call panics. -/
theorem runVector_invalid_seed_passes (L : Stdlib) (vec : main.TestVector) (s : String)
    (seed : List Byte) (expectedError : main.ExpectedError)
    (hroute : strings.HasPrefix vec.TestID "invalid_seed" = true ∨
      strings.HasPrefix vec.TestID "sign_" = true)
    (hseed : asString (mapIndex vec.Inputs "seed_hex") = some s) (hne : s ≠ "")
    (hhex : hex.DecodeString s = (seed, none)) (hlen : seed.length ≠ 32)
    (hExpected : vec.ExpectedError = some expectedError)
    (hMessage : expectedError.MessageContains = "32")
    (hCode : expectedError.Code = "" ∨ expectedError.Code = "TALOS_INVALID_INPUT") :
    main.runVector L vec true = .ok none := by
  rw [runVector_sign_routed L vec true hroute.symm,
    testSign_bad_seed_length L vec s seed hseed hne hhex hlen]
  have hcontains : strings.Contains (strings.ToLower L
      (GoError.talos (errors.New errors.CodeInvalidInput "seed must be 32 bytes" [])).Error)
      (strings.ToLower L expectedError.MessageContains) = true := by
    rw [hMessage, (ToLower_seed_error L).1, (ToLower_seed_error L).2]
    decide
  have hskip : ¬ (expectedError.MessageContains ≠ "" ∧
      (!strings.Contains (strings.ToLower L
        (GoError.talos (errors.New errors.CodeInvalidInput "seed must be 32 bytes" [])).Error)
        (strings.ToLower L expectedError.MessageContains)) = true) := by
    simp [hcontains]
  rcases hCode with hc | hc
  · simp only [Except.map, main.classify, ↓reduceIte, hExpected, if_neg hskip, hc, ne_eq,
      not_true_eq_false]
  · have hne2 : expectedError.Code ≠ "" := by rw [hc]; decide
    have hcode : (errors.New errors.CodeInvalidInput "seed must be 32 bytes"
        ([] : List (errors.ErrorOption GoError))).Code = expectedError.Code := by
      rw [hc]; rfl
    simp only [Except.map, main.classify, ↓reduceIte, hExpected, if_neg hskip, if_pos hne2,
      hcode, ne_eq, not_true_eq_false]

theorem runVector_invalid_seed_passes_witness :
    (strings.HasPrefix "invalid_seed_31" "invalid_seed" = true ∨
      strings.HasPrefix "invalid_seed_31" "sign_" = true)
    ∧ hex.DecodeString "00112233445566778899aabbccddeeff00112233445566778899aabbccddee"
      = ((hex.DecodeString
          "00112233445566778899aabbccddeeff00112233445566778899aabbccddee").1, none)
    ∧ (hex.DecodeString
        "00112233445566778899aabbccddeeff00112233445566778899aabbccddee").1.length = 31
    ∧ main.runVector panickingStdlib
        { TestID := "invalid_seed_31",
          Inputs := [("seed_hex", .str
            "00112233445566778899aabbccddeeff00112233445566778899aabbccddee")],
          Expected := [("did", .str "did:key:zNone"), ("verify", .bool true)],
          ExpectedError := some { Code := "TALOS_INVALID_INPUT", MessageContains := "32" } } true
      = .ok none :=
  ⟨Or.inl rfl, rfl, rfl,
    runVector_invalid_seed_passes panickingStdlib
      { TestID := "invalid_seed_31",
        Inputs := [("seed_hex", .str
          "00112233445566778899aabbccddeeff00112233445566778899aabbccddee")],
        Expected := [("did", .str "did:key:zNone"), ("verify", .bool true)],
        ExpectedError := some { Code := "TALOS_INVALID_INPUT", MessageContains := "32" } }
      "00112233445566778899aabbccddeeff00112233445566778899aabbccddee"
      (hex.DecodeString "00112233445566778899aabbccddeeff00112233445566778899aabbccddee").1
      { Code := "TALOS_INVALID_INPUT", MessageContains := "32" }
      (Or.inl rfl) rfl (by decide) rfl (by decide) rfl rfl (Or.inr rfl)⟩

/-! ## Signing evaluation -/

/-- With a wallet and a library that signs and verifies, the checks of
`testSign` are the four checks of the specification, the first failure
being the result. -/
theorem signChecks_eq (L : Stdlib) (w : wallet.Wallet) (msgStr : String)
    (expected : List (String × GoValue)) (sig : List Byte) (verified : Bool)
    (hpub : w.publicKey.length = 32)
    (hsig : L.Sign w.privateKey (utf8 msgStr) = .ok sig)
    (hver : L.Verify w.publicKey (utf8 msgStr) sig = .ok verified) :
    main.signChecks L (some w) msgStr expected
      = .ok (main.firstFailure
          [main.didCheck expected ("did:key:z" ++ wallet.EncodeBase58 ([0xed, 0x01] ++ w.publicKey)),
            main.signatureCheck expected sig, main.lengthCheck expected sig,
            main.verifyCheck expected verified]) := by
  have hv : wallet.Verify L w.publicKey (utf8 msgStr) sig = .ok verified := by
    simp only [wallet.Verify, crypto.PublicKeySize, hpub, ne_eq, not_true_eq_false, ↓reduceIte,
      crypto.Verify, hver]
  have hs : wallet.Sign L (some w) (utf8 msgStr) = .ok sig := by
    simp only [wallet.Sign, crypto.Sign, hsig]
  have hd : wallet.DID (some w)
      = .ok ("did:key:z" ++ wallet.EncodeBase58 ([0xed, 0x01] ++ w.publicKey)) := rfl
  have hp : wallet.PublicKey (some w) = .ok w.publicKey := rfl
  unfold main.signChecks
  simp only [main.didCheck, main.signatureCheck, main.lengthCheck, main.verifyCheck, hd, hs, hp,
    hv, bind, Except.bind, pure, Except.pure]
  rcases hb : asBool (mapIndex expected "verify") with _ | b
  · cases asString (mapIndex expected "did") <;>
      cases asString (mapIndex expected "signature_base64url") <;>
      cases asFloat64 (mapIndex expected "signature_length") <;>
      simp only [main.firstFailure] <;> split_ifs <;> simp_all [main.firstFailure]
  · cases b <;> cases verified <;>
      cases asString (mapIndex expected "did") <;>
      cases asString (mapIndex expected "signature_base64url") <;>
      cases asFloat64 (mapIndex expected "signature_length") <;>
      simp only [main.firstFailure] <;> split_ifs <;> simp_all [main.firstFailure]

theorem signChecks_did_mismatch (L : Stdlib) (w : wallet.Wallet) (msgStr want : String)
    (expected : List (String × GoValue)) (hwant : asString (mapIndex expected "did") = some want)
    (hne : want ≠ "did:key:z" ++ wallet.EncodeBase58 ([0xed, 0x01] ++ w.publicKey)) :
    main.signChecks L (some w) msgStr expected
      = .ok (some (.plain ("DID mismatch: want " ++ want ++ ", got " ++
          ("did:key:z" ++ wallet.EncodeBase58 ([0xed, 0x01] ++ w.publicKey))))) := by
  have hd : wallet.DID (some w)
      = .ok ("did:key:z" ++ wallet.EncodeBase58 ([0xed, 0x01] ++ w.publicKey)) := rfl
  unfold main.signChecks
  simp only [hwant, hd, bind, Except.bind, pure, Except.pure, ne_eq, Ne.symm hne,
    not_false_eq_true, ↓reduceIte]

theorem testSign_with_wallet (L : Stdlib) (vec : main.TestVector) (s : String)
    (seed : List Byte) (w : wallet.Wallet)
    (hseed : asString (mapIndex vec.Inputs "seed_hex") = some s) (hne : s ≠ "")
    (hhex : hex.DecodeString s = (seed, none))
    (hw : wallet.FromSeed L seed "" = .ok (some w, none)) :
    main.testSign L vec
      = main.signChecks L (some w) ((asString (mapIndex vec.Inputs "message_utf8")).getD "")
          vec.Expected := by
  simp only [main.testSign, hseed, Option.getD_some, ne_eq, hne, not_false_eq_true, ↓reduceIte,
    hhex, hw]
  rfl

/-- C16. Signing evaluation with a `seed_hex` that decodes to 32 bytes builds
the wallet and runs the checks of `expected.did`, `expected.signature_base64url`,
`expected.signature_length` and `expected.verify` in this order, each only when
its field is there with the right type; the result is the error of the first
check that fails. So when `expected.did` is a string other than the DID of the
wallet the result is the DID-mismatch error, whatever the other fields and
the library do, and when every check succeeds the result is no error. -/
theorem testSign_first_failing_check (L : Stdlib) (hL : L.KeyGen) (vec : main.TestVector)
    (s : String) (seed : List Byte)
    (hseed : asString (mapIndex vec.Inputs "seed_hex") = some s) (hne : s ≠ "")
    (hhex : hex.DecodeString s = (seed, none)) (hlen : seed.length = 32) :
    ∃ w : wallet.Wallet, wallet.FromSeed L seed "" = .ok (some w, none)
      ∧ (∀ want : String, asString (mapIndex vec.Expected "did") = some want →
          want ≠ "did:key:z" ++ wallet.EncodeBase58 ([0xed, 0x01] ++ w.publicKey) →
          main.testSign L vec = .ok (some (.plain ("DID mismatch: want " ++ want ++ ", got " ++
            ("did:key:z" ++ wallet.EncodeBase58 ([0xed, 0x01] ++ w.publicKey))))))
      ∧ (∀ (sig : List Byte) (verified : Bool),
          L.Sign w.privateKey
            (utf8 ((asString (mapIndex vec.Inputs "message_utf8")).getD "")) = .ok sig →
          L.Verify w.publicKey
            (utf8 ((asString (mapIndex vec.Inputs "message_utf8")).getD "")) sig = .ok verified →
          main.testSign L vec = .ok (main.firstFailure
            [main.didCheck vec.Expected
                ("did:key:z" ++ wallet.EncodeBase58 ([0xed, 0x01] ++ w.publicKey)),
              main.signatureCheck vec.Expected sig, main.lengthCheck vec.Expected sig,
              main.verifyCheck vec.Expected verified])
          ∧ (main.didCheck vec.Expected
                ("did:key:z" ++ wallet.EncodeBase58 ([0xed, 0x01] ++ w.publicKey)) = none →
              main.signatureCheck vec.Expected sig = none →
              main.lengthCheck vec.Expected sig = none →
              main.verifyCheck vec.Expected verified = none →
              main.testSign L vec = .ok none)) := by
  obtain ⟨priv, hp, hpl⟩ := hL seed hlen
  have hw := wallet_FromSeed_ok L seed priv "" hlen hp hpl
  refine ⟨_, hw, ?_, ?_⟩
  · intro want hwant hdiff
    rw [testSign_with_wallet L vec s seed _ hseed hne hhex hw]
    exact signChecks_did_mismatch L _ _ want vec.Expected hwant hdiff
  · intro sig verified hsig hver
    have hmain := signChecks_eq L _ ((asString (mapIndex vec.Inputs "message_utf8")).getD "")
      vec.Expected sig verified (by simp) hsig hver
    rw [testSign_with_wallet L vec s seed _ hseed hne hhex hw]
    refine ⟨hmain, ?_⟩
    intro h1 h2 h3 h4
    rw [hmain, h1, h2, h3, h4]
    rfl

theorem testSign_first_failing_check_witness :
    demoStdlib.KeyGen
    ∧ hex.DecodeString "0000000000000000000000000000000000000000000000000000000000000000"
        = (List.replicate 32 0, none)
    ∧ ∃ w : wallet.Wallet, wallet.FromSeed demoStdlib (List.replicate 32 0) "" = .ok (some w, none)
      ∧ main.testSign demoStdlib
          { TestID := "sign_wrong_did",
            Inputs := [("seed_hex", .str
              "0000000000000000000000000000000000000000000000000000000000000000"),
              ("message_utf8", .str "hi")],
            Expected := [("signature_length", .float64 ⟨false, 1025, 3377699720527872⟩), ("did", .str "wrong")],
            ExpectedError := none }
        = .ok (some (.plain ("DID mismatch: want wrong, got " ++
            ("did:key:z" ++ wallet.EncodeBase58 ([0xed, 0x01] ++ w.publicKey))))) := by
  obtain ⟨w, hw, hdid, _⟩ := testSign_first_failing_check demoStdlib demoStdlib_KeyGen
    { TestID := "sign_wrong_did",
      Inputs := [("seed_hex", .str
        "0000000000000000000000000000000000000000000000000000000000000000"),
        ("message_utf8", .str "hi")],
      Expected := [("signature_length", .float64 ⟨false, 1025, 3377699720527872⟩), ("did", .str "wrong")],
      ExpectedError := none }
    "0000000000000000000000000000000000000000000000000000000000000000"
    (List.replicate 32 0) rfl (by decide) rfl rfl
  refine ⟨demoStdlib_KeyGen, rfl, w, hw, hdid "wrong" rfl ?_⟩
  intro h
  have hdata := congrArg String.data h
  rw [String.data_append] at hdata
  exact absurd hdata (by simp)

/-! ## Verification evaluation -/

/-- With the public key resolved, `testVerify` is the decoding of the signature
followed by `wallet.Verify` and the check of `expected.verify`. -/
theorem testVerify_eq (L : Stdlib) (vec : main.TestVector) (pk : List Byte)
    (hpk : main.ResolvesKey L vec.Inputs pk) :
    main.testVerify L vec =
      match main.signatureOf vec.Inputs with
      | (_, some err) => .ok (some err)
      | (sigBytes, none) =>
        (wallet.Verify L pk (utf8 (main.messageOf vec.Inputs)) sigBytes).map
          (main.verdict vec.Expected) := by
  unfold main.ResolvesKey at hpk
  unfold main.testVerify main.signatureOf main.messageOf
  simp only [bind, Except.bind, pure, Except.pure]
  cases h1 : asString (mapIndex vec.Inputs "public_key_hex") with
  | some val =>
    rw [h1] at hpk
    simp only at hpk ⊢
    subst hpk
    simp only [Except.map, main.verdict]
    cases asString (mapIndex vec.Inputs "tampered_message") <;>
      cases asString (mapIndex vec.Inputs "signature_base64url") <;>
      cases asBool (mapIndex vec.Expected "verify") <;>
      simp only <;> split <;> (try rfl) <;> split <;> (try simp_all) <;>
          (try (split_ifs <;> rfl))
  | none =>
    rw [h1] at hpk
    simp only at hpk ⊢
    cases h2 : asString (mapIndex vec.Inputs "wrong_public_key_hex") with
    | some val =>
      rw [h2] at hpk
      simp only at hpk ⊢
      subst hpk
      simp only [Except.map, main.verdict]
      cases asString (mapIndex vec.Inputs "tampered_message") <;>
        cases asString (mapIndex vec.Inputs "signature_base64url") <;>
        cases asBool (mapIndex vec.Expected "verify") <;>
        simp only <;> split <;> (try rfl) <;> split <;> (try simp_all) <;>
          (try (split_ifs <;> rfl))
    | none =>
      rw [h2] at hpk
      simp only at hpk ⊢
      cases h3 : asString (mapIndex vec.Inputs "seed_hex") with
      | some val =>
        rw [h3] at hpk
        simp only at hpk ⊢
        obtain ⟨w, hw, rfl⟩ := hpk
        simp only [hw, wallet.PublicKey, pure, Except.pure]
        simp only [Except.map, main.verdict]
        cases asString (mapIndex vec.Inputs "tampered_message") <;>
          cases asString (mapIndex vec.Inputs "signature_base64url") <;>
          cases asBool (mapIndex vec.Expected "verify") <;>
          simp only <;> split <;> (try rfl) <;> split <;> (try simp_all) <;>
          (try (split_ifs <;> rfl))
      | none =>
        rw [h3] at hpk
        simp only at hpk ⊢
        subst hpk
        simp only [Except.map, main.verdict]
        cases asString (mapIndex vec.Inputs "tampered_message") <;>
          cases asString (mapIndex vec.Inputs "signature_base64url") <;>
          cases asBool (mapIndex vec.Expected "verify") <;>
          simp only <;> split <;> (try rfl) <;> split <;> (try simp_all) <;>
          (try (split_ifs <;> rfl))

theorem verdict_isSome (expected : List (String × GoValue)) (success : Bool) :
    (main.verdict expected success).isSome = true
      ↔ ∃ b, asBool (mapIndex expected "verify") = some b ∧ b ≠ success := by
  unfold main.verdict
  cases asBool (mapIndex expected "verify") with
  | none => simp
  | some val =>
    by_cases h : success = val
    · simp [h]
    · simp [h, Ne.symm h]

/-- Verification evaluation on a vector whose public key resolves. With
the public key `pk` resolved (the hex decoding of
`public_key_hex`, else of `wrong_public_key_hex`, else the public key of the
wallet derived from `seed_hex`), the message the UTF-8 bytes of
`tampered_message` when present and of `message_utf8` otherwise, and the
signature the unpadded base64url decoding of `signature_base64url`:
when the signature text fails to decode `testVerify` returns the error of the
decoding; otherwise it computes `success = wallet.Verify pk msg sig` and
returns an error exactly when `expected.verify` is a boolean other than
`success`. -/
theorem testVerify_computes (L : Stdlib) (vec : main.TestVector) (pk : List Byte)
    (hpk : main.ResolvesKey L vec.Inputs pk) :
    (∀ err, (main.signatureOf vec.Inputs).2 = some err →
      main.testVerify L vec = .ok (some err))
    ∧ (∀ success : Bool, (main.signatureOf vec.Inputs).2 = none →
        wallet.Verify L pk (utf8 (main.messageOf vec.Inputs)) (main.signatureOf vec.Inputs).1
          = .ok success →
        main.testVerify L vec = .ok (main.verdict vec.Expected success)
        ∧ ((main.verdict vec.Expected success).isSome = true
            ↔ ∃ b, asBool (mapIndex vec.Expected "verify") = some b ∧ b ≠ success)) := by
  rw [testVerify_eq L vec pk hpk]
  constructor
  · intro err herr
    rcases hd : main.signatureOf vec.Inputs with ⟨sigBytes, e⟩
    rw [hd] at herr
    simp only at herr
    subst herr
    rfl
  · intro success hnone hver
    rcases hd : main.signatureOf vec.Inputs with ⟨sigBytes, e⟩
    rw [hd] at hnone hver
    simp only at hnone hver
    subst hnone
    simp only [hver]
    exact ⟨rfl, verdict_isSome vec.Expected success⟩

theorem testVerify_computes_witness :
    main.ResolvesKey demoStdlib tamperedVector.Inputs (List.replicate 32 0)
    ∧ main.messageOf tamperedVector.Inputs = "ho"
    ∧ (main.signatureOf tamperedVector.Inputs).2 = none
    ∧ wallet.Verify demoStdlib (List.replicate 32 0) (utf8 "ho")
        (main.signatureOf tamperedVector.Inputs).1 = .ok false
    ∧ main.testVerify demoStdlib tamperedVector
        = .ok (main.verdict tamperedVector.Expected false)
    ∧ main.verdict tamperedVector.Expected false = none :=
  ⟨rfl, rfl, rfl, rfl,
    ((testVerify_computes demoStdlib tamperedVector (List.replicate 32 0) rfl).2 false rfl rfl).1,
    rfl⟩

/-! ## The panic of verification evaluation -/

/-- Every verification vector that has neither key field and whose `seed_hex`
does not decode to 32 bytes makes `testVerify` panic. -/
theorem testVerify_panics_on_bad_seed (L : Stdlib) (vec : main.TestVector) (val : String)
    (h1 : asString (mapIndex vec.Inputs "public_key_hex") = none)
    (h2 : asString (mapIndex vec.Inputs "wrong_public_key_hex") = none)
    (h3 : asString (mapIndex vec.Inputs "seed_hex") = some val)
    (hlen : (hex.DecodeString val).1.length ≠ 32) :
    main.testVerify L vec = .error .nilDereference := by
  unfold main.testVerify
  simp only [h1, h2, h3, wallet_FromSeed_bad_length L _ "" hlen, bind, Except.bind, pure,
    Except.pure, wallet.PublicKey]

/-- C15, at the failing input. The vector `verify_short_seed` has no
`public_key_hex` and no `wrong_public_key_hex`, and its `seed_hex` decodes to
one byte. `FromSeed` returns a nil wallet with an error that `testVerify`
drops, and `PublicKey` on the nil wallet panics: `runVector` does not return,
with every library and in either polarity. -/
theorem runVector_verify_nil_wallet_panics (L : Stdlib) (isNegative : Bool) :
    main.runVector L
        { TestID := "verify_short_seed", Inputs := [("seed_hex", .str "00")], Expected := [],
          ExpectedError := none } isNegative
      = .error .nilDereference := by
  cases isNegative <;> rfl

/-- C17, at the failing input. The vector `verify_short_seed_bad_signature`
has no `public_key_hex` and no `wrong_public_key_hex`, its `seed_hex` decodes
to one byte, from which `wallet.FromSeed` returns no wallet and an error, and
its signature text `==` fails to decode. The signature text failing to decode,
`testVerify` is to return an error; it panics on the nil wallet before the
signature is decoded, with every library. -/
theorem testVerify_panics_before_decoding (L : Stdlib) :
    asString (mapIndex [("seed_hex", GoValue.str "00"), ("signature_base64url", .str "==")]
        "public_key_hex") = none
    ∧ asString (mapIndex [("seed_hex", GoValue.str "00"), ("signature_base64url", .str "==")]
        "wrong_public_key_hex") = none
    ∧ hex.DecodeString "00" = ([0], none)
    ∧ (∃ e, wallet.FromSeed L [0] "" = .ok (none, some e))
    ∧ base64.DecodeString "==" = ([], some (base64.CorruptInputError 0))
    ∧ main.signatureOf [("seed_hex", GoValue.str "00"), ("signature_base64url", .str "==")]
        = ([], some (base64.CorruptInputError 0))
    ∧ main.testVerify L
        { TestID := "verify_short_seed_bad_signature",
          Inputs := [("seed_hex", .str "00"), ("signature_base64url", .str "==")],
          Expected := [], ExpectedError := none }
      = .error .nilDereference :=
  ⟨rfl, rfl, rfl, ⟨_, rfl⟩, rfl, rfl, rfl⟩

/-! ## Unpadded base64url -/

/-- A byte outside the alphabet that is not a line break makes the decoder
return `CorruptInputError`. -/
theorem base64_decode_bad (bytes : List Byte) :
    ∀ (si : Nat) (dbuf : List Nat) (dst : List Byte),
      (∃ b ∈ bytes, base64.decodeMap b = none ∧ b ≠ 10 ∧ b ≠ 13) →
      ∃ k, (base64.decode bytes si dbuf dst).2 = some (base64.CorruptInputError k) := by
  induction bytes with
  | nil => intro _ _ _ h; simp at h
  | cons c rest ih =>
    intro si dbuf dst h
    rw [base64.decode]
    cases hc : base64.decodeMap c with
    | some out =>
      have hrest : ∃ b ∈ rest, base64.decodeMap b = none ∧ b ≠ 10 ∧ b ≠ 13 := by
        obtain ⟨b, hb, hbad⟩ := h
        rcases List.mem_cons.mp hb with rfl | hb
        · rw [hc] at hbad
          exact absurd hbad.1 (by simp)
        · exact ⟨b, hb, hbad⟩
      simp only
      split_ifs
      · exact ih _ _ _ hrest
      · exact ih _ _ _ hrest
    | none =>
      simp only
      by_cases hnl : c = 10 ∨ c = 13
      · rw [if_pos hnl]
        obtain ⟨b, hb, hbad⟩ := h
        rcases List.mem_cons.mp hb with rfl | hb
        · rcases hnl with h10 | h13
          · exact absurd h10 hbad.2.1
          · exact absurd h13 hbad.2.2
        · exact ih _ _ _ ⟨b, hb, hbad⟩
      · rw [if_neg hnl]
        exact ⟨si, rfl⟩

theorem last_byte_high (x : UInt8) : 128 ≤ (x &&& 0x3f ||| 0x80).toNat := by
  cases x with
  | mk v => revert v; decide

set_option maxRecDepth 100000 in
theorem decodeMap_high : ∀ b : Fin 256, 128 ≤ b.val → base64.decodeMap b = none := by
  decide

set_option maxRecDepth 100000 in
theorem decodeMap_ascii : ∀ n : Fin 128, base64.decodeMap (Fin.ofNat n.val) ≠ none →
    Char.ofNat n.val ∈ base64.encodeURL.toList := by
  decide

/-- Among the UTF-8 bytes of a character that is neither in the alphabet nor a
line break there is a byte that the decoder rejects. -/
theorem utf8_bad_char (c : Char) (hout : c ∉ base64.encodeURL.toList) (hlf : c ≠ '\n')
    (hcr : c ≠ '\r') :
    ∃ b ∈ (String.utf8EncodeChar c).map (fun u => (Fin.ofNat u.toNat : Byte)),
      base64.decodeMap b = none ∧ b ≠ 10 ∧ b ≠ 13 := by
  have hhigh : ∀ x : UInt8, base64.decodeMap (Fin.ofNat (x &&& 0x3f ||| 0x80).toNat) = none
      ∧ (Fin.ofNat (x &&& 0x3f ||| 0x80).toNat : Byte) ≠ 10
      ∧ (Fin.ofNat (x &&& 0x3f ||| 0x80).toNat : Byte) ≠ 13 := by
    intro x
    have h := last_byte_high x
    have hlt : (x &&& 0x3f ||| 0x80).toNat < 256 := (x &&& 0x3f ||| 0x80).val.isLt
    have hval : (Fin.ofNat (x &&& 0x3f ||| 0x80).toNat : Byte).val
        = (x &&& 0x3f ||| 0x80).toNat := by
      simp [Fin.ofNat, Nat.mod_eq_of_lt hlt]
    refine ⟨decodeMap_high _ (by rw [hval]; exact h), ?_, ?_⟩
    · intro h10
      have := congrArg Fin.val h10
      rw [hval] at this
      simp at this
      omega
    · intro h13
      have := congrArg Fin.val h13
      rw [hval] at this
      simp at this
      omega
  unfold String.utf8EncodeChar
  simp only
  split_ifs with h1 h2 h3
  · have hn : c.toNat < 128 := by
      have : c.val.toNat ≤ 127 := h1
      exact Nat.lt_succ_of_le this
    have hbyte : (Fin.ofNat c.val.toUInt8.toNat : Byte) = Fin.ofNat c.toNat := by
      have : c.val.toUInt8.toNat = c.toNat := by
        show c.val.toNat % 256 = c.val.toNat
        exact Nat.mod_eq_of_lt (by have : c.val.toNat = c.toNat := rfl; omega)
      rw [this]
    have hval : (Fin.ofNat c.toNat : Byte).val = c.toNat := by
      simp [Fin.ofNat, Nat.mod_eq_of_lt (show c.toNat < 256 by omega)]
    refine ⟨Fin.ofNat c.toNat, ?_, ?_, ?_, ?_⟩
    · rw [List.map_singleton, hbyte]
      exact List.mem_singleton.mpr rfl
    · by_contra hsome
      have hmem := decodeMap_ascii ⟨c.toNat, hn⟩ hsome
      rw [← char_eq_ofNat c c.toNat rfl] at hmem
      exact hout hmem
    · intro h10
      have := congrArg Fin.val h10
      rw [hval] at this
      exact hlf (char_eq_ofNat c 10 (by simpa using this))
    · intro h13
      have := congrArg Fin.val h13
      rw [hval] at this
      exact hcr (char_eq_ofNat c 13 (by simpa using this))
  · exact ⟨Fin.ofNat (c.val.toUInt8 &&& 0x3f ||| 0x80).toNat, by simp, hhigh _⟩
  · exact ⟨Fin.ofNat (c.val.toUInt8 &&& 0x3f ||| 0x80).toNat, by simp, hhigh _⟩
  · exact ⟨Fin.ofNat (c.val.toUInt8 &&& 0x3f ||| 0x80).toNat, by simp, hhigh _⟩

/-- The decoding of a text that holds a character outside the alphabet, other
than a line break, is an error `illegal base64 data at input byte k`. -/
theorem DecodeString_bad_char (s : String) (c : Char) (hc : c ∈ s.toList)
    (hout : c ∉ base64.encodeURL.toList) (hlf : c ≠ '\n') (hcr : c ≠ '\r') :
    ∃ k, (base64.DecodeString s).2 = some (base64.CorruptInputError k) := by
  obtain ⟨b, hb, hbad⟩ := utf8_bad_char c hout hlf hcr
  apply base64_decode_bad
  refine ⟨b, ?_, hbad⟩
  unfold utf8
  exact List.mem_flatMap.mpr ⟨c, hc, hb⟩

theorem encodeAt_ne_pad (d : Nat) : base64.encodeAt d ≠ '=' := by
  by_cases h : d < 64
  · interval_cases d <;> decide
  · have : base64.encodeAt d = 'A' := by
      rw [base64.encodeAt, List.getD_eq_default]
      simp only [not_lt] at h
      exact h
    rw [this]
    decide

/-- The encoder writes no padding. -/
theorem EncodeToString_no_pad (sig : List Byte) : '=' ∉ (base64.EncodeToString sig).toList := by
  induction sig using base64.EncodeToString.induct with
  | case1 a b c rest ih =>
    rw [base64.EncodeToString]
    simp only [String.toList, String.data_append, List.mem_append, List.mem_cons,
      List.mem_singleton, List.not_mem_nil, or_false, not_or]
    exact ⟨⟨fun h => encodeAt_ne_pad _ h.symm, fun h => encodeAt_ne_pad _ h.symm,
      fun h => encodeAt_ne_pad _ h.symm, fun h => encodeAt_ne_pad _ h.symm⟩, ih⟩
  | case2 a b =>
    rw [base64.EncodeToString]
    simp only [String.toList, List.mem_cons, List.mem_singleton, List.not_mem_nil, or_false,
      not_or]
    exact ⟨fun h => encodeAt_ne_pad _ h.symm, fun h => encodeAt_ne_pad _ h.symm,
      fun h => encodeAt_ne_pad _ h.symm⟩
  | case3 a =>
    rw [base64.EncodeToString]
    simp only [String.toList, List.mem_cons, List.mem_singleton, List.not_mem_nil, or_false,
      not_or]
    exact ⟨fun h => encodeAt_ne_pad _ h.symm, fun h => encodeAt_ne_pad _ h.symm⟩
  | case4 =>
    rw [base64.EncodeToString]
    simp [String.toList]

/-- A line feed and a carriage return are outside the alphabet. -/
theorem decodeMap_line_break : base64.decodeMap 10 = none ∧ base64.decodeMap 13 = none := by
  decide

/-- The decoder skips line feeds and carriage returns: it returns the bytes,
and an error in the cases, of the input without them (the offset that the
error reports apart). -/
theorem base64_decode_skips_line_breaks (bytes : List Byte) :
    ∀ (si si' : Nat) (dbuf : List Nat) (dst : List Byte),
      (base64.decode bytes si dbuf dst).1
          = (base64.decode (bytes.filter (fun b => decide (b ≠ 10 ∧ b ≠ 13))) si' dbuf dst).1
      ∧ ((base64.decode bytes si dbuf dst).2 = none
          ↔ (base64.decode (bytes.filter (fun b => decide (b ≠ 10 ∧ b ≠ 13))) si' dbuf dst).2
            = none) := by
  induction bytes with
  | nil => intro si si' dbuf dst; cases dbuf with
    | nil => exact ⟨rfl, Iff.rfl⟩
    | cons a t =>
      cases t with
      | nil => simp [base64.decode]
      | cons b t => simp [base64.decode]
  | cons c rest ih =>
    intro si si' dbuf dst
    cases hc : base64.decodeMap c with
    | some out =>
      have hne : c ≠ 10 ∧ c ≠ 13 := by
        constructor
        · rintro rfl
          rw [decodeMap_line_break.1] at hc
          cases hc
        · rintro rfl
          rw [decodeMap_line_break.2] at hc
          cases hc
      have hf : (c :: rest).filter (fun b => decide (b ≠ 10 ∧ b ≠ 13))
          = c :: rest.filter (fun b => decide (b ≠ 10 ∧ b ≠ 13)) := by
        rw [List.filter_cons, if_pos (by simpa using hne)]
      rw [hf, base64.decode, base64.decode, hc]
      simp only
      split_ifs
      · exact ih _ _ _ _
      · exact ih _ _ _ _
    | none =>
      by_cases hnl : c = 10 ∨ c = 13
      · have hf : (c :: rest).filter (fun b => decide (b ≠ 10 ∧ b ≠ 13))
            = rest.filter (fun b => decide (b ≠ 10 ∧ b ≠ 13)) := by
          rw [List.filter_cons, if_neg]
          simp only [decide_eq_true_eq, not_and_or, not_not]
          exact hnl
        rw [hf, base64.decode, hc]
        simp only [hnl, ↓reduceIte]
        exact ih _ _ _ _
      · have hne : c ≠ 10 ∧ c ≠ 13 := not_or.mp hnl
        have hf : (c :: rest).filter (fun b => decide (b ≠ 10 ∧ b ≠ 13))
            = c :: rest.filter (fun b => decide (b ≠ 10 ∧ b ≠ 13)) := by
          rw [List.filter_cons, if_pos (by simpa using hne)]
        rw [hf, base64.decode, base64.decode, hc]
        simp only [hnl, ↓reduceIte]
        simp

/-- On an input of alphabet characters, line feeds and carriage returns the
decoder returns an error exactly when a single six-bit group is left over at
the end. -/
theorem base64_decode_error_iff (bytes : List Byte) :
    ∀ (si : Nat) (dbuf : List Nat) (dst : List Byte), dbuf.length ≤ 3 →
      (∀ b ∈ bytes, base64.decodeMap b ≠ none ∨ b = 10 ∨ b = 13) →
      ((base64.decode bytes si dbuf dst).2 = none
        ↔ (dbuf.length + (bytes.filter (fun b => (base64.decodeMap b).isSome)).length) % 4
          ≠ 1) := by
  induction bytes with
  | nil =>
    intro si dbuf dst hlen _
    match dbuf, hlen with
    | [], _ => simp [base64.decode]
    | [_], _ => simp [base64.decode]
    | [_, _], _ => simp [base64.decode]
    | [_, _, _], _ => simp [base64.decode]
  | cons c rest ih =>
    intro si dbuf dst hlen hall
    have hrest : ∀ b ∈ rest, base64.decodeMap b ≠ none ∨ b = 10 ∨ b = 13 :=
      fun b hb => hall b (List.mem_cons_of_mem _ hb)
    cases hc : base64.decodeMap c with
    | some out =>
      have hf : (c :: rest).filter (fun b => (base64.decodeMap b).isSome)
          = c :: rest.filter (fun b => (base64.decodeMap b).isSome) := by
        rw [List.filter_cons, if_pos (by simp [hc])]
      rw [hf, base64.decode, hc]
      simp only [List.length_cons]
      by_cases h3 : dbuf.length = 3
      · rw [if_pos h3, ih _ [] _ (by simp) hrest]
        simp only [List.length_nil]
        omega
      · rw [if_neg h3, ih _ (dbuf ++ [out]) _ (by simp; omega) hrest]
        simp only [List.length_append, List.length_singleton]
        omega
    | none =>
      have hnl : c = 10 ∨ c = 13 := by
        rcases hall c (List.mem_cons_self _ _) with h | h
        · exact absurd hc h
        · exact h
      have hf : (c :: rest).filter (fun b => (base64.decodeMap b).isSome)
          = rest.filter (fun b => (base64.decodeMap b).isSome) := by
        rw [List.filter_cons, if_neg (by simp [hc])]
      rw [hf, base64.decode, hc]
      simp only [hnl, ↓reduceIte]
      exact ih _ dbuf _ hlen hrest

/-- C18, as the code has it. In a verification vector whose public key is
resolved and whose `signature_base64url` holds a character that is neither
in the base64url alphabet nor a line break (so `=`, `+` or `/`), `testVerify`
returns the error of the decoder, `illegal base64 data at input byte k`: no
other decoding is tried and, the result being the same with every library,
`Verify` is not called. Line feeds and carriage returns are skipped: every
text decodes to the bytes, and with an error in the cases, of its bytes
without them; a text of alphabet characters and line breaks gives an error
exactly when the number of its alphabet characters is 1 modulo 4; and on a
vector whose signature text decodes without an error `testVerify` returns
the verdict on what `Verify` returns for the decoded bytes. The text that
`testSign` compares with `expected.signature_base64url` holds no `=`. -/
theorem testVerify_rejects_foreign_characters (L : Stdlib) (vec : main.TestVector)
    (pk : List Byte) (s : String) (c : Char)
    (hpk : main.ResolvesKey L vec.Inputs pk)
    (hsig : asString (mapIndex vec.Inputs "signature_base64url") = some s)
    (hc : c ∈ s.toList) (hout : c ∉ base64.encodeURL.toList)
    (hlf : c ≠ '\n') (hcr : c ≠ '\r') :
    (∃ k, main.testVerify L vec = .ok (some (base64.CorruptInputError k)))
    ∧ '=' ∉ base64.encodeURL.toList ∧ '+' ∉ base64.encodeURL.toList
    ∧ '/' ∉ base64.encodeURL.toList
    ∧ (∀ sig : List Byte, '=' ∉ (base64.EncodeToString sig).toList)
    ∧ (∀ t : String,
        (base64.DecodeString t).1
            = (base64.decode ((utf8 t).filter (fun b => decide (b ≠ 10 ∧ b ≠ 13))) 0 [] []).1
        ∧ ((base64.DecodeString t).2 = none
            ↔ (base64.decode ((utf8 t).filter (fun b => decide (b ≠ 10 ∧ b ≠ 13))) 0 [] []).2
              = none))
    ∧ (∀ t : String, (∀ b ∈ utf8 t, base64.decodeMap b ≠ none ∨ b = 10 ∨ b = 13) →
        ((base64.DecodeString t).2 = none
          ↔ ((utf8 t).filter (fun b => (base64.decodeMap b).isSome)).length % 4 ≠ 1))
    ∧ (∀ (vec' : main.TestVector) (pk' : List Byte) (t : String),
        main.ResolvesKey L vec'.Inputs pk' →
        asString (mapIndex vec'.Inputs "signature_base64url") = some t →
        (base64.DecodeString t).2 = none →
        main.testVerify L vec'
          = (wallet.Verify L pk' (utf8 (main.messageOf vec'.Inputs))
              (base64.DecodeString t).1).map (main.verdict vec'.Expected)) := by
  refine ⟨?_, by decide, by decide, by decide, EncodeToString_no_pad, ?_, ?_, ?_⟩
  · obtain ⟨k, hk⟩ := DecodeString_bad_char s c hc hout hlf hcr
    refine ⟨k, ?_⟩
    rw [testVerify_eq L vec pk hpk]
    have hsigOf : main.signatureOf vec.Inputs = base64.DecodeString s := by
      simp only [main.signatureOf, hsig]
    rw [hsigOf]
    rcases hd : base64.DecodeString s with ⟨sigBytes, e⟩
    rw [hd] at hk
    simp only at hk
    subst hk
    rfl
  · intro t
    exact base64_decode_skips_line_breaks (utf8 t) 0 0 [] []
  · intro t ht
    have := base64_decode_error_iff (utf8 t) 0 [] [] (by simp) ht
    simpa using this
  · intro vec' pk' t hpk' hsig' hnone
    rw [testVerify_eq L vec' pk' hpk']
    have hsigOf : main.signatureOf vec'.Inputs = base64.DecodeString t := by
      simp only [main.signatureOf, hsig']
    rw [hsigOf]
    rcases hd : base64.DecodeString t with ⟨sigBytes, e⟩
    rw [hd] at hnone
    simp only at hnone
    subst hnone
    rfl

theorem testVerify_rejects_foreign_characters_witness :
    main.ResolvesKey panickingStdlib
      [("public_key_hex", GoValue.str "00"), ("signature_base64url", GoValue.str "AAAA==")] [0]
    ∧ '=' ∈ "AAAA==".toList ∧ '=' ∉ base64.encodeURL.toList
    ∧ main.testVerify panickingStdlib
        { TestID := "verify_padded",
          Inputs := [("public_key_hex", .str "00"), ("signature_base64url", .str "AAAA==")],
          Expected := [("verify", .bool true)], ExpectedError := none }
      = .ok (some (base64.CorruptInputError 4))
    ∧ (∃ k, main.testVerify panickingStdlib
        { TestID := "verify_padded",
          Inputs := [("public_key_hex", .str "00"), ("signature_base64url", .str "AAAA==")],
          Expected := [("verify", .bool true)], ExpectedError := none }
      = .ok (some (base64.CorruptInputError k)))
    ∧ base64.DecodeString "AA\r\nAA" = ([0, 0, 0], none)
    ∧ main.testVerify panickingStdlib
        { TestID := "verify_wrapped",
          Inputs := [("public_key_hex", .str "00"), ("signature_base64url", .str "AA\r\nAA")],
          Expected := [("verify", .bool false)], ExpectedError := none }
      = (wallet.Verify panickingStdlib [0] (utf8 "") (base64.DecodeString "AA\r\nAA").1).map
          (main.verdict [("verify", .bool false)])
    ∧ base64.DecodeString "A" = ([], some (base64.CorruptInputError 0))
    ∧ base64.DecodeString "A\n" = ([], some (base64.CorruptInputError 1)) :=
  ⟨rfl, by decide, by decide, rfl,
    (testVerify_rejects_foreign_characters panickingStdlib
      { TestID := "verify_padded",
        Inputs := [("public_key_hex", .str "00"), ("signature_base64url", .str "AAAA==")],
        Expected := [("verify", .bool true)], ExpectedError := none }
      [0] "AAAA==" '=' rfl rfl (by decide) (by decide) (by decide) (by decide)).1,
    rfl,
    (testVerify_rejects_foreign_characters panickingStdlib
      { TestID := "verify_padded",
        Inputs := [("public_key_hex", .str "00"), ("signature_base64url", .str "AAAA==")],
        Expected := [("verify", .bool true)], ExpectedError := none }
      [0] "AAAA==" '=' rfl rfl (by decide) (by decide) (by decide) (by decide)).2.2.2.2.2.2.2
      { TestID := "verify_wrapped",
        Inputs := [("public_key_hex", .str "00"), ("signature_base64url", .str "AA\r\nAA")],
        Expected := [("verify", .bool false)], ExpectedError := none }
      [0] "AA\r\nAA" rfl rfl rfl,
    rfl, rfl⟩

/-- C18, as stated, fails: a line feed is a character outside the base64url
alphabet, and the signature text `AAAA` followed by a line feed decodes
without an error. -/
theorem testVerify_accepts_line_break :
    '\n' ∈ "AAAA\n".toList ∧ '\n' ∉ base64.encodeURL.toList
    ∧ base64.DecodeString "AAAA\n" = ([0, 0, 0], none)
    ∧ main.testVerify panickingStdlib
        { TestID := "verify_line_break",
          Inputs := [("public_key_hex", .str "00"), ("signature_base64url", .str "AAAA\n")],
          Expected := [], ExpectedError := none }
      = .ok none :=
  ⟨by decide, by decide, rfl, rfl⟩

/-! ## The report -/

theorem runOne_ok (L : Stdlib) (clock : Nat → String) (isNegative : Bool) (st st' : main.RunState)
    (vec : main.TestVector) (h : main.runOne L clock isNegative st vec = .ok st') :
    ∃ tc, main.Reports L isNegative vec tc
      ∧ st'.suite = { st.suite with TestCases := st.suite.TestCases ++ [tc] }
      ∧ st'.total = st.total + 1
      ∧ st'.failures = st.failures + (if main.fails L isNegative vec then 1 else 0)
      ∧ st'.errs = st.errs := by
  unfold main.runOne at h
  simp only [bind, Except.bind, pure, Except.pure] at h
  cases hr : main.runVector L vec isNegative with
  | error p => rw [hr] at h; cases h
  | ok r =>
    rw [hr] at h
    cases r with
    | none =>
      simp only [Except.ok.injEq] at h
      subst h
      exact ⟨_, ⟨rfl, rfl, rfl, none, hr, rfl⟩, rfl, rfl, by simp [main.fails, hr], rfl⟩
    | some e =>
      simp only [Except.ok.injEq] at h
      subst h
      exact ⟨_, ⟨rfl, rfl, rfl, some e, hr, rfl⟩, rfl, rfl, by simp [main.fails, hr], rfl⟩

theorem runOne_returns (L : Stdlib) (clock : Nat → String) (isNegative : Bool)
    (st : main.RunState) (vec : main.TestVector) :
    (∃ st', main.runOne L clock isNegative st vec = .ok st')
      ↔ ∃ r, main.runVector L vec isNegative = .ok r := by
  unfold main.runOne
  simp only [bind, Except.bind, pure, Except.pure]
  cases hr : main.runVector L vec isNegative with
  | error p => simp
  | ok r => cases r <;> simp

/-- One loop of `main`: a test case per vector, in order, and the counters. -/
theorem foldlM_runOne (L : Stdlib) (clock : Nat → String) (isNegative : Bool) :
    ∀ (vs : List main.TestVector) (st st' : main.RunState),
      vs.foldlM (main.runOne L clock isNegative) st = .ok st' →
      ∃ new : List main.TestCase, List.Forall₂ (main.Reports L isNegative) vs new
        ∧ st'.suite = { st.suite with TestCases := st.suite.TestCases ++ new }
        ∧ st'.total = st.total + vs.length
        ∧ st'.failures = st.failures + (vs.filter (main.fails L isNegative)).length
        ∧ st'.errs = st.errs := by
  intro vs
  induction vs with
  | nil =>
    intro st st' h
    simp only [List.foldlM, pure, Except.pure, Except.ok.injEq] at h
    subst h
    exact ⟨[], List.Forall₂.nil, by simp, rfl, rfl, rfl⟩
  | cons vec vs ih =>
    intro st st' h
    simp only [List.foldlM, bind, Except.bind] at h
    cases h1 : main.runOne L clock isNegative st vec with
    | error p => rw [h1] at h; cases h
    | ok st1 =>
      rw [h1] at h
      obtain ⟨tc, htc, hs1, ht1, hf1, he1⟩ := runOne_ok L clock isNegative st st1 vec h1
      obtain ⟨new, hnew, hs, ht, hf, he⟩ := ih st1 st' h
      refine ⟨tc :: new, List.Forall₂.cons htc hnew, ?_, ?_, ?_, ?_⟩
      · rw [hs, hs1]
        simp
      · rw [ht, ht1, List.length_cons]
        omega
      · rw [hf, hf1, List.filter_cons]
        by_cases hfv : main.fails L isNegative vec = true
        · simp only [hfv, ↓reduceIte, List.length_cons]
          omega
        · simp only [hfv, Bool.false_eq_true, ↓reduceIte, Nat.add_zero]
      · rw [he, he1]

theorem foldlM_runOne_returns (L : Stdlib) (clock : Nat → String) (isNegative : Bool) :
    ∀ (vs : List main.TestVector) (st : main.RunState),
      (∃ st', vs.foldlM (main.runOne L clock isNegative) st = .ok st')
        ↔ ∀ vec ∈ vs, ∃ r, main.runVector L vec isNegative = .ok r := by
  intro vs
  induction vs with
  | nil => intro st; simp [List.foldlM, pure, Except.pure]
  | cons vec vs ih =>
    intro st
    simp only [List.foldlM, bind, Except.bind, List.mem_cons, forall_eq_or_imp]
    rw [← runOne_returns L clock isNegative st vec]
    cases h1 : main.runOne L clock isNegative st vec with
    | error p => simp
    | ok st1 =>
      simp only [Except.ok.injEq, exists_eq', true_and]
      exact ih st1

/-- C19. The suite that `main` builds from a parsed vector file has one test
case per vector, the positive vectors in file order and then the negative
vectors in file order; each test case is named by the `test_id` of its
vector, has the suite name as classname, and carries a failure, whose
message and content are the text of the error, exactly when `runVector`
returned an error for the vector. `Tests` is the number of vectors,
`Failures` the number of vectors for which `runVector` returned an error,
and `Errors` is 0. The suite is built exactly when no call of `runVector`
panics. -/
theorem runSuite_report (L : Stdlib) (clock : Nat → String) (totalTime : String)
    (vf : main.VectorFile) :
    ((∃ suite, main.runSuite L clock totalTime vf = .ok suite) ↔
      (∀ vec ∈ vf.Vectors, ∃ r, main.runVector L vec false = .ok r)
      ∧ (∀ vec ∈ vf.NegativeCases, ∃ r, main.runVector L vec true = .ok r))
    ∧ ∀ suite, main.runSuite L clock totalTime vf = .ok suite →
      (∃ positive negative : List main.TestCase,
        suite.TestCases = positive ++ negative
        ∧ List.Forall₂ (main.Reports L false) vf.Vectors positive
        ∧ List.Forall₂ (main.Reports L true) vf.NegativeCases negative)
      ∧ suite.Name = "Conformance"
      ∧ suite.Tests = vf.Vectors.length + vf.NegativeCases.length
      ∧ suite.Failures = (vf.Vectors.filter (main.fails L false)).length
          + (vf.NegativeCases.filter (main.fails L true)).length
      ∧ suite.Errors = 0 := by
  constructor
  · unfold main.runSuite
    simp only [bind, Except.bind, pure, Except.pure]
    constructor
    · rintro ⟨suite, h⟩
      cases h1 : List.foldlM (main.runOne L clock false)
          { total := 0, failures := 0, errs := 0,
            suite := { XMLName := "", Name := main.suiteName, Tests := 0, Failures := 0,
                       Errors := 0, Time := "", TestCases := [] } } vf.Vectors with
      | error p => rw [h1] at h; cases h
      | ok st1 =>
        rw [h1] at h
        simp only at h
        cases h2 : List.foldlM (main.runOne L clock true) st1 vf.NegativeCases with
        | error p => rw [h2] at h; cases h
        | ok st2 =>
          exact ⟨(foldlM_runOne_returns L clock false vf.Vectors _).mp ⟨st1, h1⟩,
            (foldlM_runOne_returns L clock true vf.NegativeCases _).mp ⟨st2, h2⟩⟩
    · rintro ⟨hpos, hneg⟩
      obtain ⟨st1, h1⟩ := (foldlM_runOne_returns L clock false vf.Vectors
        { total := 0, failures := 0, errs := 0,
          suite := { XMLName := "", Name := main.suiteName, Tests := 0, Failures := 0,
                     Errors := 0, Time := "", TestCases := [] } }).mpr hpos
      obtain ⟨st2, h2⟩ := (foldlM_runOne_returns L clock true vf.NegativeCases st1).mpr hneg
      rw [h1]
      simp only [h2]
      exact ⟨_, rfl⟩
  · intro suite h
    unfold main.runSuite at h
    simp only [bind, Except.bind, pure, Except.pure] at h
    cases h1 : List.foldlM (main.runOne L clock false)
        { total := 0, failures := 0, errs := 0,
          suite := { XMLName := "", Name := main.suiteName, Tests := 0, Failures := 0,
                     Errors := 0, Time := "", TestCases := [] } } vf.Vectors with
    | error p => rw [h1] at h; cases h
    | ok st1 =>
      rw [h1] at h
      simp only at h
      cases h2 : List.foldlM (main.runOne L clock true) st1 vf.NegativeCases with
      | error p => rw [h2] at h; cases h
      | ok st2 =>
        rw [h2] at h
        simp only [Except.ok.injEq] at h
        obtain ⟨pos, hpos, hs1, ht1, hf1, he1⟩ := foldlM_runOne L clock false vf.Vectors _ st1 h1
        obtain ⟨neg, hneg, hs2, ht2, hf2, he2⟩ :=
          foldlM_runOne L clock true vf.NegativeCases st1 st2 h2
        subst h
        simp only at hs1 ht1 hf1 he1
        refine ⟨⟨pos, neg, ?_, hpos, hneg⟩, ?_, ?_, ?_, ?_⟩
        · simp [hs2, hs1]
        · simp [hs2, hs1]
          rfl
        · simp [ht2, ht1]
        · simp [hf2, hf1]
        · simp [he2, he1]

theorem runSuite_report_witness :
    main.runSuite panickingStdlib (fun _ => "0.0001") "0.0002" demoVectorFile = .ok demoSuite
    ∧ (∃ positive negative : List main.TestCase,
        demoSuite.TestCases = positive ++ negative
        ∧ List.Forall₂ (main.Reports panickingStdlib false) demoVectorFile.Vectors positive
        ∧ List.Forall₂ (main.Reports panickingStdlib true) demoVectorFile.NegativeCases negative)
    ∧ demoSuite.Name = "Conformance"
    ∧ demoSuite.Tests = demoVectorFile.Vectors.length + demoVectorFile.NegativeCases.length
    ∧ demoSuite.Failures = (demoVectorFile.Vectors.filter (main.fails panickingStdlib false)).length
        + (demoVectorFile.NegativeCases.filter (main.fails panickingStdlib true)).length
    ∧ demoSuite.Errors = 0 :=
  ⟨rfl, (runSuite_report panickingStdlib (fun _ => "0.0001") "0.0002" demoVectorFile).2
    demoSuite rfl⟩

/-! ## The error of a seed of the wrong length -/

/-- C20, as the code has it. For a seed whose length is not 32, the error of
`wallet.FromSeed` is the `*TalosError` with code `TALOS_INVALID_INPUT`, message
`seed must be 32 bytes`, no details, no request id and no cause: it carries
the expected length and nothing that depends on the seed. The error that
carries both lengths, `invalid seed length: got n, want 32`, is the one of
`crypto.FromSeed`, which `wallet.FromSeed` does not reach with such a seed. -/
theorem FromSeed_error_carries_expected_length (L : Stdlib) (seed : List Byte) (name : String)
    (h : seed.length ≠ 32) :
    wallet.FromSeed L seed name = .ok (none, some (.talos
      { Code := "TALOS_INVALID_INPUT", Message := "seed must be 32 bytes", Details := [],
        RequestID := "", Cause := none }))
    ∧ strings.Contains "seed must be 32 bytes" "32" = true
    ∧ crypto.FromSeed L seed = .ok ([], [], some (.plain
        ("invalid seed length: got " ++ Nat.repr seed.length ++ ", want " ++ "32"))) := by
  refine ⟨wallet_FromSeed_bad_length L seed name h, by decide, ?_⟩
  simp only [crypto.FromSeed, crypto.SeedSize, ne_eq, h, not_false_eq_true, ↓reduceIte]
  rfl

theorem FromSeed_error_carries_expected_length_witness :
    (List.replicate 31 (7 : Byte)).length ≠ 32
    ∧ wallet.FromSeed panickingStdlib (List.replicate 31 7) "w" = .ok (none, some (.talos
        { Code := "TALOS_INVALID_INPUT", Message := "seed must be 32 bytes", Details := [],
          RequestID := "", Cause := none }))
    ∧ crypto.FromSeed panickingStdlib (List.replicate 31 7) = .ok ([], [], some (.plain
        "invalid seed length: got 31, want 32")) :=
  ⟨by decide,
    (FromSeed_error_carries_expected_length panickingStdlib (List.replicate 31 7) "w"
      (by decide)).1,
    (FromSeed_error_carries_expected_length panickingStdlib (List.replicate 31 7) "w"
      (by decide)).2.2⟩

/-- C20, as stated, fails: seeds of 31 and of 33 bytes get the same error from
`wallet.FromSeed`; its details are empty and its text,
`[TALOS_INVALID_INPUT] seed must be 32 bytes`, holds neither `31` nor `33`. -/
theorem FromSeed_error_lacks_actual_length :
    wallet.FromSeed demoStdlib (List.replicate 31 0) ""
      = wallet.FromSeed demoStdlib (List.replicate 33 0) ""
    ∧ ∃ te : errors.TalosError GoError,
        wallet.FromSeed demoStdlib (List.replicate 31 0) "" = .ok (none, some (.talos te))
        ∧ te.Details = [] ∧ te.Cause = none
        ∧ (GoError.talos te).Error = "[TALOS_INVALID_INPUT] seed must be 32 bytes"
        ∧ strings.Contains (GoError.talos te).Error "31" = false
        ∧ strings.Contains te.Message "31" = false
        ∧ strings.Contains (GoError.talos te).Error "33" = false :=
  ⟨rfl, _, rfl, rfl, rfl, rfl, by decide, by decide, by decide⟩

/-! ## When the evaluation of a vector returns -/

theorem demoStdlib_Signs : demoStdlib.Signs := by
  intro priv message h
  refine ⟨priv.drop 32 ++ (message ++ List.replicate 32 0).take 32, ?_⟩
  simp [demoStdlib, h]
  rfl

theorem demoStdlib_Verifies : demoStdlib.Verifies := by
  intro pub message sig h
  refine ⟨decide (sig = pub ++ (message ++ List.replicate 32 0).take 32), ?_⟩
  simp [demoStdlib, h]
  rfl

theorem wallet_Verify_returns (L : Stdlib) (hV : L.Verifies) (pk message sig : List Byte) :
    ∃ b, wallet.Verify L pk message sig = .ok b := by
  by_cases h : pk.length = 32
  · obtain ⟨b, hb⟩ := hV pk message sig h
    exact ⟨b, by
      simp only [wallet.Verify, crypto.PublicKeySize, h, ne_eq, not_true_eq_false, ↓reduceIte,
        crypto.Verify, hb]⟩
  · exact ⟨false, by
      simp only [wallet.Verify, crypto.PublicKeySize, ne_eq, h, not_false_eq_true, ↓reduceIte]
      rfl⟩

/-- Signing evaluation returns on every vector. -/
theorem testSign_returns (L : Stdlib) (hK : L.KeyGen) (hS : L.Signs) (hV : L.Verifies)
    (vec : main.TestVector) : ∃ r, main.testSign L vec = .ok r := by
  by_cases hne : (asString (mapIndex vec.Inputs "seed_hex")).getD "" = ""
  · refine ⟨none, ?_⟩
    simp only [main.testSign, hne, ne_eq, not_true_eq_false, ↓reduceIte]
    rfl
  · cases hs : asString (mapIndex vec.Inputs "seed_hex") with
    | none => rw [hs] at hne; exact absurd rfl hne
    | some s =>
      rw [hs] at hne
      simp only [Option.getD_some] at hne
      rcases hd : hex.DecodeString s with ⟨seed, _ | err⟩
      · by_cases hlen : seed.length = 32
        · obtain ⟨priv, hp, hpl⟩ := hK seed hlen
          have hw := wallet_FromSeed_ok L seed priv "" hlen hp hpl
          obtain ⟨sig, hsig⟩ := hS priv
            (utf8 ((asString (mapIndex vec.Inputs "message_utf8")).getD "")) hpl
          obtain ⟨verified, hver⟩ := hV ((priv.drop 32 ++ List.replicate 32 0).take 32)
            (utf8 ((asString (mapIndex vec.Inputs "message_utf8")).getD "")) sig (by simp)
          rw [testSign_with_wallet L vec s seed _ hs hne hd hw]
          exact ⟨_, signChecks_eq L _ _ vec.Expected sig verified (by simp) hsig hver⟩
        · exact ⟨_, testSign_bad_seed_length L vec s seed hs hne hd hlen⟩
      · refine ⟨some err, ?_⟩
        simp only [main.testSign, hs, Option.getD_some, ne_eq, hne, not_false_eq_true, ↓reduceIte,
          hd]
        rfl

/-- The public key of verification evaluation is resolved unless the wallet is nil. -/
theorem resolvesKey_of_not_nil (L : Stdlib) (hK : L.KeyGen) (inputs : List (String × GoValue))
    (h : ¬ main.DerefsNilWallet inputs) : ∃ pk, main.ResolvesKey L inputs pk := by
  unfold main.ResolvesKey
  unfold main.DerefsNilWallet at h
  cases h1 : asString (mapIndex inputs "public_key_hex") with
  | some val => exact ⟨_, rfl⟩
  | none =>
    cases h2 : asString (mapIndex inputs "wrong_public_key_hex") with
    | some val => exact ⟨_, rfl⟩
    | none =>
      cases h3 : asString (mapIndex inputs "seed_hex") with
      | none => exact ⟨_, rfl⟩
      | some val =>
        have hlen : (hex.DecodeString val).1.length = 32 := by
          by_contra hcon
          exact h ⟨h1, h2, val, h3, hcon⟩
        obtain ⟨priv, hp, hpl⟩ := hK _ hlen
        exact ⟨_, _, wallet_FromSeed_ok L _ priv "" hlen hp hpl, rfl⟩

/-- Verification evaluation returns unless it meets the nil wallet, and then
it panics. -/
theorem testVerify_returns_iff (L : Stdlib) (hK : L.KeyGen) (hV : L.Verifies)
    (vec : main.TestVector) :
    (∃ r, main.testVerify L vec = .ok r) ↔ ¬ main.DerefsNilWallet vec.Inputs := by
  constructor
  · rintro ⟨r, hr⟩ ⟨h1, h2, val, h3, hlen⟩
    rw [testVerify_panics_on_bad_seed L vec val h1 h2 h3 hlen] at hr
    cases hr
  · intro h
    obtain ⟨pk, hpk⟩ := resolvesKey_of_not_nil L hK vec.Inputs h
    rw [testVerify_eq L vec pk hpk]
    rcases main.signatureOf vec.Inputs with ⟨sigBytes, _ | err⟩
    · obtain ⟨b, hb⟩ := wallet_Verify_returns L hV pk (utf8 (main.messageOf vec.Inputs)) sigBytes
      exact ⟨_, by simp only [hb]; rfl⟩
    · exact ⟨_, rfl⟩

/-- With a library that meets its contract, `runVector` returns on every vector
in either polarity, except on a vector routed to verification evaluation that
meets the nil wallet: there it panics. -/
theorem runVector_returns_iff (L : Stdlib) (hK : L.KeyGen) (hS : L.Signs) (hV : L.Verifies)
    (vec : main.TestVector) (isNegative : Bool) :
    (∃ r, main.runVector L vec isNegative = .ok r)
      ↔ ¬ (strings.HasPrefix vec.TestID "verify_" = true ∧ main.DerefsNilWallet vec.Inputs) := by
  by_cases hsign : strings.HasPrefix vec.TestID "sign_" = true ∨
      strings.HasPrefix vec.TestID "invalid_seed" = true
  · have hnv : ¬ strings.HasPrefix vec.TestID "verify_" = true := by
      intro hv
      have := HasPrefix_verify_not_sign _ hv
      rcases hsign with h | h <;> simp [h] at this
    obtain ⟨r, hr⟩ := testSign_returns L hK hS hV vec
    rw [runVector_sign_routed L vec isNegative hsign, hr]
    exact ⟨fun _ h => hnv h.1, fun _ => ⟨_, rfl⟩⟩
  · by_cases hv : strings.HasPrefix vec.TestID "verify_" = true
    · rw [runVector_verify_routed L vec isNegative hv]
      have hiff := testVerify_returns_iff L hK hV vec
      constructor
      · rintro ⟨r, hr⟩ ⟨_, hnil⟩
        apply hiff.mp _ hnil
        cases ht : main.testVerify L vec with
        | error p => rw [ht] at hr; cases hr
        | ok r' => exact ⟨r', rfl⟩
      · intro h
        obtain ⟨r, hr⟩ := hiff.mpr (fun hnil => h ⟨hv, hnil⟩)
        exact ⟨_, by rw [hr]; rfl⟩
    · push_neg at hsign
      refine ⟨fun _ h => hv h.1, fun _ => ⟨none, ?_⟩⟩
      simp only [main.runVector, hsign.1, hsign.2, hv, Bool.or_self, Bool.false_eq_true,
        ↓reduceIte]
      rfl

/-! ## Base58 of zero bytes and the shape of a DID -/

theorem SetBytes_zeros (n : Nat) : wallet.SetBytes (List.replicate n 0) = 0 := by
  rw [SetBytes_eq]
  induction n with
  | zero => simp
  | succ n ih =>
    rw [List.replicate_succ', List.reverse_append, List.reverse_singleton, List.singleton_append,
      List.map_cons, Nat.ofDigits_cons, ih]
    rfl

/-- C21. `EncodeBase58` of `n` zero bytes is the text of `n` characters `1`,
for every `n`, the empty text for `n = 0`: the value of the bytes is zero,
the division loop leaves its result empty, and the loop over the leading
zero bytes appends the `n` characters. -/
theorem EncodeBase58_zeros (n : Nat) :
    wallet.EncodeBase58 (List.replicate n 0) = String.mk (List.replicate n '1')
    ∧ (wallet.EncodeBase58 (List.replicate n 0)).length = n
    ∧ wallet.EncodeBase58 [] = ""
    ∧ wallet.SetBytes (List.replicate n 0) = 0
    ∧ wallet.divLoop (wallet.SetBytes (List.replicate n 0)) [] = []
    ∧ wallet.leadingZeros (List.replicate n 0) [] = List.replicate n '1' := by
  have hz := SetBytes_zeros n
  have henc : wallet.EncodeBase58 (List.replicate n 0) = String.mk (List.replicate n '1') := by
    rw [EncodeBase58_eq, ← SetBytes_eq, hz]
    simp
  have hdiv : wallet.divLoop 0 [] = [] := by
    rw [divLoop_eq]
    simp
  refine ⟨henc, ?_, ?_, hz, by rw [hz, hdiv], ?_⟩
  · rw [henc]
    simp [String.length]
  · rw [EncodeBase58_eq]
    simp
  · rw [leadingZeros_eq]
    simp

/-- The value of the 34 bytes `0xED, 0x01, publicKey`. -/
theorem SetBytes_multicodec (pk : List Byte) (h : pk.length = 32) :
    0xED01 * 2 ^ 256 ≤ wallet.SetBytes (0xED :: 0x01 :: pk)
    ∧ wallet.SetBytes (0xED :: 0x01 :: pk) < 0xED02 * 2 ^ 256 := by
  have hfold : wallet.SetBytes (0xED :: 0x01 :: pk)
      = 0xED01 * 256 ^ pk.length + Nat.ofDigits 256 (pk.reverse.map Fin.val) := by
    simp only [wallet.SetBytes, List.foldl_cons]
    rw [SetBytes_foldl]
    rfl
  have hlt : Nat.ofDigits 256 (pk.reverse.map Fin.val) < 256 ^ pk.length := by
    have := Nat.ofDigits_lt_base_pow_length (b := 256) (l := pk.reverse.map Fin.val) (by decide)
      (by
        intro x hx
        obtain ⟨b, _, rfl⟩ := List.mem_map.mp hx
        exact b.isLt)
    simpa using this
  rw [hfold]
  rw [h] at hlt ⊢
  have hpow : (256 : Nat) ^ 32 = 2 ^ 256 := by norm_num
  rw [hpow] at hlt ⊢
  constructor
  · omega
  · have : (0xED02 : Nat) * 2 ^ 256 = 0xED01 * 2 ^ 256 + 2 ^ 256 := by norm_num
    omega

theorem multicodec_digits (v : Nat) (h1 : 18023 * 58 ^ 44 ≤ v) (h2 : v < 18024 * 58 ^ 44) :
    ∃ low : List Nat, low.length = 44 ∧ Nat.digits 58 v = low ++ [43, 20, 5] := by
  have hpos : v ≠ 0 := by
    have : 0 < 18023 * 58 ^ 44 := by positivity
    omega
  have hlen : (Nat.digits 58 v).length = 47 := by
    have hup := Nat.lt_base_pow_length_digits (b := 58) (m := v) (by decide)
    have hdown := Nat.base_pow_length_digits_le 58 v (by decide) hpos
    have hgt : 46 < (Nat.digits 58 v).length := by
      apply (Nat.pow_lt_pow_iff_right (a := 58) (by decide)).mp
      have : (58 : Nat) ^ 46 ≤ 18023 * 58 ^ 44 := by norm_num
      omega
    have hlt : (Nat.digits 58 v).length < 48 := by
      apply (Nat.pow_lt_pow_iff_right (a := 58) (by decide)).mp
      have : 58 * (18024 * 58 ^ 44) ≤ (58 : Nat) ^ 48 := by norm_num
      omega
    omega
  have hsplit : Nat.digits 58 v = (Nat.digits 58 v).take 44 ++ (Nat.digits 58 v).drop 44 :=
    (List.take_append_drop 44 _).symm
  have htake : ((Nat.digits 58 v).take 44).length = 44 := by
    rw [List.length_take, hlen]
    rfl
  have hdrop : ((Nat.digits 58 v).drop 44).length = 3 := by
    rw [List.length_drop, hlen]
  have hval : v = Nat.ofDigits 58 ((Nat.digits 58 v).take 44)
      + 58 ^ 44 * Nat.ofDigits 58 ((Nat.digits 58 v).drop 44) := by
    conv_lhs => rw [← Nat.ofDigits_digits 58 v, hsplit]
    rw [Nat.ofDigits_append, htake]
  have hlow : Nat.ofDigits 58 ((Nat.digits 58 v).take 44) < 58 ^ 44 := by
    have := Nat.ofDigits_lt_base_pow_length (b := 58) (l := (Nat.digits 58 v).take 44) (by decide)
      (fun x hx => Nat.digits_lt_base (by decide) (List.mem_of_mem_take hx))
    rwa [htake] at this
  have hdig : ∀ x ∈ (Nat.digits 58 v).drop 44, x < 58 :=
    fun x hx => Nat.digits_lt_base (by decide) (List.mem_of_mem_drop hx)
  obtain ⟨a, b, c, habc⟩ : ∃ a b c, (Nat.digits 58 v).drop 44 = [a, b, c] := by
    match hd : (Nat.digits 58 v).drop 44, hdrop with
    | [a, b, c], _ => exact ⟨a, b, c, rfl⟩
  rw [habc] at hval hdig
  have ha := hdig a (by simp)
  have hb := hdig b (by simp)
  have hc := hdig c (by simp)
  simp only [Nat.ofDigits_cons, Nat.ofDigits_nil] at hval
  generalize Nat.ofDigits 58 ((Nat.digits 58 v).take 44) = r at hval hlow
  have hp : (58 : Nat) ^ 44 = 58 ^ 44 := rfl
  generalize (58 : Nat) ^ 44 = p at hval hlow h1 h2 hp
  have hq : a + 58 * (b + 58 * (c + 58 * 0)) = 18023 := by
    have hlo : 18023 * p ≤ r + p * (a + 58 * (b + 58 * (c + 58 * 0))) := by rw [← hval]; exact h1
    have hhi : r + p * (a + 58 * (b + 58 * (c + 58 * 0))) < 18024 * p := by rw [← hval]; exact h2
    generalize a + 58 * (b + 58 * (c + 58 * 0)) = q at hlo hhi
    by_contra hne
    rcases Nat.lt_or_gt_of_ne hne with hlt | hgt
    · have : p * q + p ≤ p * 18023 := by
        have := Nat.mul_le_mul_left p (Nat.succ_le_of_lt hlt)
        rw [Nat.mul_succ] at this
        exact this
      omega
    · have : p * 18024 ≤ p * q := Nat.mul_le_mul_left p (Nat.succ_le_of_lt hgt)
      omega
  have hc5 : c = 5 := by omega
  have hb20 : b = 20 := by omega
  have ha43 : a = 43 := by omega
  refine ⟨(Nat.digits 58 v).take 44, htake, ?_⟩
  rw [← ha43, ← hb20, ← hc5, ← habc]
  exact hsplit

/-- The base58 text of the 34 bytes `0xED, 0x01, publicKey`: `6Mk` and 44 more
characters. -/
theorem EncodeBase58_multicodec (pk : List Byte) (h : pk.length = 32) :
    ∃ tail : List Char, tail.length = 44
      ∧ wallet.EncodeBase58 (0xED :: 0x01 :: pk) = String.mk ('6' :: 'M' :: 'k' :: tail) := by
  obtain ⟨hlo, hhi⟩ := SetBytes_multicodec pk h
  have h1 : 18023 * 58 ^ 44 ≤ wallet.SetBytes (0xED :: 0x01 :: pk) := by
    have : (18023 : Nat) * 58 ^ 44 ≤ 0xED01 * 2 ^ 256 := by norm_num
    omega
  have h2 : wallet.SetBytes (0xED :: 0x01 :: pk) < 18024 * 58 ^ 44 := by
    have : (0xED02 : Nat) * 2 ^ 256 ≤ 18024 * 58 ^ 44 := by norm_num
    omega
  obtain ⟨low, hlen, hdig⟩ := multicodec_digits _ h1 h2
  refine ⟨low.reverse.map wallet.alphabetAt, by simp [hlen], ?_⟩
  rw [EncodeBase58_eq, ← SetBytes_eq, hdig]
  have hz : (List.takeWhile (· = 0) ((0xED : Byte) :: 0x01 :: pk)) = [] := by
    rw [List.takeWhile_cons]
    rfl
  rw [hz]
  simp only [List.length_nil, List.replicate_zero, List.nil_append, List.reverse_append,
    List.reverse_cons, List.reverse_nil, List.map_append, List.map_cons, List.map_nil,
    List.cons_append]
  rfl

/-- C27. For every 32-byte public key the value of the 34 bytes
`0xED, 0x01, publicKey` lies in `[0xED01 * 2^256, 0xED02 * 2^256)`, which is
within `[58^46, 58^47)` and within `[18023 * 58^44, 18024 * 58^44)`; so the
base58 payload has exactly 47 characters and begins with `6Mk`, and the DID of
a wallet with that key has 56 characters and begins with `did:key:z6Mk`. -/
theorem DID_fixed_shape (w : wallet.Wallet) (h : w.publicKey.length = 32) :
    (0xED01 * 2 ^ 256 ≤ wallet.SetBytes (0xED :: 0x01 :: w.publicKey)
      ∧ wallet.SetBytes (0xED :: 0x01 :: w.publicKey) < 0xED02 * 2 ^ 256)
    ∧ ((58 : Nat) ^ 46 ≤ 0xED01 * 2 ^ 256 ∧ (0xED02 : Nat) * 2 ^ 256 ≤ 58 ^ 47)
    ∧ ((18023 : Nat) * 58 ^ 44 ≤ 0xED01 * 2 ^ 256 ∧ (0xED02 : Nat) * 2 ^ 256 ≤ 18024 * 58 ^ 44)
    ∧ (wallet.EncodeBase58 (0xED :: 0x01 :: w.publicKey)).length = 47
    ∧ (wallet.EncodeBase58 (0xED :: 0x01 :: w.publicKey)).toList.take 3 = "6Mk".toList
    ∧ ∃ did, wallet.DID (some w) = .ok did ∧ did.length = 56
        ∧ did.toList.take 12 = "did:key:z6Mk".toList := by
  obtain ⟨tail, htail, henc⟩ := EncodeBase58_multicodec w.publicKey h
  refine ⟨SetBytes_multicodec w.publicKey h, by norm_num, by norm_num, ?_, ?_, ?_⟩
  · rw [henc]
    simp [String.length, htail]
  · rw [henc]
    rfl
  · refine ⟨"did:key:z" ++ wallet.EncodeBase58 (0xED :: 0x01 :: w.publicKey), rfl, ?_, ?_⟩
    · rw [String.length_append, henc]
      show 9 + ('6' :: 'M' :: 'k' :: tail).length = 56
      simp [htail]
    · rw [henc]
      rfl

theorem DID_fixed_shape_witness :
    demoWallet.publicKey.length = 32
    ∧ (wallet.EncodeBase58 (0xED :: 0x01 :: demoWallet.publicKey)).length = 47
    ∧ ∃ did, wallet.DID (some demoWallet) = .ok did ∧ did.length = 56
        ∧ did.toList.take 12 = "did:key:z6Mk".toList :=
  ⟨rfl, (DID_fixed_shape demoWallet rfl).2.2.2.1, (DID_fixed_shape demoWallet rfl).2.2.2.2.2⟩

/-! ## The error type -/

theorem Contains_of_infix (s sub : String) (h : sub.toList <:+: s.toList) :
    strings.Contains s sub = true := by
  unfold strings.Contains
  exact decide_eq_true h

/-- C23. For every `TalosError` `e`: without a cause, `e.Error()` is `[`, the
code, `] ` and the message; with a cause it is that text followed by `: `
and the text of the cause. So the text of the error always contains the
message and the code, and the text of the cause when there is one. -/
theorem TalosError_Error_text (e : errors.TalosError GoError) :
    (e.Cause = none → (GoError.talos e).Error = "[" ++ e.Code ++ "] " ++ e.Message)
    ∧ (∀ cause, e.Cause = some cause →
        (GoError.talos e).Error = "[" ++ e.Code ++ "] " ++ e.Message ++ ": " ++ cause.Error)
    ∧ strings.Contains (GoError.talos e).Error e.Message = true
    ∧ strings.Contains (GoError.talos e).Error e.Code = true
    ∧ (∀ cause, e.Cause = some cause →
        strings.Contains (GoError.talos e).Error cause.Error = true) := by
  obtain ⟨code, message, details, requestID, cause⟩ := e
  cases cause with
  | none =>
    refine ⟨fun _ => rfl, ?_, ?_, ?_, ?_⟩
    · intro c hc
      cases hc
    · apply Contains_of_infix
      simp only [GoError.Error, String.toList, String.data_append]
      exact ⟨"[".data ++ code.data ++ "] ".data, [], by simp⟩
    · apply Contains_of_infix
      simp only [GoError.Error, String.toList, String.data_append]
      exact ⟨"[".data, "] ".data ++ message.data, by simp⟩
    · intro c hc
      cases hc
  | some c =>
    refine ⟨?_, ?_, ?_, ?_, ?_⟩
    · intro h
      cases h
    · intro c' hc
      cases hc
      rfl
    · apply Contains_of_infix
      simp only [GoError.Error, String.toList, String.data_append]
      exact ⟨"[".data ++ code.data ++ "] ".data, ": ".data ++ c.Error.data, by simp⟩
    · apply Contains_of_infix
      simp only [GoError.Error, String.toList, String.data_append]
      exact ⟨"[".data, "] ".data ++ message.data ++ ": ".data ++ c.Error.data, by simp⟩
    · intro c' hc
      cases hc
      apply Contains_of_infix
      simp only [GoError.Error, String.toList, String.data_append]
      exact ⟨"[".data ++ code.data ++ "] ".data ++ message.data ++ ": ".data, [], by simp⟩

theorem TalosError_Error_text_witness :
    (GoError.talos (errors.New errors.CodeInvalidInput "bad input"
        [errors.WithCause (some (.plain "root cause"))])).Error
      = "[TALOS_INVALID_INPUT] bad input: root cause"
    ∧ strings.Contains (GoError.talos (errors.New errors.CodeInvalidInput "bad input"
        [errors.WithCause (some (.plain "root cause"))])).Error "root cause" = true :=
  ⟨rfl, (TalosError_Error_text (errors.New errors.CodeInvalidInput "bad input"
      [errors.WithCause (some (.plain "root cause"))])).2.2.2.2 (.plain "root cause") rfl⟩

theorem WithDetails_fresh (d : List (String × GoValue)) (h : (d.map Prod.fst).Nodup) :
    d.foldl (fun m kv => mapAssign m kv.1 kv.2) [] = d := by
  have := foldl_mapAssign d [] (by simpa using h)
  simpa using this

/-- C24. `errors.New code message` with the options `WithDetails d`,
`WithRequestID r` and `WithCause c` has the code, the message, exactly the
entries of the map `d` as details, the request id `r`, and `Unwrap()` returns
`c`; each option changes its own field of any error and no other. Without
options the details are the empty map that `make` allocated, the request id
is empty and `Unwrap()` returns nil. -/
theorem New_sets_fields (code : errors.TalosErrorCode) (message : String)
    (d : List (String × GoValue)) (r : String) (c : Option GoError)
    (hd : (d.map Prod.fst).Nodup) :
    (errors.New code message
        [errors.WithDetails d, errors.WithRequestID r, errors.WithCause c]
      = { Code := code, Message := message, Details := d, RequestID := r, Cause := c }
      ∧ (errors.New code message
          [errors.WithDetails d, errors.WithRequestID r, errors.WithCause c]).Unwrap = c)
    ∧ (∀ e : errors.TalosError GoError,
        errors.WithDetails d e
          = { e with Details := d.foldl (fun m kv => mapAssign m kv.1 kv.2) e.Details }
        ∧ errors.WithRequestID r e = { e with RequestID := r }
        ∧ errors.WithCause c e = { e with Cause := c })
    ∧ (errors.New (ε := GoError) code message []
        = { Code := code, Message := message, Details := [], RequestID := "", Cause := none }
      ∧ (errors.New (ε := GoError) code message []).Unwrap = none) := by
  have hnew : errors.New code message
      [errors.WithDetails d, errors.WithRequestID r, errors.WithCause c]
      = { Code := code, Message := message, Details := d, RequestID := r, Cause := c } := by
    simp only [errors.New, List.foldl_cons, List.foldl_nil, errors.WithDetails,
      errors.WithRequestID, errors.WithCause, WithDetails_fresh d hd]
  refine ⟨⟨hnew, ?_⟩, fun e => ⟨rfl, rfl, rfl⟩, rfl, rfl⟩
  rw [hnew]
  rfl

theorem New_sets_fields_witness :
    ([("field", GoValue.str "age")].map Prod.fst).Nodup
    ∧ errors.New errors.CodeInvalidInput "bad input"
        [errors.WithDetails [("field", .str "age")], errors.WithRequestID "req-123",
          errors.WithCause (some (GoError.plain "root cause"))]
      = { Code := "TALOS_INVALID_INPUT", Message := "bad input",
          Details := [("field", .str "age")], RequestID := "req-123",
          Cause := some (.plain "root cause") } :=
  ⟨by simp, (New_sets_fields errors.CodeInvalidInput "bad input" [("field", .str "age")]
    "req-123" (some (.plain "root cause")) (by simp)).1.1⟩

/-! ## Negative verification vectors that expect `verify = false` -/

theorem classify_verify_false (L : Stdlib) (vec : main.TestVector)
    (hExpected : mapIndex vec.Expected "verify" = some (.bool false))
    (hNone : vec.ExpectedError = none) (err : Option GoError) :
    main.classify L vec true err = none := by
  cases err with
  | none => simp only [main.classify, ↓reduceIte, hExpected]
  | some e => simp only [main.classify, ↓reduceIte, hNone]

/-- C28. A negative vector routed to verification evaluation that has
`expected.verify = false`, no `expected_error` and a public key given by
`public_key_hex` or `wrong_public_key_hex` passes, whatever the evaluation
returns: the classification of a negative run maps every result of
`testVerify`, no error (the key did not verify), the mismatch error (it did
verify) or the error of the signature decoding, to a pass. So two runs that
differ only in what `Verify` returns are both passes. -/
theorem runVector_verify_false_always_passes (L : Stdlib) (hV : L.Verifies)
    (vec : main.TestVector)
    (hroute : strings.HasPrefix vec.TestID "verify_" = true)
    (hExpected : mapIndex vec.Expected "verify" = some (.bool false))
    (hNone : vec.ExpectedError = none)
    (hkey : (asString (mapIndex vec.Inputs "public_key_hex")).isSome = true
      ∨ (asString (mapIndex vec.Inputs "wrong_public_key_hex")).isSome = true) :
    (∀ err : Option GoError, main.classify L vec true err = none)
    ∧ (∃ r, main.testVerify L vec = .ok r)
    ∧ main.runVector L vec true = .ok none := by
  have hclass := classify_verify_false L vec hExpected hNone
  have hnil : ¬ main.DerefsNilWallet vec.Inputs := by
    rintro ⟨h1, h2, _⟩
    rcases hkey with h | h
    · rw [h1] at h
      cases h
    · rw [h2] at h
      cases h
  have hpk : ∃ pk, main.ResolvesKey L vec.Inputs pk := by
    unfold main.ResolvesKey
    cases h1 : asString (mapIndex vec.Inputs "public_key_hex") with
    | some val => exact ⟨_, rfl⟩
    | none =>
      cases h2 : asString (mapIndex vec.Inputs "wrong_public_key_hex") with
      | some val => exact ⟨_, rfl⟩
      | none =>
        rcases hkey with h | h
        · rw [h1] at h
          cases h
        · rw [h2] at h
          cases h
  obtain ⟨pk, hpk⟩ := hpk
  have hret : ∃ r, main.testVerify L vec = .ok r := by
    rw [testVerify_eq L vec pk hpk]
    rcases main.signatureOf vec.Inputs with ⟨sigBytes, _ | err⟩
    · obtain ⟨b, hb⟩ := wallet_Verify_returns L hV pk (utf8 (main.messageOf vec.Inputs)) sigBytes
      exact ⟨_, by simp only [hb]; rfl⟩
    · exact ⟨_, rfl⟩
  refine ⟨hclass, hret, ?_⟩
  obtain ⟨r, hr⟩ := hret
  rw [runVector_verify_routed L vec true hroute, hr]
  simp only [Except.map, hclass]

theorem runVector_verify_false_always_passes_witness :
    demoStdlib.Verifies
    ∧ main.testVerify demoStdlib validSignatureVector
        = .ok (some (.plain "verification result mismatch: want false, got true"))
    ∧ main.testVerify demoStdlib tamperedVector = .ok none
    ∧ main.runVector demoStdlib validSignatureVector true = .ok none :=
  ⟨demoStdlib_Verifies, rfl, rfl,
    (runVector_verify_false_always_passes demoStdlib demoStdlib_Verifies validSignatureVector
      rfl rfl rfl (Or.inl rfl)).2.2⟩

/-! ## Integers in canonical JSON -/

open strconv in
/-- The float64 nearest to the decimal `x * 10 ^ s / 10 ^ s` is the one nearest
to the whole number `x`. -/
theorem roundRatio_whole (x s : Nat) (hs : s ≤ 1074) :
    roundRatio (x * 10 ^ s * 2 ^ (1074 - s)) (5 ^ s) = roundRatio (x * 2 ^ 1074) 1 := by
  have h2s : (2 : Nat) ^ 1074 = 2 ^ s * 2 ^ (1074 - s) := by
    rw [← pow_add, Nat.add_sub_cancel' hs]
  have h10s : (10 : Nat) ^ s = 2 ^ s * 5 ^ s := by
    rw [← Nat.mul_pow]
  apply roundRatio_congr _ _ _ _ (by positivity) Nat.one_pos
  rw [h10s, h2s]
  ring

set_option exponentiation.threshold 4096 in
open strconv in
/-- A whole number below `2^53` is a float64, and no other whole number reads
back as it. -/
theorem roundRatio_whole_ne (x y : Nat) (hx : x < 2 ^ 53) (hne : y ≠ x) :
    roundRatio (y * 2 ^ 1074) 1 ≠ x * 2 ^ 1074 := by
  have hpos : 0 < 2 ^ 1074 := Nat.two_pow_pos _
  by_cases hy : y < 2 ^ 53
  · rw [roundRatio_exact y 1074 hy]
    intro h
    exact hne (Nat.eq_of_mul_eq_mul_right hpos h)
  · have h1 : 2 ^ (53 + 1074) ≤ roundRatio (y * 2 ^ 1074) 1 := by
      apply roundRatio_ge_pow _ _ _ Nat.one_pos
      rw [Nat.mul_one, pow_add]
      exact Nat.mul_le_mul_right _ (not_lt.mp hy)
    have h2 : x * 2 ^ 1074 < 2 ^ (53 + 1074) := by
      rw [pow_add]
      exact Nat.mul_lt_mul_of_pos_right hx hpos
    omega

open strconv in
/-- The shortest decimal of a whole number below `2^53` is the number: no
decimal with fewer digits reads back as it. -/
theorem shortestFrom_whole (x s : Nat) (hx : x < 2 ^ 53) (hs : s ≤ 1074) :
    ∀ k, shortestFrom (x * 2 ^ 1074) s (x * 10 ^ s) k = x * 10 ^ s := by
  intro k
  induction k with
  | zero => rfl
  | succ k ih =>
    have hp : 0 < 10 ^ (k + 1) := by positivity
    have h10 : 0 < 10 ^ s := by positivity
    have hback : roundRatio (x * 10 ^ s * 2 ^ (1074 - s)) (5 ^ s) = x * 2 ^ 1074 := by
      rw [roundRatio_whole x s hs, roundRatio_exact x 1074 hx]
    have hlo : x * 10 ^ s / 10 ^ (k + 1) * 10 ^ (k + 1) ≤ x * 10 ^ s := Nat.div_mul_le_self _ _
    by_cases heq : x * 10 ^ s / 10 ^ (k + 1) * 10 ^ (k + 1) = x * 10 ^ s
    · simp only [shortestFrom, heq, hback, decide_True, true_and, ↓reduceIte, Nat.sub_self,
        Nat.add_sub_cancel_left]
      split_ifs with h1 h2
      · rfl
      · exact absurd (Or.inl hp) h2
      · rfl
    · have hks : s < k + 1 := by
        by_contra hle
        apply heq
        have hdvd : 10 ^ (k + 1) ∣ x * 10 ^ s :=
          Dvd.dvd.mul_left (Nat.pow_dvd_pow 10 (by omega)) x
        exact Nat.div_mul_cancel hdvd
      have hsplit : 10 ^ (k + 1) = 10 ^ (k + 1 - s) * 10 ^ s := by
        rw [← pow_add, Nat.sub_add_cancel (by omega)]
      have hloeq : x * 10 ^ s / 10 ^ (k + 1) * 10 ^ (k + 1)
          = (x / 10 ^ (k + 1 - s) * 10 ^ (k + 1 - s)) * 10 ^ s := by
        rw [hsplit, Nat.mul_comm (10 ^ (k + 1 - s)) (10 ^ s),
          ← Nat.div_div_eq_div_mul, Nat.mul_div_cancel _ h10]
        ring
      have hL : x / 10 ^ (k + 1 - s) * 10 ^ (k + 1 - s) ≠ x := by
        intro h
        apply heq
        rw [hloeq, h]
      have hLle : x / 10 ^ (k + 1 - s) * 10 ^ (k + 1 - s) ≤ x := Nat.div_mul_le_self _ _
      have hpk : 0 < 10 ^ (k + 1 - s) := by positivity
      have hH : x / 10 ^ (k + 1 - s) * 10 ^ (k + 1 - s) + 10 ^ (k + 1 - s) ≠ x := by
        have := Nat.lt_div_mul_add (a := x) hpk
        omega
      have hhieq : x * 10 ^ s / 10 ^ (k + 1) * 10 ^ (k + 1) + 10 ^ (k + 1)
          = (x / 10 ^ (k + 1 - s) * 10 ^ (k + 1 - s) + 10 ^ (k + 1 - s)) * 10 ^ s := by
        rw [hloeq, hsplit]
        ring
      have hrlo : ¬ roundRatio (x * 10 ^ s / 10 ^ (k + 1) * 10 ^ (k + 1) * 2 ^ (1074 - s)) (5 ^ s)
          = x * 2 ^ 1074 := by
        rw [hloeq, roundRatio_whole _ s hs]
        exact roundRatio_whole_ne x _ hx hL
      have hrhi : ¬ roundRatio
          ((x * 10 ^ s / 10 ^ (k + 1) * 10 ^ (k + 1) + 10 ^ (k + 1)) * 2 ^ (1074 - s)) (5 ^ s)
          = x * 2 ^ 1074 := by
        rw [hhieq, roundRatio_whole _ s hs]
        exact roundRatio_whole_ne x _ hx hH
      simp only [shortestFrom, hrlo, hrhi, decide_False, Bool.false_eq_true, false_and,
        ↓reduceIte, ih]

set_option exponentiation.threshold 4096 in
open strconv in
/-- A whole number below `2^53`, not zero, is printed after the round trip
through `float64` with its own digits. -/
theorem floatParts_whole (neg : Bool) (x : Nat) (hx : x < 2 ^ 53) (h0 : x ≠ 0) :
    floatParts (Float64.ofUnits neg (roundRatio (x * 2 ^ 1074) 1))
      = { negative := neg, intDigits := (Nat.repr x).toList, fracDigits := [],
          exponent := none } := by
  have hpos : 0 < 2 ^ 1074 := Nat.two_pow_pos _
  rw [roundRatio_exact x 1074 hx]
  have hlt : x * 2 ^ 1074 < 2 ^ 2098 := by
    calc x * 2 ^ 1074 < 2 ^ 53 * 2 ^ 1074 := Nat.mul_lt_mul_of_pos_right hx hpos
      _ = 2 ^ 1127 := by rw [← pow_add]
      _ < 2 ^ 2098 := Nat.pow_lt_pow_right (by decide) (by decide)
  obtain ⟨hu, _, hsign⟩ := Float64.units_ofUnits neg (x * 2 ^ 1074)
    (roundRatio_exact x 1074 hx) hlt
  generalize Float64.ofUnits neg (x * 2 ^ 1074) = f at hu hsign
  have hs := decimalPlaces_le f
  have h10s : (10 : Nat) ^ decimalPlaces f = 2 ^ decimalPlaces f * 5 ^ decimalPlaces f := by
    rw [← Nat.mul_pow]
  have h2s : (2 : Nat) ^ 1074 = 2 ^ decimalPlaces f * 2 ^ (1074 - decimalPlaces f) := by
    rw [← pow_add, Nat.add_sub_cancel' hs]
  have hexact : exactDecimal f = x * 10 ^ decimalPlaces f := by
    have h := exactDecimal_spec f
    rw [hu] at h
    apply Nat.eq_of_mul_eq_mul_right (Nat.two_pow_pos (1074 - decimalPlaces f))
    rw [h, h10s, h2s]
    ring
  have hc : shortestDecimal f = x * 10 ^ decimalPlaces f := by
    rw [shortestDecimal, hu, hexact]
    exact shortestFrom_whole x _ hx hs _
  have hc0 : x * 10 ^ decimalPlaces f ≠ 0 := Nat.mul_ne_zero h0 (by positivity)
  obtain ⟨hstrip, _, _, hlast⟩ :=
    stripZeros_spec (x * 10 ^ decimalPlaces f) (x * 10 ^ decimalPlaces f) 0
  have hlast := hlast hc0 (le_refl _)
  rw [Nat.sub_zero] at hstrip
  have hu0 : f.units ≠ 0 := by
    rw [hu]
    exact Nat.mul_ne_zero h0 (by positivity)
  have hsmall : ¬ f.units < smallCutoff := by
    rw [hu, not_lt]
    have h1 : smallCutoff ≤ 2 ^ (53 + 1021) := by
      apply roundRatio_le_pow
      apply Nat.div_lt_of_lt_mul
      calc 2 ^ 1074 = 1 * 2 ^ 1074 := (Nat.one_mul _).symm
        _ < 10 ^ 6 * 2 ^ (53 + 1021) := by
          rw [show 53 + 1021 = 1074 from rfl]
          exact Nat.mul_lt_mul_of_pos_right (by decide) hpos
    calc smallCutoff ≤ 2 ^ 1074 := h1
      _ = 1 * 2 ^ 1074 := (Nat.one_mul _).symm
      _ ≤ x * 2 ^ 1074 := Nat.mul_le_mul_right _ (Nat.pos_of_ne_zero h0)
  have hlarge : ¬ largeCutoff ≤ f.units := by
    rw [hu, not_le, largeCutoff]
    exact Nat.mul_lt_mul_of_pos_right
      (lt_trans hx (by decide : (2 : Nat) ^ 53 < 10 ^ 21)) hpos
  rw [floatParts, if_neg hu0]
  simp only [hc, hsign]
  generalize hD : (stripZeros (x * 10 ^ decimalPlaces f) (x * 10 ^ decimalPlaces f) 0).1 = d
    at hstrip hlast
  generalize hZ : (stripZeros (x * 10 ^ decimalPlaces f) (x * 10 ^ decimalPlaces f) 0).2 = z
    at hstrip
  have hz : decimalPlaces f ≤ z := by
    by_contra hlt
    have hsplit : (10 : Nat) ^ decimalPlaces f = 10 ^ (decimalPlaces f - z - 1) * 10 * 10 ^ z := by
      rw [← pow_succ, ← pow_add]
      congr 1
      omega
    have hd : d = x * 10 ^ (decimalPlaces f - z - 1) * 10 := by
      apply Nat.eq_of_mul_eq_mul_right (by positivity : 0 < 10 ^ z)
      rw [hstrip, hsplit]
      ring
    apply hlast
    rw [hd, Nat.mul_mod_left]
  have hd : d * 10 ^ (z - decimalPlaces f) = x := by
    apply Nat.eq_of_mul_eq_mul_right (by positivity : 0 < 10 ^ decimalPlaces f)
    rw [Nat.mul_assoc, ← pow_add, Nat.sub_add_cancel hz, hstrip]
  rw [if_neg (by rintro (h | h); exact hsmall h; exact hlarge h), if_pos hz, hd]

set_option exponentiation.threshold 100000 in
set_option maxRecDepth 100000 in
/-- An integer of absolute value at most `2^53` is printed with the same
digits after the round trip through `float64`. -/
theorem floatText_float64OfInt (n : Int) (h : n.natAbs ≤ 2 ^ 53) :
    strconv.floatText (json.float64OfInt n) = strconv.intText n := by
  rcases Nat.lt_or_eq_of_le h with hlt | heq
  · have hfin := float64OfInt_finite n
      (lt_trans hlt (Nat.pow_lt_pow_right (by decide) (by decide)))
    rw [strconv.floatText, if_pos hfin, intText_eq_text]
    by_cases h0 : n.natAbs = 0
    · have hn : n = 0 := Int.natAbs_eq_zero.mp h0
      subst hn
      rfl
    · have hp := floatParts_whole (decide (n < 0)) n.natAbs hlt h0
      have he : json.float64OfInt n
          = Float64.ofUnits (decide (n < 0)) (strconv.roundRatio (n.natAbs * 2 ^ 1074) 1) := by
        unfold json.float64OfInt strconv.decimalToFloat
        simp
      rw [he, hp]
  · have hn : n = 9007199254740992 ∨ n = -9007199254740992 := by
      have : (2 : Nat) ^ 53 = 9007199254740992 := by norm_num
      omega
    rcases hn with rfl | rfl
    · rfl
    · rfl

/-! ## The value that is written, integer by integer -/

theorem integerElems_eq_map (xs : List GoValue) :
    canonical.integerElems xs = xs.map canonical.integerForm := by
  induction xs with
  | nil => simp [canonical.integerElems]
  | cons x xs ih => simp [canonical.integerElems, ih]

theorem integerFields_eq_map (kvs : List (String × GoValue)) :
    canonical.integerFields kvs = kvs.map (fun kv => (kv.1, canonical.integerForm kv.2)) := by
  induction kvs with
  | nil => simp [canonical.integerFields]
  | cons kv kvs ih =>
    obtain ⟨k, v⟩ := kv
    simp [canonical.integerFields, ih]

/-- The text of the sorted members of an object whose values are the images
of the values of `kvs` under `f`. -/
theorem renderFields_sorted_map (f : GoValue → GoValue) (kvs : List (String × GoValue)) :
    canonical.renderFields (json.sortByKey (kvs.map (fun kv => (kv.1, f kv.2))))
      = (json.sortByKey kvs).map (fun kv => json.member (kv.1, canonical.render (f kv.2))) := by
  rw [renderFields_eq_map, sortByKey_map_snd, List.map_map]
  rfl

theorem render_object_congr (f g : GoValue → GoValue) (kvs : List (String × GoValue))
    (h : ∀ kv ∈ kvs, canonical.render (f kv.2) = canonical.render (g kv.2)) :
    canonical.render (.map (json.sortByKey (kvs.map (fun kv => (kv.1, f kv.2)))))
      = canonical.render (.map (json.sortByKey (kvs.map (fun kv => (kv.1, g kv.2))))) := by
  rw [canonical.render, canonical.render, renderFields_sorted_map, renderFields_sorted_map]
  rw [map_congr_mem _ _ (json.sortByKey kvs) (fun kv hkv => by
    rw [h kv ((sortByKey_perm kvs).mem_iff.mp hkv)])]

/-- The text of the canonical form is the text of the value written integer
by integer: an integer of absolute value at most `2^53` comes back from the
round trip through `float64` with its own digits. -/
theorem render_canonicalForm_eq_integerForm (v : GoValue) :
    canonical.render (canonical.canonicalForm v)
      = canonical.render (canonical.integerForm v) := by
  induction v using GoValue.induct_value with
  | hnull => rfl
  | hbool b => rfl
  | hint n =>
    by_cases h : n.natAbs ≤ 9007199254740992
    · simp only [canonical.canonicalForm, canonical.integerForm, if_pos h, canonical.render]
      exact floatText_float64OfInt n (by norm_num; exact h)
    · simp only [canonical.canonicalForm, canonical.integerForm, if_neg h]
  | hfloat m => rfl
  | hstr s => rfl
  | hslice xs ih =>
    simp only [canonical.canonicalForm, canonical.integerForm, canonical.render,
      canonicalElems_eq_map, integerElems_eq_map, renderElems_eq_map, List.map_map]
    rw [map_congr_mem (canonical.render ∘ canonical.canonicalForm)
      (canonical.render ∘ canonical.integerForm) xs (fun x hx => ih x hx)]
  | hmap kvs ih =>
    rw [canonical.canonicalForm, canonical.integerForm, canonicalFields_eq_map,
      integerFields_eq_map]
    exact render_object_congr _ _ kvs ih
  | hstruct fields ih =>
    rw [canonical.canonicalForm, canonical.integerForm, canonicalFields_eq_map,
      integerFields_eq_map]
    exact render_object_congr _ _ fields ih

set_option exponentiation.threshold 100000 in
set_option maxRecDepth 100000 in
/-- C26, as the code has it. `canonical.Marshal` writes a Go value (a term
whose maps have distinct keys and whose `int`s are in the range of `int64`)
integer by integer: its output, when it has one, is the text of the value
with the entries of every object sorted by key, every `int` of absolute value
at most `2^53` in its decimal representation, wherever it stands and whatever
the other integers of the value are, and every larger `int` as the text of
the float64 nearest to it; it has an output when the value holds no NaN or
infinity and is within the depth limit of the decoder. At the top level an
integer of absolute value at most `2^53` gives its decimal representation, a
larger one of the range of `int64` the text of the nearest float64, and the
entry `id: 123` is written `"id":123`. -/
theorem Marshal_preserves_small_integers (v : GoValue) (hwf : v.WellFormed) :
    (∀ out, canonical.Marshal v = .ok out →
      out = String.mk (canonical.render (canonical.integerForm v)))
    ∧ (json.allFinite v = true → v.depth ≤ json.maxNestingDepth →
      canonical.Marshal v = .ok (String.mk (canonical.render (canonical.integerForm v))))
    ∧ (∀ n : Int, n.natAbs ≤ 2 ^ 53 →
        canonical.Marshal (.int n) = .ok (String.mk (strconv.intText n)))
    ∧ (∀ n : Int, 2 ^ 53 < n.natAbs → -9223372036854775808 ≤ n → n < 9223372036854775808 →
        canonical.Marshal (.int n) = .ok (String.mk (strconv.floatText (json.float64OfInt n))))
    ∧ canonical.Marshal (.map [("id", .int 123)]) = .ok "\x7b\"id\":123\x7d" := by
  have hint : ∀ n : Int, -9223372036854775808 ≤ n → n < 9223372036854775808 →
      canonical.Marshal (.int n)
        = .ok (String.mk (canonical.render (canonical.integerForm (.int n)))) := by
    intro n h1 h2
    have hp : (GoValue.int n).Printable := ⟨by rw [GoValue.WellFormed]; exact ⟨h1, h2⟩, rfl⟩
    rw [Marshal_eq_render _ hp (Nat.zero_le _), render_canonicalForm_eq_integerForm]
  refine ⟨?_, ?_, ?_, ?_, rfl⟩
  · intro out h
    obtain ⟨hfin, _⟩ := Marshal_ok_decoded v out h
    have hp : v.Printable := ⟨hwf, hfin⟩
    rw [Marshal_eq_render v hp (depth_le_of_Marshal_ok v hp out h),
      render_canonicalForm_eq_integerForm] at h
    simp only [Except.ok.injEq] at h
    exact h.symm
  · intro hfin hdepth
    rw [Marshal_eq_render v ⟨hwf, hfin⟩ hdepth, render_canonicalForm_eq_integerForm]
  · intro n hn
    have h53 : (2 : Nat) ^ 53 = 9007199254740992 := by norm_num
    rw [hint n (by omega) (by omega), canonical.integerForm, if_pos (by omega), canonical.render]
  · intro n hn h1 h2
    have h53 : (2 : Nat) ^ 53 = 9007199254740992 := by norm_num
    rw [hint n h1 h2, canonical.integerForm, if_neg (by omega), canonical.render]

set_option exponentiation.threshold 100000 in
set_option maxRecDepth 100000 in
theorem Marshal_preserves_small_integers_witness :
    (GoValue.map [("ids", .slice [.int 9007199254740992, .int (-42)]), ("id", .int 123),
        ("big", .int 9007199254740993)]).WellFormed
    ∧ canonical.Marshal (.map [("ids", .slice [.int 9007199254740992, .int (-42)]),
        ("id", .int 123), ("big", .int 9007199254740993)])
      = .ok "\x7b\"big\":9007199254740992,\"id\":123,\"ids\":[9007199254740992,-42]\x7d"
    ∧ "\x7b\"big\":9007199254740992,\"id\":123,\"ids\":[9007199254740992,-42]\x7d"
      = String.mk (canonical.render (canonical.integerForm
          (.map [("ids", .slice [.int 9007199254740992, .int (-42)]), ("id", .int 123),
            ("big", .int 9007199254740993)])))
    ∧ canonical.integerForm (.map [("ids", .slice [.int 9007199254740992, .int (-42)]),
        ("id", .int 123), ("big", .int 9007199254740993)])
      = .map [("big", .float64 ⟨false, 1076, 0⟩), ("id", .int 123),
          ("ids", .slice [.int 9007199254740992, .int (-42)])] :=
  ⟨by simp [GoValue.WellFormed, GoValue.WellFormedFields, GoValue.WellFormedElems], rfl,
    (Marshal_preserves_small_integers
      (.map [("ids", .slice [.int 9007199254740992, .int (-42)]), ("id", .int 123),
        ("big", .int 9007199254740993)])
      (by simp [GoValue.WellFormed, GoValue.WellFormedFields, GoValue.WellFormedElems])).1 _ rfl,
    by rfl⟩

set_option exponentiation.threshold 100000 in
set_option maxRecDepth 100000 in
/-- C26, as stated, fails: `2^53 + 1` is in the range of `int64`, and
`canonical.Marshal` writes it, at the top level and inside a map, next to
a small integer or alone, as `9007199254740992`; the least `int64` is written
`-9223372036854776000`. -/
theorem Marshal_rounds_large_integer :
    (GoValue.int 9007199254740993).WellFormed
    ∧ canonical.Marshal (.int 9007199254740993) = .ok "9007199254740992"
    ∧ canonical.Marshal (.map [("id", .int 9007199254740993)])
        = .ok "\x7b\"id\":9007199254740992\x7d"
    ∧ canonical.Marshal (.map [("a", .int 1), ("b", .int 9007199254740993)])
        = .ok "\x7b\"a\":1,\"b\":9007199254740992\x7d"
    ∧ canonical.Marshal (.int (-9223372036854775808)) = .ok "-9223372036854776000"
    ∧ strconv.intText 9007199254740993 = "9007199254740993".toList
    ∧ strconv.intText (-9223372036854775808) = "-9223372036854775808".toList :=
  ⟨by simp [GoValue.WellFormed], rfl, rfl, rfl, rfl, by rfl, by rfl⟩

/-! ## The error of a response that is not 200 -/

theorem handleError_decoded (foldRune : Char → Char) (resp : mcp.Response) (e : mcp.APIError)
    (h : mcp.UnmarshalErrWrap foldRune (resp.Body.take mcp.MaxErrorSnippetBytes) = some (some e)) :
    mcp.handleError foldRune resp =
      { Status := resp.StatusCode, Code := e.Code, Message := e.Message,
        RequestID := if e.RequestID ≠ "" then e.RequestID
          else mcp.headerGet resp.Header "X-Request-Id",
        BodySnippet := [] } := by
  unfold mcp.handleError
  simp only [h]
  split_ifs <;> rfl

theorem handleError_undecoded (foldRune : Char → Char) (resp : mcp.Response)
    (h : ∀ e, mcp.UnmarshalErrWrap foldRune (resp.Body.take mcp.MaxErrorSnippetBytes)
      ≠ some (some e)) :
    mcp.handleError foldRune resp =
      { Status := resp.StatusCode,
        Code := "http_" ++ String.mk (strconv.intText resp.StatusCode), Message := "",
        RequestID := mcp.headerGet resp.Header "X-Request-Id",
        BodySnippet := resp.Body.take mcp.MaxErrorSnippetBytes } := by
  unfold mcp.handleError
  cases hu : mcp.UnmarshalErrWrap foldRune (resp.Body.take mcp.MaxErrorSnippetBytes) with
  | none => simp
  | some ptr =>
    cases ptr with
    | none => simp
    | some e => exact absurd hu (h e)

theorem foldName_error (foldRune : Char → Char) :
    mcp.foldName foldRune "error" = ['E', 'R', 'R', 'O', 'R'] := rfl

theorem foldName_code (foldRune : Char → Char) :
    mcp.foldName foldRune "code" = ['C', 'O', 'D', 'E'] := rfl

theorem foldName_message (foldRune : Char → Char) :
    mcp.foldName foldRune "message" = ['M', 'E', 'S', 'S', 'A', 'G', 'E'] := rfl

theorem foldName_request_id (foldRune : Char → Char) :
    mcp.foldName foldRune "request_id" = ['R', 'E', 'Q', 'U', 'E', 'S', 'T', '_', 'I', 'D'] := rfl

/-- The text is not valid JSON: `json.Unmarshal` returns an error. -/
theorem UnmarshalErrWrap_invalid (foldRune : Char → Char) (body : List Byte) (err : json.JsonError)
    (h : json.scan (utf8.decode body) = .error err) :
    mcp.UnmarshalErrWrap foldRune body = none := by
  unfold mcp.UnmarshalErrWrap
  rw [h]

/-- An object whose only member is `error`, an object with the strings `code`,
`message` and `request_id`, in this order. -/
theorem UnmarshalErrWrap_three (foldRune : Char → Char) (body : List Byte) (c m r : String)
    (h : json.scan (utf8.decode body) = .ok (.object [("error",
      .object [("code", .str c), ("message", .str m), ("request_id", .str r)])])) :
    mcp.UnmarshalErrWrap foldRune body
      = some (some { Status := 0, Code := c, Message := m, RequestID := r, BodySnippet := [] }) := by
  unfold mcp.UnmarshalErrWrap
  rw [h]
  simp [mcp.decodeErrWrap, mcp.decodeErrorPointer, mcp.decodeAPIError, mcp.decodeField,
    mcp.decodeString, mcp.zeroAPIError, foldName_error, foldName_code, foldName_message,
    foldName_request_id]

/-- An object whose only member is `error`, an object with the strings `code`
and `message`, in this order. -/
theorem UnmarshalErrWrap_two (foldRune : Char → Char) (body : List Byte) (c m : String)
    (h : json.scan (utf8.decode body) = .ok (.object [("error",
      .object [("code", .str c), ("message", .str m)])])) :
    mcp.UnmarshalErrWrap foldRune body
      = some (some { Status := 0, Code := c, Message := m, RequestID := "", BodySnippet := [] }) := by
  unfold mcp.UnmarshalErrWrap
  rw [h]
  simp [mcp.decodeErrWrap, mcp.decodeErrorPointer, mcp.decodeAPIError, mcp.decodeField,
    mcp.decodeString, mcp.zeroAPIError, foldName_error, foldName_code, foldName_message,
    foldName_request_id]

/-- An object with the member `error` whose `code` is a number: a type error. -/
theorem UnmarshalErrWrap_number_code (foldRune : Char → Char) (body : List Byte)
    (n : List Char) (rest : List (String × json.Syntax))
    (h : json.scan (utf8.decode body)
      = .ok (.object [("error", .object (("code", .number n) :: rest))])) :
    mcp.UnmarshalErrWrap foldRune body = none := by
  unfold mcp.UnmarshalErrWrap
  rw [h]
  have hfold : ∀ (ms : List (String × json.Syntax)) (acc : mcp.APIError),
      (List.foldl (fun (acc : mcp.APIError × Bool) (kv : String × json.Syntax) =>
        ((mcp.decodeField foldRune acc.1 kv.1 kv.2).1,
          acc.2 || (mcp.decodeField foldRune acc.1 kv.1 kv.2).2)) (acc, true) ms).2 = true := by
    intro ms
    induction ms with
    | nil => intro acc; rfl
    | cons kv ms ih => intro acc; simp only [List.foldl_cons, Bool.true_or]; exact ih _
  have : (mcp.decodeErrWrap foldRune [("error", .object (("code", .number n) :: rest))]).2
      = true := by
    simp only [mcp.decodeErrWrap, List.foldl_cons, List.foldl_nil, if_true,
      mcp.decodeErrorPointer, mcp.decodeAPIError, Bool.false_or, mcp.decodeField,
      mcp.decodeString, Option.getD_none]
    exact hfold rest _
  simp only [this, if_true]

/-- C25 (amended). For every response with status `s` and body `b` (its first
16 KiB), `handleError` returns an `APIError` with `Status = s`. When
`json.Unmarshal` decodes `b` without an error into the struct whose only field
is `Error *APIError` and leaves the pointer non-nil, `Code` and `Message` are
the decoded code and message, `RequestID` is the decoded request id when
non-empty and the `X-Request-Id` header otherwise, and `BodySnippet` stays
empty; this is the case of an object whose only member is `error`, an object
with the strings `code`, `message` and possibly `request_id`. In every other
case, among them a text that is not valid JSON and an `error` member whose
`code` is a number, `Code` is `http_` followed by the decimal of `s`,
`Message` is empty, `RequestID` is the header and `BodySnippet` is `b`. -/
theorem handleError_cases (foldRune : Char → Char) (resp : mcp.Response) :
    (mcp.handleError foldRune resp).Status = resp.StatusCode
    ∧ (∀ e, mcp.UnmarshalErrWrap foldRune (resp.Body.take mcp.MaxErrorSnippetBytes)
          = some (some e) →
        mcp.handleError foldRune resp =
          { Status := resp.StatusCode, Code := e.Code, Message := e.Message,
            RequestID := if e.RequestID ≠ "" then e.RequestID
              else mcp.headerGet resp.Header "X-Request-Id",
            BodySnippet := [] })
    ∧ ((∀ e, mcp.UnmarshalErrWrap foldRune (resp.Body.take mcp.MaxErrorSnippetBytes)
          ≠ some (some e)) →
        mcp.handleError foldRune resp =
          { Status := resp.StatusCode,
            Code := "http_" ++ String.mk (strconv.intText resp.StatusCode), Message := "",
            RequestID := mcp.headerGet resp.Header "X-Request-Id",
            BodySnippet := resp.Body.take mcp.MaxErrorSnippetBytes })
    ∧ (∀ c m r, json.scan (utf8.decode (resp.Body.take mcp.MaxErrorSnippetBytes))
          = .ok (.object [("error",
              .object [("code", .str c), ("message", .str m), ("request_id", .str r)])]) →
        mcp.handleError foldRune resp =
          { Status := resp.StatusCode, Code := c, Message := m,
            RequestID := if r ≠ "" then r else mcp.headerGet resp.Header "X-Request-Id",
            BodySnippet := [] })
    ∧ (∀ c m, json.scan (utf8.decode (resp.Body.take mcp.MaxErrorSnippetBytes))
          = .ok (.object [("error", .object [("code", .str c), ("message", .str m)])]) →
        mcp.handleError foldRune resp =
          { Status := resp.StatusCode, Code := c, Message := m,
            RequestID := mcp.headerGet resp.Header "X-Request-Id", BodySnippet := [] })
    ∧ (∀ err, json.scan (utf8.decode (resp.Body.take mcp.MaxErrorSnippetBytes)) = .error err →
        mcp.handleError foldRune resp =
          { Status := resp.StatusCode,
            Code := "http_" ++ String.mk (strconv.intText resp.StatusCode), Message := "",
            RequestID := mcp.headerGet resp.Header "X-Request-Id",
            BodySnippet := resp.Body.take mcp.MaxErrorSnippetBytes })
    ∧ (∀ n rest, json.scan (utf8.decode (resp.Body.take mcp.MaxErrorSnippetBytes))
          = .ok (.object [("error", .object (("code", .number n) :: rest))]) →
        mcp.handleError foldRune resp =
          { Status := resp.StatusCode,
            Code := "http_" ++ String.mk (strconv.intText resp.StatusCode), Message := "",
            RequestID := mcp.headerGet resp.Header "X-Request-Id",
            BodySnippet := resp.Body.take mcp.MaxErrorSnippetBytes }) := by
  refine ⟨?_, ?_, ?_, ?_, ?_, ?_, ?_⟩
  · by_cases h : ∃ e, mcp.UnmarshalErrWrap foldRune (resp.Body.take mcp.MaxErrorSnippetBytes)
        = some (some e)
    · obtain ⟨e, he⟩ := h
      rw [handleError_decoded foldRune resp e he]
    · rw [handleError_undecoded foldRune resp (fun e he => h ⟨e, he⟩)]
  · exact fun e h => handleError_decoded foldRune resp e h
  · exact fun h => handleError_undecoded foldRune resp h
  · intro c m r h
    rw [handleError_decoded foldRune resp _ (UnmarshalErrWrap_three foldRune _ c m r h)]
  · intro c m h
    rw [handleError_decoded foldRune resp _ (UnmarshalErrWrap_two foldRune _ c m h)]
    simp
  · intro err h
    refine handleError_undecoded foldRune resp (fun e he => ?_)
    rw [UnmarshalErrWrap_invalid foldRune _ err h] at he
    cases he
  · intro n rest h
    refine handleError_undecoded foldRune resp (fun e he => ?_)
    rw [UnmarshalErrWrap_number_code foldRune _ n rest h] at he
    cases he

/-- C25 (amended), at the two responses of `TestCallTool_ErrorParsing` and at
a response whose error carries a request id. -/
theorem handleError_cases_witness :
    mcp.handleError (fun c => c)
        { StatusCode := 403, Header := [("X-Request-Id", ["req-7"])],
          Body := utf8 "\x7b\"error\": \x7b\"code\": \"POLICY_DENIED\", \"message\": \"unauthorized\"\x7d\x7d" }
      = { Status := 403, Code := "POLICY_DENIED", Message := "unauthorized",
          RequestID := "req-7", BodySnippet := [] }
    ∧ mcp.handleError (fun c => c)
        { StatusCode := 502, Header := [], Body := utf8 "Bad Gateway - Proxy error" }
      = { Status := 502, Code := "http_502", Message := "", RequestID := "",
          BodySnippet := utf8 "Bad Gateway - Proxy error" }
    ∧ mcp.handleError (fun c => c)
        { StatusCode := 429, Header := [("X-Request-Id", ["req-7"])],
          Body := utf8 "\x7b\"error\":\x7b\"code\":\"RATE\",\"message\":\"slow down\",\"request_id\":\"r-1\"\x7d\x7d" }
      = { Status := 429, Code := "RATE", Message := "slow down", RequestID := "r-1",
          BodySnippet := [] } :=
  ⟨(handleError_cases (fun c => c)
      { StatusCode := 403, Header := [("X-Request-Id", ["req-7"])],
        Body := utf8 "\x7b\"error\": \x7b\"code\": \"POLICY_DENIED\", \"message\": \"unauthorized\"\x7d\x7d" }).2.2.2.2.1
      "POLICY_DENIED" "unauthorized" rfl,
    (handleError_cases (fun c => c)
      { StatusCode := 502, Header := [], Body := utf8 "Bad Gateway - Proxy error" }).2.2.2.2.2.1
      _ rfl,
    (handleError_cases (fun c => c)
      { StatusCode := 429, Header := [("X-Request-Id", ["req-7"])],
        Body := utf8 "\x7b\"error\":\x7b\"code\":\"RATE\",\"message\":\"slow down\",\"request_id\":\"r-1\"\x7d\x7d" }).2.2.2.1
      "RATE" "slow down" "r-1" rfl⟩

set_option exponentiation.threshold 100000 in
set_option maxRecDepth 100000 in
/-- C25, as stated, fails. The body with the number 404 as `code` parses as a
JSON object with a non-null `error` member whose message is `not found`, and
`handleError` returns the code `http_500`, an empty message and the body as
snippet. The body whose member is spelled `ERROR` is a JSON object without an
`error` member, and `handleError` returns the code and the message of that
member, and no snippet. -/
theorem handleError_falls_back_on_number_code :
    json.Unmarshal "\x7b\"error\":\x7b\"code\":404,\"message\":\"not found\"\x7d\x7d"
      = .ok (.map [("error", .map [("code", .float64 ⟨false, 1031, 2603643534573568⟩), ("message", .str "not found")])])
    ∧ (∀ foldRune, mcp.handleError foldRune
        { StatusCode := 500, Header := [],
          Body := utf8 "\x7b\"error\":\x7b\"code\":404,\"message\":\"not found\"\x7d\x7d" }
      = { Status := 500, Code := "http_500", Message := "", RequestID := "",
          BodySnippet := utf8 "\x7b\"error\":\x7b\"code\":404,\"message\":\"not found\"\x7d\x7d" })
    ∧ json.Unmarshal "\x7b\"ERROR\":\x7b\"code\":\"DENIED\",\"message\":\"no\"\x7d\x7d"
      = .ok (.map [("ERROR", .map [("code", .str "DENIED"), ("message", .str "no")])])
    ∧ (∀ foldRune, mcp.handleError foldRune
        { StatusCode := 500, Header := [],
          Body := utf8 "\x7b\"ERROR\":\x7b\"code\":\"DENIED\",\"message\":\"no\"\x7d\x7d" }
      = { Status := 500, Code := "DENIED", Message := "no", RequestID := "",
          BodySnippet := [] }) :=
  ⟨rfl, fun _ => rfl, rfl, fun _ => rfl⟩

/-! ## Signing and verification through the wallet -/

theorem Public_eq_drop (priv : List Byte) (h : priv.length = 64) :
    (priv.drop 32 ++ List.replicate 32 0).take 32 = priv.drop 32 := by
  have hlen : (priv.drop 32).length = 32 := by simp [h]
  rw [List.take_append_of_le_length (by omega), List.take_of_length_le (by omega)]

/-- The function `wallet.Verify` with a key of 32 bytes is `ed25519.Verify`. -/
theorem wallet_Verify_eq (L : Stdlib) (pk message sig : List Byte) (h : pk.length = 32) :
    wallet.Verify L pk message sig = L.Verify pk message sig := by
  simp only [wallet.Verify, crypto.PublicKeySize, h, ne_eq, not_true_eq_false, ↓reduceIte,
    crypto.Verify]

/-- The method `Sign` of a wallet is `ed25519.Sign` under its private key. -/
theorem wallet_Sign_eq (L : Stdlib) (w : wallet.Wallet) (message : List Byte) :
    wallet.Sign L (some w) message = L.Sign w.privateKey message := rfl

/-- The round trip through the wallet, from the round trip of the library: for
every seed of 32 bytes the wallet of the seed signs every message with a
signature of 64 bytes, which `wallet.Verify` accepts under the public key of
the wallet. -/
theorem wallet_round_trip (L : Stdlib) (hK : L.KeyGen) (hR : L.RoundTrip)
    (seed : List Byte) (name : String) (message : List Byte) (h : seed.length = 32) :
    ∃ w sig, wallet.FromSeed L seed name = .ok (some w, none)
      ∧ wallet.Sign L (some w) message = .ok sig ∧ sig.length = 64
      ∧ wallet.Verify L w.publicKey message sig = .ok true := by
  obtain ⟨priv, hp, hlen⟩ := hK seed h
  obtain ⟨sig, hs, hsl, hv⟩ := hR seed priv message hp hlen
  refine ⟨_, sig, wallet_FromSeed_ok L seed priv name h hp hlen, hs, hsl, ?_⟩
  have hpk : ((priv.drop 32 ++ List.replicate 32 0).take 32).length = 32 := by
    rw [Public_eq_drop priv hlen]; simp [hlen]
  rw [wallet_Verify_eq L _ message sig hpk]
  show L.Verify ((priv.drop 32 ++ List.replicate 32 0).take 32) message sig = .ok true
  rw [Public_eq_drop priv hlen]
  exact hv

theorem demoStdlib_RoundTrip : demoStdlib.RoundTrip := by
  intro seed priv message _ hlen
  refine ⟨priv.drop 32 ++ (message ++ List.replicate 32 0).take 32, ?_, ?_, ?_⟩
  · simp [demoStdlib, hlen]
    rfl
  · simp [hlen]
  · simp [demoStdlib, hlen]
    rfl

theorem wallet_round_trip_example :
    ∃ w sig, wallet.FromSeed demoStdlib (List.replicate 32 0) "w" = .ok (some w, none)
      ∧ wallet.Sign demoStdlib (some w) (utf8 "data") = .ok sig ∧ sig.length = 64
      ∧ wallet.Verify demoStdlib w.publicKey (utf8 "data") sig = .ok true :=
  wallet_round_trip demoStdlib demoStdlib_KeyGen demoStdlib_RoundTrip (List.replicate 32 0) "w"
    (utf8 "data") (by decide)

/-- The round trip of the library does not settle what `Verify` answers on a
changed message: the stand-in library keeps the round trip, and it accepts the
signature of a message of 33 bytes for the message with the lowest bit of the
last byte flipped. -/
theorem RoundTrip_leaves_changed_message_open :
    demoStdlib.KeyGen ∧ demoStdlib.RoundTrip
    ∧ ∃ w sig, wallet.FromSeed demoStdlib (List.replicate 32 0) "w" = .ok (some w, none)
      ∧ wallet.Sign demoStdlib (some w) (List.replicate 33 0) = .ok sig
      ∧ wallet.Verify demoStdlib w.publicKey (List.replicate 32 0 ++ [1]) sig = .ok true :=
  ⟨demoStdlib_KeyGen, demoStdlib_RoundTrip, _, _, rfl, rfl, rfl⟩

